import Mathlib

/-!
# Dynamic type and signature core of libqi (`src/type.cpp`)

A shallow embedding of the type registry, the signature visitor and the
signature-to-type bridge of `src/src/type.cpp`, with the properties of its
specification stated and proved over the embedding.

Conventions used throughout:

* a `Type*` that may be null is an `Option QiType`;
* code whose behaviour is undefined in C++ (a read past the end of a
  `std::vector`, a dispatch on a storage that does not fit the kind) returns
  `none` in an outer `Option`;
* the function-local static maps of the factories are an explicit `Factories`
  state that is threaded through the calls;
* `Signature::isConvertibleTo` lives in a file that is not part of `src/`; the
  visitors take it as the parameter `conv`.
-/

namespace qi

/-! ## TypeInfo -/

/-- The host's `std::type_info`: an identity (used by `==` and `before`) and a name. -/
structure StdTypeInfo where
  id : Nat
  name : String
deriving DecidableEq, Repr

/-- `TypeInfo`: `stdInfo` is a nullable pointer to a `std::type_info`, `customInfo` a string. -/
structure TypeInfo where
  stdInfo : Option StdTypeInfo
  customInfo : String
deriving DecidableEq, Repr

/-- `TypeInfo::TypeInfo(const std::type_info&)`. -/
def TypeInfo.ofStd (info : StdTypeInfo) : TypeInfo := ⟨some info, ""⟩

/-- `TypeInfo::TypeInfo(const std::string&)`. -/
def TypeInfo.ofString (str : String) : TypeInfo := ⟨none, str⟩

/-- `TypeInfo::asString`. -/
def TypeInfo.asString (a : TypeInfo) : String :=
  match a.stdInfo with
  | some i => i.name
  | none => a.customInfo

/-- `std::string::operator<`: lexicographic on the characters. -/
def strLt (a b : String) : Bool := decide (a.data < b.data)

/-- `TypeInfo::operator==`. -/
def TypeInfo.eq (a b : TypeInfo) : Bool :=
  if a.stdInfo.isSome != b.stdInfo.isSome then false
  else
    match a.stdInfo, b.stdInfo with
    | some x, some y => x.id == y.id
    | _, _ => a.customInfo == b.customInfo

/-- `TypeInfo::operator!=`. -/
def TypeInfo.ne (a b : TypeInfo) : Bool := !(a.eq b)

/-- `TypeInfo::operator<`; `std::type_info::before` is the order of the identities. -/
def TypeInfo.lt (a b : TypeInfo) : Bool :=
  if a.stdInfo.isSome != b.stdInfo.isSome then a.stdInfo.isSome
  else
    match a.stdInfo, b.stdInfo with
    | some x, some y => decide (x.id < y.id)
    | _, _ => strLt a.customInfo b.customInfo

/-! ## Type descriptors -/

/-- `Type::Kind`, the cases of the `switch(kind())` in `Type::signature`. -/
inductive Kind
  | Void | Int | Float | String | List | Map | Object | Pointer | Tuple
  | Dynamic | Raw | Unknown | Iterator
deriving DecidableEq, Repr

/-- `TypePointer::PointerKind`. -/
inductive PointerKind
  | Raw | Shared
deriving DecidableEq, Repr

/-- Modelled from the spec: the `Type` class hierarchy is declared in
`qitype/type.hpp`, which is missing; this is the tagged-variant form of a
descriptor, one constructor per kind, carrying what the kind's accessors return
(`info`, `isSigned`, `size`, `elementType`, `keyType`, `pointerKind`,
`pointedType`, `memberTypes`, `elementsName`, `className`). -/
inductive QiType
  | void (info : TypeInfo)
  | int (info : TypeInfo) (isSigned : Bool) (size : Nat)
  | float (info : TypeInfo) (size : Nat)
  | string (info : TypeInfo)
  | list (info : TypeInfo) (elementType : QiType)
  | map (info : TypeInfo) (keyType : QiType) (elementType : QiType)
  | object (info : TypeInfo)
  | pointer (info : TypeInfo) (pointerKind : PointerKind) (pointedType : QiType)
  | tuple (info : TypeInfo) (memberTypes : List QiType) (className : String)
      (elementsName : List String)
  | dynamic (info : TypeInfo)
  | raw (info : TypeInfo)
  | unknown (info : TypeInfo)
  | iterator (info : TypeInfo)
deriving Repr

/-- `Type::kind`. -/
def QiType.kind : QiType → Kind
  | .void _ => .Void
  | .int _ _ _ => .Int
  | .float _ _ => .Float
  | .string _ => .String
  | .list _ _ => .List
  | .map _ _ _ => .Map
  | .object _ => .Object
  | .pointer _ _ _ => .Pointer
  | .tuple _ _ _ _ => .Tuple
  | .dynamic _ => .Dynamic
  | .raw _ => .Raw
  | .unknown _ => .Unknown
  | .iterator _ => .Iterator

/-- `Type::info`. -/
def QiType.info : QiType → TypeInfo
  | .void i => i
  | .int i _ _ => i
  | .float i _ => i
  | .string i => i
  | .list i _ => i
  | .map i _ _ => i
  | .object i => i
  | .pointer i _ _ => i
  | .tuple i _ _ _ => i
  | .dynamic i => i
  | .raw i => i
  | .unknown i => i
  | .iterator i => i

/-! ## Signatures -/

/-- Modelled from the spec: the primitive members of the enumeration
`Signature::Type`, under the names `type.cpp` uses for them. -/
inductive SigType
  | Type_None | Type_Void | Type_Bool | Type_Int8 | Type_UInt8 | Type_Int16
  | Type_UInt16 | Type_Int32 | Type_UInt32 | Type_Int64 | Type_UInt64
  | Type_Float | Type_Double | Type_String | Type_Dynamic | Type_Raw
  | Type_Object | Type_Unknown
deriving DecidableEq, Repr

/-- Modelled from the spec: one element of a signature, "a tree whose leaves are
primitive type codes and whose interior nodes are `[E]`, `{K V}`, `(E1 … En)`,
plus the annotation suffix after a tuple" (`qitype/signature.hpp` is missing).
`annot = none` is a tuple without a `<…>` suffix. -/
inductive SigNode
  | leaf (t : SigType)
  | list (e : SigNode)
  | map (k : SigNode) (v : SigNode)
  | tuple (members : List SigNode) (annot : Option String)
deriving Repr

mutual
/-- Structural equality of signature elements is decidable. -/
def SigNode.decEq : (a b : SigNode) → Decidable (a = b)
  | .leaf s, .leaf t =>
    if h : s = t then isTrue (by rw [h]) else isFalse (by intro e; cases e; exact h rfl)
  | .list a, .list b =>
    match SigNode.decEq a b with
    | isTrue h => isTrue (by rw [h])
    | isFalse h => isFalse (by intro e; cases e; exact h rfl)
  | .map k v, .map k2 v2 =>
    match SigNode.decEq k k2, SigNode.decEq v v2 with
    | isTrue h, isTrue h2 => isTrue (by rw [h, h2])
    | isFalse h, _ => isFalse (by intro e; cases e; exact h rfl)
    | _, isFalse h => isFalse (by intro e; cases e; exact h rfl)
  | .tuple ms a, .tuple ms2 a2 =>
    match SigNode.decEqList ms ms2 with
    | isTrue h =>
      if h2 : a = a2 then isTrue (by rw [h, h2])
      else isFalse (by intro e; cases e; exact h2 rfl)
    | isFalse h => isFalse (by intro e; cases e; exact h rfl)
  | .leaf _, .list _ => isFalse (by intro e; cases e)
  | .leaf _, .map _ _ => isFalse (by intro e; cases e)
  | .leaf _, .tuple _ _ => isFalse (by intro e; cases e)
  | .list _, .leaf _ => isFalse (by intro e; cases e)
  | .list _, .map _ _ => isFalse (by intro e; cases e)
  | .list _, .tuple _ _ => isFalse (by intro e; cases e)
  | .map _ _, .leaf _ => isFalse (by intro e; cases e)
  | .map _ _, .list _ => isFalse (by intro e; cases e)
  | .map _ _, .tuple _ _ => isFalse (by intro e; cases e)
  | .tuple _ _, .leaf _ => isFalse (by intro e; cases e)
  | .tuple _ _, .list _ => isFalse (by intro e; cases e)
  | .tuple _ _, .map _ _ => isFalse (by intro e; cases e)
/-- Structural equality of lists of signature elements is decidable. -/
def SigNode.decEqList : (a b : List SigNode) → Decidable (a = b)
  | [], [] => isTrue rfl
  | [], _ :: _ => isFalse (by intro e; cases e)
  | _ :: _, [] => isFalse (by intro e; cases e)
  | x :: xs, y :: ys =>
    match SigNode.decEq x y, SigNode.decEqList xs ys with
    | isTrue h, isTrue h2 => isTrue (by rw [h, h2])
    | isFalse h, _ => isFalse (by intro e; cases e; exact h rfl)
    | _, isFalse h => isFalse (by intro e; cases e; exact h rfl)
end

instance : DecidableEq SigNode := SigNode.decEq

/-- Modelled from the spec: a `Signature` is a sequence of top-level elements
(`size()` of them), or the invalid sentinel that the default constructor
`qi::Signature()` produces on a reconciliation failure. -/
inductive Signature
  | invalid
  | mk (elems : List SigNode)
deriving DecidableEq, Repr

/-- Modelled from the spec: `Signature::isValid`. -/
def Signature.isValid : Signature → Bool
  | .invalid => false
  | .mk _ => true

/-- Modelled from the spec: `Signature::fromType`, the one-leaf signature. -/
def Signature.fromType (t : SigType) : Signature := .mk [.leaf t]

/-- Modelled from the spec: `makeListSignature`, `[E]` for a one-element `E`;
any other text between the brackets does not parse as a list. -/
def makeListSignature : Signature → Signature
  | .mk [e] => .mk [.list e]
  | _ => .invalid

/-- Modelled from the spec: `makeMapSignature`, `{KV}` for one-element `K` and `V`. -/
def makeMapSignature : Signature → Signature → Signature
  | .mk [k], .mk [v] => .mk [.map k v]
  | _, _ => .invalid

/-- Modelled from the spec: the concatenation of the member signatures of a tuple,
the elements of each member in order; `none` when a member is the invalid
sentinel. -/
def concatMembers : List Signature → Option (List SigNode)
  | [] => some []
  | .invalid :: _ => none
  | .mk l :: rest =>
    match concatMembers rest with
    | some r => some (l ++ r)
    | none => none

/-- Modelled from the spec: the bare tuple signature `(E1…En)` of the given
member signatures ("concatenate as `(…)`"). -/
def makeTupleSignatureOf (members : List Signature) : Signature :=
  match concatMembers members with
  | some l => .mk [.tuple l none]
  | none => .invalid

/-- Modelled from the spec: `Signature(res)` for `res` the text of a tuple
signature followed by `<body>`: "an annotation `<…>` immediately after a `)`
binds to that tuple". -/
def Signature.annotate : Signature → String → Signature
  | .mk [.tuple ms _], body => .mk [.tuple ms (some body)]
  | _, _ => .invalid

/-- Modelled from the spec: the ASCII code of a primitive leaf (§4.4). -/
def SigType.code : SigType → String
  | .Type_None => "_" | .Type_Void => "v" | .Type_Bool => "b"
  | .Type_Int8 => "c" | .Type_UInt8 => "C" | .Type_Int16 => "w"
  | .Type_UInt16 => "W" | .Type_Int32 => "i" | .Type_UInt32 => "I"
  | .Type_Int64 => "l" | .Type_UInt64 => "L" | .Type_Float => "f"
  | .Type_Double => "d" | .Type_String => "s" | .Type_Dynamic => "m"
  | .Type_Raw => "r" | .Type_Object => "o" | .Type_Unknown => "X"

mutual
/-- Modelled from the spec: the text of one signature element (grammar of §4.4). -/
def SigNode.toString : SigNode → String
  | .leaf t => t.code
  | .list e => "[" ++ e.toString ++ "]"
  | .map k v => "\x7b" ++ k.toString ++ v.toString ++ "\x7d"
  | .tuple ms none => "(" ++ SigNode.toStringList ms ++ ")"
  | .tuple ms (some a) => "(" ++ SigNode.toStringList ms ++ ")" ++ "<" ++ a ++ ">"
/-- The texts of a sequence of signature elements, concatenated. -/
def SigNode.toStringList : List SigNode → String
  | [] => ""
  | n :: rest => n.toString ++ SigNode.toStringList rest
end

/-- Modelled from the spec: `Signature::toString`; the invalid sentinel has no text. -/
def Signature.toString : Signature → String
  | .invalid => ""
  | .mk l => SigNode.toStringList l

/-! ## Values -/

mutual
/-- Modelled from the spec: `GenericValuePtr`, the borrowing pair (Type*, storage)
(`qitype/genericvalue.hpp` is missing). -/
inductive GenericValuePtr
  | mk (type : QiType) (value : Storage)
/-- Modelled from the spec: what a storage handle gives access to, as the type
dispatcher reads it for each kind: no storage at all, an integer, a float (its
bit pattern), a string, the elements of a list in iteration order, the
(key, value) pair values of a map in iteration order, the members of a tuple,
the value wrapped by a Dynamic, or a content the visitor never looks into. -/
inductive Storage
  | null
  | int (v : Int)
  | float (bits : Nat)
  | string (s : String)
  | list (elems : List GenericValuePtr)
  | map (pairs : List GenericValuePtr)
  | tuple (vals : List GenericValuePtr)
  | dynamic (pointee : GenericValuePtr)
  | other
end

/-- The `type` member of a `GenericValuePtr`. -/
def GenericValuePtr.type : GenericValuePtr → QiType
  | .mk t _ => t

/-- The `value` member (the storage) of a `GenericValuePtr`. -/
def GenericValuePtr.value : GenericValuePtr → Storage
  | .mk _ s => s

/-! ## SignatureTypeVisitor -/

/-- `SignatureTypeVisitor::visitVoid`. -/
def visitVoid : Signature := Signature.fromType .Type_Void

/-- The conversion of a byte size, the unsigned result of `IntTypeInterface::size()`
or `FloatTypeInterface::size()`, to the 32-bit `int byteSize` parameter of
`visitInt` and `visitFloat`: the value modulo `2 ^ 32`, read in two's complement. -/
def byteSizeToInt (size : Nat) : Int :=
  if size % 2 ^ 32 < 2 ^ 31 then ((size % 2 ^ 32 : Nat) : Int)
  else ((size % 2 ^ 32 : Nat) : Int) - 2 ^ 32

/-- `SignatureTypeVisitor::visitInt(int64_t, bool isSigned, int byteSize)`: the
switch on `(isSigned ? 1 : -1) * byteSize`; `byteSize` is a 32-bit `int`, which the
callers get from the byte size through `byteSizeToInt`. The product is taken in
the integers: it leaves the 32-bit range only for `byteSize = -2 ^ 31` of an
unsigned type, which the model takes to the `default` label. -/
def visitInt (_value : Int) (isSigned : Bool) (byteSize : Int) : Signature :=
  let sel : Int := (if isSigned then 1 else -1) * byteSize
  if sel = 0 then Signature.fromType .Type_Bool
  else if sel = 1 then Signature.fromType .Type_Int8
  else if sel = -1 then Signature.fromType .Type_UInt8
  else if sel = 2 then Signature.fromType .Type_Int16
  else if sel = -2 then Signature.fromType .Type_UInt16
  else if sel = 4 then Signature.fromType .Type_Int32
  else if sel = -4 then Signature.fromType .Type_UInt32
  else if sel = 8 then Signature.fromType .Type_Int64
  else if sel = -8 then Signature.fromType .Type_UInt64
  else Signature.fromType .Type_Unknown

/-- `SignatureTypeVisitor::visitFloat(double, int byteSize)`. -/
def visitFloat (_value : Nat) (byteSize : Int) : Signature :=
  if byteSize = 4 then Signature.fromType .Type_Float
  else Signature.fromType .Type_Double

/-- `SignatureTypeVisitor::visitString`. -/
def visitString : Signature := Signature.fromType .Type_String

/-- The `for` loop of `visitList`: `sigFirst` is the running signature, the list
holds `(*it).signature(true)` of the elements not yet visited (`none` where that
call is undefined); the loop stops as soon as `sigFirst` is invalid. -/
def visitList.loop (conv : Signature → Signature → Bool) :
    Signature → List (Option Signature) → Option Signature
  | sigFirst, [] => some sigFirst
  | sigFirst, osig :: rest =>
    if sigFirst.isValid then
      match osig with
      | none => none
      | some sig =>
        if sig != sigFirst then
          if conv sig sigFirst then visitList.loop conv sigFirst rest
          else if conv sigFirst sig then visitList.loop conv sig rest
          else visitList.loop conv Signature.invalid rest
        else visitList.loop conv sigFirst rest
    else some sigFirst

/-- `SignatureTypeVisitor::visitList(it, iend)`: `esig` is the signature of the
declared element type, `elems` the signatures `(*it).signature(true)` of the
elements from `it` to `iend`. -/
def visitList (conv : Signature → Signature → Bool) (esig : Signature)
    (resolveDynamic : Bool) (elems : List (Option Signature)) : Option Signature :=
  if !resolveDynamic then some (makeListSignature esig)
  else
    match elems with
    | [] => some (makeListSignature (Signature.fromType .Type_None))
    | none :: _ => none
    | some first :: rest =>
      match visitList.loop conv first rest with
      | none => none
      | some sigFirst => some (makeListSignature (if sigFirst.isValid then sigFirst else esig))

/-- The `for` loop of `visitMap`: `ksig` and `vsig` are the running signatures,
each entry holds `e[0].signature(true)` and `e[1].signature(true)`. -/
def visitMap.loop (conv : Signature → Signature → Bool) :
    Signature → Signature → List (Option Signature × Option Signature) →
      Option (Signature × Signature)
  | ksig, vsig, [] => some (ksig, vsig)
  | ksig, vsig, (some k, some v) :: rest =>
    let ksig1 :=
      if ksig.isValid && ksig != k then
        if conv k ksig then ksig
        else if conv ksig k then k
        else Signature.invalid
      else ksig
    let vsig1 :=
      if vsig.isValid && vsig != v then
        if conv v vsig then vsig
        else if conv vsig v then v
        else Signature.invalid
      else vsig
    visitMap.loop conv ksig1 vsig1 rest
  | _, _, _ :: _ => none

/-- `SignatureTypeVisitor::visitMap(it, iend)`: `keySig` and `elementSig` are the
signatures of the declared key and element types. -/
def visitMap (conv : Signature → Signature → Bool) (keySig elementSig : Signature)
    (resolveDynamic : Bool) (entries : List (Option Signature × Option Signature)) :
    Option Signature :=
  if !resolveDynamic then some (makeMapSignature keySig elementSig)
  else
    match entries with
    | [] => some (makeMapSignature (Signature.fromType .Type_None)
        (Signature.fromType .Type_None))
    | (some ksig0, some vsig0) :: rest =>
      match visitMap.loop conv ksig0 vsig0 rest with
      | none => none
      | some (ksig, vsig) =>
        some (makeMapSignature (if ksig.isValid then ksig else keySig)
          (if vsig.isValid then vsig else elementSig))
    | _ :: _ => none

/-- `SignatureTypeVisitor::visitObject`. -/
def visitObject : Signature := Signature.fromType .Type_Object

/-- `SignatureTypeVisitor::visitObjectPtr`. -/
def visitObjectPtr : Signature := Signature.fromType .Type_Object

/-- `SignatureTypeVisitor::visitPointer`. -/
def visitPointer : Signature := Signature.fromType .Type_Unknown

/-- `SignatureTypeVisitor::visitUnknown`. -/
def visitUnknown : Signature := Signature.fromType .Type_Unknown

/-- The values of a list of options, or `none` if one of them is `none`. -/
def allSome : List (Option Signature) → Option (List Signature)
  | [] => some []
  | none :: _ => none
  | some s :: rest =>
    match allSome rest with
    | some l => some (s :: l)
    | none => none

/-- The loop `for (i = 0; i < vals.size(); ++i) res += ',' + annotations[i]` of
`visitTuple`, with `todo` iterations left from index `i`; reading
`annotations[i]` past the end of the vector is undefined (`none`). -/
def visitTuple.loop (annotations : List String) : Nat → Nat → String → Option String
  | 0, _, res => some res
  | todo + 1, i, res =>
    match annotations.get? i with
    | none => none
    | some a => visitTuple.loop annotations todo (i + 1) (res ++ ("," ++ a))

/-- `SignatureTypeVisitor::visitTuple(name, vals, annotations)`: `vals` holds the
signatures of the members (what `makeTupleSignature(vals, _resolveDynamic)`
concatenates). The text appended to `res` between `<` and `>` becomes the
annotation of the resulting tuple signature. -/
def visitTuple (name : String) (vals : List (Option Signature))
    (annotations : List String) : Option Signature :=
  match allSome vals with
  | none => none
  | some members =>
    let res := makeTupleSignatureOf members
    if name ≠ "" ∨ annotations.length ≥ vals.length then
      let body := if name ≠ "" then name else ""
      match visitTuple.loop annotations vals.length 0 body with
      | none => none
      | some body1 => some (res.annotate body1)
    else some res

/-- `SignatureTypeVisitor::visitRaw`. -/
def visitRaw : Signature := Signature.fromType .Type_Raw

/-- `SignatureTypeVisitor::visitIterator`, which calls `visitUnknown`. -/
def visitIterator : Signature := visitUnknown

/-- `SignatureTypeVisitor::visitDynamic(pointee)`: `pointeeSig` is
`pointee.signature(true)`. -/
def visitDynamic (resolveDynamic : Bool) (pointeeSig : Option Signature) :
    Option Signature :=
  if resolveDynamic then pointeeSig
  else some (Signature.fromType .Type_Dynamic)

/-! ## Canonical descriptors -/

/-- Modelled from the spec: `typeOf<void>()`, the canonical Void descriptor
(`typeOf` is declared in `qitype/type.hpp`, which is missing). -/
def typeOfVoid : QiType := .void (TypeInfo.ofStd ⟨1, "v"⟩)

/-- Modelled from the spec: `typeOf<bool>()`, an Int-kind descriptor of size 0. -/
def typeOfBool : QiType := .int (TypeInfo.ofStd ⟨2, "b"⟩) true 0

/-- Modelled from the spec: `typeOf<int8_t>()`. -/
def typeOfInt8 : QiType := .int (TypeInfo.ofStd ⟨3, "a"⟩) true 1

/-- Modelled from the spec: `typeOf<int16_t>()`. -/
def typeOfInt16 : QiType := .int (TypeInfo.ofStd ⟨4, "s"⟩) true 2

/-- Modelled from the spec: `typeOf<int32_t>()`. -/
def typeOfInt32 : QiType := .int (TypeInfo.ofStd ⟨5, "i"⟩) true 4

/-- Modelled from the spec: `typeOf<int64_t>()`. -/
def typeOfInt64 : QiType := .int (TypeInfo.ofStd ⟨6, "l"⟩) true 8

/-- Modelled from the spec: `typeOf<uint8_t>()`. -/
def typeOfUInt8 : QiType := .int (TypeInfo.ofStd ⟨7, "h"⟩) false 1

/-- Modelled from the spec: `typeOf<uint16_t>()`. -/
def typeOfUInt16 : QiType := .int (TypeInfo.ofStd ⟨8, "t"⟩) false 2

/-- Modelled from the spec: `typeOf<uint32_t>()`. -/
def typeOfUInt32 : QiType := .int (TypeInfo.ofStd ⟨9, "j"⟩) false 4

/-- Modelled from the spec: `typeOf<uint64_t>()`. -/
def typeOfUInt64 : QiType := .int (TypeInfo.ofStd ⟨10, "m"⟩) false 8

/-- Modelled from the spec: `typeOf<float>()`. -/
def typeOfFloat : QiType := .float (TypeInfo.ofStd ⟨11, "f"⟩) 4

/-- Modelled from the spec: `typeOf<double>()`. -/
def typeOfDouble : QiType := .float (TypeInfo.ofStd ⟨12, "d"⟩) 8

/-- Modelled from the spec: `typeOf<std::string>()`. -/
def typeOfString : QiType := .string (TypeInfo.ofStd ⟨13, "Ss"⟩)

/-- Modelled from the spec: `typeOf<GenericValue>()`, the Dynamic descriptor. -/
def typeOfGenericValue : QiType := .dynamic (TypeInfo.ofStd ⟨14, "N2qi12GenericValueE"⟩)

/-- Modelled from the spec: `typeOf<Buffer>()`, the Raw descriptor. -/
def typeOfBuffer : QiType := .raw (TypeInfo.ofStd ⟨15, "N2qi6BufferE"⟩)

/-- Modelled from the spec: `typeOf<ObjectPtr>()`, the canonical Object-pointer
descriptor; `Type::signature` tests for it inside its `Type::Dynamic` case. -/
def typeOfObjectPtr : QiType := .dynamic (TypeInfo.ofStd ⟨16, "N2qi9ObjectPtrE"⟩)

/-! ## Type::signature -/

/-- The text `,elt1,elt2,…` of a sequence of element names, each preceded by a comma. -/
def elementNamesText : List String → String
  | [] => ""
  | a :: rest => "," ++ a ++ elementNamesText rest

/-- Modelled from the spec: `makeTupleSignature(memberTypes, name, annotations)`
from the member signatures: "concatenate as `(…)`. If a non-empty class name or
per-element annotations are present and the annotations array size ≥ member
count, append `<name,elt1,…>`" (one element name per member). -/
def makeTupleSignature (memberSigs : List Signature) (name : String)
    (annotations : List String) : Signature :=
  if (name ≠ "" ∨ annotations ≠ []) ∧ annotations.length ≥ memberSigs.length then
    (makeTupleSignatureOf memberSigs).annotate
      (name ++ elementNamesText (annotations.take memberSigs.length))
  else makeTupleSignatureOf memberSigs

mutual
/-- `Type::signature(storage, false)`: the `else` branch, a `switch(kind())` that
never looks at the storage. -/
def QiType.signatureFalse (conv : Signature → Signature → Bool) : QiType → Option Signature
  | .void _ => some (Signature.fromType .Type_Void)
  | .int _ isSigned size => some (visitInt 0 isSigned (byteSizeToInt size))
  | .float _ size => some (visitFloat 0 (byteSizeToInt size))
  | .string _ => some (Signature.fromType .Type_String)
  | .list _ elementType =>
    match elementType.signatureFalse conv with
    | none => none
    | some esig => visitList conv esig false []
  | .map _ keyType elementType =>
    match keyType.signatureFalse conv, elementType.signatureFalse conv with
    | some ksig, some esig => visitMap conv ksig esig false []
    | _, _ => none
  | .object _ => some (Signature.fromType .Type_Object)
  | .pointer _ pointerKind pointedType =>
    if pointerKind = PointerKind.Shared
        ∧ (pointedType.kind = Kind.Object ∨ pointedType.kind = Kind.Unknown) then
      some visitObjectPtr
    else some visitPointer
  | .tuple _ memberTypes className elementsName =>
    match allSome (QiType.signatureFalseList conv memberTypes) with
    | none => none
    | some memberSigs => some (makeTupleSignature memberSigs className elementsName)
  | .dynamic info =>
    if info.eq typeOfObjectPtr.info then some (Signature.fromType .Type_Object)
    else some (Signature.fromType .Type_Dynamic)
  | .raw _ => some (Signature.fromType .Type_Raw)
  | .unknown _ => some (Signature.fromType .Type_Unknown)
  | .iterator _ => some (Signature.fromType .Type_Unknown)
/-- The declared signatures of a sequence of member types. -/
def QiType.signatureFalseList (conv : Signature → Signature → Bool) :
    List QiType → List (Option Signature)
  | [] => []
  | t :: rest => t.signatureFalse conv :: QiType.signatureFalseList conv rest
end

mutual
/-- `Type::signature(storage, true)`: the visitor run by the type dispatcher.
Modelled from the spec: `typeDispatch` (`qitype/typedispatcher.hpp` is missing)
invokes the hook of the kind with what it reads from the storage; a storage
that does not fit the kind is undefined (`none`). -/
def GenericValuePtr.signatureTrue (conv : Signature → Signature → Bool) :
    GenericValuePtr → Option Signature
  | .mk (.void _) _ => some visitVoid
  | .mk (.int _ isSigned size) (.int v) => some (visitInt v isSigned (byteSizeToInt size))
  | .mk (.float _ size) (.float v) => some (visitFloat v (byteSizeToInt size))
  | .mk (.string _) (.string _) => some visitString
  | .mk (.list _ elementType) (.list elems) =>
    match elementType.signatureFalse conv with
    | none => none
    | some esig => visitList conv esig true (GenericValuePtr.signatureTrueList conv elems)
  | .mk (.map _ keyType elementType) (.map pairs) =>
    match keyType.signatureFalse conv, elementType.signatureFalse conv with
    | some ksig, some esig =>
      visitMap conv ksig esig true (GenericValuePtr.signatureTruePairs conv pairs)
    | _, _ => none
  | .mk (.object _) _ => some visitObject
  | .mk (.pointer _ pointerKind pointedType) _ =>
    if pointerKind = PointerKind.Shared
        ∧ (pointedType.kind = Kind.Object ∨ pointedType.kind = Kind.Unknown) then
      some visitObjectPtr
    else some visitPointer
  | .mk (.tuple _ _ className elementsName) (.tuple vals) =>
    visitTuple className (GenericValuePtr.signatureTrueList conv vals) elementsName
  | .mk (.dynamic info) (.dynamic pointee) =>
    if info.eq typeOfObjectPtr.info then some visitObjectPtr
    else visitDynamic true (pointee.signatureTrue conv)
  | .mk (.dynamic info) _ =>
    if info.eq typeOfObjectPtr.info then some visitObjectPtr else none
  | .mk (.raw _) _ => some visitRaw
  | .mk (.unknown _) _ => some visitUnknown
  | .mk (.iterator _) _ => some visitIterator
  | .mk _ _ => none
/-- The resolved signatures `(*it).signature(true)` of a sequence of values. -/
def GenericValuePtr.signatureTrueList (conv : Signature → Signature → Bool) :
    List GenericValuePtr → List (Option Signature)
  | [] => []
  | v :: rest => v.signatureTrue conv :: GenericValuePtr.signatureTrueList conv rest
/-- The resolved signatures `e[0].signature(true)` and `e[1].signature(true)` of
the pair values `e` a map iterator yields. -/
def GenericValuePtr.signatureTruePairs (conv : Signature → Signature → Bool) :
    List GenericValuePtr → List (Option Signature × Option Signature)
  | [] => []
  | .mk _ (.tuple (k :: v :: _)) :: rest =>
    (k.signatureTrue conv, v.signatureTrue conv)
      :: GenericValuePtr.signatureTruePairs conv rest
  | _ :: rest => (none, none) :: GenericValuePtr.signatureTruePairs conv rest
end

/-- `Type::signature(void* storage, bool resolveDynamic)`. -/
def QiType.signature (conv : Signature → Signature → Bool) (t : QiType)
    (storage : Storage) (resolveDynamic : Bool) : Option Signature :=
  if resolveDynamic then (GenericValuePtr.mk t storage).signatureTrue conv
  else t.signatureFalse conv

/-- `GenericValuePtr::signature(resolveDynamic)`, that is `signature_of`. -/
def GenericValuePtr.signature (conv : Signature → Signature → Bool)
    (v : GenericValuePtr) (resolveDynamic : Bool) : Option Signature :=
  v.type.signature conv v.value resolveDynamic

/-! ## Convertibility -/

/-- Signedness and byte width of the integer leaves. -/
def SigType.intInfo : SigType → Option (Bool × Nat)
  | .Type_Int8 => some (true, 1) | .Type_Int16 => some (true, 2)
  | .Type_Int32 => some (true, 4) | .Type_Int64 => some (true, 8)
  | .Type_UInt8 => some (false, 1) | .Type_UInt16 => some (false, 2)
  | .Type_UInt32 => some (false, 4) | .Type_UInt64 => some (false, 8)
  | _ => none

/-- Modelled from the spec: rule (c) of convertibility, "both are numeric and
widening applies (any Int → wider Int of same signedness, Int → Float,
Float → Double)". -/
def SigType.widensTo (a b : SigType) : Bool :=
  match a.intInfo, b.intInfo with
  | some (sa, wa), some (sb, wb) => sa == sb && decide (wa < wb)
  | some _, none => b == .Type_Float
  | none, _ => a == .Type_Float && b == .Type_Double

mutual
/-- Modelled from the spec: `a.is_convertible_to(b)` on one signature element:
(a) `a == b`, (b) one is `None`, (c) numeric widening, (d) lists, maps and tuples
of the same shape with convertible components, (e) `Dynamic` on either side. -/
def SigNode.isConvertibleTo : SigNode → SigNode → Bool
  | .leaf a, .leaf b =>
    a == b || a == .Type_None || b == .Type_None || a == .Type_Dynamic
      || b == .Type_Dynamic || a.widensTo b
  | .leaf a, _ => a == .Type_None || a == .Type_Dynamic
  | .list a, .list b => a.isConvertibleTo b
  | .map k v, .map k2 v2 => k.isConvertibleTo k2 && v.isConvertibleTo v2
  | .tuple ms _, .tuple ms2 _ => SigNode.isConvertibleToList ms ms2
  | _, .leaf b => b == .Type_None || b == .Type_Dynamic
  | _, _ => false
/-- Elementwise convertibility of two sequences of the same length. -/
def SigNode.isConvertibleToList : List SigNode → List SigNode → Bool
  | [], [] => true
  | a :: as, b :: bs => a.isConvertibleTo b && SigNode.isConvertibleToList as bs
  | _, _ => false
end

/-- Modelled from the spec: `Signature::isConvertibleTo` (§4.4); the invalid
sentinel converts to nothing but itself. -/
def Signature.isConvertibleTo (a b : Signature) : Bool :=
  a == b ||
    match a, b with
    | .mk l, .mk l2 => SigNode.isConvertibleToList l l2
    | _, _ => false


/-! ## Factories of the default list, map and tuple types -/

/-- `std::map::find` over the entries of a map ordered by `lt`: the entry whose
key is equivalent to `key` (neither is before the other). -/
def mapFind {K V : Type} (lt : K → K → Bool) : List (K × V) → K → Option V
  | [], _ => none
  | (k, v) :: rest, key =>
    if !lt k key && !lt key k then some v else mapFind lt rest key

/-- `(*map)[key] = value`: replaces the value of an equivalent key, or adds the entry. -/
def mapAssign {K V : Type} (lt : K → K → Bool) : List (K × V) → K → V → List (K × V)
  | [], key, value => [(key, value)]
  | (k, v) :: rest, key, value =>
    if !lt k key && !lt key k then (k, value) :: rest
    else (k, v) :: mapAssign lt rest key value

/-- `std::pair<TypeInfo, TypeInfo>::operator<`, the lexicographic order. -/
def pairLt (a b : TypeInfo × TypeInfo) : Bool :=
  a.1.lt b.1 || (!b.1.lt a.1 && a.2.lt b.2)

/-- `InfosKey`: member types, class name and element names of a tuple request. -/
structure InfosKey where
  _types : List QiType
  _name : String
  _elements : List String

/-- The first loop of `InfosKey::operator<` over two type vectors of equal size:
the result of the `return` it takes, or `none` when it runs to its end. -/
def InfosKey.typesLoop : List QiType → List QiType → Option Bool
  | a :: as, b :: bs =>
    if a.info.ne b.info then some (a.info.lt b.info) else InfosKey.typesLoop as bs
  | _, _ => none

/-- The second loop of `InfosKey::operator<` over two name vectors of equal size. -/
def InfosKey.elementsLoop : List String → List String → Option Bool
  | a :: as, b :: bs =>
    if a != b then some (strLt a b) else InfosKey.elementsLoop as bs
  | _, _ => none

/-- `InfosKey::operator<`. -/
def InfosKey.lt (a b : InfosKey) : Bool :=
  if a._types.length != b._types.length then decide (a._types.length < b._types.length)
  else
    match InfosKey.typesLoop a._types b._types with
    | some r => r
    | none =>
      if a._name != b._name then strLt a._name b._name
      else if a._elements.length != b._elements.length then
        decide (a._elements.length < b._elements.length)
      else
        match InfosKey.elementsLoop a._elements b._elements with
        | some r => r
        | none => false

/-- The process-wide state of the factories: the function-local static maps of
`makeListType`, `makeMapType` and `makeTupleType`, and the address the next
`new` returns. -/
structure Factories where
  nextAddress : Nat
  listMap : List (TypeInfo × QiType)
  mapMap : List ((TypeInfo × TypeInfo) × QiType)
  tupleMap : List (InfosKey × QiType)

/-- The factories before any call: the three maps are empty. -/
def Factories.init : Factories := ⟨0, [], [], []⟩

/-- The decimal digits of `n`, least significant first. -/
def addressDigits : Nat → Nat → List Char
  | 0, _ => []
  | fuel + 1, n =>
    Char.ofNat (48 + n % 10) :: (if n / 10 = 0 then [] else addressDigits fuel (n / 10))

/-- The text `boost::lexical_cast<std::string>(this)` gives for the address of a
descriptor: the host's rendering of a pointer, taken here to be its decimal
digits. -/
def addressString (a : Nat) : String := String.mk (addressDigits (a + 1) a).reverse

/-- The `_name` a `DefaultListType` gives itself in its constructor. -/
def DefaultListType.name (elementType : QiType) (this : Nat) : String :=
  "DefaultListType<" ++ elementType.info.asString ++ ">(" ++ addressString this

/-- `new DefaultListType(elementType)` at address `this`. -/
def DefaultListType.new (elementType : QiType) (this : Nat) : QiType :=
  .list (TypeInfo.ofString (DefaultListType.name elementType this)) elementType

/-- `makeListType(element)`: one instance per element `TypeInfo`. -/
def makeListType (element : QiType) (st : Factories) : QiType × Factories :=
  let key := element.info
  match mapFind TypeInfo.lt st.listMap key with
  | none =>
    let result := DefaultListType.new element st.nextAddress
    (result, { st with nextAddress := st.nextAddress + 1,
                       listMap := mapAssign TypeInfo.lt st.listMap key result })
  | some result => (result, st)

/-- The text the `DefaultTupleType` constructor appends for its member types. -/
def DefaultTupleType.typeNames : List QiType → String
  | [] => ""
  | t :: rest => t.info.asString ++ "," ++ DefaultTupleType.typeNames rest

/-- The `_name` a `DefaultTupleType` gives itself in its constructor. -/
def DefaultTupleType.name (types : List QiType) (this : Nat) : String :=
  "DefaultTupleType<" ++ DefaultTupleType.typeNames types ++ ">(" ++ addressString this ++ ")"

/-- `new DefaultTupleType(types, className, elementsName)` at address `this`. -/
def DefaultTupleType.new (types : List QiType) (className : String)
    (elementsName : List String) (this : Nat) : QiType :=
  .tuple (TypeInfo.ofString (DefaultTupleType.name types this)) types className elementsName

/-- `makeTupleType(types, name, elementNames)`. -/
def makeTupleType (types : List QiType) (name : String) (elementNames : List String)
    (st : Factories) : QiType × Factories :=
  let key : InfosKey := ⟨types, name, elementNames⟩
  match mapFind InfosKey.lt st.tupleMap key with
  | none =>
    let result := DefaultTupleType.new types name elementNames st.nextAddress
    (result, { st with nextAddress := st.nextAddress + 1,
                       tupleMap := mapAssign InfosKey.lt st.tupleMap key result })
  | some res => (res, st)

/-- The `_name` a `DefaultMapType` gives itself in its constructor. -/
def DefaultMapType.name (keyType elementType : QiType) (this : Nat) : String :=
  "DefaultMapType<" ++ keyType.info.asString ++ ", " ++ elementType.info.asString
    ++ "(" ++ addressString this ++ ")"

/-- `new DefaultMapType(keyType, elementType)` at address `this`: the constructor
also asks `makeTupleType` for its pair type `(keyType, elementType)`. -/
def DefaultMapType.new (keyType elementType : QiType) (this : Nat) (st : Factories) :
    QiType × Factories :=
  let pair := makeTupleType [keyType, elementType] "" [] st
  (.map (TypeInfo.ofString (DefaultMapType.name keyType elementType this)) keyType elementType,
    pair.2)

/-- `makeMapType(kt, et)`: one instance per pair of key and element `TypeInfo`. -/
def makeMapType (kt et : QiType) (st : Factories) : QiType × Factories :=
  let key := (kt.info, et.info)
  match mapFind pairLt st.mapMap key with
  | none =>
    let r := DefaultMapType.new kt et st.nextAddress
      { st with nextAddress := st.nextAddress + 1 }
    (r.1, { r.2 with mapMap := mapAssign pairLt r.2.mapMap key r.1 })
  | some result => (result, st)

/-! ## Type::fromSignature -/

/-- `boost::algorithm::split(v, annotation, is_any_of(","))`: the pieces between
the commas, one more than there are commas. -/
def splitAnnotations (annot : String) : List String :=
  (annot.data.splitOn ',').map String.mk

/-- Modelled from the spec: `Signature::iterator::annotation`, the text between
`<` and `>` after a tuple, empty when there is none. -/
def SigNode.annotationText : SigNode → String
  | .tuple _ (some a) => a
  | _ => ""

mutual
/-- The static `fromSignature(const Signature::iterator&)`; `none` is the null
result. -/
def fromSignature : SigNode → Factories → Option QiType × Factories
  | .leaf .Type_None, st => (some typeOfVoid, st)
  | .leaf .Type_Void, st => (some typeOfVoid, st)
  | .leaf .Type_Bool, st => (some typeOfBool, st)
  | .leaf .Type_Int8, st => (some typeOfInt8, st)
  | .leaf .Type_UInt8, st => (some typeOfUInt8, st)
  | .leaf .Type_Int16, st => (some typeOfInt16, st)
  | .leaf .Type_UInt16, st => (some typeOfUInt16, st)
  | .leaf .Type_Int32, st => (some typeOfInt32, st)
  | .leaf .Type_UInt32, st => (some typeOfUInt32, st)
  | .leaf .Type_Int64, st => (some typeOfInt64, st)
  | .leaf .Type_UInt64, st => (some typeOfUInt64, st)
  | .leaf .Type_Float, st => (some typeOfFloat, st)
  | .leaf .Type_Double, st => (some typeOfDouble, st)
  | .leaf .Type_String, st => (some typeOfString, st)
  | .list e, st =>
    match fromSignature e st with
    | (none, st1) => (none, st1)
    | (some el, st1) =>
      let r := makeListType el st1
      (some r.1, r.2)
  | .map k v, st =>
    match fromSignature k st with
    | (ok, st1) =>
      match fromSignature v st1 with
      | (oe, st2) =>
        match ok, oe with
        | some kt, some et =>
          let r := makeMapType kt et st2
          (some r.1, r.2)
        | _, _ => (none, st2)
  | .tuple ms a, st =>
    match fromSignatureChildren ms st with
    | (none, st1) => (none, st1)
    | (some types, st1) =>
      match splitAnnotations (SigNode.annotationText (.tuple ms a)) with
      | name :: elementNames =>
        let r := makeTupleType types name elementNames st1
        (some r.1, r.2)
      | [] =>
        let r := makeTupleType types "" [] st1
        (some r.1, r.2)
  | .leaf .Type_Dynamic, st => (some typeOfGenericValue, st)
  | .leaf .Type_Raw, st => (some typeOfBuffer, st)
  | .leaf .Type_Object, st => (some typeOfObjectPtr, st)
  | .leaf .Type_Unknown, st => (none, st)
/-- The loop of the `Type_Tuple` case over the children: the types of the
children in order, or null at the first child that does not resolve. -/
def fromSignatureChildren : List SigNode → Factories → Option (List QiType) × Factories
  | [], st => (some [], st)
  | child :: rest, st =>
    match fromSignature child st with
    | (none, st1) => (none, st1)
    | (some t, st1) =>
      match fromSignatureChildren rest st1 with
      | (none, st2) => (none, st2)
      | (some types, st2) => (some (t :: types), st2)
end

/-- `Type::fromSignature(const Signature&)`: the type of the first element; a
signature without a first element has no type code to switch on and takes the
`default` branch. -/
def QiType.fromSignature (sig : Signature) (st : Factories) : Option QiType × Factories :=
  match sig with
  | .mk (i :: _) => qi.fromSignature i st
  | _ => (none, st)


/-- A signature with exactly one top-level element. -/
def Signature.IsSingle (s : Signature) : Prop := ∃ n, s = .mk [n]

/-! ## Reference definitions from the specification -/

/-- Reference definition (specification §4.5, List): reconciling the running
signature `sFirst` against the signature `s` of the next element: "if
`s == sFirst`, keep; else if `s.is_convertible_to(sFirst)`, keep `sFirst`; else
if `sFirst.is_convertible_to(s)`, adopt `s`; else mark `sFirst` invalid and stop
narrowing". -/
def specReconcileStep (conv : Signature → Signature → Bool) (sFirst s : Signature) :
    Signature :=
  if sFirst.isValid = false then sFirst
  else if s = sFirst then sFirst
  else if conv s sFirst = true then sFirst
  else if conv sFirst s = true then s
  else Signature.invalid

/-- Reference definition (specification §4.5, List): the element signature
emitted for a sequence of element signatures: `_` "if empty", else "start with
the first element's signature", reconcile each subsequent element, and "emit
`[sFirst]` if valid, else fall back to `[E]`". -/
def specReconcile (conv : Signature → Signature → Bool) (fallback : Signature) :
    List Signature → Signature
  | [] => Signature.fromType .Type_None
  | first :: rest =>
    if (rest.foldl (specReconcileStep conv) first).isValid = true then
      rest.foldl (specReconcileStep conv) first
    else fallback

/-! ## Example values -/

/-- The Dynamic value wrapping `v`. -/
def dynamicOf (v : GenericValuePtr) : GenericValuePtr :=
  .mk typeOfGenericValue (.dynamic v)

/-- The Int32 value `n`. -/
def int32Value (n : Int) : GenericValuePtr := .mk typeOfInt32 (.int n)

/-- The Int64 value `n`. -/
def int64Value (n : Int) : GenericValuePtr := .mk typeOfInt64 (.int n)

/-- The string value `s`. -/
def stringValue (s : String) : GenericValuePtr := .mk typeOfString (.string s)

/-- A list type declared with element type Dynamic. -/
def listOfDynamic : QiType := .list (TypeInfo.ofString "list<dynamic>") typeOfGenericValue

/-- A list type declared with element type Int32. -/
def listOfInt32 : QiType := .list (TypeInfo.ofString "list<int32>") typeOfInt32

/-- A map type declared as `map<string, dynamic>`. -/
def mapStringDynamic : QiType :=
  .map (TypeInfo.ofString "map<string,dynamic>") typeOfString typeOfGenericValue

/-- The pair value `(key, value)` a map iterator yields. -/
def pairValue (key value : GenericValuePtr) : GenericValuePtr :=
  .mk (.tuple (TypeInfo.ofString "pair") [key.type, value.type] "" []) (.tuple [key, value])

/-! ## Definitions used by the invariants of the factories -/

/-- The number a sequence of decimal digits (least significant first) stands for. -/
def digitsValue : List Char → Nat
  | [] => 0
  | c :: rest => (c.toNat - 48) + 10 * digitsValue rest

/-- The digits of the address at the end of the `_name` of a default type: the
trailing digits, after an optional closing parenthesis, least significant first. -/
def nameAddressDigits (name : String) : List Char :=
  match name.data.reverse with
  | ')' :: t => t.takeWhile Char.isDigit
  | r => r.takeWhile Char.isDigit

/-- The address at the end of the `_name` of a default type. -/
def nameAddress (name : String) : Nat := digitsValue (nameAddressDigits name)

/-- The canonical descriptors `fromSignature` returns for the primitive leaves. -/
def canonicalTypes : List QiType :=
  [typeOfVoid, typeOfBool, typeOfInt8, typeOfInt16, typeOfInt32, typeOfInt64, typeOfUInt8,
    typeOfUInt16, typeOfUInt32, typeOfUInt64, typeOfFloat, typeOfDouble, typeOfString,
    typeOfGenericValue, typeOfBuffer, typeOfObjectPtr]

/-- The `_name` of a default list, map or tuple type, whatever its parameters and
its address. -/
def DefaultTypeName (nm : String) : Prop :=
  (∃ e a, nm = DefaultListType.name e a) ∨ (∃ k e a, nm = DefaultMapType.name k e a)
    ∨ (∃ ts a, nm = DefaultTupleType.name ts a)

/-- The descriptors known to a state of the factories: the canonical ones, the
descriptors `user` that the program declares outside the factories, and those held
by the three maps. -/
def Factories.Known (user : QiType → Prop) (st : Factories) (t : QiType) : Prop :=
  (t ∈ canonicalTypes ∨ user t) ∨ (∃ k, (k, t) ∈ st.listMap) ∨ (∃ k, (k, t) ∈ st.mapMap)
    ∨ (∃ k, (k, t) ∈ st.tupleMap)

/-- Coherence of a state of the factories with the descriptors `user` of the
program: every entry of the three maps holds the default descriptor its factory
builds for the key, from known descriptors, at an address below the next free one;
two known descriptors with equal `TypeInfo` have the same declared signature (the
data-model invariant "identity via TypeInfo", as far as signatures can tell); and
no descriptor of the program has the `TypeInfo` of a default type's name. -/
structure Factories.Coherent (conv : Signature → Signature → Bool) (user : QiType → Prop)
    (st : Factories) : Prop where
  listEntries : ∀ k L, (k, L) ∈ st.listMap →
    ∃ e a, a < st.nextAddress ∧ L = DefaultListType.new e a ∧ k = e.info ∧ st.Known user e
  mapEntries : ∀ k M, (k, M) ∈ st.mapMap →
    ∃ kt et a, a < st.nextAddress
      ∧ M = QiType.map (TypeInfo.ofString (DefaultMapType.name kt et a)) kt et
      ∧ k = (kt.info, et.info) ∧ st.Known user kt ∧ st.Known user et
  tupleEntries : ∀ k T, (k, T) ∈ st.tupleMap →
    ∃ a, a < st.nextAddress ∧ T = DefaultTupleType.new k._types k._name k._elements a
      ∧ ∀ t ∈ k._types, st.Known user t
  infoDeterminesSignature : ∀ x y, st.Known user x → st.Known user y →
    x.info.eq y.info = true → x.signatureFalse conv = y.signatureFalse conv
  userFresh : ∀ u, user u → ∀ nm, DefaultTypeName nm →
    (TypeInfo.ofString nm).eq u.info = false

/-- The states of the factories a program with the descriptors `user` reaches from
the initial one: by `makeListType`, `makeMapType` and `makeTupleType` on
descriptors known at the time of the call, and by `Type::fromSignature` of any
signature. -/
inductive Factories.Reached (user : QiType → Prop) : Factories → Prop
  | init : Factories.Reached user Factories.init
  | list (st : Factories) (element : QiType) (hr : Factories.Reached user st)
      (he : st.Known user element) : Factories.Reached user (makeListType element st).2
  | map (st : Factories) (kt et : QiType) (hr : Factories.Reached user st)
      (hk : st.Known user kt) (he : st.Known user et) :
      Factories.Reached user (makeMapType kt et st).2
  | tuple (st : Factories) (types : List QiType) (name : String) (elementNames : List String)
      (hr : Factories.Reached user st) (ht : ∀ t ∈ types, st.Known user t) :
      Factories.Reached user (makeTupleType types name elementNames st).2
  | fromSig (st : Factories) (sig : Signature) (hr : Factories.Reached user st) :
      Factories.Reached user (QiType.fromSignature sig st).2

/-- A descriptor of the program outside the factories: an Object type `U`. -/
def userObject : QiType := .object (TypeInfo.ofString "U")

/-- The descriptors of a program that declares `userObject` only. -/
def userObjectOnly (t : QiType) : Prop := t = userObject

/-- A descriptor of kind String that carries the native identity of `int32_t`: with
it, "identity via TypeInfo" does not hold. -/
def impostorInt32 : QiType := .string (TypeInfo.ofStd ⟨5, "i"⟩)

/-- The annotations of an `n`-member tuple signature that survive the round trip
through `fromSignature`: no suffix at all, or `<N,e1,…,en>` with exactly one
element name per member, no comma inside the class name or an element name, and
not all of them missing (`n = 0` needs a class name). -/
def AnnotationRoundTrips (n : Nat) : Option String → Prop
  | none => True
  | some a => ∃ (N : String) (A : List String), a = N ++ elementNamesText A ∧ A.length = n
      ∧ ',' ∉ N.data ∧ (∀ x ∈ A, ',' ∉ x.data) ∧ (N ≠ "" ∨ A ≠ [])

mutual
/-- The signature elements that `fromSignature` materialises into a type with
that same signature: built from the leaves other than `_` (which becomes `v`) and
`X` (which has no type), with tuple annotations that split back into the same
class name and element names. -/
def SigNode.RoundTrips : SigNode → Prop
  | .leaf t => t ≠ .Type_None ∧ t ≠ .Type_Unknown
  | .list e => e.RoundTrips
  | .map k v => k.RoundTrips ∧ v.RoundTrips
  | .tuple ms a => SigNode.RoundTripsList ms ∧ AnnotationRoundTrips ms.length a
/-- Every element of the sequence round-trips. -/
def SigNode.RoundTripsList : List SigNode → Prop
  | [] => True
  | m :: rest => m.RoundTrips ∧ SigNode.RoundTripsList rest
end

/-- An annotated tuple type: `(int32, string)` named `Point` with elements `x`, `y`. -/
def pointType : QiType :=
  .tuple (TypeInfo.ofString "Point") [typeOfInt32, typeOfString] "Point" ["x", "y"]

/-- A list of points, with no storage. -/
def listOfPoints : GenericValuePtr :=
  .mk (.list (TypeInfo.ofString "list<Point>") pointType) .null

/-- The signature element `[(is)<Point,x,y>]`. -/
def listOfPointsNode : SigNode :=
  .list (.tuple [.leaf .Type_Int32, .leaf .Type_String] (some "Point,x,y"))

/-! ## TypeInfo over an arbitrary host identity -/

/-- `TypeInfo::operator==` with the host's `std::type_info::operator==` as the
parameter `same`. -/
def TypeInfo.eqBy (same : StdTypeInfo → StdTypeInfo → Bool) (a b : TypeInfo) : Bool :=
  if a.stdInfo.isSome != b.stdInfo.isSome then false
  else
    match a.stdInfo, b.stdInfo with
    | some x, some y => same x y
    | _, _ => a.customInfo == b.customInfo

/-- `TypeInfo::operator<` with the host's `std::type_info::before` as the
parameter `before`. -/
def TypeInfo.ltBy (before : StdTypeInfo → StdTypeInfo → Bool) (a b : TypeInfo) : Bool :=
  if a.stdInfo.isSome != b.stdInfo.isSome then a.stdInfo.isSome
  else
    match a.stdInfo, b.stdInfo with
    | some x, some y => before x y
    | _, _ => strLt a.customInfo b.customInfo

/-- Exactly one of three conditions holds. -/
def exactlyOne (p q r : Bool) : Prop :=
  (p = true ∧ q = false ∧ r = false) ∨ (p = false ∧ q = true ∧ r = false)
    ∨ (p = false ∧ q = false ∧ r = true)

/-! ## The type registry (`typeFactory`, `getType`, `registerType`) -/

/-- `TypeFactory`: `std::map<TypeInfo, Type*>`; a null `Type*` is `none`. -/
abbrev TypeFactory := List (TypeInfo × Option QiType)

/-- `std::map::operator[]`: the value under `key`; an absent key is first added with
a value-initialised (null) pointer. -/
def TypeFactory.index (f : TypeFactory) (key : TypeInfo) : Option QiType × TypeFactory :=
  match mapFind TypeInfo.lt f key with
  | some v => (v, f)
  | none => (none, mapAssign TypeInfo.lt f key none)

/-- `getType(const std::type_info&)`: `return typeFactory()[TypeInfo(type)];`. -/
def getType (type : StdTypeInfo) (f : TypeFactory) : Option QiType × TypeFactory :=
  TypeFactory.index f (TypeInfo.ofStd type)

/-- The `qiLogVerbose` line taken by `registerType`. -/
inductive RegisterNotice
  | silent
  | previousRegistration
  | accessBeforeRegistration
deriving DecidableEq, Repr

/-- `registerType(typeId, type)`: looks the id up for the verbose notice, then assigns
`typeFactory()[TypeInfo(typeId)] = type` and returns `true`. The first line of the body
reads `type->kind()`, so `type` is a descriptor. -/
def registerType (typeId : StdTypeInfo) (type : QiType) (f : TypeFactory) :
    Bool × RegisterNotice × TypeFactory :=
  let notice :=
    match mapFind TypeInfo.lt f (TypeInfo.ofStd typeId) with
    | some (some _) => RegisterNotice.previousRegistration
    | some none => RegisterNotice.accessBeforeRegistration
    | none => RegisterNotice.silent
  (true, notice, mapAssign TypeInfo.lt f (TypeInfo.ofStd typeId) (some type))

/-- A call on the registry. -/
inductive RegistryCall
  | get (type : StdTypeInfo)
  | register (typeId : StdTypeInfo) (type : QiType)

/-- The registry after a call. -/
def RegistryCall.run : RegistryCall → TypeFactory → TypeFactory
  | .get type, f => (getType type f).2
  | .register typeId type, f => (registerType typeId type f).2.2

/-- The registry after a sequence of calls. -/
def runRegistry : List RegistryCall → TypeFactory → TypeFactory
  | [], f => f
  | c :: rest, f => runRegistry rest (c.run f)

/-- The call is a registration for the identity `id`. -/
def RegistryCall.registers (id : StdTypeInfo) : RegistryCall → Bool
  | .get _ => false
  | .register typeId _ => (TypeInfo.ofStd typeId).eq (TypeInfo.ofStd id)

/-! ## Sequences of factory calls -/

/-- A call that reaches the factories: `makeListType`, `makeMapType`,
`makeTupleType`, or `Type::fromSignature`. -/
inductive FactoryCall
  | list (element : QiType)
  | map (kt et : QiType)
  | tuple (types : List QiType) (name : String) (elementNames : List String)
  | fromSig (sig : Signature)

/-- The state of the factories after a call. -/
def FactoryCall.run : FactoryCall → Factories → Factories
  | .list element, st => (makeListType element st).2
  | .map kt et, st => (makeMapType kt et st).2
  | .tuple types name elementNames, st => (makeTupleType types name elementNames st).2
  | .fromSig sig, st => (QiType.fromSignature sig st).2

/-- The state of the factories after a sequence of calls. -/
def runFactoryCalls : List FactoryCall → Factories → Factories
  | [], st => st
  | c :: rest, st => runFactoryCalls rest (c.run st)

/-- Every lookup that succeeds in `st` gives the same descriptor in `st2`. -/
def Factories.Keeps (st st2 : Factories) : Prop :=
  (∀ k v, mapFind TypeInfo.lt st.listMap k = some v →
      mapFind TypeInfo.lt st2.listMap k = some v)
  ∧ (∀ k v, mapFind pairLt st.mapMap k = some v → mapFind pairLt st2.mapMap k = some v)
  ∧ (∀ k v, mapFind InfosKey.lt st.tupleMap k = some v →
      mapFind InfosKey.lt st2.tupleMap k = some v)

/-- The entries of the list and map factories hold a list (map) descriptor whose
element (and key) type has the `TypeInfo` of the entry's key. -/
def Factories.Shaped (st : Factories) : Prop :=
  (∀ k L, (k, L) ∈ st.listMap → ∃ info e, L = QiType.list info e ∧ k = e.info)
  ∧ (∀ k M, (k, M) ∈ st.mapMap →
      ∃ info kt et, M = QiType.map info kt et ∧ k = (kt.info, et.info))

/-- What every factory call does to the state: lookups keep their result and the
shape of the entries is kept. -/
def Factories.Next (st st2 : Factories) : Prop :=
  st.Keeps st2 ∧ (st.Shaped → st2.Shaped)

/-! ## Signatures that `fromSignature` cannot materialise -/

/-- The leaf codes the claim lists as materialisable:
`v _ b c C w W i I l L f d s m r o`. -/
def SigType.materialisable : SigType → Bool
  | .Type_Void | .Type_None | .Type_Bool | .Type_Int8 | .Type_UInt8 | .Type_Int16
  | .Type_UInt16 | .Type_Int32 | .Type_UInt32 | .Type_Int64 | .Type_UInt64 | .Type_Float
  | .Type_Double | .Type_String | .Type_Dynamic | .Type_Raw | .Type_Object => true
  | .Type_Unknown => false

mutual
/-- The element contains, at any nesting depth (list element, map key or value,
tuple member), a leaf that is not materialisable. -/
def SigNode.containsUnmaterialisable : SigNode → Bool
  | .leaf t => !t.materialisable
  | .list e => e.containsUnmaterialisable
  | .map k v => k.containsUnmaterialisable || v.containsUnmaterialisable
  | .tuple ms _ => SigNode.containsUnmaterialisableList ms
/-- One of the elements contains a leaf that is not materialisable. -/
def SigNode.containsUnmaterialisableList : List SigNode → Bool
  | [] => false
  | m :: rest => m.containsUnmaterialisable || SigNode.containsUnmaterialisableList rest
end

/-! ## Element access of lists -/

/-- What a list element access gives: the storage of an element, the
`std::runtime_error("Index out of range")`, or a read at or past the end of the
elements (undefined behaviour). -/
inductive ElementResult
  | value (storage : Storage)
  | outOfRange
  | undefined

/-- The loop of `ListTypeInterface::element`,
`while (p != index && it != iend) { ++p; ++it; }`: the iterator is the list of the
elements from its position on (`iend` is the empty list); the result is `p` and
`it` after the loop. The `int` counter `p` is at most the length of the list. -/
def ListTypeInterface.elementLoop (index : Int) :
    List GenericValuePtr → Int → Int × List GenericValuePtr
  | [], p => (p, [])
  | x :: rest, p =>
    if p != index then ListTypeInterface.elementLoop index rest (p + 1) else (p, x :: rest)

/-- `ListTypeInterface::element(storage, index)`, the default implementation by
iteration; `elems` is what `begin()` … `end()` of the list iterate over. After the
loop: `if (p > index) throw …; return (*it).value;`. -/
def ListTypeInterface.element (elems : List GenericValuePtr) (index : Int) : ElementResult :=
  match ListTypeInterface.elementLoop index elems 0 with
  | (p, it) =>
    if p > index then .outOfRange
    else
      match it with
      | x :: _ => .value x.value
      | [] => .undefined

/-- `DefaultListType::element(storage, key)`: `return src[key];` on the
`std::vector<void*>` of the list, without a range check; a negative `key` converts
to an index beyond every vector. -/
def DefaultListType.element (src : List Storage) (key : Int) : ElementResult :=
  if key < 0 then .undefined
  else
    match src.get? key.toNat with
    | some s => .value s
    | none => .undefined

/-! ## The default map: storages, pairs and the map of a `DefaultMapType` -/

/-- The storages a default map works on. A storage is named by its address; a
value storage has a content of type `V` (what the key and element types see in
it), a `std::vector<void*>` (the backend of a default tuple, here the pairs of the
map) has slots holding a storage or null. `nextStorage` is the address the next
allocation returns, `destroyed` the storages handed to `destroy`, most recent
first, and `entries` the `DefaultMapStorage` itself: key storage and pair, in the
order the keys were added. -/
structure MapState (V : Type) where
  nextStorage : Nat
  content : Nat → Option V
  vectors : Nat → Option (List (Option Nat))
  destroyed : List Nat
  entries : List (Nat × Nat)

/-- `Type::clone(storage)` of the key or element type: a new storage with the
same content; reading a storage that is not alive is undefined (`none`). -/
def MapState.clone {V : Type} (s : MapState V) (storage : Nat) : Option (Nat × MapState V) :=
  match s.content storage with
  | none => none
  | some c =>
    some (s.nextStorage,
      { s with nextStorage := s.nextStorage + 1,
               content := Function.update s.content s.nextStorage (some c) })

/-- `Type::destroy(storage)` of the element type: the storage is no longer alive;
destroying a storage that is not alive is undefined (`none`). -/
def MapState.destroy {V : Type} (s : MapState V) (storage : Nat) : Option (MapState V) :=
  match s.content storage with
  | none => none
  | some _ =>
    some { s with content := Function.update s.content storage none,
                  destroyed := storage :: s.destroyed }

/-- `Type::initializeStorage()` of the element type: a new storage with the
default content `dflt`. -/
def MapState.initializeStorage {V : Type} (dflt : V) (s : MapState V) : Nat × MapState V :=
  (s.nextStorage,
    { s with nextStorage := s.nextStorage + 1,
             content := Function.update s.content s.nextStorage (some dflt) })

/-- `DefaultTupleType::Methods::initializeStorage()` followed by filling the
vector: a new `std::vector<void*>` with the given slots. -/
def MapState.newVector {V : Type} (s : MapState V) (slots : List (Option Nat)) :
    Nat × MapState V :=
  (s.nextStorage,
    { s with nextStorage := s.nextStorage + 1,
             vectors := Function.update s.vectors s.nextStorage (some slots) })

/-- The search of `std::map::find` for a key of content `kc`: the entry whose key
is equivalent under `less` (the order of `GenericValuePtr`, a parameter), `some
none` for `end()`; comparing with a key storage that is not alive is undefined. -/
def DefaultMapType.findLoop {V : Type} (less : V → V → Bool) (s : MapState V) (kc : V) :
    List (Nat × Nat) → Option (Option (Nat × Nat))
  | [] => some none
  | (kh, p) :: rest =>
    match s.content kh with
    | none => none
    | some c =>
      if !less c kc && !less kc c then some (some (kh, p))
      else DefaultMapType.findLoop less s kc rest

/-- `ptr.find(GenericValuePtr(_keyType, keyStorage))`. -/
def DefaultMapType.find {V : Type} (less : V → V → Bool) (s : MapState V) (keyStorage : Nat) :
    Option (Option (Nat × Nat)) :=
  match s.content keyStorage with
  | none => none
  | some kc => DefaultMapType.findLoop less s kc s.entries

/-- The entries after `ptr[key] = pairPtr`: the pair of an equivalent key is
replaced, else the entry is added. -/
def DefaultMapType.assignLoop {V : Type} (less : V → V → Bool) (s : MapState V) (kc : V)
    (key pairPtr : Nat) : List (Nat × Nat) → Option (List (Nat × Nat))
  | [] => some [(key, pairPtr)]
  | (kh, p) :: rest =>
    match s.content kh with
    | none => none
    | some c =>
      if !less c kc && !less kc c then some ((kh, pairPtr) :: rest)
      else (DefaultMapType.assignLoop less s kc key pairPtr rest).map (fun l => (kh, p) :: l)

/-- `ptr[key] = pairPtr`. -/
def DefaultMapType.assign {V : Type} (less : V → V → Bool) (s : MapState V)
    (key pairPtr : Nat) : Option (MapState V) :=
  match s.content key with
  | none => none
  | some kc =>
    match DefaultMapType.assignLoop less s kc key pairPtr s.entries with
    | none => none
    | some es => some { s with entries := es }

/-- `DefaultMapType::size`. -/
def DefaultMapType.size {V : Type} (s : MapState V) : Nat := s.entries.length

/-- `DefaultMapType::_insert(ptr, keyStorage, valueStorage, copyValue)`: clones the
key, clones the value when `copyValue`, allocates the pair, fills its two slots and
assigns `ptr[key] = pairPtr`; returns the storage of `value`. -/
def DefaultMapType._insert {V : Type} (less : V → V → Bool) (s : MapState V)
    (keyStorage valueStorage : Nat) (copyValue : Bool) : Option (Nat × MapState V) :=
  match s.clone keyStorage with
  | none => none
  | some (key, s1) =>
    match (if copyValue then s1.clone valueStorage else some (valueStorage, s1)) with
    | none => none
    | some (value, s2) =>
      match s2.newVector [some key, some value] with
      | (pairPtr, s3) =>
        match DefaultMapType.assign less s3 key pairPtr with
        | none => none
        | some s4 => some (value, s4)

/-- `DefaultMapType::insert(storage, keyStorage, valueStorage)`. A failing
`assert(elem.size() == 2)` and the `destroy` of a null slot are outside the model
(`none`). -/
def DefaultMapType.insert {V : Type} (less : V → V → Bool) (s : MapState V)
    (keyStorage valueStorage : Nat) : Option (MapState V) :=
  match DefaultMapType.find less s keyStorage with
  | none => none
  | some (some (_, pairPtr)) =>
    match s.vectors pairPtr with
    | none => none
    | some elem =>
      if elem.length ≠ 2 then none
      else
        match elem.get? 1 with
        | some (some old) =>
          match s.destroy old with
          | none => none
          | some s1 =>
            match s1.clone valueStorage with
            | none => none
            | some (v, s2) =>
              some { s2 with vectors :=
                Function.update s2.vectors pairPtr (some (elem.set 1 (some v))) }
        | _ => none
  | some none => (DefaultMapType._insert less s keyStorage valueStorage true).map (fun r => r.2)

/-- `DefaultTupleType::get(storage, index)` with `unsigned int index`: resizes the
vector to `index + 1` slots (computed in 32 bits) when it is shorter, then returns
`ptr[index]`, an unchecked read. -/
def DefaultTupleType.get {V : Type} (s : MapState V) (storage index : Nat) :
    Option (Option Nat × MapState V) :=
  match s.vectors storage with
  | none => none
  | some ptr =>
    if ptr.length < (index + 1) % 2 ^ 32 then
      let ptr2 := ptr ++ List.replicate ((index + 1) % 2 ^ 32 - ptr.length) none
      match ptr2.get? index with
      | none => none
      | some slot =>
        some (slot, { s with vectors := Function.update s.vectors storage (some ptr2) })
    else
      match ptr.get? index with
      | none => none
      | some slot => some (slot, s)

/-- The `GenericValuePtr` that `DefaultMapType::element` returns: the empty
`GenericValuePtr()`, or the element type with a storage (or null). -/
inductive ElementPtr
  | empty
  | borrow (storage : Option Nat)
deriving DecidableEq, Repr

/-- `DefaultMapType::element(pstorage, keyStorage, autoInsert)`; `elem[1]` reads
member 1 of the pair through `DefaultTupleType::get`. -/
def DefaultMapType.element {V : Type} (less : V → V → Bool) (dflt : V) (s : MapState V)
    (keyStorage : Nat) (autoInsert : Bool) : Option (ElementPtr × MapState V) :=
  match DefaultMapType.find less s keyStorage with
  | none => none
  | some (some (_, pairPtr)) =>
    match DefaultTupleType.get s pairPtr 1 with
    | none => none
    | some (slot, s1) => some (.borrow slot, s1)
  | some none =>
    if !autoInsert then some (.empty, s)
    else
      match s.initializeStorage dflt with
      | (init, s1) =>
        match DefaultMapType._insert less s1 keyStorage init false with
        | none => none
        | some (value, s2) => some (.borrow (some value), s2)

/-- The empty default map, with two value storages outside it: storage 0 holds
`k`, storage 1 holds `v`. -/
def MapState.sample (k v : Int) : MapState Int :=
  { nextStorage := 2
    content := fun h => if h = 0 then some k else if h = 1 then some v else none
    vectors := fun _ => none
    destroyed := []
    entries := [] }

/-- The order of the example keys. -/
def intLess (a b : Int) : Bool := decide (a < b)

/-- The invariant of a default map and its storages: nothing lives at or above
the next address; every entry's pair is a vector of two slots, the key storage of
the entry and a value storage, both alive; no value storage of a pair is the key
storage of an entry; and different entries have different value storages. -/
structure MapState.WellFormed {V : Type} (s : MapState V) : Prop where
  contentBelow : ∀ h, s.nextStorage ≤ h → s.content h = none
  vectorsBelow : ∀ h, s.nextStorage ≤ h → s.vectors h = none
  pairs : ∀ kh p, (kh, p) ∈ s.entries →
    ∃ vh, s.vectors p = some [some kh, some vh] ∧ (s.content kh).isSome = true
      ∧ (s.content vh).isSome = true
  valuesNotKeys : ∀ kh p x vh kh2 p2, (kh, p) ∈ s.entries →
    s.vectors p = some [x, some vh] → (kh2, p2) ∈ s.entries → vh ≠ kh2
  valuesApart : s.entries.Pairwise (fun e1 e2 => ∀ x1 v1 x2 v2,
    s.vectors e1.2 = some [x1, some v1] → s.vectors e2.2 = some [x2, some v2] → v1 ≠ v2)

/-- The default map after `insert` of storage 0 (content 5) with storage 1 (content
7) into the empty sample map: storage 2 is the clone of the key, storage 3 the
clone of the value, vector 4 the pair. -/
def MapState.sampleOne : MapState Int :=
  { nextStorage := 5
    content := Function.update (Function.update (MapState.sample 5 7).content 2 (some 5)) 3
      (some 7)
    vectors := Function.update (MapState.sample 5 7).vectors 4 (some [some 2, some 3])
    destroyed := []
    entries := [(2, 4)] }

/-! ## detail::typeFail -/

/-- The text `typeFail` hands to `qiLogError()`. -/
def typeFailMessage (typeName operation : String) : String :=
  "The following operation failed on data type " ++ typeName ++ " :" ++ operation

/-- `detail::typeFail(typeName, operation)`: `once` is the static
`std::set<std::string>`; the result is the error diagnostic emitted, if any, and
the set afterwards. -/
def typeFail (typeName operation : String) (once : List String) :
    Option String × List String :=
  if once.contains typeName then (none, once)
  else (some (typeFailMessage typeName operation), typeName :: once)

/-- The diagnostics of a sequence of `typeFail` calls, one entry per call. -/
def typeFailRun : List (String × String) → List String → List (Option String)
  | [], _ => []
  | (typeName, operation) :: rest, once =>
    (typeFail typeName operation once).1 :: typeFailRun rest (typeFail typeName operation once).2

/-! ## The default tuple: storage operations -/

/-- The vector after `if (ptr.size() < index + 1) ptr.resize(index + 1, 0);` with
`unsigned int index`: `index + 1` is computed in 32 bits. -/
def DefaultTupleType.grow (ptr : List (Option Nat)) (index : Nat) : List (Option Nat) :=
  if ptr.length < (index + 1) % 2 ^ 32 then
    ptr ++ List.replicate ((index + 1) % 2 ^ 32 - ptr.length) none
  else ptr

/-- `DefaultTupleType::set(storage, index, valStorage)` of a tuple type with
`memberCount` member types: after the resize, destroys the occupant of
`ptr[index]` if it is not null and stores the clone of `valStorage`, both made by
`_types[index]`; reading `ptr[index]` or `_types[index]` out of range is undefined
(`none`). -/
def DefaultTupleType.set {V : Type} (memberCount : Nat) (s : MapState V)
    (storage index valStorage : Nat) : Option (MapState V) :=
  match s.vectors storage with
  | none => none
  | some ptr =>
    match (DefaultTupleType.grow ptr index).get? index with
    | none => none
    | some slot =>
      if index < memberCount then
        match (match slot with
                | some old => s.destroy old
                | none => some s) with
        | none => none
        | some s1 =>
          match s1.clone valStorage with
          | none => none
          | some (c, s2) =>
            some { s2 with vectors := (Function.update s2.vectors storage
              (some ((DefaultTupleType.grow ptr index).set index (some c)))) }
      else none

/-- The loop `(*ret)[i] = _types[i]->initializeStorage()` of
`DefaultTupleType::initializeStorage`: `defaults` holds the default content of each
member type. -/
def DefaultTupleType.initSlots {V : Type} : List V → MapState V → List (Option Nat) × MapState V
  | [], s => ([], s)
  | d :: rest, s =>
    match s.initializeStorage d with
    | (h, s1) =>
      match DefaultTupleType.initSlots rest s1 with
      | (slots, s2) => (some h :: slots, s2)

/-- `DefaultTupleType::initializeStorage(ptr)` of a tuple type whose member types
have the default contents `defaults`. `Methods::initializeStorage(ptr)` returns
`ptr` when it is not null and a new vector otherwise; a seed of another size than
`_types.size()` throws `std::runtime_error("Tuple storage is of incorrect size")`
(`Except.error`); a seed that is no vector is undefined (`none`). -/
def DefaultTupleType.initializeStorage {V : Type} (defaults : List V) (s : MapState V)
    (ptr : Option Nat) : Option (Except String (Nat × MapState V)) :=
  match ptr with
  | some seed =>
    match s.vectors seed with
    | none => none
    | some ret =>
      if defaults.length ≠ ret.length then some (.error "Tuple storage is of incorrect size")
      else some (.ok (seed, s))
  | none =>
    match s.newVector [] with
    | (ret, s1) =>
      match DefaultTupleType.initSlots defaults s1 with
      | (slots, s2) =>
        some (.ok (ret, { s2 with vectors := Function.update s2.vectors ret (some slots) }))

/-- The loop `for (i = 0; i < src.size(); ++i) set(&result, i, src[i]);` of
`DefaultTupleType::clone`, from index `i` on; cloning a null slot is undefined. -/
def DefaultTupleType.cloneLoop {V : Type} (memberCount result : Nat) :
    List (Option Nat) → Nat → MapState V → Option (MapState V)
  | [], _, s => some s
  | none :: _, _, _ => none
  | some v :: rest, i, s =>
    match DefaultTupleType.set memberCount s result i v with
    | none => none
    | some s1 => DefaultTupleType.cloneLoop memberCount result rest (i + 1) s1

/-- `DefaultTupleType::clone(storage)`. -/
def DefaultTupleType.clone {V : Type} (defaults : List V) (s : MapState V) (storage : Nat) :
    Option (Nat × MapState V) :=
  match s.vectors storage with
  | none => none
  | some src =>
    match DefaultTupleType.initializeStorage defaults s none with
    | some (.ok (result, s1)) =>
      (DefaultTupleType.cloneLoop defaults.length result src 0 s1).map (fun s2 => (result, s2))
    | _ => none

/-- A heap with the sample pair `[storage 2, storage 3]` at address 4 (contents 5
and 7), and two more storages 0 and 1 with the same contents. -/
def MapState.samplePair : MapState Int := { MapState.sampleOne with entries := [] }

/-! ## Three-valued comparisons (for the order of `InfosKey`) -/

/-- A comparison of one component: `some true` is "less", `some false` is
"greater", `none` is "no difference"; `cmpThen r s` decides by `r` and, without a
difference there, by `s`. -/
def cmpThen (r s : Option Bool) : Option Bool :=
  match r with
  | some x => some x
  | none => s

/-- The comparison of two sizes, as in `if (m != n) return m < n;`. -/
def cmpNat (m n : Nat) : Option Bool := if m != n then some (decide (m < n)) else none

/-- The comparison of two strings, as in `if (a != b) return a < b;`. -/
def cmpString (a b : String) : Option Bool := if a != b then some (strLt a b) else none

/-- The comparison of two `TypeInfo`s, as in
`if (a->info() != b->info()) return a->info() < b->info();`. -/
def cmpInfo (a b : TypeInfo) : Option Bool := if a.ne b then some (a.lt b) else none

/-- `InfosKey::operator<` as a three-valued comparison: sizes of the type vectors,
the type vectors, the names, the sizes of the element vectors, the element
vectors. -/
def InfosKey.compare (a b : InfosKey) : Option Bool :=
  cmpThen (cmpNat a._types.length b._types.length)
    (cmpThen (InfosKey.typesLoop a._types b._types)
      (cmpThen (cmpString a._name b._name)
        (cmpThen (cmpNat a._elements.length b._elements.length)
          (InfosKey.elementsLoop a._elements b._elements))))

/-- Three comparisons `a ? b`, `b ? c`, `a ? c` fit together as those of an order:
if neither of the first two is "greater" then the third is not, and the third is
"no difference" exactly when the first two are. -/
def CmpTrans (r1 r2 r3 : Option Bool) : Prop :=
  r1 ≠ some false → r2 ≠ some false → r3 ≠ some false ∧ (r3 = none ↔ r1 = none ∧ r2 = none)

/-- Two keys are incomparable under `InfosKey::operator<`. -/
def InfosKey.incomparable (a b : InfosKey) : Prop := a.lt b = false ∧ b.lt a = false

/-- Every entry of the tuple factory holds the default tuple descriptor made for
the types, name and element names of its key. -/
def Factories.TupleShaped (st : Factories) : Prop :=
  ∀ k T, (k, T) ∈ st.tupleMap →
    ∃ a, T = DefaultTupleType.new k._types k._name k._elements a

/-- `makeGenericTuplePtr(types, values)`: the tuple type of `makeTupleType(types)`
with the storage its `initializeStorage(&values)` returns; `values` is the address
of the caller's vector, `defaultOf` the default content of a member type, and the
result is the pair `(type, value)` of the `GenericValuePtr`. -/
def makeGenericTuplePtr {V : Type} (defaultOf : QiType → V) (types : List QiType)
    (values : Nat) (st : Factories) (s : MapState V) :
    Option (Except String (QiType × Nat)) × Factories :=
  match makeTupleType types "" [] st with
  | (tupleType, st1) =>
    match tupleType with
    | .tuple _ memberTypes _ _ =>
      (match DefaultTupleType.initializeStorage (memberTypes.map defaultOf) s (some values) with
        | none => none
        | some (.error e) => some (.error e)
        | some (.ok (storage, _)) => some (.ok (tupleType, storage)),
       st1)
    | _ => (none, st1)

/-! ## `DefaultMapType::clone` and the maps reachable from an empty one -/

/-- The loop of `DefaultMapType::clone` over the entries of the source map not yet
visited; `dst` holds the entries of the new map so far. Each pair is cloned by
`_pairType->clone` (the pair type has the key type and the element type as
members, of default contents `kdflt` and `dflt`), `clonedPair[0]` reads its slot 0
through `DefaultTupleType::get`, and `dst[clonedPair[0]] = clonedPair.value`
assigns the entry. -/
def DefaultMapType.cloneLoop {V : Type} (less : V → V → Bool) (kdflt dflt : V) :
    List (Nat × Nat) → List (Nat × Nat) → MapState V → Option (List (Nat × Nat) × MapState V)
  | [], dst, s => some (dst, s)
  | (_, pairPtr) :: rest, dst, s =>
    match DefaultTupleType.clone [kdflt, dflt] s pairPtr with
    | none => none
    | some (clonedPair, s1) =>
      match DefaultTupleType.get s1 clonedPair 0 with
      | some (some key, s2) =>
        match s2.content key with
        | none => none
        | some kc =>
          match DefaultMapType.assignLoop less s2 kc key clonedPair dst with
          | none => none
          | some dst2 => DefaultMapType.cloneLoop less kdflt dflt rest dst2 s2
      | _ => none

/-- `DefaultMapType::clone(storage)`: the entries of the new map and the storages
afterwards (the source map is still `entries`). -/
def DefaultMapType.clone {V : Type} (less : V → V → Bool) (kdflt dflt : V) (s : MapState V) :
    Option (List (Nat × Nat) × MapState V) :=
  DefaultMapType.cloneLoop less kdflt dflt s.entries [] s

/-- The keys of the entries are pairwise not equivalent under `less` (the
uniqueness of keys of a `std::map`). -/
def MapState.KeysApart {V : Type} (less : V → V → Bool) (s : MapState V) : Prop :=
  s.entries.Pairwise (fun e1 e2 => ∀ c1 c2, s.content e1.1 = some c1 →
    s.content e2.1 = some c2 → (!less c1 c2 && !less c2 c1) = false)

/-- The invariant of a default map: well-formed, with keys pairwise not
equivalent. -/
def MapState.Valid {V : Type} (less : V → V → Bool) (s : MapState V) : Prop :=
  s.WellFormed ∧ s.KeysApart less

/-- The default maps reachable from an empty map (in any heap where nothing lives
at or above the next address) by `insert` and `element` with storages that are
alive, by `clone` (going on with the clone or with the source), and by the
allocation of further storages. -/
inductive MapState.Reachable {V : Type} (less : V → V → Bool) (kdflt dflt : V) :
    MapState V → Prop
  | empty (s : MapState V) (he : s.entries = [])
      (hc : ∀ h, s.nextStorage ≤ h → s.content h = none)
      (hv : ∀ h, s.nextStorage ≤ h → s.vectors h = none) : MapState.Reachable less kdflt dflt s
  | insert (s s2 : MapState V) (k v : Nat) (kc vc : V)
      (hr : MapState.Reachable less kdflt dflt s)
      (hk : s.content k = some kc) (hv : s.content v = some vc)
      (h : DefaultMapType.insert less s k v = some s2) : MapState.Reachable less kdflt dflt s2
  | element (s s2 : MapState V) (k : Nat) (kc : V) (autoInsert : Bool) (r : ElementPtr)
      (hr : MapState.Reachable less kdflt dflt s)
      (hk : s.content k = some kc)
      (h : DefaultMapType.element less dflt s k autoInsert = some (r, s2)) :
      MapState.Reachable less kdflt dflt s2
  | clone (s s2 : MapState V) (dst : List (Nat × Nat))
      (hr : MapState.Reachable less kdflt dflt s)
      (h : DefaultMapType.clone less kdflt dflt s = some (dst, s2)) :
      MapState.Reachable less kdflt dflt { s2 with entries := dst }
  | cloneSource (s s2 : MapState V) (dst : List (Nat × Nat))
      (hr : MapState.Reachable less kdflt dflt s)
      (h : DefaultMapType.clone less kdflt dflt s = some (dst, s2)) :
      MapState.Reachable less kdflt dflt s2
  | allocate (s : MapState V) (c : V) (hr : MapState.Reachable less kdflt dflt s) :
      MapState.Reachable less kdflt dflt (s.initializeStorage c).2

/-! ## The default tuple: `destroy`, and the storages a tuple type produces -/

/-- The loop `for (i = 0; i < ptr.size(); ++i) _types[i]->destroy(ptr[i]);` of
`DefaultTupleType::destroy`, from index `i` on, for a tuple type with `memberCount`
member types; reading `_types[i]` out of range and the `destroy` of a null slot or
of a storage that is not alive are undefined (`none`). -/
def DefaultTupleType.destroyLoop {V : Type} (memberCount : Nat) :
    List (Option Nat) → Nat → MapState V → Option (MapState V)
  | [], _, s => some s
  | slot :: rest, i, s =>
    if i < memberCount then
      match slot with
      | none => none
      | some h =>
        match s.destroy h with
        | none => none
        | some s1 => DefaultTupleType.destroyLoop memberCount rest (i + 1) s1
    else none

/-- `DefaultTupleType::destroy(storage)`: destroys every slot with the member type
of its position, then `Methods::destroy(storage)` deletes the vector (logged in
`destroyed` like the other storages). -/
def DefaultTupleType.destroy {V : Type} (memberCount : Nat) (s : MapState V) (storage : Nat) :
    Option (MapState V) :=
  match s.vectors storage with
  | none => none
  | some ptr =>
    match DefaultTupleType.destroyLoop memberCount ptr 0 s with
    | none => none
    | some s1 =>
      some { s1 with vectors := Function.update s1.vectors storage none,
                     destroyed := storage :: s1.destroyed }

/-- The positions at which `DefaultTupleType::set(storage, index, valStorage)`
reads the member-type table: `_types[index]`, for the `destroy` of the occupant and
for the `clone`. -/
def DefaultTupleType.setReads (index : Nat) : List Nat := [index]

/-- The positions at which the loop of `DefaultTupleType::initializeStorage()`
reads the member-type table: `_types[i]` for every `i < ret->size()`, after the
resize to `_types.size()`. -/
def DefaultTupleType.initializeStorageReads (memberCount : Nat) : List Nat :=
  List.range memberCount

/-- The positions at which `DefaultTupleType::clone(storage)` reads the member-type
table, `src` being the vector of `storage`: those of `initializeStorage()`, then
those of `set(&result, i, src[i])` for every `i < src.size()`. -/
def DefaultTupleType.cloneReads (memberCount : Nat) (src : List (Option Nat)) : List Nat :=
  DefaultTupleType.initializeStorageReads memberCount
    ++ (List.range src.length).flatMap DefaultTupleType.setReads

/-- The positions at which `DefaultTupleType::destroy(storage)` reads the
member-type table, `ptr` being the vector of `storage`: `_types[i]` for every
`i < ptr.size()`. -/
def DefaultTupleType.destroyReads (ptr : List (Option Nat)) : List Nat :=
  List.range ptr.length

/-- The heaps a default tuple type whose member types have the default contents
`defaults` can reach, with the storages of that type in them: a storage enters the
list when `initializeStorage` (seeded or not) or `clone` returns it, is then passed
to `get` and `set` with an index below the number of member types and to `clone`,
and leaves the list when `destroy` takes it; `other` is any step of other code,
which leaves the vectors of the listed storages as they are. -/
inductive DefaultTupleType.Reachable {V : Type} (defaults : List V) :
    MapState V → List Nat → Prop
  | start (s : MapState V) : DefaultTupleType.Reachable defaults s []
  | initializeStorage (s s2 : MapState V) (ts : List Nat) (ptr : Option Nat) (r : Nat)
      (hr : DefaultTupleType.Reachable defaults s ts)
      (h : DefaultTupleType.initializeStorage defaults s ptr = some (.ok (r, s2))) :
      DefaultTupleType.Reachable defaults s2 (r :: ts)
  | get (s s2 : MapState V) (ts : List Nat) (t index : Nat) (slot : Option Nat)
      (hr : DefaultTupleType.Reachable defaults s ts) (ht : t ∈ ts)
      (hi : index < defaults.length)
      (h : DefaultTupleType.get s t index = some (slot, s2)) :
      DefaultTupleType.Reachable defaults s2 ts
  | set (s s2 : MapState V) (ts : List Nat) (t index valStorage : Nat)
      (hr : DefaultTupleType.Reachable defaults s ts) (ht : t ∈ ts)
      (hi : index < defaults.length)
      (h : DefaultTupleType.set defaults.length s t index valStorage = some s2) :
      DefaultTupleType.Reachable defaults s2 ts
  | clone (s s2 : MapState V) (ts : List Nat) (t r : Nat)
      (hr : DefaultTupleType.Reachable defaults s ts) (ht : t ∈ ts)
      (h : DefaultTupleType.clone defaults s t = some (r, s2)) :
      DefaultTupleType.Reachable defaults s2 (r :: ts)
  | destroy (s s2 : MapState V) (ts : List Nat) (t : Nat)
      (hr : DefaultTupleType.Reachable defaults s ts) (ht : t ∈ ts)
      (h : DefaultTupleType.destroy defaults.length s t = some s2) :
      DefaultTupleType.Reachable defaults s2 (ts.filter (fun a => decide (a ≠ t)))
  | other (s s2 : MapState V) (ts : List Nat)
      (hr : DefaultTupleType.Reachable defaults s ts)
      (h : ∀ t, t ∈ ts → s2.vectors t = s.vectors t) :
      DefaultTupleType.Reachable defaults s2 ts

/-- The heap after `clone` of the sample pair at address 4 by the pair type with
default contents 0 and 0: the new vector is at address 5. -/
def MapState.sampleCloned : MapState Int :=
  match DefaultTupleType.clone [0, 0] MapState.samplePair 4 with
  | some (_, s) => s
  | none => MapState.samplePair

/-! ## Theorems -/

theorem Signature.IsSingle.isValid {s : Signature} (h : s.IsSingle) : s.isValid = true := by
  obtain ⟨n, rfl⟩ := h; rfl

/-! ### Every inferred signature has exactly one top-level element -/

theorem fromType_single (t : SigType) : (Signature.fromType t).IsSingle := ⟨_, rfl⟩

theorem visitInt_single (v : Int) (g : Bool) (n : Int) : (visitInt v g n).IsSingle := by
  unfold visitInt
  dsimp only
  repeat' split
  all_goals apply fromType_single

theorem visitFloat_single (v : Nat) (n : Int) : (visitFloat v n).IsSingle := by
  unfold visitFloat
  split <;> apply fromType_single

theorem makeListSignature_single {s : Signature} (h : s.IsSingle) :
    (makeListSignature s).IsSingle := by
  obtain ⟨n, rfl⟩ := h; exact ⟨_, rfl⟩

theorem makeMapSignature_single {a b : Signature} (ha : a.IsSingle) (hb : b.IsSingle) :
    (makeMapSignature a b).IsSingle := by
  obtain ⟨n, rfl⟩ := ha; obtain ⟨m, rfl⟩ := hb; exact ⟨_, rfl⟩

theorem concatMembers_of_single (l : List Signature) (h : ∀ s ∈ l, s.IsSingle) :
    ∃ ns, concatMembers l = some ns := by
  induction l with
  | nil => exact ⟨[], rfl⟩
  | cons a l ih =>
    obtain ⟨n, rfl⟩ := h a (List.mem_cons_self _ _)
    obtain ⟨ns, hns⟩ := ih (fun s hs => h s (List.mem_cons_of_mem _ hs))
    exact ⟨[n] ++ ns, by simp [concatMembers, hns]⟩

theorem makeTupleSignatureOf_single (l : List Signature) (h : ∀ s ∈ l, s.IsSingle) :
    ∃ ns, makeTupleSignatureOf l = .mk [.tuple ns none] := by
  obtain ⟨ns, hns⟩ := concatMembers_of_single l h
  exact ⟨ns, by simp [makeTupleSignatureOf, hns]⟩

theorem makeTupleSignature_single (l : List Signature) (name : String) (an : List String)
    (h : ∀ s ∈ l, s.IsSingle) : (makeTupleSignature l name an).IsSingle := by
  obtain ⟨ns, hns⟩ := makeTupleSignatureOf_single l h
  unfold makeTupleSignature
  split_ifs
  · rw [hns]; exact ⟨_, rfl⟩
  · rw [hns]; exact ⟨_, rfl⟩

mutual
theorem signatureFalse_single (conv : Signature → Signature → Bool) :
    ∀ t : QiType, ∃ s, t.signatureFalse conv = some s ∧ s.IsSingle
  | .void _ => ⟨_, rfl, _, rfl⟩
  | .int _ g n => ⟨_, rfl, visitInt_single _ _ _⟩
  | .float _ n => ⟨_, rfl, visitFloat_single _ _⟩
  | .string _ => ⟨_, rfl, _, rfl⟩
  | .list _ e => by
    obtain ⟨s, hs, hsingle⟩ := signatureFalse_single conv e
    exact ⟨makeListSignature s, by simp [QiType.signatureFalse, hs, visitList],
      makeListSignature_single hsingle⟩
  | .map _ k e => by
    obtain ⟨s, hs, hsingle⟩ := signatureFalse_single conv k
    obtain ⟨s2, hs2, hsingle2⟩ := signatureFalse_single conv e
    exact ⟨makeMapSignature s s2, by simp [QiType.signatureFalse, hs, hs2, visitMap],
      makeMapSignature_single hsingle hsingle2⟩
  | .object _ => ⟨_, rfl, _, rfl⟩
  | .pointer _ pk pt => by
    simp only [QiType.signatureFalse]
    split_ifs
    · exact ⟨_, rfl, _, rfl⟩
    · exact ⟨_, rfl, _, rfl⟩
  | .tuple _ ms c an => by
    obtain ⟨l, hl, hsingle⟩ := signatureFalseList_single conv ms
    exact ⟨_, by simp [QiType.signatureFalse, hl], makeTupleSignature_single l c an hsingle⟩
  | .dynamic i => by
    simp only [QiType.signatureFalse]
    split_ifs
    · exact ⟨_, rfl, _, rfl⟩
    · exact ⟨_, rfl, _, rfl⟩
  | .raw _ => ⟨_, rfl, _, rfl⟩
  | .unknown _ => ⟨_, rfl, _, rfl⟩
  | .iterator _ => ⟨_, rfl, _, rfl⟩
theorem signatureFalseList_single (conv : Signature → Signature → Bool) :
    ∀ ts : List QiType, ∃ l, allSome (QiType.signatureFalseList conv ts) = some l
      ∧ ∀ s ∈ l, s.IsSingle
  | [] => ⟨[], rfl, by simp⟩
  | t :: rest => by
    obtain ⟨s, hs, hsingle⟩ := signatureFalse_single conv t
    obtain ⟨l, hl, hall⟩ := signatureFalseList_single conv rest
    refine ⟨s :: l, by simp [QiType.signatureFalseList, allSome, hs, hl], ?_⟩
    intro x hx
    rcases List.mem_cons.1 hx with rfl | hx
    · exact hsingle
    · exact hall x hx
end

theorem visitList_loop_single (conv : Signature → Signature → Bool) :
    ∀ (elems : List (Option Signature)) (first r : Signature),
      (first.IsSingle ∨ first = .invalid) →
      (∀ s, some s ∈ elems → s.IsSingle) →
      visitList.loop conv first elems = some r → (r.IsSingle ∨ r = .invalid) := by
  intro elems
  induction elems with
  | nil =>
    intro first r hf _ h
    simp only [visitList.loop, Option.some.injEq] at h
    exact h ▸ hf
  | cons o rest ih =>
    intro first r hf hall h
    have hrest : ∀ s, some s ∈ rest → s.IsSingle := fun s hs => hall s (List.mem_cons_of_mem _ hs)
    unfold visitList.loop at h
    split at h
    · cases o with
      | none => simp at h
      | some sig =>
        have hsig : sig.IsSingle := hall sig (List.mem_cons_self _ _)
        dsimp only at h
        split at h
        · split at h
          · exact ih first r hf hrest h
          · split at h
            · exact ih sig r (Or.inl hsig) hrest h
            · exact ih .invalid r (Or.inr rfl) hrest h
        · exact ih first r hf hrest h
    · simp only [Option.some.injEq] at h
      exact h ▸ hf

theorem visitList_single (conv : Signature → Signature → Bool) (esig : Signature)
    (rd : Bool) (elems : List (Option Signature)) (r : Signature)
    (he : esig.IsSingle) (hall : ∀ s, some s ∈ elems → s.IsSingle)
    (h : visitList conv esig rd elems = some r) : r.IsSingle := by
  unfold visitList at h
  split at h
  · simp only [Option.some.injEq] at h
    exact h ▸ makeListSignature_single he
  · split at h
    · simp only [Option.some.injEq] at h
      exact h ▸ makeListSignature_single (fromType_single _)
    · simp at h
    · rename_i first rest
      split at h
      · simp at h
      · rename_i sigFirst hloop
        simp only [Option.some.injEq] at h
        have h1 := visitList_loop_single conv rest first sigFirst
          (Or.inl (hall first (List.mem_cons_self _ _)))
          (fun s hs => hall s (List.mem_cons_of_mem _ hs)) hloop
        rw [← h]
        apply makeListSignature_single
        rcases h1 with h1 | h1
        · rw [if_pos h1.isValid]; exact h1
        · rw [h1]; exact he

theorem visitMap_loop_single (conv : Signature → Signature → Bool) :
    ∀ (entries : List (Option Signature × Option Signature)) (k0 v0 k1 v1 : Signature),
      (k0.IsSingle ∨ k0 = .invalid) → (v0.IsSingle ∨ v0 = .invalid) →
      (∀ a b, (some a, some b) ∈ entries → a.IsSingle ∧ b.IsSingle) →
      visitMap.loop conv k0 v0 entries = some (k1, v1) →
      (k1.IsSingle ∨ k1 = .invalid) ∧ (v1.IsSingle ∨ v1 = .invalid) := by
  intro entries
  induction entries with
  | nil =>
    intro k0 v0 k1 v1 hk hv _ h
    simp only [visitMap.loop, Option.some.injEq, Prod.mk.injEq] at h
    exact ⟨h.1 ▸ hk, h.2 ▸ hv⟩
  | cons e rest ih =>
    intro k0 v0 k1 v1 hk hv hall h
    have hrest : ∀ a b, (some a, some b) ∈ rest → a.IsSingle ∧ b.IsSingle :=
      fun a b hab => hall a b (List.mem_cons_of_mem _ hab)
    obtain ⟨ok, ov⟩ := e
    cases ok with
    | none => simp [visitMap.loop] at h
    | some k =>
      cases ov with
      | none => simp [visitMap.loop] at h
      | some v =>
        obtain ⟨hks, hvs⟩ := hall k v (List.mem_cons_self _ _)
        simp only [visitMap.loop] at h
        refine ih _ _ k1 v1 ?_ ?_ hrest h
        · split
          · split
            · exact hk
            · split
              · exact Or.inl hks
              · exact Or.inr rfl
          · exact hk
        · split
          · split
            · exact hv
            · split
              · exact Or.inl hvs
              · exact Or.inr rfl
          · exact hv

theorem visitMap_single (conv : Signature → Signature → Bool) (ksig esig : Signature)
    (rd : Bool) (entries : List (Option Signature × Option Signature)) (r : Signature)
    (hk : ksig.IsSingle) (he : esig.IsSingle)
    (hall : ∀ a b, (some a, some b) ∈ entries → a.IsSingle ∧ b.IsSingle)
    (h : visitMap conv ksig esig rd entries = some r) : r.IsSingle := by
  unfold visitMap at h
  split at h
  · simp only [Option.some.injEq] at h
    exact h ▸ makeMapSignature_single hk he
  · split at h
    · simp only [Option.some.injEq] at h
      exact h ▸ makeMapSignature_single (fromType_single _) (fromType_single _)
    · rename_i k0 v0 rest
      split at h
      · simp at h
      · rename_i k1 v1 hloop
        simp only [Option.some.injEq] at h
        obtain ⟨hk0, hv0⟩ := hall k0 v0 (List.mem_cons_self _ _)
        obtain ⟨h1, h2⟩ := visitMap_loop_single conv rest k0 v0 k1 v1 (Or.inl hk0) (Or.inl hv0)
          (fun a b hab => hall a b (List.mem_cons_of_mem _ hab)) hloop
        rw [← h]
        apply makeMapSignature_single
        · rcases h1 with h1 | h1
          · rw [if_pos h1.isValid]; exact h1
          · rw [h1]; exact hk
        · rcases h2 with h2 | h2
          · rw [if_pos h2.isValid]; exact h2
          · rw [h2]; exact he
    · simp at h

theorem allSome_eq_some : ∀ (l : List (Option Signature)) (ms : List Signature),
    allSome l = some ms → l = ms.map some
  | [], ms, h => by simp [allSome] at h; subst h; rfl
  | none :: _, ms, h => by simp [allSome] at h
  | some s :: rest, ms, h => by
    simp only [allSome] at h
    split at h
    · rename_i l hl
      simp only [Option.some.injEq] at h
      subst h
      simp [allSome_eq_some rest l hl]
    · simp at h

theorem allSome_map_some (ms : List Signature) : allSome (ms.map some) = some ms := by
  induction ms with
  | nil => rfl
  | cons a l ih => simp [allSome, ih]

theorem visitTuple_single (name : String) (vals : List (Option Signature))
    (annotations : List String) (r : Signature)
    (hall : ∀ s, some s ∈ vals → s.IsSingle)
    (h : visitTuple name vals annotations = some r) : r.IsSingle := by
  unfold visitTuple at h
  split at h
  · simp at h
  · rename_i members hm
    have hv := allSome_eq_some vals members hm
    have hms : ∀ s ∈ members, s.IsSingle := by
      intro s hs
      apply hall
      rw [hv]
      exact List.mem_map_of_mem _ hs
    obtain ⟨ns, hns⟩ := makeTupleSignatureOf_single members hms
    dsimp only at h
    rw [hns] at h
    split at h
    · split at h
      · simp at h
      · simp only [Option.some.injEq] at h
        exact h ▸ ⟨_, rfl⟩
    · simp only [Option.some.injEq] at h
      exact h ▸ ⟨_, rfl⟩

theorem signatureTruePairs_mem (conv : Signature → Signature → Bool) :
    ∀ (pairs : List GenericValuePtr) (a b : Signature),
      (some a, some b) ∈ GenericValuePtr.signatureTruePairs conv pairs →
      ∃ p ∈ pairs, ∃ t k v rest, p = .mk t (.tuple (k :: v :: rest))
        ∧ k.signatureTrue conv = some a ∧ v.signatureTrue conv = some b
  | [], a, b, h => by simp [GenericValuePtr.signatureTruePairs] at h
  | p :: ps, a, b, h => by
    have ih := signatureTruePairs_mem conv ps a b
    cases p with
    | mk t st =>
      cases st with
      | tuple vals =>
        match vals, h with
        | [], h =>
          simp [GenericValuePtr.signatureTruePairs] at h
          obtain ⟨p, hp, h2⟩ := ih h
          exact ⟨p, List.mem_cons_of_mem _ hp, h2⟩
        | [_], h =>
          simp [GenericValuePtr.signatureTruePairs] at h
          obtain ⟨p, hp, h2⟩ := ih h
          exact ⟨p, List.mem_cons_of_mem _ hp, h2⟩
        | k :: v :: rest, h =>
          simp only [GenericValuePtr.signatureTruePairs, List.mem_cons, Prod.mk.injEq] at h
          rcases h with ⟨h1, h2⟩ | h
          · exact ⟨_, List.mem_cons_self _ _, t, k, v, rest, rfl, h1.symm, h2.symm⟩
          · obtain ⟨p, hp, h2⟩ := ih h
            exact ⟨p, List.mem_cons_of_mem _ hp, h2⟩
      | _ =>
        simp [GenericValuePtr.signatureTruePairs] at h
        obtain ⟨p, hp, h2⟩ := ih h
        exact ⟨p, List.mem_cons_of_mem _ hp, h2⟩

theorem signatureTrueList_eq_map (conv : Signature → Signature → Bool) :
    ∀ l : List GenericValuePtr,
      GenericValuePtr.signatureTrueList conv l = l.map (fun v => v.signatureTrue conv)
  | [] => rfl
  | v :: rest => by
    simp [GenericValuePtr.signatureTrueList, signatureTrueList_eq_map conv rest]

mutual
theorem signatureTrue_single_storage (conv : Signature → Signature → Bool) :
    ∀ (st : Storage),
      (∀ (t : QiType) (s : Signature),
        (GenericValuePtr.mk t st).signatureTrue conv = some s → s.IsSingle)
      ∧ (∀ vals, st = .tuple vals →
          ∀ v ∈ vals, ∀ s, v.signatureTrue conv = some s → s.IsSingle)
  | .null => by
    refine ⟨fun t s h => ?_, fun vals hv => by cases hv⟩
    cases t <;> simp only [GenericValuePtr.signatureTrue] at h <;>
      first
      | (cases h <;> exact ⟨_, rfl⟩)
      | (split at h <;> cases h <;> exact ⟨_, rfl⟩)
  | .int _ => by
    refine ⟨fun t s h => ?_, fun vals hv => by cases hv⟩
    cases t <;> simp only [GenericValuePtr.signatureTrue] at h <;>
      first
      | (cases h <;> first | exact ⟨_, rfl⟩ | exact visitInt_single _ _ _)
      | (split at h <;> cases h <;> exact ⟨_, rfl⟩)
  | .float _ => by
    refine ⟨fun t s h => ?_, fun vals hv => by cases hv⟩
    cases t <;> simp only [GenericValuePtr.signatureTrue] at h <;>
      first
      | (cases h <;> first | exact ⟨_, rfl⟩ | exact visitFloat_single _ _)
      | (split at h <;> cases h <;> exact ⟨_, rfl⟩)
  | .string _ => by
    refine ⟨fun t s h => ?_, fun vals hv => by cases hv⟩
    cases t <;> simp only [GenericValuePtr.signatureTrue] at h <;>
      first
      | (cases h <;> exact ⟨_, rfl⟩)
      | (split at h <;> cases h <;> exact ⟨_, rfl⟩)
  | .other => by
    refine ⟨fun t s h => ?_, fun vals hv => by cases hv⟩
    cases t <;> simp only [GenericValuePtr.signatureTrue] at h <;>
      first
      | (cases h <;> exact ⟨_, rfl⟩)
      | (split at h <;> cases h <;> exact ⟨_, rfl⟩)
  | .list elems => by
    have ih := signatureTrue_single_list conv elems
    refine ⟨fun t s h => ?_, fun vals hv => by cases hv⟩
    cases t
    case list info e =>
      simp only [GenericValuePtr.signatureTrue] at h
      obtain ⟨esig, he, hes⟩ := signatureFalse_single conv e
      rw [he] at h
      refine visitList_single conv esig true _ s hes ?_ h
      intro x hx
      rw [signatureTrueList_eq_map] at hx
      obtain ⟨v, hv, hvx⟩ := List.mem_map.1 hx
      exact (ih v hv).1 x hvx
    all_goals
      simp only [GenericValuePtr.signatureTrue] at h
      first
      | (cases h <;> exact ⟨_, rfl⟩)
      | (split at h <;> cases h <;> exact ⟨_, rfl⟩)
  | .map pairs => by
    have ih := signatureTrue_single_list conv pairs
    refine ⟨fun t s h => ?_, fun vals hv => by cases hv⟩
    cases t
    case map info k e =>
      simp only [GenericValuePtr.signatureTrue] at h
      obtain ⟨ksig, hk, hks⟩ := signatureFalse_single conv k
      obtain ⟨esig, he, hes⟩ := signatureFalse_single conv e
      rw [hk, he] at h
      refine visitMap_single conv ksig esig true _ s hks hes ?_ h
      intro a b hab
      obtain ⟨p, hp, t2, kv, vv, rest, rfl, hka, hvb⟩ :=
        signatureTruePairs_mem conv pairs a b hab
      have hp1 := (ih _ hp).2 t2 _ rfl
      exact ⟨hp1 kv (List.mem_cons_self _ _) a hka,
        hp1 vv (List.mem_cons_of_mem _ (List.mem_cons_self _ _)) b hvb⟩
    all_goals
      simp only [GenericValuePtr.signatureTrue] at h
      first
      | (cases h <;> exact ⟨_, rfl⟩)
      | (split at h <;> cases h <;> exact ⟨_, rfl⟩)
  | .tuple vals => by
    have ih := signatureTrue_single_list conv vals
    refine ⟨fun t s h => ?_, fun vals2 hv => ?_⟩
    · cases t
      case tuple info ms c an =>
        simp only [GenericValuePtr.signatureTrue] at h
        refine visitTuple_single c _ an s ?_ h
        intro x hx
        rw [signatureTrueList_eq_map] at hx
        obtain ⟨v, hv, hvx⟩ := List.mem_map.1 hx
        exact (ih v hv).1 x hvx
      all_goals
        simp only [GenericValuePtr.signatureTrue] at h
        first
        | (cases h <;> exact ⟨_, rfl⟩)
        | (split at h <;> cases h <;> exact ⟨_, rfl⟩)
    · cases hv
      exact fun v hv => (ih v hv).1
  | .dynamic p => by
    have ih := signatureTrue_single conv p
    refine ⟨fun t s h => ?_, fun vals hv => by cases hv⟩
    cases t
    case dynamic info =>
      simp only [GenericValuePtr.signatureTrue, visitDynamic] at h
      split at h
      · cases h; exact ⟨_, rfl⟩
      · exact ih.1 s (by simpa using h)
    all_goals
      simp only [GenericValuePtr.signatureTrue] at h
      first
      | (cases h <;> exact ⟨_, rfl⟩)
      | (split at h <;> cases h <;> exact ⟨_, rfl⟩)

theorem signatureTrue_single (conv : Signature → Signature → Bool) :
    ∀ (v : GenericValuePtr),
      (∀ s, v.signatureTrue conv = some s → s.IsSingle)
      ∧ (∀ t vals, v = .mk t (.tuple vals) →
          ∀ x ∈ vals, ∀ s, x.signatureTrue conv = some s → s.IsSingle)
  | .mk t st =>
    ⟨fun s h => (signatureTrue_single_storage conv st).1 t s h,
     fun _ vals hv => (signatureTrue_single_storage conv st).2 vals (by cases hv; rfl)⟩
theorem signatureTrue_single_list (conv : Signature → Signature → Bool) :
    ∀ (l : List GenericValuePtr), ∀ v ∈ l,
      (∀ s, v.signatureTrue conv = some s → s.IsSingle)
      ∧ (∀ t vals, v = .mk t (.tuple vals) →
          ∀ x ∈ vals, ∀ s, x.signatureTrue conv = some s → s.IsSingle)
  | [], v, hv => by simp at hv
  | x :: rest, v, hv => by
    rcases List.mem_cons.1 hv with rfl | hv
    · exact signatureTrue_single conv _
    · exact signatureTrue_single_list conv rest v hv
end

theorem signature_true_single (conv : Signature → Signature → Bool) (v : GenericValuePtr)
    (s : Signature) (h : v.signature conv true = some s) : s.IsSingle := by
  cases v with
  | mk t st => exact (signatureTrue_single conv (.mk t st)).1 s h

/-! ### The loops of `visitList` and `visitMap` compute the reference reconciliation -/

theorem specReconcileStep_invalid (conv : Signature → Signature → Bool) (l : List Signature) :
    l.foldl (specReconcileStep conv) .invalid = .invalid := by
  induction l with
  | nil => rfl
  | cons a l ih => simpa [specReconcileStep, Signature.isValid] using ih

theorem visitList_loop_eq (conv : Signature → Signature → Bool) :
    ∀ (rest : List Signature) (first : Signature),
      visitList.loop conv first (rest.map some)
        = some (rest.foldl (specReconcileStep conv) first) := by
  intro rest
  induction rest with
  | nil => intro first; rfl
  | cons a l ih =>
    intro first
    simp only [List.map_cons, List.foldl_cons]
    unfold visitList.loop
    cases hv : first.isValid with
    | false =>
      cases first with
      | invalid => simp [specReconcileStep, Signature.isValid, specReconcileStep_invalid]
      | mk l => simp [Signature.isValid] at hv
    | true =>
      simp only [if_true]
      by_cases hne : a = first
      · subst hne
        simp [specReconcileStep, hv, ih]
      · have hb : (a != first) = true := by simpa using hne
        simp only [hb, if_true]
        by_cases h1 : conv a first = true
        · simp [specReconcileStep, hv, hne, h1, ih]
        · by_cases h2 : conv first a = true
          · simp [specReconcileStep, hv, hne, h1, h2, ih]
          · simp [specReconcileStep, hv, hne, h1, h2, ih]

theorem visitList_eq_spec (conv : Signature → Signature → Bool) (esig : Signature)
    (sigs : List Signature) :
    visitList conv esig true (sigs.map some)
      = some (makeListSignature (specReconcile conv esig sigs)) := by
  cases sigs with
  | nil => rfl
  | cons first rest =>
    simp only [visitList, List.map_cons, visitList_loop_eq, specReconcile]
    simp

theorem visitMap_step_eq (conv : Signature → Signature → Bool) (ksig k : Signature) :
    (if (ksig.isValid && ksig != k) = true then
        if conv k ksig = true then ksig
        else if conv ksig k = true then k
        else Signature.invalid
      else ksig) = specReconcileStep conv ksig k := by
  unfold specReconcileStep
  cases hv : ksig.isValid with
  | false => simp
  | true =>
    by_cases hne : k = ksig
    · subst hne; simp
    · have hne2 : ksig ≠ k := fun h => hne h.symm
      simp [hne, hne2]

theorem visitMap_loop_eq (conv : Signature → Signature → Bool) :
    ∀ (rest : List (Signature × Signature)) (k0 v0 : Signature),
      visitMap.loop conv k0 v0 (rest.map (fun e => (some e.1, some e.2)))
        = some ((rest.map Prod.fst).foldl (specReconcileStep conv) k0,
            (rest.map Prod.snd).foldl (specReconcileStep conv) v0) := by
  intro rest
  induction rest with
  | nil => intro k0 v0; rfl
  | cons e l ih =>
    intro k0 v0
    simp only [List.map_cons, List.foldl_cons, visitMap.loop, visitMap_step_eq, ih]

theorem visitMap_eq_spec (conv : Signature → Signature → Bool) (keySig elementSig : Signature)
    (entries : List (Signature × Signature)) (hne : entries ≠ []) :
    visitMap conv keySig elementSig true (entries.map (fun e => (some e.1, some e.2)))
      = some (makeMapSignature (specReconcile conv keySig (entries.map Prod.fst))
          (specReconcile conv elementSig (entries.map Prod.snd))) := by
  cases entries with
  | nil => exact absurd rfl hne
  | cons first rest =>
    simp only [visitMap, List.map_cons, visitMap_loop_eq, specReconcile]
    simp

theorem specReconcile_replicate (conv : Signature → Signature → Bool) (s : Signature)
    (l : List Signature) (h : ∀ x ∈ l, x = s) :
    l.foldl (specReconcileStep conv) s = s := by
  induction l with
  | nil => rfl
  | cons a l ih =>
    have ha : a = s := h a (List.mem_cons_self _ _)
    subst ha
    have : specReconcileStep conv a a = a := by
      unfold specReconcileStep; split <;> simp
    simp only [List.foldl_cons, this]
    exact ih (fun x hx => h x (List.mem_cons_of_mem _ hx))

theorem signature_true_eq (conv : Signature → Signature → Bool) (v : GenericValuePtr) :
    v.signature conv true = v.signatureTrue conv := by
  cases v; rfl

theorem signature_false_eq (conv : Signature → Signature → Bool) (v : GenericValuePtr) :
    v.signature conv false = v.type.signatureFalse conv := by
  cases v; rfl

theorem signatureTrueList_of_all (conv : Signature → Signature → Bool)
    (elems : List GenericValuePtr) (sigs : List Signature)
    (h : List.Forall₂ (fun e s => e.signature conv true = some s) elems sigs) :
    GenericValuePtr.signatureTrueList conv elems = sigs.map some := by
  induction h with
  | nil => rfl
  | @cons a b l1 l2 hab _ ih =>
    rw [signature_true_eq] at hab
    simp only [GenericValuePtr.signatureTrueList, List.map_cons, ih, hab]

theorem list_signature_true (conv : Signature → Signature → Bool) (info : TypeInfo)
    (elementType : QiType) (elems : List GenericValuePtr) (sigs : List Signature)
    (esig : Signature) (he : elementType.signatureFalse conv = some esig)
    (h : List.Forall₂ (fun e s => e.signature conv true = some s) elems sigs) :
    (GenericValuePtr.mk (.list info elementType) (.list elems)).signature conv true
      = some (makeListSignature (specReconcile conv esig sigs)) := by
  show (GenericValuePtr.mk (.list info elementType) (.list elems)).signatureTrue conv = _
  simp only [GenericValuePtr.signatureTrue, he, signatureTrueList_of_all conv elems sigs h,
    visitList_eq_spec]

/-! ### Lists (C3, C4, C5) -/

theorem signatureFalse_total (conv : Signature → Signature → Bool) (t : QiType) :
    ∃ s, t.signatureFalse conv = some s := by
  obtain ⟨s, hs, _⟩ := signatureFalse_single conv t
  exact ⟨s, hs⟩

theorem forall₂_of_forall_eq (conv : Signature → Signature → Bool)
    (elems : List GenericValuePtr) (s : Signature)
    (hall : ∀ e ∈ elems, e.signature conv true = some s) :
    List.Forall₂ (fun e x => e.signature conv true = some x) elems
      (List.replicate elems.length s) := by
  induction elems with
  | nil => exact List.Forall₂.nil
  | cons a l ih =>
    exact List.Forall₂.cons (hall a (List.mem_cons_self _ _))
      (ih (fun e he => hall e (List.mem_cons_of_mem _ he)))

/-- C3: for every non-empty list all of whose elements have the same resolved
signature `s`, `signature_of(list, true)` is the list signature `[s]`, whatever
the declared element type is. -/
theorem list_signature_homogeneous (conv : Signature → Signature → Bool) (info : TypeInfo)
    (elementType : QiType) (elems : List GenericValuePtr) (s : Signature)
    (hne : elems ≠ [])
    (hall : ∀ e ∈ elems, e.signature conv true = some s) :
    (GenericValuePtr.mk (.list info elementType) (.list elems)).signature conv true
      = some (makeListSignature s) := by
  obtain ⟨esig, he⟩ := signatureFalse_total conv elementType
  rw [list_signature_true conv info elementType elems _ esig he
    (forall₂_of_forall_eq conv elems s hall)]
  cases elems with
  | nil => exact absurd rfl hne
  | cons a l =>
    have hs : s.IsSingle := signature_true_single conv a s (hall a (List.mem_cons_self _ _))
    simp only [List.length_cons, List.replicate_succ, specReconcile]
    rw [specReconcile_replicate conv s _ (fun x hx => List.eq_of_mem_replicate hx),
      if_pos hs.isValid]

/-- C4: for every list with at least two elements whose resolved signatures are
pairwise distinct and pairwise non-convertible (in both directions),
`signature_of(list, true)` is the list signature of the declared element type's
signature, the same result as `signature_of(list, false)`. -/
theorem list_signature_heterogeneous_fallback (conv : Signature → Signature → Bool)
    (info : TypeInfo) (elementType : QiType) (elems : List GenericValuePtr)
    (sigs : List Signature)
    (hlen : 2 ≤ elems.length)
    (hsigs : List.Forall₂ (fun e s => e.signature conv true = some s) elems sigs)
    (hpair : sigs.Pairwise (fun a b => a ≠ b ∧ conv a b = false ∧ conv b a = false)) :
    ∃ esig, elementType.signature conv .null false = some esig
      ∧ (GenericValuePtr.mk (.list info elementType) (.list elems)).signature conv true
          = some (makeListSignature esig)
      ∧ (GenericValuePtr.mk (.list info elementType) (.list elems)).signature conv true
          = (GenericValuePtr.mk (.list info elementType) (.list elems)).signature conv false := by
  obtain ⟨esig, he⟩ := signatureFalse_total conv elementType
  have hfalse : (GenericValuePtr.mk (.list info elementType) (.list elems)).signature conv false
      = some (makeListSignature esig) := by
    show (QiType.list info elementType).signatureFalse conv = _
    simp [QiType.signatureFalse, he, visitList]
  have htrue : (GenericValuePtr.mk (.list info elementType) (.list elems)).signature conv true
      = some (makeListSignature esig) := by
    rw [list_signature_true conv info elementType elems sigs esig he hsigs]
    match elems, sigs, hsigs, hlen, hpair with
    | x :: y :: _, a :: b :: rest, hsigs, _, hpair =>
      have ha : a.IsSingle := by
        cases hsigs with
        | cons h _ => exact signature_true_single conv x a h
      have hab := (List.pairwise_cons.1 hpair).1 b (List.mem_cons_self _ _)
      have hstep : specReconcileStep conv a b = .invalid := by
        unfold specReconcileStep
        rw [if_neg (by simp [ha.isValid]), if_neg (fun h => hab.1 h.symm),
          if_neg (by simp [hab.2.2]), if_neg (by simp [hab.2.1])]
      simp [specReconcile, hstep, specReconcileStep_invalid, Signature.isValid]
  exact ⟨esig, he, htrue, htrue.trans hfalse.symm⟩

/-- C5: for every two-element list whose elements have the resolved signatures
`a` (first) and `b` (second) with `a ≠ b`, `signature_of(list, true)` is `[a]` if
`b` is convertible to `a`, otherwise `[b]` if `a` is convertible to `b`,
otherwise the list signature of the declared element type. -/
theorem list_signature_two_elements (conv : Signature → Signature → Bool)
    (info : TypeInfo) (elementType : QiType) (x y : GenericValuePtr) (a b esig : Signature)
    (he : elementType.signature conv .null false = some esig)
    (hx : x.signature conv true = some a) (hy : y.signature conv true = some b)
    (hab : a ≠ b) :
    (GenericValuePtr.mk (.list info elementType) (.list [x, y])).signature conv true
      = some (makeListSignature
          (if conv b a = true then a else if conv a b = true then b else esig)) := by
  have ha : a.IsSingle := signature_true_single conv x a hx
  have hb : b.IsSingle := signature_true_single conv y b hy
  rw [list_signature_true conv info elementType [x, y] [a, b] esig he
    (List.Forall₂.cons hx (List.Forall₂.cons hy List.Forall₂.nil))]
  have hstep : specReconcileStep conv a b
      = if conv b a = true then a else if conv a b = true then b else Signature.invalid := by
    unfold specReconcileStep
    rw [if_neg (by simp [ha.isValid]), if_neg (fun h => hab h.symm)]
  simp only [specReconcile, List.foldl_cons, List.foldl_nil, hstep]
  by_cases h1 : conv b a = true
  · simp [h1, ha.isValid]
  · by_cases h2 : conv a b = true
    · simp [h1, h2, hb.isValid]
    · simp [h1, h2, Signature.isValid]

/-- C3 at three Int32 values: in a list declared of Dynamic the resolved signature is
`[i]`; in a list declared of Int32 it is `[i]` for both flags. -/
theorem list_signature_homogeneous_witness :
    ([dynamicOf (int32Value 1), dynamicOf (int32Value 2), dynamicOf (int32Value 3)]
        ≠ ([] : List GenericValuePtr))
    ∧ (GenericValuePtr.mk listOfDynamic
          (.list [dynamicOf (int32Value 1), dynamicOf (int32Value 2),
            dynamicOf (int32Value 3)])).signature Signature.isConvertibleTo true
        = some (makeListSignature (Signature.fromType .Type_Int32))
    ∧ (GenericValuePtr.mk listOfInt32
          (.list [int32Value 1, int32Value 2, int32Value 3])).signature
            Signature.isConvertibleTo true = some (.mk [.list (.leaf .Type_Int32)])
    ∧ (GenericValuePtr.mk listOfInt32
          (.list [int32Value 1, int32Value 2, int32Value 3])).signature
            Signature.isConvertibleTo false = some (.mk [.list (.leaf .Type_Int32)]) :=
  ⟨by simp,
   list_signature_homogeneous Signature.isConvertibleTo _ _ _ (Signature.fromType .Type_Int32)
    (by simp)
    (by
      intro e he
      simp only [List.mem_cons, List.mem_singleton, List.not_mem_nil, or_false] at he
      rcases he with rfl | rfl | rfl <;> rfl),
   by decide, by decide⟩

/-- C4 at the list `[int32(1), string("s")]` declared of Dynamic: the result is `[m]`. -/
theorem list_signature_heterogeneous_fallback_witness :
    (2 ≤ [dynamicOf (int32Value 1), dynamicOf (stringValue "s")].length)
    ∧ (GenericValuePtr.mk listOfDynamic
          (.list [dynamicOf (int32Value 1), dynamicOf (stringValue "s")])).signature
            Signature.isConvertibleTo true = some (.mk [.list (.leaf .Type_Dynamic)])
    ∧ (GenericValuePtr.mk listOfDynamic
          (.list [dynamicOf (int32Value 1), dynamicOf (stringValue "s")])).signature
            Signature.isConvertibleTo false = some (.mk [.list (.leaf .Type_Dynamic)]) := by
  obtain ⟨esig, he, h1, h2⟩ :=
    list_signature_heterogeneous_fallback Signature.isConvertibleTo
      (TypeInfo.ofString "list<dynamic>") typeOfGenericValue
      [dynamicOf (int32Value 1), dynamicOf (stringValue "s")]
      [Signature.fromType .Type_Int32, Signature.fromType .Type_String]
      (by decide)
      (List.Forall₂.cons rfl (List.Forall₂.cons rfl List.Forall₂.nil))
      (by decide)
  have hm : esig = Signature.fromType .Type_Dynamic := by
    have : some (Signature.fromType .Type_Dynamic) = some esig := he
    exact (Option.some.inj this).symm
  subst hm
  exact ⟨by decide, h1, h2 ▸ h1⟩

/-- C5 at the list `[int32(1), int64(2)]` declared of Dynamic, with the widening rule of
the specification: the result is `[l]`, and `[m]` without resolution. -/
theorem list_signature_two_elements_witness :
    (Signature.fromType .Type_Int32 ≠ Signature.fromType .Type_Int64)
    ∧ Signature.isConvertibleTo (Signature.fromType .Type_Int64)
        (Signature.fromType .Type_Int32) = false
    ∧ Signature.isConvertibleTo (Signature.fromType .Type_Int32)
        (Signature.fromType .Type_Int64) = true
    ∧ (GenericValuePtr.mk listOfDynamic
          (.list [dynamicOf (int32Value 1), dynamicOf (int64Value 2)])).signature
            Signature.isConvertibleTo true = some (.mk [.list (.leaf .Type_Int64)])
    ∧ (GenericValuePtr.mk listOfDynamic
          (.list [dynamicOf (int32Value 1), dynamicOf (int64Value 2)])).signature
            Signature.isConvertibleTo false = some (.mk [.list (.leaf .Type_Dynamic)]) :=
  ⟨by decide, by decide, by decide,
   list_signature_two_elements Signature.isConvertibleTo (TypeInfo.ofString "list<dynamic>")
     typeOfGenericValue (dynamicOf (int32Value 1)) (dynamicOf (int64Value 2))
     (Signature.fromType .Type_Int32) (Signature.fromType .Type_Int64)
     (Signature.fromType .Type_Dynamic) rfl rfl rfl (by decide),
   by decide⟩

/-! ### Maps (C6) and the storage-free branch (C7) -/

theorem signatureTruePairs_of_all (conv : Signature → Signature → Bool)
    (pairs : List GenericValuePtr) (entries : List (Signature × Signature))
    (h : List.Forall₂
      (fun p e => ∃ t k v rest, p = GenericValuePtr.mk t (.tuple (k :: v :: rest))
        ∧ k.signature conv true = some e.1 ∧ v.signature conv true = some e.2)
      pairs entries) :
    GenericValuePtr.signatureTruePairs conv pairs
      = entries.map (fun e => (some e.1, some e.2)) := by
  induction h with
  | nil => rfl
  | @cons p e l1 l2 hpe _ ih =>
    obtain ⟨t, k, v, rest, rfl, hk, hv⟩ := hpe
    rw [signature_true_eq] at hk hv
    simp only [GenericValuePtr.signatureTruePairs, List.map_cons, ih, hk, hv]

/-- C6: for every non-empty map, `signature_of(map, true)` is the map signature
of `K'` and `V'`, where `K'` is what the list reconciliation computes over the key
signatures in iteration order with the declared key type's signature as
fallback, and `V'` the same over the value signatures with the declared element
type's signature as fallback: each of `visitMap`'s two results is the reference
reconciliation of its own sequence alone, which is also what `visitList` emits
for that sequence. -/
theorem map_signature_reconciles_independently (conv : Signature → Signature → Bool)
    (info : TypeInfo) (keyType elementType : QiType) (pairs : List GenericValuePtr)
    (entries : List (Signature × Signature)) (keySig elementSig : Signature)
    (hne : pairs ≠ [])
    (hk : keyType.signature conv .null false = some keySig)
    (he : elementType.signature conv .null false = some elementSig)
    (hpairs : List.Forall₂
      (fun p e => ∃ t k v rest, p = GenericValuePtr.mk t (.tuple (k :: v :: rest))
        ∧ k.signature conv true = some e.1 ∧ v.signature conv true = some e.2)
      pairs entries) :
    (GenericValuePtr.mk (.map info keyType elementType) (.map pairs)).signature conv true
        = some (makeMapSignature (specReconcile conv keySig (entries.map Prod.fst))
            (specReconcile conv elementSig (entries.map Prod.snd)))
    ∧ visitList conv keySig true ((entries.map Prod.fst).map some)
        = some (makeListSignature (specReconcile conv keySig (entries.map Prod.fst)))
    ∧ visitList conv elementSig true ((entries.map Prod.snd).map some)
        = some (makeListSignature (specReconcile conv elementSig (entries.map Prod.snd))) := by
  refine ⟨?_, visitList_eq_spec conv keySig _, visitList_eq_spec conv elementSig _⟩
  have hk2 : keyType.signatureFalse conv = some keySig := hk
  have he2 : elementType.signatureFalse conv = some elementSig := he
  have hentries : entries ≠ [] := by
    intro h0
    subst h0
    cases hpairs
    exact hne rfl
  show (GenericValuePtr.mk (.map info keyType elementType) (.map pairs)).signatureTrue conv = _
  simp only [GenericValuePtr.signatureTrue, hk2, he2,
    signatureTruePairs_of_all conv pairs entries hpairs]
  exact visitMap_eq_spec conv keySig elementSig entries hentries

/-- C6 at the map with string keys and the values `int32(1)`, `string("s")` declared
`map<string, dynamic>`: the keys reconcile to `s`, the values fall back to `m`. -/
theorem map_signature_reconciles_independently_witness :
    ([pairValue (stringValue "k1") (dynamicOf (int32Value 1)),
        pairValue (stringValue "k2") (dynamicOf (stringValue "s"))]
        ≠ ([] : List GenericValuePtr))
    ∧ (GenericValuePtr.mk mapStringDynamic
          (.map [pairValue (stringValue "k1") (dynamicOf (int32Value 1)),
            pairValue (stringValue "k2") (dynamicOf (stringValue "s"))])).signature
            Signature.isConvertibleTo true
        = some (.mk [.map (.leaf .Type_String) (.leaf .Type_Dynamic)])
    ∧ (GenericValuePtr.mk mapStringDynamic
          (.map [pairValue (stringValue "k1") (dynamicOf (int32Value 1)),
            pairValue (stringValue "k2") (dynamicOf (stringValue "s"))])).signature
            Signature.isConvertibleTo false
        = some (.mk [.map (.leaf .Type_String) (.leaf .Type_Dynamic)]) :=
  ⟨by simp,
   (map_signature_reconciles_independently Signature.isConvertibleTo
      (TypeInfo.ofString "map<string,dynamic>") typeOfString typeOfGenericValue
      [pairValue (stringValue "k1") (dynamicOf (int32Value 1)),
        pairValue (stringValue "k2") (dynamicOf (stringValue "s"))]
      [(Signature.fromType .Type_String, Signature.fromType .Type_Int32),
        (Signature.fromType .Type_String, Signature.fromType .Type_String)]
      (Signature.fromType .Type_String) (Signature.fromType .Type_Dynamic)
      (by simp) rfl rfl
      (List.Forall₂.cons ⟨_, _, _, _, rfl, rfl, rfl⟩
        (List.Forall₂.cons ⟨_, _, _, _, rfl, rfl, rfl⟩ List.Forall₂.nil))).1,
   by decide⟩

theorem toString_single (n : SigNode) : (Signature.mk [n]).toString = n.toString := by
  simp [Signature.toString, SigNode.toStringList]

/-- C7: with `resolveDynamic = false` the signature depends on the type
descriptor alone: for any two storages (no storage included) `Type::signature`
returns the same result, a valid signature of one element; for a list it is `[E]`
(the element `[e]`, of text `"[" ++ E ++ "]"`) and for a map the map signature of
`K` and `V` (the element `{kv}`), `E`, `K` and `V` being the signatures of the
declared element and key types; so a list of Int32 has the signature `[i]` and a
map from String to lists of Int32 `{s[i]}`, whatever the storage. With
`resolveDynamic = true` the storage does matter: a list of Dynamic holding one
Int32 and an empty one differ. -/
theorem signature_false_ignores_storage (conv : Signature → Signature → Bool) (t : QiType)
    (storage1 storage2 : Storage) :
    t.signature conv storage1 false = t.signature conv storage2 false
    ∧ (∃ n, t.signature conv storage1 false = some (.mk [n]))
    ∧ (∀ info e, ∃ n, e.signature conv storage2 false = some (.mk [n])
        ∧ (QiType.list info e).signature conv storage1 false = some (.mk [.list n])
        ∧ (Signature.mk [.list n]).toString = "[" ++ (Signature.mk [n]).toString ++ "]")
    ∧ (∀ info k e, ∃ nk nv, k.signature conv storage2 false = some (.mk [nk])
        ∧ e.signature conv storage2 false = some (.mk [nv])
        ∧ (QiType.map info k e).signature conv storage1 false = some (.mk [.map nk nv])
        ∧ (Signature.mk [.map nk nv]).toString
            = "\x7b" ++ (Signature.mk [nk]).toString ++ (Signature.mk [nv]).toString ++ "\x7d")
    ∧ (∀ info, (QiType.list info typeOfInt32).signature conv storage1 false
        = some (.mk [.list (.leaf .Type_Int32)]))
    ∧ (∀ info info2, (QiType.map info typeOfString (.list info2 typeOfInt32)).signature conv
          storage1 false
        = some (.mk [.map (.leaf .Type_String) (.list (.leaf .Type_Int32))]))
    ∧ (Signature.mk [.map (.leaf .Type_String) (.list (.leaf .Type_Int32))]).toString
        = "\x7bs[i]\x7d"
    ∧ listOfDynamic.signature conv (.list [int32Value 1]) true
        ≠ listOfDynamic.signature conv (.list []) true := by
  have hlist : ∀ info e n, e.signatureFalse conv = some (.mk [n]) →
      (QiType.list info e).signatureFalse conv = some (.mk [.list n]) := by
    intro info e n h
    simp [QiType.signatureFalse, h, visitList, makeListSignature]
  have hmap : ∀ info k e nk nv, k.signatureFalse conv = some (.mk [nk]) →
      e.signatureFalse conv = some (.mk [nv]) →
      (QiType.map info k e).signatureFalse conv = some (.mk [.map nk nv]) := by
    intro info k e nk nv h1 h2
    simp [QiType.signatureFalse, h1, h2, visitMap, makeMapSignature]
  refine ⟨rfl, ?_, ?_, ?_, ?_, ?_, by decide, ?_⟩
  · obtain ⟨s, hs, n, rfl⟩ := signatureFalse_single conv t
    exact ⟨n, hs⟩
  · intro info e
    obtain ⟨s, hs, n, rfl⟩ := signatureFalse_single conv e
    refine ⟨n, hs, hlist info e n hs, ?_⟩
    simp [Signature.toString, SigNode.toStringList, SigNode.toString]
  · intro info k e
    obtain ⟨sk, hk, nk, rfl⟩ := signatureFalse_single conv k
    obtain ⟨sv, hv, nv, rfl⟩ := signatureFalse_single conv e
    refine ⟨nk, nv, hk, hv, hmap info k e nk nv hk hv, ?_⟩
    simp [Signature.toString, SigNode.toStringList, SigNode.toString, String.append_assoc]
  · intro info
    exact hlist info typeOfInt32 _ rfl
  · intro info info2
    exact hmap info typeOfString _ _ _ rfl (hlist info2 typeOfInt32 _ rfl)
  · have h1 : listOfDynamic.signature conv (.list [int32Value 1]) true
        = some (.mk [.list (.leaf .Type_Int32)]) := rfl
    have h2 : listOfDynamic.signature conv (.list []) true
        = some (.mk [.list (.leaf .Type_None)]) := rfl
    rw [h1, h2]
    decide

/-! ### Integers and floats (C8) -/

theorem visitTuple_loop_in_range (annotations : List String) :
    ∀ (todo i : Nat) (res : String), i + todo ≤ annotations.length →
      visitTuple.loop annotations todo i res
        = some (res ++ elementNamesText ((annotations.drop i).take todo)) := by
  intro todo
  induction todo with
  | zero => intro i res _; simp [visitTuple.loop, elementNamesText]
  | succ k ih =>
    intro i res h
    have hi : i < annotations.length := by omega
    have hget : annotations.get? i = some (annotations.get ⟨i, hi⟩) := List.get?_eq_get hi
    have hdrop : annotations.drop i = annotations.get ⟨i, hi⟩ :: annotations.drop (i + 1) := by
      simp
    simp only [visitTuple.loop, hget]
    rw [ih (i + 1) _ (by omega), hdrop]
    simp [elementNamesText, String.append_assoc]

theorem toString_annotate (ns : List SigNode) (body : String) :
    ((Signature.mk [.tuple ns none]).annotate body).toString
      = (Signature.mk [.tuple ns none]).toString ++ "<" ++ body ++ ">" := by
  simp [Signature.annotate, Signature.toString, SigNode.toStringList, SigNode.toString,
    String.append_assoc]

theorem forall₂_signature_members (conv : Signature → Signature → Bool)
    (vals : List GenericValuePtr) (members : List Signature)
    (h : List.Forall₂ (fun v s => v.signature conv true = some s) vals members) :
    (∀ s ∈ members, s.IsSingle) ∧ vals.length = members.length := by
  induction h with
  | nil => simp
  | @cons v s l1 l2 hvs _ ih =>
    refine ⟨?_, by simp [ih.2]⟩
    intro x hx
    rcases List.mem_cons.1 hx with rfl | hx
    · exact signature_true_single conv v _ hvs
    · exact ih.1 x hx

/-- C9 (amended): for every tuple value with `n` members (of resolved signatures
`members`), class name `N` and element-name list `A`: when `|A| ≥ n`,
`signature_of(value, true)` is the member tuple signature followed by the suffix
`<N,A[0],…,A[n-1]>` (also when `N` and `A` are both empty, where the suffix is
`<>`); when `N` is empty and `|A| < n` it is the bare member tuple signature. -/
theorem tuple_signature_suffix (conv : Signature → Signature → Bool) (info : TypeInfo)
    (memberTypes : List QiType) (className : String) (elementsName : List String)
    (vals : List GenericValuePtr) (members : List Signature)
    (hvals : List.Forall₂ (fun v s => v.signature conv true = some s) vals members) :
    (vals.length ≤ elementsName.length →
      (GenericValuePtr.mk (.tuple info memberTypes className elementsName)
          (.tuple vals)).signature conv true
        = some ((makeTupleSignatureOf members).annotate
            (className ++ elementNamesText (elementsName.take vals.length)))
      ∧ ((makeTupleSignatureOf members).annotate
            (className ++ elementNamesText (elementsName.take vals.length))).toString
        = (makeTupleSignatureOf members).toString ++ "<" ++ className
            ++ elementNamesText (elementsName.take vals.length) ++ ">")
    ∧ (className = "" → elementsName.length < vals.length →
      (GenericValuePtr.mk (.tuple info memberTypes className elementsName)
          (.tuple vals)).signature conv true
        = some (makeTupleSignatureOf members)) := by
  obtain ⟨hsingle, hlen⟩ := forall₂_signature_members conv vals members hvals
  have hlist := signatureTrueList_of_all conv vals members hvals
  have hsig : (GenericValuePtr.mk (.tuple info memberTypes className elementsName)
      (.tuple vals)).signature conv true
      = visitTuple className (members.map some) elementsName := by
    show (GenericValuePtr.mk (.tuple info memberTypes className elementsName)
      (.tuple vals)).signatureTrue conv = _
    simp only [GenericValuePtr.signatureTrue, hlist]
  obtain ⟨ns, hns⟩ := makeTupleSignatureOf_single members hsingle
  constructor
  · intro hle
    constructor
    · rw [hsig]
      unfold visitTuple
      simp only [allSome_map_some, List.length_map]
      rw [if_pos (Or.inr (by omega)),
        visitTuple_loop_in_range elementsName members.length 0 _ (by omega)]
      by_cases hN : className = ""
      · simp [hN, hlen]
      · simp [hN, hlen]
    · rw [hns, toString_annotate]
      simp [String.append_assoc]
  · intro hN hlt
    rw [hsig]
    unfold visitTuple
    simp only [allSome_map_some, List.length_map]
    rw [if_neg (by
      intro h
      rcases h with h | h
      · exact h hN
      · omega)]

/-- C9 (amended) at a two-member tuple: named `Point` with element names `x`, `y` it
has the signature `(is)<Point,x,y>`, without any name `(is)`. -/
theorem tuple_signature_suffix_witness :
    ([int32Value 1, stringValue "a"].length ≤ ["x", "y"].length)
    ∧ ((GenericValuePtr.mk (.tuple (TypeInfo.ofString "T") [typeOfInt32, typeOfString] "Point"
          ["x", "y"]) (.tuple [int32Value 1, stringValue "a"])).signature
            Signature.isConvertibleTo true).map Signature.toString = some "(is)<Point,x,y>"
    ∧ ((GenericValuePtr.mk (.tuple (TypeInfo.ofString "T") [typeOfInt32, typeOfString] ""
          []) (.tuple [int32Value 1, stringValue "a"])).signature
            Signature.isConvertibleTo true).map Signature.toString = some "(is)" := by
  have h1 := (tuple_signature_suffix Signature.isConvertibleTo (TypeInfo.ofString "T")
    [typeOfInt32, typeOfString] "Point" ["x", "y"] [int32Value 1, stringValue "a"]
    [Signature.fromType .Type_Int32, Signature.fromType .Type_String]
    (List.Forall₂.cons rfl (List.Forall₂.cons rfl List.Forall₂.nil))).1 (by decide)
  have h2 := (tuple_signature_suffix Signature.isConvertibleTo (TypeInfo.ofString "T")
    [typeOfInt32, typeOfString] "" [] [int32Value 1, stringValue "a"]
    [Signature.fromType .Type_Int32, Signature.fromType .Type_String]
    (List.Forall₂.cons rfl (List.Forall₂.cons rfl List.Forall₂.nil))).2 rfl (by decide)
  refine ⟨by decide, ?_, ?_⟩
  · rw [h1.1]; decide
  · rw [h2]; decide

/-- C9 as stated fails: a tuple with no member, an empty class name and no element
name satisfies neither "N is non-empty" nor "A is non-empty", yet `visitTuple`
appends the suffix `<>` to the bare tuple signature `()`. -/
theorem tuple_signature_suffix_counterexample :
    ¬ ((("" : String) ≠ "" ∨ ([] : List String) ≠ [])
        ∧ ([] : List String).length ≥ ([] : List GenericValuePtr).length)
    ∧ ((GenericValuePtr.mk (.tuple (TypeInfo.ofString "T") [] "" [])
          (.tuple [])).signature Signature.isConvertibleTo true).map Signature.toString
        = some "()<>"
    ∧ (makeTupleSignatureOf []).toString = "()" := by
  refine ⟨by simp, by decide, by decide⟩

/-! ### Keys of the factory maps: equivalent keys are equal componentwise -/

theorem strLt_equiv (a b : String) (h1 : strLt a b = false) (h2 : strLt b a = false) : a = b := by
  simp only [strLt, decide_eq_false_iff_not] at h1 h2
  exact String.ext (le_antisymm (not_lt.1 h2) (not_lt.1 h1))

theorem TypeInfo.eq_of_equiv (a b : TypeInfo) (h1 : a.lt b = false) (h2 : b.lt a = false) :
    a.eq b = true := by
  obtain ⟨sa, ca⟩ := a
  obtain ⟨sb, cb⟩ := b
  cases sa with
  | none =>
    cases sb with
    | none =>
      simp only [TypeInfo.lt, TypeInfo.eq, Option.isSome_none, bne_self_eq_false,
        Bool.false_eq_true, if_false] at h1 h2 ⊢
      simpa using strLt_equiv ca cb h1 h2
    | some y => simp [TypeInfo.lt] at h2
  | some x =>
    cases sb with
    | none => simp [TypeInfo.lt] at h1
    | some y =>
      simp only [TypeInfo.lt, TypeInfo.eq, Option.isSome_some, bne_self_eq_false,
        Bool.false_eq_true, if_false, decide_eq_false_iff_not] at h1 h2 ⊢
      simp only [beq_iff_eq]
      omega

theorem TypeInfo.eq_symm (a b : TypeInfo) : a.eq b = b.eq a := by
  obtain ⟨sa, ca⟩ := a
  obtain ⟨sb, cb⟩ := b
  cases sa <;> cases sb <;> simp [TypeInfo.eq, eq_comm, Bool.beq_comm]

theorem TypeInfo.ofString_eq (a b : String) :
    (TypeInfo.ofString a).eq (TypeInfo.ofString b) = true ↔ a = b := by
  simp [TypeInfo.ofString, TypeInfo.eq]

theorem TypeInfo.ofStd_eq_ofString (x : StdTypeInfo) (b : String) :
    (TypeInfo.ofStd x).eq (TypeInfo.ofString b) = false := by
  simp [TypeInfo.ofString, TypeInfo.ofStd, TypeInfo.eq]

theorem mapFind_some {K V : Type} (lt : K → K → Bool) :
    ∀ (m : List (K × V)) (key : K) (v : V), mapFind lt m key = some v →
      ∃ k, (k, v) ∈ m ∧ lt k key = false ∧ lt key k = false
  | [], key, v, h => by simp [mapFind] at h
  | (k, w) :: rest, key, v, h => by
    simp only [mapFind] at h
    split at h
    · rename_i hc
      simp only [Option.some.injEq] at h
      subst h
      simp only [Bool.and_eq_true, Bool.not_eq_true'] at hc
      exact ⟨k, List.mem_cons_self _ _, hc.1, hc.2⟩
    · obtain ⟨k2, hk2, h2⟩ := mapFind_some lt rest key v h
      exact ⟨k2, List.mem_cons_of_mem _ hk2, h2⟩

theorem mapAssign_of_find_none {K V : Type} (lt : K → K → Bool) :
    ∀ (m : List (K × V)) (key : K) (v : V), mapFind lt m key = none →
      mapAssign lt m key v = m ++ [(key, v)]
  | [], key, v, _ => rfl
  | (k, w) :: rest, key, v, h => by
    simp only [mapFind] at h
    split at h
    · simp at h
    · rename_i hc
      simp only [mapAssign, if_neg hc, List.cons_append,
        mapAssign_of_find_none lt rest key v h]

/-! ### The address at the end of the name of a default type -/

theorem digitChar_props (d : Nat) (h : d < 10) :
    (Char.ofNat (48 + d)).isDigit = true ∧ (Char.ofNat (48 + d)).toNat - 48 = d
      ∧ Char.ofNat (48 + d) ≠ ')' := by
  interval_cases d <;> decide

theorem addressDigits_isDigit : ∀ (fuel n : Nat) (c : Char),
    c ∈ addressDigits fuel n → c.isDigit = true
  | 0, _, c, h => by simp [addressDigits] at h
  | fuel + 1, n, c, h => by
    simp only [addressDigits, List.mem_cons] at h
    rcases h with rfl | h
    · exact (digitChar_props (n % 10) (Nat.mod_lt _ (by decide))).1
    · split at h
      · simp at h
      · exact addressDigits_isDigit fuel (n / 10) c h

theorem digitsValue_addressDigits : ∀ (fuel n : Nat), n < fuel →
    digitsValue (addressDigits fuel n) = n
  | 0, _, h => by omega
  | fuel + 1, n, h => by
    have hd := (digitChar_props (n % 10) (Nat.mod_lt _ (by decide))).2.1
    simp only [addressDigits, digitsValue, hd]
    split
    · rename_i h0
      simp only [digitsValue]
      omega
    · rename_i h0
      rw [digitsValue_addressDigits fuel (n / 10) (by omega)]
      omega

theorem addressDigits_head (fuel n : Nat) :
    ∃ c rest, addressDigits (fuel + 1) n = c :: rest ∧ c ≠ ')' :=
  ⟨_, _, rfl, (digitChar_props (n % 10) (Nat.mod_lt _ (by decide))).2.2⟩

theorem takeWhile_digits (ds rest : List Char) (h : ∀ c ∈ ds, c.isDigit = true) :
    (ds ++ '(' :: rest).takeWhile Char.isDigit = ds := by
  induction ds with
  | nil => simp [List.takeWhile]
  | cons c l ih =>
    have hc := h c (List.mem_cons_self _ _)
    have ih2 := ih (fun x hx => h x (List.mem_cons_of_mem _ hx))
    rw [List.cons_append, List.takeWhile_cons, hc, if_pos rfl, ih2]

theorem nameAddress_open (front : String) (a : Nat) :
    nameAddress (front ++ "(" ++ addressString a) = a := by
  have hdata : (front ++ "(" ++ addressString a).data.reverse
      = addressDigits (a + 1) a ++ '(' :: front.data.reverse := by
    simp [addressString, String.data_append]
  obtain ⟨c, rest, hcr, hc⟩ := addressDigits_head a a
  unfold nameAddress nameAddressDigits
  rw [hdata]
  have h2 : (addressDigits (a + 1) a ++ '(' :: front.data.reverse).takeWhile Char.isDigit
      = addressDigits (a + 1) a :=
    takeWhile_digits _ _ (addressDigits_isDigit _ _)
  have h3 : (match addressDigits (a + 1) a ++ '(' :: front.data.reverse with
      | ')' :: t => t.takeWhile Char.isDigit
      | r => r.takeWhile Char.isDigit)
      = (addressDigits (a + 1) a ++ '(' :: front.data.reverse).takeWhile Char.isDigit := by
    rw [hcr]
    simp only [List.cons_append]
    split
    · rename_i heq
      simp only [List.cons.injEq] at heq
      exact absurd heq.1 hc
    · rfl
  rw [h3, h2]
  exact digitsValue_addressDigits (a + 1) a (by omega)

theorem nameAddress_closed (front : String) (a : Nat) :
    nameAddress (front ++ "(" ++ addressString a ++ ")") = a := by
  have hdata : (front ++ "(" ++ addressString a ++ ")").data.reverse
      = ')' :: (addressDigits (a + 1) a ++ '(' :: front.data.reverse) := by
    simp [addressString, String.data_append]
  unfold nameAddress nameAddressDigits
  rw [hdata]
  simp only
  rw [takeWhile_digits _ _ (addressDigits_isDigit _ _)]
  exact digitsValue_addressDigits (a + 1) a (by omega)

theorem nameAddress_list (e : QiType) (a : Nat) :
    nameAddress (DefaultListType.name e a) = a := by
  have : DefaultListType.name e a
      = ("DefaultListType<" ++ e.info.asString ++ ">") ++ "(" ++ addressString a := by
    simp [DefaultListType.name, String.append_assoc]
  rw [this]
  exact nameAddress_open _ a

theorem nameAddress_tuple (ts : List QiType) (a : Nat) :
    nameAddress (DefaultTupleType.name ts a) = a := by
  have : DefaultTupleType.name ts a
      = ("DefaultTupleType<" ++ DefaultTupleType.typeNames ts ++ ">") ++ "("
          ++ addressString a ++ ")" := by
    simp [DefaultTupleType.name, String.append_assoc]
  rw [this]
  exact nameAddress_closed _ a

theorem nameAddress_map (k e : QiType) (a : Nat) :
    nameAddress (DefaultMapType.name k e a) = a := by
  have : DefaultMapType.name k e a
      = ("DefaultMapType<" ++ k.info.asString ++ ", " ++ e.info.asString) ++ "("
          ++ addressString a ++ ")" := by
    simp [DefaultMapType.name, String.append_assoc]
  rw [this]
  exact nameAddress_closed _ a

theorem InfosKey.typesLoop_equiv : ∀ (as bs : List QiType), as.length = bs.length →
    (∀ r, InfosKey.typesLoop as bs = some r → r = false) →
    (∀ r, InfosKey.typesLoop bs as = some r → r = false) →
    List.Forall₂ (fun a b => a.info.eq b.info = true) as bs
      ∧ InfosKey.typesLoop as bs = none ∧ InfosKey.typesLoop bs as = none
  | [], [], _, _, _ => ⟨List.Forall₂.nil, rfl, rfl⟩
  | [], _ :: _, h, _, _ => by simp at h
  | _ :: _, [], h, _, _ => by simp at h
  | a :: as, b :: bs, h, h1, h2 => by
    simp only [List.length_cons, add_left_inj] at h
    by_cases hne : a.info.eq b.info = true
    · have hne2 : b.info.eq a.info = true := by rw [TypeInfo.eq_symm]; exact hne
      have e1 : InfosKey.typesLoop (a :: as) (b :: bs) = InfosKey.typesLoop as bs := by
        simp [InfosKey.typesLoop, TypeInfo.ne, hne]
      have e2 : InfosKey.typesLoop (b :: bs) (a :: as) = InfosKey.typesLoop bs as := by
        simp [InfosKey.typesLoop, TypeInfo.ne, hne2]
      rw [e1] at h1 ⊢
      rw [e2] at h2 ⊢
      obtain ⟨ih1, ih2, ih3⟩ := InfosKey.typesLoop_equiv as bs h h1 h2
      exact ⟨List.Forall₂.cons hne ih1, ih2, ih3⟩
    · have hne2 : ¬ b.info.eq a.info = true := by rw [TypeInfo.eq_symm]; exact hne
      have e1 : InfosKey.typesLoop (a :: as) (b :: bs) = some (a.info.lt b.info) := by
        simp [InfosKey.typesLoop, TypeInfo.ne, hne]
      have e2 : InfosKey.typesLoop (b :: bs) (a :: as) = some (b.info.lt a.info) := by
        simp [InfosKey.typesLoop, TypeInfo.ne, hne2]
      exact absurd (TypeInfo.eq_of_equiv a.info b.info (h1 _ e1) (h2 _ e2)) hne

theorem InfosKey.elementsLoop_equiv : ∀ (as bs : List String), as.length = bs.length →
    (∀ r, InfosKey.elementsLoop as bs = some r → r = false) →
    (∀ r, InfosKey.elementsLoop bs as = some r → r = false) →
    as = bs
  | [], [], _, _, _ => rfl
  | [], _ :: _, h, _, _ => by simp at h
  | _ :: _, [], h, _, _ => by simp at h
  | a :: as, b :: bs, h, h1, h2 => by
    simp only [List.length_cons, add_left_inj] at h
    by_cases hne : a = b
    · subst hne
      have e1 : InfosKey.elementsLoop (a :: as) (a :: bs) = InfosKey.elementsLoop as bs := by
        simp [InfosKey.elementsLoop]
      have e2 : InfosKey.elementsLoop (a :: bs) (a :: as) = InfosKey.elementsLoop bs as := by
        simp [InfosKey.elementsLoop]
      rw [e1] at h1
      rw [e2] at h2
      rw [InfosKey.elementsLoop_equiv as bs h h1 h2]
    · have hne2 : ¬ b = a := fun h => hne h.symm
      have e1 : InfosKey.elementsLoop (a :: as) (b :: bs) = some (strLt a b) := by
        simp [InfosKey.elementsLoop, hne]
      have e2 : InfosKey.elementsLoop (b :: bs) (a :: as) = some (strLt b a) := by
        simp [InfosKey.elementsLoop, hne2]
      exact absurd (strLt_equiv a b (h1 _ e1) (h2 _ e2)) hne

theorem InfosKey.equiv (a b : InfosKey) (h1 : a.lt b = false) (h2 : b.lt a = false) :
    List.Forall₂ (fun x y => x.info.eq y.info = true) a._types b._types
      ∧ a._name = b._name ∧ a._elements = b._elements := by
  have hlen : a._types.length = b._types.length := by
    by_contra hne
    have hne2 : ¬ b._types.length = a._types.length := fun h => hne h.symm
    simp only [InfosKey.lt, bne_iff_ne, ne_eq, hne, hne2, not_false_eq_true, if_true,
      decide_eq_false_iff_not] at h1 h2
    omega
  simp only [InfosKey.lt, hlen, bne_self_eq_false, Bool.false_eq_true, if_false] at h1 h2
  have hl1 : ∀ r, InfosKey.typesLoop a._types b._types = some r → r = false := by
    intro r hr; rw [hr] at h1; exact h1
  have hl2 : ∀ r, InfosKey.typesLoop b._types a._types = some r → r = false := by
    intro r hr; rw [hr] at h2; exact h2
  obtain ⟨hall, e1, e2⟩ := InfosKey.typesLoop_equiv a._types b._types hlen hl1 hl2
  rw [e1] at h1
  rw [e2] at h2
  simp only at h1 h2
  have hname : a._name = b._name := by
    by_contra hne
    have hne2 : ¬ b._name = a._name := fun h => hne h.symm
    simp only [bne_iff_ne, ne_eq, hne, hne2, not_false_eq_true, if_true] at h1 h2
    exact hne (strLt_equiv _ _ h1 h2)
  simp only [hname, bne_self_eq_false, Bool.false_eq_true, if_false] at h1 h2
  have hlen2 : a._elements.length = b._elements.length := by
    by_contra hne
    have hne2 : ¬ b._elements.length = a._elements.length := fun h => hne h.symm
    simp only [bne_iff_ne, ne_eq, hne, hne2, not_false_eq_true, if_true,
      decide_eq_false_iff_not] at h1 h2
    omega
  simp only [hlen2, bne_self_eq_false, Bool.false_eq_true, if_false] at h1 h2
  have hm1 : ∀ r, InfosKey.elementsLoop a._elements b._elements = some r → r = false := by
    intro r hr; rw [hr] at h1; exact h1
  have hm2 : ∀ r, InfosKey.elementsLoop b._elements a._elements = some r → r = false := by
    intro r hr; rw [hr] at h2; exact h2
  exact ⟨hall, hname, InfosKey.elementsLoop_equiv _ _ hlen2 hm1 hm2⟩

theorem pairLt_equiv (a b : TypeInfo × TypeInfo) (h1 : pairLt a b = false)
    (h2 : pairLt b a = false) : a.1.eq b.1 = true ∧ a.2.eq b.2 = true := by
  simp only [pairLt, Bool.or_eq_false_iff, Bool.and_eq_false_iff, Bool.not_eq_false'] at h1 h2
  obtain ⟨h1a, h1b⟩ := h1
  obtain ⟨h2a, h2b⟩ := h2
  refine ⟨TypeInfo.eq_of_equiv _ _ h1a h2a, ?_⟩
  rcases h1b with h | h
  · rw [h] at h2a; cases h2a
  · rcases h2b with h' | h'
    · rw [h'] at h1a; cases h1a
    · exact TypeInfo.eq_of_equiv _ _ h h'

/-! ### Coherence of the factories is kept by `makeListType`, `makeTupleType`, `makeMapType` -/

section Coherence

variable {user : QiType → Prop}

theorem canonical_info (x : QiType) (hx : x ∈ canonicalTypes) :
    ∃ i, x.info = TypeInfo.ofStd i := by
  simp only [canonicalTypes, List.mem_cons, List.mem_singleton, List.not_mem_nil,
    or_false] at hx
  rcases hx with rfl | rfl | rfl | rfl | rfl | rfl | rfl | rfl | rfl | rfl | rfl | rfl | rfl
    | rfl | rfl | rfl <;> exact ⟨_, rfl⟩

theorem canonical_info_inj (x y : QiType) (hx : x ∈ canonicalTypes) (hy : y ∈ canonicalTypes)
    (h : x.info.eq y.info = true) : x = y := by
  simp only [canonicalTypes, List.mem_cons, List.mem_singleton, List.not_mem_nil,
    or_false] at hx hy
  rcases hx with rfl | rfl | rfl | rfl | rfl | rfl | rfl | rfl | rfl | rfl | rfl | rfl | rfl
    | rfl | rfl | rfl <;>
  rcases hy with rfl | rfl | rfl | rfl | rfl | rfl | rfl | rfl | rfl | rfl | rfl | rfl | rfl
    | rfl | rfl | rfl <;>
  first
  | rfl
  | exact absurd h (by decide)

theorem DefaultTypeName.head_char (nm : String) (h : DefaultTypeName nm) :
    nm.data.head? = some 'D' := by
  rcases h with ⟨e, a, rfl⟩ | ⟨k, e, a, rfl⟩ | ⟨ts, a, rfl⟩
  · simp [DefaultListType.name, String.data_append]
  · simp [DefaultMapType.name, String.data_append]
  · simp [DefaultTupleType.name, String.data_append]

theorem Factories.Coherent.init (conv : Signature → Signature → Bool)
    (hinfo : ∀ x y, (x ∈ canonicalTypes ∨ user x) → (y ∈ canonicalTypes ∨ user y) →
      x.info.eq y.info = true → x.signatureFalse conv = y.signatureFalse conv)
    (hfresh : ∀ u, user u → ∀ nm, DefaultTypeName nm →
      (TypeInfo.ofString nm).eq u.info = false) :
    Factories.Coherent conv user Factories.init where
  listEntries := by intro k L h; simp [Factories.init] at h
  mapEntries := by intro k L h; simp [Factories.init] at h
  tupleEntries := by intro k L h; simp [Factories.init] at h
  infoDeterminesSignature := by
    intro x y hx hy h
    have hx2 : x ∈ canonicalTypes ∨ user x := by
      rcases hx with hx | ⟨k, hx⟩ | ⟨k, hx⟩ | ⟨k, hx⟩
      · exact hx
      all_goals simp [Factories.init] at hx
    have hy2 : y ∈ canonicalTypes ∨ user y := by
      rcases hy with hy | ⟨k, hy⟩ | ⟨k, hy⟩ | ⟨k, hy⟩
      · exact hy
      all_goals simp [Factories.init] at hy
    exact hinfo x y hx2 hy2 h
  userFresh := hfresh

theorem Factories.Coherent.known_info {conv : Signature → Signature → Bool} {st : Factories}
    (hc : Factories.Coherent conv user st) (y : QiType) (hy : st.Known user y) :
    (∀ nm, DefaultTypeName nm → (TypeInfo.ofString nm).eq y.info = false)
      ∨ (∃ nm, y.info = TypeInfo.ofString nm ∧ nameAddress nm < st.nextAddress) := by
  rcases hy with (hy | hy) | ⟨k, hy⟩ | ⟨k, hy⟩ | ⟨k, hy⟩
  · obtain ⟨i, hi⟩ := canonical_info y hy
    refine Or.inl (fun nm _ => ?_)
    rw [hi, TypeInfo.eq_symm]
    exact TypeInfo.ofStd_eq_ofString _ _
  · exact Or.inl (hc.userFresh y hy)
  · obtain ⟨e, a, ha, rfl, _, _⟩ := hc.listEntries k y hy
    exact Or.inr ⟨_, rfl, by rw [nameAddress_list]; exact ha⟩
  · obtain ⟨kt, et, a, ha, rfl, _, _⟩ := hc.mapEntries k y hy
    exact Or.inr ⟨_, rfl, by rw [nameAddress_map]; exact ha⟩
  · obtain ⟨a, ha, rfl, _⟩ := hc.tupleEntries k y hy
    exact Or.inr ⟨_, rfl, by rw [nameAddress_tuple]; exact ha⟩

theorem Factories.Coherent.fresh {conv : Signature → Signature → Bool} {st : Factories}
    (hc : Factories.Coherent conv user st) (y : QiType) (hy : st.Known user y) (name : String)
    (hname : DefaultTypeName name) (h : st.nextAddress ≤ nameAddress name) :
    (TypeInfo.ofString name).eq y.info = false := by
  rcases hc.known_info y hy with hi | ⟨nm, hnm, hlt⟩
  · exact hi name hname
  · rw [hnm]
    by_contra hne
    have heq : name = nm := (TypeInfo.ofString_eq name nm).1 (by simpa using hne)
    subst heq
    omega

theorem infoDetermines_extend (conv : Signature → Signature → Bool)
    (P : QiType → Prop) (T : QiType)
    (hold : ∀ x y, P x → P y → x.info.eq y.info = true →
      x.signatureFalse conv = y.signatureFalse conv)
    (hfresh : ∀ y, P y → T.info.eq y.info = false) :
    ∀ x y, (P x ∨ x = T) → (P y ∨ y = T) → x.info.eq y.info = true →
      x.signatureFalse conv = y.signatureFalse conv := by
  intro x y hx hy h
  rcases hx with hx | rfl
  · rcases hy with hy | rfl
    · exact hold x y hx hy h
    · rw [TypeInfo.eq_symm, hfresh x hx] at h; cases h
  · rcases hy with hy | rfl
    · rw [hfresh y hy] at h; cases h
    · rfl

theorem Factories.Coherent.extend {conv : Signature → Signature → Bool} {st st2 : Factories}
    (hc : Factories.Coherent conv user st) (T : QiType)
    (hnext : st.nextAddress ≤ st2.nextAddress)
    (hfresh : ∀ y, st.Known user y → T.info.eq y.info = false)
    (hknown : ∀ x, st2.Known user x ↔ (st.Known user x ∨ x = T))
    (hlist : ∀ k L, (k, L) ∈ st2.listMap → (k, L) ∈ st.listMap ∨
      ∃ e a, a < st2.nextAddress ∧ L = DefaultListType.new e a ∧ k = e.info ∧ st2.Known user e)
    (hmap : ∀ k M, (k, M) ∈ st2.mapMap → (k, M) ∈ st.mapMap ∨
      ∃ kt et a, a < st2.nextAddress
        ∧ M = QiType.map (TypeInfo.ofString (DefaultMapType.name kt et a)) kt et
        ∧ k = (kt.info, et.info) ∧ st2.Known user kt ∧ st2.Known user et)
    (htuple : ∀ k U, (k, U) ∈ st2.tupleMap → (k, U) ∈ st.tupleMap ∨
      ∃ a, a < st2.nextAddress ∧ U = DefaultTupleType.new k._types k._name k._elements a
        ∧ ∀ t ∈ k._types, st2.Known user t) :
    Factories.Coherent conv user st2 where
  listEntries := by
    intro k L h
    rcases hlist k L h with h | h
    · obtain ⟨e, a, ha, hL, hk, he⟩ := hc.listEntries k L h
      exact ⟨e, a, by omega, hL, hk, (hknown e).2 (Or.inl he)⟩
    · exact h
  mapEntries := by
    intro k M h
    rcases hmap k M h with h | h
    · obtain ⟨kt, et, a, ha, hM, hk, h1, h2⟩ := hc.mapEntries k M h
      exact ⟨kt, et, a, by omega, hM, hk, (hknown kt).2 (Or.inl h1), (hknown et).2 (Or.inl h2)⟩
    · exact h
  tupleEntries := by
    intro k U h
    rcases htuple k U h with h | h
    · obtain ⟨a, ha, hU, hts⟩ := hc.tupleEntries k U h
      exact ⟨a, by omega, hU, fun t ht => (hknown t).2 (Or.inl (hts t ht))⟩
    · exact h
  infoDeterminesSignature := by
    intro x y hx hy h
    exact infoDetermines_extend conv (st.Known user) T hc.infoDeterminesSignature hfresh x y
      ((hknown x).1 hx) ((hknown y).1 hy) h
  userFresh := hc.userFresh

theorem list_signatureFalse (conv : Signature → Signature → Bool) (info : TypeInfo)
    (e : QiType) (esig : Signature) (he : e.signatureFalse conv = some esig) :
    (QiType.list info e).signatureFalse conv = some (makeListSignature esig) := by
  simp [QiType.signatureFalse, he, visitList]

theorem map_signatureFalse (conv : Signature → Signature → Bool) (info : TypeInfo)
    (k e : QiType) (ksig esig : Signature) (hk : k.signatureFalse conv = some ksig)
    (he : e.signatureFalse conv = some esig) :
    (QiType.map info k e).signatureFalse conv = some (makeMapSignature ksig esig) := by
  simp [QiType.signatureFalse, hk, he, visitMap]

theorem makeListType_spec (conv : Signature → Signature → Bool) (st : Factories)
    (el : QiType) (esig : Signature) (hc : Factories.Coherent conv user st) (hk : st.Known user el)
    (he : el.signatureFalse conv = some esig) :
    Factories.Coherent conv user (makeListType el st).2
      ∧ (makeListType el st).2.Known user (makeListType el st).1
      ∧ (∀ x, st.Known user x → (makeListType el st).2.Known user x)
      ∧ (makeListType el st).1.signatureFalse conv = some (makeListSignature esig) := by
  unfold makeListType
  simp only
  cases hfind : mapFind TypeInfo.lt st.listMap el.info with
  | some L =>
    simp only
    obtain ⟨k, hmem, h1, h2⟩ := mapFind_some TypeInfo.lt st.listMap el.info L hfind
    obtain ⟨e, a, ha, rfl, rfl, hke⟩ := hc.listEntries k L hmem
    refine ⟨hc, Or.inr (Or.inl ⟨_, hmem⟩), fun x hx => hx, ?_⟩
    have hsig := hc.infoDeterminesSignature e el hke hk (TypeInfo.eq_of_equiv _ _ h1 h2)
    exact list_signatureFalse conv _ e esig (hsig.trans he)
  | none =>
    simp only [mapAssign_of_find_none TypeInfo.lt st.listMap el.info _ hfind]
    have hknown : ∀ x, Factories.Known user
        { st with nextAddress := st.nextAddress + 1,
                  listMap := st.listMap ++ [(el.info, DefaultListType.new el st.nextAddress)] } x
        ↔ (st.Known user x ∨ x = DefaultListType.new el st.nextAddress) := by
      intro x
      simp only [Factories.Known, List.mem_append, List.mem_singleton, Prod.mk.injEq]
      constructor
      · rintro (h | ⟨k, h | ⟨_, rfl⟩⟩ | h | h)
        · exact Or.inl (Or.inl h)
        · exact Or.inl (Or.inr (Or.inl ⟨k, h⟩))
        · exact Or.inr rfl
        · exact Or.inl (Or.inr (Or.inr (Or.inl h)))
        · exact Or.inl (Or.inr (Or.inr (Or.inr h)))
      · rintro ((h | ⟨k, h⟩ | h | h) | rfl)
        · exact Or.inl h
        · exact Or.inr (Or.inl ⟨k, Or.inl h⟩)
        · exact Or.inr (Or.inr (Or.inl h))
        · exact Or.inr (Or.inr (Or.inr h))
        · exact Or.inr (Or.inl ⟨el.info, Or.inr ⟨rfl, rfl⟩⟩)
    refine ⟨?_, (hknown _).2 (Or.inr rfl), fun x hx => (hknown x).2 (Or.inl hx),
      list_signatureFalse conv _ el esig he⟩
    refine hc.extend (DefaultListType.new el st.nextAddress) (by simp)
      (fun y hy => hc.fresh y hy (DefaultListType.name el st.nextAddress)
        (Or.inl ⟨_, _, rfl⟩) (by rw [nameAddress_list]))
      hknown ?_ (fun k M h => Or.inl h) (fun k U h => Or.inl h)
    intro k L h
    simp only [List.mem_append, List.mem_singleton, Prod.mk.injEq] at h
    rcases h with h | ⟨rfl, rfl⟩
    · exact Or.inl h
    · exact Or.inr ⟨el, st.nextAddress, by simp, rfl, rfl, (hknown el).2 (Or.inl hk)⟩

theorem tuple_signatureFalse (conv : Signature → Signature → Bool) (info : TypeInfo)
    (types : List QiType) (name : String) (elements : List String)
    (memberSigs : List Signature)
    (h : allSome (QiType.signatureFalseList conv types) = some memberSigs) :
    (QiType.tuple info types name elements).signatureFalse conv
      = some (makeTupleSignature memberSigs name elements) := by
  simp [QiType.signatureFalse, h]

theorem signatureFalseList_congr (conv : Signature → Signature → Bool)
    (as bs : List QiType)
    (h : List.Forall₂ (fun a b => a.signatureFalse conv = b.signatureFalse conv) as bs) :
    QiType.signatureFalseList conv as = QiType.signatureFalseList conv bs := by
  induction h with
  | nil => rfl
  | cons hab _ ih => simp only [QiType.signatureFalseList, hab, ih]

theorem forall₂_signature_of_info (conv : Signature → Signature → Bool) (st : Factories)
    (hc : Factories.Coherent conv user st) (as bs : List QiType)
    (h : List.Forall₂ (fun x y => x.info.eq y.info = true) as bs)
    (ha : ∀ t ∈ as, st.Known user t) (hb : ∀ t ∈ bs, st.Known user t) :
    List.Forall₂ (fun a b => a.signatureFalse conv = b.signatureFalse conv) as bs := by
  induction h with
  | nil => exact List.Forall₂.nil
  | @cons x y l1 l2 hxy _ ih =>
    exact List.Forall₂.cons
      (hc.infoDeterminesSignature x y (ha x (List.mem_cons_self _ _))
        (hb y (List.mem_cons_self _ _)) hxy)
      (ih (fun t ht => ha t (List.mem_cons_of_mem _ ht))
        (fun t ht => hb t (List.mem_cons_of_mem _ ht)))

theorem makeTupleType_spec (conv : Signature → Signature → Bool) (st : Factories)
    (types : List QiType) (name : String) (elements : List String)
    (memberSigs : List Signature)
    (hc : Factories.Coherent conv user st) (hk : ∀ t ∈ types, st.Known user t)
    (hs : allSome (QiType.signatureFalseList conv types) = some memberSigs) :
    Factories.Coherent conv user (makeTupleType types name elements st).2
      ∧ (makeTupleType types name elements st).2.Known user (makeTupleType types name elements st).1
      ∧ (∀ x, st.Known user x → (makeTupleType types name elements st).2.Known user x)
      ∧ (makeTupleType types name elements st).1.signatureFalse conv
          = some (makeTupleSignature memberSigs name elements)
      ∧ (∀ x, (makeTupleType types name elements st).2.Known user x →
          st.Known user x ∨ ∃ nm, x.info = TypeInfo.ofString nm ∧ nameAddress nm = st.nextAddress)
      ∧ st.nextAddress ≤ (makeTupleType types name elements st).2.nextAddress
      ∧ (makeTupleType types name elements st).2.nextAddress ≤ st.nextAddress + 1
      ∧ (makeTupleType types name elements st).2.listMap = st.listMap
      ∧ (makeTupleType types name elements st).2.mapMap = st.mapMap := by
  unfold makeTupleType
  simp only
  cases hfind : mapFind InfosKey.lt st.tupleMap ⟨types, name, elements⟩ with
  | some T =>
    simp only
    obtain ⟨k, hmem, h1, h2⟩ := mapFind_some InfosKey.lt st.tupleMap _ T hfind
    obtain ⟨a, ha, rfl, hkt⟩ := hc.tupleEntries k T hmem
    obtain ⟨hall, hname, helems⟩ := InfosKey.equiv k ⟨types, name, elements⟩ h1 h2
    simp only at hall hname helems
    refine ⟨hc, Or.inr (Or.inr (Or.inr ⟨_, hmem⟩)), fun x hx => hx, ?_,
      fun x hx => Or.inl hx, le_refl _, by omega, trivial, trivial⟩
    have hsigs : QiType.signatureFalseList conv k._types
        = QiType.signatureFalseList conv types :=
      signatureFalseList_congr conv _ _
        (forall₂_signature_of_info conv st hc k._types types hall hkt hk)
    rw [← hname, ← helems]
    exact tuple_signatureFalse conv _ _ _ _ memberSigs (hsigs ▸ hs)
  | none =>
    simp only [mapAssign_of_find_none InfosKey.lt st.tupleMap _ _ hfind]
    have hknown : ∀ x, Factories.Known user
        { st with nextAddress := st.nextAddress + 1,
                  tupleMap := st.tupleMap ++ [(⟨types, name, elements⟩,
                    DefaultTupleType.new types name elements st.nextAddress)] } x
        ↔ (st.Known user x ∨ x = DefaultTupleType.new types name elements st.nextAddress) := by
      intro x
      simp only [Factories.Known, List.mem_append, List.mem_singleton, Prod.mk.injEq]
      constructor
      · rintro (h | h | h | ⟨k, h | ⟨_, rfl⟩⟩)
        · exact Or.inl (Or.inl h)
        · exact Or.inl (Or.inr (Or.inl h))
        · exact Or.inl (Or.inr (Or.inr (Or.inl h)))
        · exact Or.inl (Or.inr (Or.inr (Or.inr ⟨k, h⟩)))
        · exact Or.inr rfl
      · rintro ((h | h | h | ⟨k, h⟩) | rfl)
        · exact Or.inl h
        · exact Or.inr (Or.inl h)
        · exact Or.inr (Or.inr (Or.inl h))
        · exact Or.inr (Or.inr (Or.inr ⟨k, Or.inl h⟩))
        · exact Or.inr (Or.inr (Or.inr ⟨_, Or.inr ⟨rfl, rfl⟩⟩))
    refine ⟨?_, (hknown _).2 (Or.inr rfl), fun x hx => (hknown x).2 (Or.inl hx),
      tuple_signatureFalse conv _ _ _ _ memberSigs hs, ?_, by simp, by simp, trivial, trivial⟩
    · refine hc.extend (DefaultTupleType.new types name elements st.nextAddress) (by simp)
        (fun y hy => hc.fresh y hy (DefaultTupleType.name types st.nextAddress)
          (Or.inr (Or.inr ⟨_, _, rfl⟩)) (by rw [nameAddress_tuple]))
        hknown (fun k L h => Or.inl h) (fun k M h => Or.inl h) ?_
      intro k U h
      simp only [List.mem_append, List.mem_singleton, Prod.mk.injEq] at h
      rcases h with h | ⟨rfl, rfl⟩
      · exact Or.inl h
      · exact Or.inr ⟨st.nextAddress, by simp, rfl,
          fun t ht => (hknown t).2 (Or.inl (hk t ht))⟩
    · intro x hx
      rcases (hknown x).1 hx with hx | rfl
      · exact Or.inl hx
      · exact Or.inr ⟨_, rfl, nameAddress_tuple _ _⟩

theorem Factories.Coherent.bump {conv : Signature → Signature → Bool} {st : Factories}
    (hc : Factories.Coherent conv user st) (n : Nat) (h : st.nextAddress ≤ n) :
    Factories.Coherent conv user { st with nextAddress := n } where
  listEntries := by
    intro k L hm
    obtain ⟨e, a, ha, hL, hk, he⟩ := hc.listEntries k L hm
    exact ⟨e, a, lt_of_lt_of_le ha h, hL, hk, he⟩
  mapEntries := by
    intro k M hm
    obtain ⟨kt, et, a, ha, hM, hk, h1, h2⟩ := hc.mapEntries k M hm
    exact ⟨kt, et, a, lt_of_lt_of_le ha h, hM, hk, h1, h2⟩
  tupleEntries := by
    intro k U hm
    obtain ⟨a, ha, hU, hts⟩ := hc.tupleEntries k U hm
    exact ⟨a, lt_of_lt_of_le ha h, hU, hts⟩
  infoDeterminesSignature := hc.infoDeterminesSignature
  userFresh := hc.userFresh

theorem allSome_pair (a b : Signature) : allSome [some a, some b] = some [a, b] := rfl

theorem makeMapType_spec (conv : Signature → Signature → Bool) (st : Factories)
    (kt et : QiType) (ksig esig : Signature)
    (hc : Factories.Coherent conv user st) (hkt : st.Known user kt) (het : st.Known user et)
    (hks : kt.signatureFalse conv = some ksig) (hes : et.signatureFalse conv = some esig) :
    Factories.Coherent conv user (makeMapType kt et st).2
      ∧ (makeMapType kt et st).2.Known user (makeMapType kt et st).1
      ∧ (∀ x, st.Known user x → (makeMapType kt et st).2.Known user x)
      ∧ (makeMapType kt et st).1.signatureFalse conv = some (makeMapSignature ksig esig) := by
  unfold makeMapType
  simp only
  cases hfind : mapFind pairLt st.mapMap (kt.info, et.info) with
  | some M =>
    simp only
    obtain ⟨k, hmem, h1, h2⟩ := mapFind_some pairLt st.mapMap _ M hfind
    obtain ⟨kt2, et2, a, ha, rfl, rfl, hk1, hk2⟩ := hc.mapEntries k M hmem
    obtain ⟨e1, e2⟩ := pairLt_equiv _ _ h1 h2
    refine ⟨hc, Or.inr (Or.inr (Or.inl ⟨_, hmem⟩)), fun x hx => hx, ?_⟩
    exact map_signatureFalse conv _ kt2 et2 ksig esig
      ((hc.infoDeterminesSignature kt2 kt hk1 hkt e1).trans hks)
      ((hc.infoDeterminesSignature et2 et hk2 het e2).trans hes)
  | none =>
    have hc1 : Factories.Coherent conv user { st with nextAddress := st.nextAddress + 1 } :=
      hc.bump _ (by simp)
    have hmem : ∀ t ∈ [kt, et],
        Factories.Known user { st with nextAddress := st.nextAddress + 1 } t := by
      intro t ht
      simp only [List.mem_cons, List.mem_singleton, List.not_mem_nil, or_false] at ht
      rcases ht with rfl | rfl
      · exact hkt
      · exact het
    have hsigs : allSome (QiType.signatureFalseList conv [kt, et]) = some [ksig, esig] := by
      simp only [QiType.signatureFalseList, hks, hes, allSome_pair]
    obtain ⟨hc2, _, hmono, _, hchar, hn1, _, _, hmm⟩ :=
      makeTupleType_spec conv { st with nextAddress := st.nextAddress + 1 } [kt, et] "" []
        [ksig, esig] hc1 hmem hsigs
    simp only [DefaultMapType.new]
    generalize hp : makeTupleType [kt, et] "" [] { st with nextAddress := st.nextAddress + 1 }
      = p at hc2 hmono hchar hn1 hmm
    simp only at hmm hn1
    have hfind2 : mapFind pairLt p.2.mapMap (kt.info, et.info) = none := by rw [hmm]; exact hfind
    simp only [mapAssign_of_find_none pairLt p.2.mapMap _ _ hfind2]
    have hknown : ∀ x, Factories.Known user
        { p.2 with mapMap := p.2.mapMap ++ [((kt.info, et.info),
            QiType.map (TypeInfo.ofString (DefaultMapType.name kt et st.nextAddress)) kt et)] } x
        ↔ (p.2.Known user x
            ∨ x = QiType.map (TypeInfo.ofString (DefaultMapType.name kt et st.nextAddress))
                kt et) := by
      intro x
      simp only [Factories.Known, List.mem_append, List.mem_singleton, Prod.mk.injEq]
      constructor
      · rintro (h | h | ⟨k, h | ⟨_, rfl⟩⟩ | h)
        · exact Or.inl (Or.inl h)
        · exact Or.inl (Or.inr (Or.inl h))
        · exact Or.inl (Or.inr (Or.inr (Or.inl ⟨k, h⟩)))
        · exact Or.inr rfl
        · exact Or.inl (Or.inr (Or.inr (Or.inr h)))
      · rintro ((h | h | ⟨k, h⟩ | h) | rfl)
        · exact Or.inl h
        · exact Or.inr (Or.inl h)
        · exact Or.inr (Or.inr (Or.inl ⟨k, Or.inl h⟩))
        · exact Or.inr (Or.inr (Or.inr h))
        · exact Or.inr (Or.inr (Or.inl ⟨_, Or.inr ⟨rfl, rfl⟩⟩))
    refine ⟨?_, (hknown _).2 (Or.inr rfl),
      fun x hx => (hknown x).2 (Or.inl (hmono x hx)),
      map_signatureFalse conv _ kt et ksig esig hks hes⟩
    refine hc2.extend _ (le_refl _) ?_ hknown (fun k L h => Or.inl h) ?_
      (fun k U h => Or.inl h)
    · intro y hy
      rcases hchar y hy with hy | ⟨nm, hnm, haddr⟩
      · exact hc.fresh y hy (DefaultMapType.name kt et st.nextAddress)
          (Or.inr (Or.inl ⟨_, _, _, rfl⟩)) (by rw [nameAddress_map])
      · show (TypeInfo.ofString (DefaultMapType.name kt et st.nextAddress)).eq y.info = false
        rw [hnm]
        by_contra hne
        have heq := (TypeInfo.ofString_eq _ nm).1 (by simpa using hne)
        rw [← heq, nameAddress_map] at haddr
        simp at haddr
    · intro k M h
      simp only [List.mem_append, List.mem_singleton, Prod.mk.injEq] at h
      rcases h with h | ⟨rfl, rfl⟩
      · exact Or.inl h
      · refine Or.inr ⟨kt, et, st.nextAddress, ?_, rfl, rfl,
          (hknown kt).2 (Or.inl (hmono kt hkt)), (hknown et).2 (Or.inl (hmono et het))⟩
        show st.nextAddress < p.2.nextAddress
        omega

/-! ### Tuple annotations split back into class name and element names -/

theorem elementNamesText_data (N : String) (A : List String) :
    (N ++ elementNamesText A).data = [','].intercalate ((N :: A).map String.data) := by
  induction A generalizing N with
  | nil => simp [elementNamesText, List.intercalate]
  | cons a l ih =>
    have h := ih a
    simp only [elementNamesText, String.data_append, List.map_cons] at h ⊢
    simp only [List.intercalate, List.intersperse] at h ⊢
    rw [List.flatten_cons, List.flatten_cons, ← h]
    simp

theorem splitAnnotations_names (N : String) (A : List String) (hN : ',' ∉ N.data)
    (hA : ∀ x ∈ A, ',' ∉ x.data) : splitAnnotations (N ++ elementNamesText A) = N :: A := by
  unfold splitAnnotations
  rw [elementNamesText_data, List.splitOn_intercalate _ ','
    (by
      intro l hl
      simp only [List.map_cons, List.mem_cons, List.mem_map] at hl
      rcases hl with rfl | ⟨x, hx, rfl⟩
      · exact hN
      · exact hA x hx)
    (by simp)]
  simp [List.map_map, Function.comp_def]

theorem splitAnnotations_empty : splitAnnotations "" = [""] := by decide

theorem concatMembers_singles (ms : List SigNode) :
    concatMembers (ms.map (fun m => Signature.mk [m])) = some ms := by
  induction ms with
  | nil => rfl
  | cons m l ih => simp [concatMembers, ih]

theorem makeTupleSignature_roundTrips (ms : List SigNode) (a : Option String)
    (h : AnnotationRoundTrips ms.length a) :
    ∃ name elements, splitAnnotations (SigNode.annotationText (.tuple ms a)) = name :: elements
      ∧ makeTupleSignature (ms.map (fun m => Signature.mk [m])) name elements
          = .mk [.tuple ms a] := by
  cases a with
  | none =>
    refine ⟨"", [], splitAnnotations_empty, ?_⟩
    simp [makeTupleSignature, makeTupleSignatureOf, concatMembers_singles]
  | some text =>
    obtain ⟨N, A, rfl, hlen, hN, hA, hne⟩ := h
    refine ⟨N, A, splitAnnotations_names N A hN hA, ?_⟩
    unfold makeTupleSignature
    rw [if_pos ⟨hne, by simp [hlen]⟩]
    simp [makeTupleSignatureOf, concatMembers_singles, Signature.annotate, ← hlen]

/-! ### Round trip through `fromSignature` (C1, C2) and its reference definition (C10) -/

theorem known_canonical (st : Factories) (t : QiType) (h : t ∈ canonicalTypes) :
    st.Known user t :=
  Or.inl (Or.inl h)

mutual
theorem fromSignature_roundTrips (conv : Signature → Signature → Bool) :
    ∀ (n : SigNode) (st : Factories), Factories.Coherent conv user st → n.RoundTrips →
      ∃ t, (fromSignature n st).1 = some t
        ∧ Factories.Coherent conv user (fromSignature n st).2
        ∧ (fromSignature n st).2.Known user t
        ∧ (∀ x, st.Known user x → (fromSignature n st).2.Known user x)
        ∧ t.signatureFalse conv = some (.mk [n])
  | .leaf l, st, hc, hr => by
    cases l
    case Type_None => exact absurd rfl hr.1
    case Type_Unknown => exact absurd rfl hr.2
    all_goals
      exact ⟨_, rfl, hc, known_canonical st _ (by simp [canonicalTypes]), fun x hx => hx, rfl⟩
  | .list e, st, hc, hr => by
    obtain ⟨el, h1, hc1, hk1, hm1, hs1⟩ := fromSignature_roundTrips conv e st hc hr
    rcases hres : fromSignature e st with ⟨o, st1⟩
    rw [hres] at h1 hc1 hk1 hm1
    simp only at h1 hc1 hk1 hm1
    subst h1
    obtain ⟨hc2, hk2, hm2, hs2⟩ := makeListType_spec conv st1 el _ hc1 hk1 hs1
    refine ⟨(makeListType el st1).1, ?_, ?_, ?_, ?_, ?_⟩
    · simp only [fromSignature, hres]
    · simp only [fromSignature, hres]; exact hc2
    · simp only [fromSignature, hres]; exact hk2
    · simp only [fromSignature, hres]; exact fun x hx => hm2 x (hm1 x hx)
    · exact hs2
  | .map k v, st, hc, hr => by
    obtain ⟨kt, h1, hc1, hk1, hm1, hs1⟩ := fromSignature_roundTrips conv k st hc hr.1
    rcases hres : fromSignature k st with ⟨o, st1⟩
    rw [hres] at h1 hc1 hk1 hm1
    simp only at h1 hc1 hk1 hm1
    subst h1
    obtain ⟨et, h2, hc2, hk2, hm2, hs2⟩ := fromSignature_roundTrips conv v st1 hc1 hr.2
    rcases hres2 : fromSignature v st1 with ⟨o2, st2⟩
    rw [hres2] at h2 hc2 hk2 hm2
    simp only at h2 hc2 hk2 hm2
    subst h2
    obtain ⟨hc3, hk3, hm3, hs3⟩ :=
      makeMapType_spec conv st2 kt et _ _ hc2 (hm2 kt hk1) hk2 hs1 hs2
    refine ⟨(makeMapType kt et st2).1, ?_, ?_, ?_, ?_, ?_⟩
    · simp only [fromSignature, hres, hres2]
    · simp only [fromSignature, hres, hres2]; exact hc3
    · simp only [fromSignature, hres, hres2]; exact hk3
    · simp only [fromSignature, hres, hres2]; exact fun x hx => hm3 x (hm2 x (hm1 x hx))
    · exact hs3
  | .tuple ms a, st, hc, hr => by
    obtain ⟨types, h1, hc1, hk1, hm1, hs1⟩ :=
      fromSignatureChildren_roundTrips conv ms st hc hr.1
    rcases hres : fromSignatureChildren ms st with ⟨o, st1⟩
    rw [hres] at h1 hc1 hk1 hm1
    simp only at h1 hc1 hk1 hm1
    subst h1
    obtain ⟨name, elements, hsplit, hsig⟩ := makeTupleSignature_roundTrips ms a hr.2
    obtain ⟨hc2, hk2, hm2, hs2, _⟩ :=
      makeTupleType_spec conv st1 types name elements _ hc1 hk1 hs1
    refine ⟨(makeTupleType types name elements st1).1, ?_, ?_, ?_, ?_, ?_⟩
    · simp only [fromSignature, hres, hsplit]
    · simp only [fromSignature, hres, hsplit]; exact hc2
    · simp only [fromSignature, hres, hsplit]; exact hk2
    · simp only [fromSignature, hres, hsplit]; exact fun x hx => hm2 x (hm1 x hx)
    · rw [hs2, hsig]
theorem fromSignatureChildren_roundTrips (conv : Signature → Signature → Bool) :
    ∀ (ms : List SigNode) (st : Factories), Factories.Coherent conv user st →
      SigNode.RoundTripsList ms →
      ∃ types, (fromSignatureChildren ms st).1 = some types
        ∧ Factories.Coherent conv user (fromSignatureChildren ms st).2
        ∧ (∀ t ∈ types, (fromSignatureChildren ms st).2.Known user t)
        ∧ (∀ x, st.Known user x → (fromSignatureChildren ms st).2.Known user x)
        ∧ allSome (QiType.signatureFalseList conv types)
            = some (ms.map (fun m => Signature.mk [m]))
  | [], st, hc, _ => ⟨[], rfl, hc, by simp, fun x hx => hx, rfl⟩
  | m :: rest, st, hc, hr => by
    obtain ⟨t, h1, hc1, hk1, hm1, hs1⟩ := fromSignature_roundTrips conv m st hc hr.1
    rcases hres : fromSignature m st with ⟨o, st1⟩
    rw [hres] at h1 hc1 hk1 hm1
    simp only at h1 hc1 hk1 hm1
    subst h1
    obtain ⟨types, h2, hc2, hk2, hm2, hs2⟩ :=
      fromSignatureChildren_roundTrips conv rest st1 hc1 hr.2
    rcases hres2 : fromSignatureChildren rest st1 with ⟨o2, st2⟩
    rw [hres2] at h2 hc2 hk2 hm2
    simp only at h2 hc2 hk2 hm2
    subst h2
    refine ⟨t :: types, ?_, ?_, ?_, ?_, ?_⟩
    · simp only [fromSignatureChildren, hres, hres2]
    · simp only [fromSignatureChildren, hres, hres2]; exact hc2
    · simp only [fromSignatureChildren, hres, hres2]
      intro x hx
      rcases List.mem_cons.1 hx with rfl | hx
      · exact hm2 x hk1
      · exact hk2 x hx
    · simp only [fromSignatureChildren, hres, hres2]; exact fun x hx => hm2 x (hm1 x hx)
    · simp only [QiType.signatureFalseList, hs1, allSome, hs2, List.map_cons]
end

/-! ### Coherence is kept by every call of the factories and of `fromSignature` -/

mutual
theorem fromSignature_coherent (conv : Signature → Signature → Bool) :
    ∀ (n : SigNode) (st : Factories), Factories.Coherent conv user st →
      Factories.Coherent conv user (fromSignature n st).2
        ∧ (∀ t, (fromSignature n st).1 = some t → (fromSignature n st).2.Known user t)
        ∧ (∀ x, st.Known user x → (fromSignature n st).2.Known user x)
  | .leaf l, st, hc => by
    refine ⟨by cases l <;> exact hc, ?_, by cases l <;> exact fun x hx => hx⟩
    intro t ht
    cases l
    case Type_Unknown => cases ht
    all_goals
      simp only [fromSignature, Option.some.injEq] at ht
      subst ht
      exact known_canonical _ _ (by simp [canonicalTypes])
  | .list e, st, hc => by
    obtain ⟨hc1, hk1, hm1⟩ := fromSignature_coherent conv e st hc
    rcases hres : fromSignature e st with ⟨o, st1⟩
    rw [hres] at hc1 hk1 hm1
    simp only at hc1 hk1 hm1
    cases o with
    | none =>
      simp only [fromSignature, hres]
      exact ⟨hc1, (fun t ht => by cases ht), hm1⟩
    | some el =>
      obtain ⟨esig, hes⟩ := signatureFalse_total conv el
      obtain ⟨hc2, hk2, hm2, _⟩ := makeListType_spec conv st1 el esig hc1 (hk1 el rfl) hes
      simp only [fromSignature, hres]
      refine ⟨hc2, ?_, fun x hx => hm2 x (hm1 x hx)⟩
      intro t ht
      simp only [Option.some.injEq] at ht
      subst ht
      exact hk2
  | .map k v, st, hc => by
    obtain ⟨hc1, hk1, hm1⟩ := fromSignature_coherent conv k st hc
    rcases hres : fromSignature k st with ⟨ok, st1⟩
    rw [hres] at hc1 hk1 hm1
    simp only at hc1 hk1 hm1
    obtain ⟨hc2, hk2, hm2⟩ := fromSignature_coherent conv v st1 hc1
    rcases hres2 : fromSignature v st1 with ⟨oe, st2⟩
    rw [hres2] at hc2 hk2 hm2
    simp only at hc2 hk2 hm2
    cases ok with
    | none =>
      simp only [fromSignature, hres, hres2]
      exact ⟨hc2, (fun t ht => by cases ht), fun x hx => hm2 x (hm1 x hx)⟩
    | some kt =>
      cases oe with
      | none =>
        simp only [fromSignature, hres, hres2]
        exact ⟨hc2, (fun t ht => by cases ht), fun x hx => hm2 x (hm1 x hx)⟩
      | some et =>
        obtain ⟨ksig, hks⟩ := signatureFalse_total conv kt
        obtain ⟨esig, hes⟩ := signatureFalse_total conv et
        obtain ⟨hc3, hk3, hm3, _⟩ :=
          makeMapType_spec conv st2 kt et ksig esig hc2 (hm2 kt (hk1 kt rfl)) (hk2 et rfl)
            hks hes
        simp only [fromSignature, hres, hres2]
        refine ⟨hc3, ?_, fun x hx => hm3 x (hm2 x (hm1 x hx))⟩
        intro t ht
        simp only [Option.some.injEq] at ht
        subst ht
        exact hk3
  | .tuple ms a, st, hc => by
    obtain ⟨hc1, hk1, hm1⟩ := fromSignatureChildren_coherent conv ms st hc
    rcases hres : fromSignatureChildren ms st with ⟨o, st1⟩
    rw [hres] at hc1 hk1 hm1
    simp only at hc1 hk1 hm1
    cases o with
    | none =>
      simp only [fromSignature, hres]
      exact ⟨hc1, (fun t ht => by cases ht), hm1⟩
    | some types =>
      obtain ⟨memberSigs, hsigs, _⟩ := signatureFalseList_single conv types
      have hspec : ∀ name elements,
          Factories.Coherent conv user (makeTupleType types name elements st1).2
            ∧ (makeTupleType types name elements st1).2.Known user
                (makeTupleType types name elements st1).1
            ∧ (∀ x, st1.Known user x → (makeTupleType types name elements st1).2.Known user x) :=
        fun name elements =>
          have h := makeTupleType_spec conv st1 types name elements memberSigs hc1
            (hk1 types rfl) hsigs
          ⟨h.1, h.2.1, h.2.2.1⟩
      cases hsplit : splitAnnotations (SigNode.annotationText (.tuple ms a)) with
      | nil =>
        obtain ⟨hc2, hk2, hm2⟩ := hspec "" []
        simp only [fromSignature, hres, hsplit]
        refine ⟨hc2, ?_, fun x hx => hm2 x (hm1 x hx)⟩
        intro t ht
        simp only [Option.some.injEq] at ht
        subst ht
        exact hk2
      | cons name elements =>
        obtain ⟨hc2, hk2, hm2⟩ := hspec name elements
        simp only [fromSignature, hres, hsplit]
        refine ⟨hc2, ?_, fun x hx => hm2 x (hm1 x hx)⟩
        intro t ht
        simp only [Option.some.injEq] at ht
        subst ht
        exact hk2
theorem fromSignatureChildren_coherent (conv : Signature → Signature → Bool) :
    ∀ (ms : List SigNode) (st : Factories), Factories.Coherent conv user st →
      Factories.Coherent conv user (fromSignatureChildren ms st).2
        ∧ (∀ types, (fromSignatureChildren ms st).1 = some types →
            ∀ t ∈ types, (fromSignatureChildren ms st).2.Known user t)
        ∧ (∀ x, st.Known user x → (fromSignatureChildren ms st).2.Known user x)
  | [], st, hc => by
    refine ⟨hc, ?_, fun x hx => hx⟩
    intro types ht t hmem
    simp only [fromSignatureChildren, Option.some.injEq] at ht
    subst ht
    cases hmem
  | m :: rest, st, hc => by
    obtain ⟨hc1, hk1, hm1⟩ := fromSignature_coherent conv m st hc
    rcases hres : fromSignature m st with ⟨o, st1⟩
    rw [hres] at hc1 hk1 hm1
    simp only at hc1 hk1 hm1
    cases o with
    | none =>
      simp only [fromSignatureChildren, hres]
      exact ⟨hc1, (fun types ht => by cases ht), hm1⟩
    | some t =>
      obtain ⟨hc2, hk2, hm2⟩ := fromSignatureChildren_coherent conv rest st1 hc1
      rcases hres2 : fromSignatureChildren rest st1 with ⟨o2, st2⟩
      rw [hres2] at hc2 hk2 hm2
      simp only at hc2 hk2 hm2
      cases o2 with
      | none =>
        simp only [fromSignatureChildren, hres, hres2]
        exact ⟨hc2, (fun types ht => by cases ht), fun x hx => hm2 x (hm1 x hx)⟩
      | some types =>
        simp only [fromSignatureChildren, hres, hres2]
        refine ⟨hc2, ?_, fun x hx => hm2 x (hm1 x hx)⟩
        intro ts ht x hx
        simp only [Option.some.injEq] at ht
        subst ht
        rcases List.mem_cons.1 hx with rfl | hx
        · exact hm2 x (hk1 x rfl)
        · exact hk2 types rfl x hx
end

/-- Coherence is an invariant of the states a program reaches: it holds in every
state reached from the initial one by factory calls on known descriptors and by
`fromSignature`, as soon as the descriptors of the program, together with the
canonical ones, have "identity via TypeInfo" and none of them carries the name of
a default type. -/
theorem Factories.Reached.coherent (conv : Signature → Signature → Bool)
    (hinfo : ∀ x y, (x ∈ canonicalTypes ∨ user x) → (y ∈ canonicalTypes ∨ user y) →
      x.info.eq y.info = true → x.signatureFalse conv = y.signatureFalse conv)
    (hfresh : ∀ u, user u → ∀ nm, DefaultTypeName nm →
      (TypeInfo.ofString nm).eq u.info = false)
    {st : Factories} (h : Factories.Reached user st) : Factories.Coherent conv user st := by
  induction h with
  | init => exact Factories.Coherent.init conv hinfo hfresh
  | list st e _ he ih =>
    obtain ⟨esig, hes⟩ := signatureFalse_total conv e
    exact (makeListType_spec conv st e esig ih he hes).1
  | map st kt et _ hk he ih =>
    obtain ⟨ksig, hks⟩ := signatureFalse_total conv kt
    obtain ⟨esig, hes⟩ := signatureFalse_total conv et
    exact (makeMapType_spec conv st kt et ksig esig ih hk he hks hes).1
  | tuple st types name elements _ ht ih =>
    obtain ⟨memberSigs, hsigs, _⟩ := signatureFalseList_single conv types
    exact (makeTupleType_spec conv st types name elements memberSigs ih ht hsigs).1
  | fromSig st sig _ ih =>
    cases sig with
    | invalid => exact ih
    | mk l =>
      cases l with
      | nil => exact ih
      | cons i rest => exact (fromSignature_coherent conv i st ih).1

end Coherence

/-- The program that declares `userObject` only: every state it reaches is
coherent. -/
theorem userObjectOnly_coherent (conv : Signature → Signature → Bool) (st : Factories)
    (h : Factories.Reached userObjectOnly st) : Factories.Coherent conv userObjectOnly st := by
  have hU : ∀ x, x ∈ canonicalTypes → x.info.eq userObject.info = false := by
    intro x hx
    obtain ⟨i, hi⟩ := canonical_info x hx
    rw [hi]
    exact TypeInfo.ofStd_eq_ofString _ _
  refine Factories.Reached.coherent conv ?_ ?_ h
  · intro x y hx hy hxy
    rcases hx with hx | hx <;> rcases hy with hy | hy
    · rw [canonical_info_inj x y hx hy hxy]
    · rw [hy, hU x hx] at hxy
      cases hxy
    · rw [hx, TypeInfo.eq_symm, hU y hy] at hxy
      cases hxy
    · rw [hx, hy]
  · intro u hu nm hnm
    rw [hu]
    by_contra hne
    have heq : nm = "U" := (TypeInfo.ofString_eq nm "U").1 (by simpa using hne)
    have hd := DefaultTypeName.head_char nm hnm
    rw [heq] at hd
    exact absurd hd (by decide)

/-- C1 (amended): in a state of the factories that is coherent with the
descriptors `user` of the program (every state the program reaches by factory
calls and `type_from_signature` is, when its descriptors have "identity via
TypeInfo" and none carries the name of a default type), for any value `v` whose
`signature_of(v, false)` is made of leaves other than `X` and of tuple
annotations that split back into the same class name and element names,
`type_from_signature(signature_of(v, false))` is a non-null type whose signature
(`resolve_dynamic = false`, any storage) equals `signature_of(v, false)`; the
primitive values true, int8, uint64, float, double and string have the
signatures `b`, `c`, `L`, `f`, `d`, `s`, and each of these materialises to the
canonical descriptor it came from. -/
theorem signature_roundtrip_through_type (conv : Signature → Signature → Bool)
    (user : QiType → Prop)
    (st : Factories) (v : GenericValuePtr) (n : SigNode) (storage : Storage)
    (hc : Factories.Coherent conv user st)
    (hv : v.signature conv false = some (.mk [n])) (hr : n.RoundTrips) :
    (∃ t st2, QiType.fromSignature (.mk [n]) st = (some t, st2)
        ∧ t.signature conv storage false = v.signature conv false
        ∧ Factories.Coherent conv user st2)
    ∧ (GenericValuePtr.mk typeOfBool (.int 1)).signature conv false
        = some (Signature.fromType .Type_Bool)
    ∧ QiType.fromSignature (Signature.fromType .Type_Bool) st = (some typeOfBool, st)
    ∧ (GenericValuePtr.mk typeOfInt8 (.int (-1))).signature conv false
        = some (Signature.fromType .Type_Int8)
    ∧ QiType.fromSignature (Signature.fromType .Type_Int8) st = (some typeOfInt8, st)
    ∧ (GenericValuePtr.mk typeOfUInt64 (.int 1)).signature conv false
        = some (Signature.fromType .Type_UInt64)
    ∧ QiType.fromSignature (Signature.fromType .Type_UInt64) st = (some typeOfUInt64, st)
    ∧ (GenericValuePtr.mk typeOfFloat (.float 0x3fc00000)).signature conv false
        = some (Signature.fromType .Type_Float)
    ∧ QiType.fromSignature (Signature.fromType .Type_Float) st = (some typeOfFloat, st)
    ∧ (GenericValuePtr.mk typeOfDouble (.float 0x4004000000000000)).signature conv false
        = some (Signature.fromType .Type_Double)
    ∧ QiType.fromSignature (Signature.fromType .Type_Double) st = (some typeOfDouble, st)
    ∧ (GenericValuePtr.mk typeOfString (.string "x")).signature conv false
        = some (Signature.fromType .Type_String)
    ∧ QiType.fromSignature (Signature.fromType .Type_String) st = (some typeOfString, st) := by
  refine ⟨?_, rfl, rfl, rfl, rfl, rfl, rfl, rfl, rfl, rfl, rfl, rfl, rfl⟩
  obtain ⟨t, h1, hc2, _, _, hs⟩ := fromSignature_roundTrips conv n st hc hr
  refine ⟨t, (fromSignature n st).2, ?_, ?_, hc2⟩
  · show fromSignature n st = _
    rw [← h1]
  · rw [hv]
    exact hs

/-- C1 (amended) at a list of annotated tuples, in the state of the factories
after `makeListType` of the program's descriptor `userObject`. -/
theorem signature_roundtrip_through_type_witness :
    Factories.Reached userObjectOnly (makeListType userObject Factories.init).2
    ∧ listOfPoints.signature Signature.isConvertibleTo false = some (.mk [listOfPointsNode])
    ∧ ∃ t st2, QiType.fromSignature (.mk [listOfPointsNode])
          (makeListType userObject Factories.init).2 = (some t, st2)
        ∧ t.signature Signature.isConvertibleTo .null false
            = listOfPoints.signature Signature.isConvertibleTo false :=
  have hreach : Factories.Reached userObjectOnly (makeListType userObject Factories.init).2 :=
    .list _ _ .init (Or.inl (Or.inr rfl))
  ⟨hreach, by decide,
   by
    obtain ⟨t, st2, h1, h2, _⟩ :=
      (signature_roundtrip_through_type Signature.isConvertibleTo userObjectOnly
        (makeListType userObject Factories.init).2 listOfPoints
        listOfPointsNode .null (userObjectOnly_coherent _ _ hreach) (by decide)
        ⟨⟨⟨by decide, by decide⟩, ⟨by decide, by decide⟩, trivial⟩,
          "Point", ["x", "y"], by decide, rfl, by decide, by decide, Or.inl (by decide)⟩).1
    exact ⟨t, st2, h1, h2⟩⟩

/-- C1 as stated fails, in two ways. A value of an Unknown-kind type has the
signature `X`, and `type_from_signature` returns null for it. And in a state of
the factories that is not coherent the type found is another one: after
`makeListType` of `impostorInt32`, a String descriptor with the native identity of
`int32_t`, `type_from_signature` of `[i]`, the signature of a list of Int32, is
that memoised list of strings, of signature `[s]`. -/
theorem signature_roundtrip_through_type_counterexample :
    (GenericValuePtr.mk (.unknown (TypeInfo.ofString "U")) .null).signature
        Signature.isConvertibleTo false = some (Signature.fromType .Type_Unknown)
    ∧ (QiType.fromSignature (Signature.fromType .Type_Unknown) Factories.init).1 = none
    ∧ (GenericValuePtr.mk listOfInt32 (.list [])).signature Signature.isConvertibleTo false
        = some (.mk [.list (.leaf .Type_Int32)])
    ∧ (QiType.fromSignature (.mk [.list (.leaf .Type_Int32)])
          (makeListType impostorInt32 Factories.init).2).1
        = some (DefaultListType.new impostorInt32 0)
    ∧ (DefaultListType.new impostorInt32 0).signature Signature.isConvertibleTo .null false
        = some (.mk [.list (.leaf .Type_String)]) :=
  ⟨rfl, rfl, by decide, rfl, by decide⟩

/-- C2 (amended): in a state of the factories that is coherent with the
descriptors `user` of the program, for every one-element signature `s` built from
the leaves `v b c C w W i I l L f d s m r o` (neither `_` nor `X`) and list, map
and tuple composites whose tuple annotations are absent or `<N,e1,…,en>` with one
comma-free element name per member and a comma-free class name (not all of them
empty), `type_from_signature(s)` is non-null and
`signature_of(materialize(s), false) == s`, whatever storage `materialize`
builds. -/
theorem signature_of_materialized (conv : Signature → Signature → Bool)
    (user : QiType → Prop) (st : Factories)
    (n : SigNode) (hc : Factories.Coherent conv user st) (hr : n.RoundTrips) :
    ∃ t st2, QiType.fromSignature (.mk [n]) st = (some t, st2)
      ∧ (∀ storage : Storage,
          (GenericValuePtr.mk t storage).signature conv false = some (.mk [n]))
      ∧ Factories.Coherent conv user st2 := by
  obtain ⟨t, h1, hc2, _, _, hs⟩ := fromSignature_roundTrips conv n st hc hr
  refine ⟨t, (fromSignature n st).2, ?_, fun _ => hs, hc2⟩
  show fromSignature n st = _
  rw [← h1]

/-- C2 (amended) at the map signature of `s` and `[i]`, in the state of the
factories after `makeMapType` of String and the program's descriptor
`userObject`. -/
theorem signature_of_materialized_witness :
    Factories.Reached userObjectOnly (makeMapType typeOfString userObject Factories.init).2
    ∧ ∃ t st2, QiType.fromSignature
        (.mk [.map (.leaf .Type_String) (.list (.leaf .Type_Int32))])
        (makeMapType typeOfString userObject Factories.init).2 = (some t, st2)
      ∧ (GenericValuePtr.mk t (.map [])).signature Signature.isConvertibleTo false
          = some (.mk [.map (.leaf .Type_String) (.list (.leaf .Type_Int32))]) :=
  have hreach : Factories.Reached userObjectOnly
      (makeMapType typeOfString userObject Factories.init).2 :=
    .map _ _ _ .init (Or.inl (Or.inl (by simp [canonicalTypes]))) (Or.inl (Or.inr rfl))
  ⟨hreach, by
    obtain ⟨t, st2, h1, h2, _⟩ :=
      signature_of_materialized Signature.isConvertibleTo userObjectOnly
        (makeMapType typeOfString userObject Factories.init).2
        (.map (.leaf .Type_String) (.list (.leaf .Type_Int32)))
        (userObjectOnly_coherent _ _ hreach)
        ⟨⟨by decide, by decide⟩, ⟨by decide, by decide⟩⟩
    exact ⟨t, st2, h1, h2 _⟩⟩

/-- C2 as stated fails, in two ways. `signature_of` gives an empty list the
signature `[_]` when it resolves dynamics; `type_from_signature` maps the leaf `_`
to `void`, so the materialised value has the signature `[v]`. And in a state of
the factories that is not coherent the type found is another one: after
`makeMapType` of String and `impostorInt32`, a String descriptor with the native
identity of `int32_t`, the signature `{si}` materialises to that memoised map, of
signature `{ss}`. -/
theorem signature_of_materialized_counterexample :
    (GenericValuePtr.mk listOfInt32 (.list [])).signature Signature.isConvertibleTo true
        = some (.mk [.list (.leaf .Type_None)])
    ∧ (QiType.fromSignature (.mk [.list (.leaf .Type_None)]) Factories.init).1
        = some (DefaultListType.new typeOfVoid 0)
    ∧ (GenericValuePtr.mk (DefaultListType.new typeOfVoid 0) (.list [])).signature
        Signature.isConvertibleTo false = some (.mk [.list (.leaf .Type_Void)])
    ∧ Signature.mk [.list (.leaf .Type_Void)] ≠ Signature.mk [.list (.leaf .Type_None)]
    ∧ (QiType.fromSignature (.mk [.map (.leaf .Type_String) (.leaf .Type_Int32)])
          (makeMapType typeOfString impostorInt32 Factories.init).2).1
        = some (QiType.map (TypeInfo.ofString (DefaultMapType.name typeOfString impostorInt32 0))
            typeOfString impostorInt32)
    ∧ (GenericValuePtr.mk
          (QiType.map (TypeInfo.ofString (DefaultMapType.name typeOfString impostorInt32 0))
            typeOfString impostorInt32) (.map [])).signature Signature.isConvertibleTo false
        = some (.mk [.map (.leaf .Type_String) (.leaf .Type_String)]) :=
  ⟨by decide, rfl, by decide, by decide, rfl, by decide⟩

/-- C10: `type_from_signature` follows the reference definition: the leaves `v`
and `_` give the canonical void descriptor, `b` bool, `c C w W i I l L` the
canonical signed and unsigned 8, 16, 32 and 64-bit integer descriptors, `f`
float, `d` double, `s` string, `m` the Dynamic descriptor, `r` the Raw buffer
descriptor, `o` the Object-pointer descriptor; a list signature whose child
resolves gives `make_list_type` of the child's type, and a map signature whose
two children resolve gives `make_map_type` of their types. -/
theorem fromSignature_follows_reference (st : Factories) :
    QiType.fromSignature (Signature.fromType .Type_Void) st = (some typeOfVoid, st)
    ∧ QiType.fromSignature (Signature.fromType .Type_None) st = (some typeOfVoid, st)
    ∧ QiType.fromSignature (Signature.fromType .Type_Bool) st = (some typeOfBool, st)
    ∧ QiType.fromSignature (Signature.fromType .Type_Int8) st = (some typeOfInt8, st)
    ∧ QiType.fromSignature (Signature.fromType .Type_UInt8) st = (some typeOfUInt8, st)
    ∧ QiType.fromSignature (Signature.fromType .Type_Int16) st = (some typeOfInt16, st)
    ∧ QiType.fromSignature (Signature.fromType .Type_UInt16) st = (some typeOfUInt16, st)
    ∧ QiType.fromSignature (Signature.fromType .Type_Int32) st = (some typeOfInt32, st)
    ∧ QiType.fromSignature (Signature.fromType .Type_UInt32) st = (some typeOfUInt32, st)
    ∧ QiType.fromSignature (Signature.fromType .Type_Int64) st = (some typeOfInt64, st)
    ∧ QiType.fromSignature (Signature.fromType .Type_UInt64) st = (some typeOfUInt64, st)
    ∧ QiType.fromSignature (Signature.fromType .Type_Float) st = (some typeOfFloat, st)
    ∧ QiType.fromSignature (Signature.fromType .Type_Double) st = (some typeOfDouble, st)
    ∧ QiType.fromSignature (Signature.fromType .Type_String) st = (some typeOfString, st)
    ∧ QiType.fromSignature (Signature.fromType .Type_Dynamic) st
        = (some typeOfGenericValue, st)
    ∧ QiType.fromSignature (Signature.fromType .Type_Raw) st = (some typeOfBuffer, st)
    ∧ QiType.fromSignature (Signature.fromType .Type_Object) st = (some typeOfObjectPtr, st)
    ∧ (∀ (E : SigNode) (el : QiType) (st1 : Factories),
        QiType.fromSignature (.mk [E]) st = (some el, st1) →
        QiType.fromSignature (makeListSignature (.mk [E])) st
          = (some (makeListType el st1).1, (makeListType el st1).2))
    ∧ (∀ (K V : SigNode) (kt et : QiType) (st1 st2 : Factories),
        QiType.fromSignature (.mk [K]) st = (some kt, st1) →
        QiType.fromSignature (.mk [V]) st1 = (some et, st2) →
        QiType.fromSignature (makeMapSignature (.mk [K]) (.mk [V])) st
          = (some (makeMapType kt et st2).1, (makeMapType kt et st2).2)) := by
  refine ⟨rfl, rfl, rfl, rfl, rfl, rfl, rfl, rfl, rfl, rfl, rfl, rfl, rfl, rfl, rfl, rfl, rfl,
    ?_, ?_⟩
  · intro E el st1 h
    have h2 : fromSignature E st = (some el, st1) := h
    show fromSignature (.list E) st = _
    simp only [fromSignature, h2]
  · intro K V kt et st1 st2 h1 h2
    have h3 : fromSignature K st = (some kt, st1) := h1
    have h4 : fromSignature V st1 = (some et, st2) := h2
    show fromSignature (.map K V) st = _
    simp only [fromSignature, h3, h4]

/-- C10 at the signatures `i` and `[i]`, from the initial state of the factories. -/
theorem fromSignature_follows_reference_witness :
    QiType.fromSignature (.mk [.leaf .Type_Int32]) Factories.init
        = (some typeOfInt32, Factories.init)
    ∧ QiType.fromSignature (.mk [.list (.leaf .Type_Int32)]) Factories.init
        = (some (makeListType typeOfInt32 Factories.init).1,
            (makeListType typeOfInt32 Factories.init).2)
    ∧ (makeListType typeOfInt32 Factories.init).1
        = QiType.list (TypeInfo.ofString "DefaultListType<i>(0") typeOfInt32 :=
  ⟨rfl,
   (fromSignature_follows_reference Factories.init).2.2.2.2.2.2.2.2.2.2.2.2.2.2.2.2.2.1
     (.leaf .Type_Int32) typeOfInt32 Factories.init rfl,
   rfl⟩

theorem TypeInfo.eq_eq_eqBy (a b : TypeInfo) :
    a.eq b = TypeInfo.eqBy (fun x y => x.id == y.id) a b := rfl

theorem TypeInfo.lt_eq_ltBy (a b : TypeInfo) :
    a.lt b = TypeInfo.ltBy (fun x y => decide (x.id < y.id)) a b := rfl

theorem strLt_irrefl (a : String) : strLt a a = false := by
  simp [strLt]

theorem strLt_trans (a b c : String) (h1 : strLt a b = true) (h2 : strLt b c = true) :
    strLt a c = true := by
  simp only [strLt, decide_eq_true_eq] at h1 h2 ⊢
  exact lt_trans h1 h2

theorem strLt_exactlyOne (a b : String) : exactlyOne (strLt a b) (a == b) (strLt b a) := by
  unfold exactlyOne
  rcases lt_trichotomy a.data b.data with h | h | h
  · left
    refine ⟨by simp [strLt, h], ?_, by simp [strLt, not_lt_of_lt h]⟩
    have : a ≠ b := fun e => by subst e; exact lt_irrefl _ h
    simpa using this
  · right; left
    have e : a = b := String.ext h
    subst e
    exact ⟨strLt_irrefl a, by simp, strLt_irrefl a⟩
  · right; right
    refine ⟨by simp [strLt, not_lt_of_lt h], ?_, by simp [strLt, h]⟩
    have : a ≠ b := fun e => by subst e; exact lt_irrefl _ h
    simpa using this

/-- C17: assuming the host's strictly-before relation is a strict total order on
native identities that agrees with their equality, `TypeInfo::operator<` is a
strict total order consistent with `operator==`: for all `a`, `b` exactly one of
`a < b`, `a == b`, `b < a` holds and `<` is transitive; every native `TypeInfo` is
before every named one and never equal to one; two named `TypeInfo`s compare by
their strings. -/
theorem TypeInfo.lt_strict_total_order (same before : StdTypeInfo → StdTypeInfo → Bool)
    (htri : ∀ x y, exactlyOne (before x y) (same x y) (before y x))
    (htrans : ∀ x y z, before x y = true → before y z = true → before x z = true) :
    (∀ a b, exactlyOne (TypeInfo.ltBy before a b) (TypeInfo.eqBy same a b)
        (TypeInfo.ltBy before b a))
    ∧ (∀ a b c, TypeInfo.ltBy before a b = true → TypeInfo.ltBy before b c = true →
        TypeInfo.ltBy before a c = true)
    ∧ (∀ (x : StdTypeInfo) (s : String),
        TypeInfo.ltBy before (TypeInfo.ofStd x) (TypeInfo.ofString s) = true
        ∧ TypeInfo.ltBy before (TypeInfo.ofString s) (TypeInfo.ofStd x) = false
        ∧ TypeInfo.eqBy same (TypeInfo.ofStd x) (TypeInfo.ofString s) = false
        ∧ TypeInfo.eqBy same (TypeInfo.ofString s) (TypeInfo.ofStd x) = false)
    ∧ (∀ s t : String,
        TypeInfo.ltBy before (TypeInfo.ofString s) (TypeInfo.ofString t) = strLt s t
        ∧ TypeInfo.eqBy same (TypeInfo.ofString s) (TypeInfo.ofString t) = (s == t)) := by
  refine ⟨?_, ?_, ?_, ?_⟩
  · rintro ⟨sa, ca⟩ ⟨sb, cb⟩
    cases sa with
    | none =>
      cases sb with
      | none => simpa [TypeInfo.ltBy, TypeInfo.eqBy] using strLt_exactlyOne ca cb
      | some y => simp [TypeInfo.ltBy, TypeInfo.eqBy, exactlyOne]
    | some x =>
      cases sb with
      | none => simp [TypeInfo.ltBy, TypeInfo.eqBy, exactlyOne]
      | some y => simpa [TypeInfo.ltBy, TypeInfo.eqBy] using htri x y
  · rintro ⟨sa, ca⟩ ⟨sb, cb⟩ ⟨sc, cc⟩ h1 h2
    cases sa <;> cases sb <;> cases sc <;>
      simp only [TypeInfo.ltBy, Option.isSome_none, Option.isSome_some, bne_self_eq_false,
        Bool.false_eq_true, if_false, Bool.true_bne, Bool.false_bne, Bool.not_false,
        Bool.not_true, if_true] at h1 h2 ⊢
    · exact strLt_trans _ _ _ h1 h2
    · exact htrans _ _ _ h1 h2
  · intro x s
    simp [TypeInfo.ltBy, TypeInfo.eqBy, TypeInfo.ofStd, TypeInfo.ofString]
  · intro s t
    simp [TypeInfo.ltBy, TypeInfo.eqBy, TypeInfo.ofString]

/-- C17 with the identities ordered by their number, where the hypotheses hold:
the native `TypeInfo` of `int32` is before the named `TypeInfo` `"a"`, the two are
not equal, and exactly one of the three relations holds between them. -/
theorem TypeInfo.lt_strict_total_order_witness :
    exactlyOne (TypeInfo.lt typeOfInt32.info (TypeInfo.ofString "a"))
        (TypeInfo.eq typeOfInt32.info (TypeInfo.ofString "a"))
        (TypeInfo.lt (TypeInfo.ofString "a") typeOfInt32.info)
    ∧ TypeInfo.lt typeOfInt32.info (TypeInfo.ofString "a") = true
    ∧ TypeInfo.eq typeOfInt32.info (TypeInfo.ofString "a") = false := by
  have h := TypeInfo.lt_strict_total_order (fun x y => x.id == y.id)
    (fun x y => decide (x.id < y.id))
    (by
      intro x y
      unfold exactlyOne
      rcases lt_trichotomy x.id y.id with h | h | h
      · left; simp [h, Nat.ne_of_lt h, Nat.lt_asymm h]
      · right; left; simp [h]
      · right; right; simp [h, Nat.ne_of_gt h, Nat.lt_asymm h])
    (by
      intro x y z h1 h2
      simp only [decide_eq_true_eq] at h1 h2 ⊢
      exact lt_trans h1 h2)
  exact ⟨h.1 typeOfInt32.info (TypeInfo.ofString "a"), by decide, by decide⟩

/-! ### The registry -/

theorem TypeInfo.lt_irrefl (a : TypeInfo) : a.lt a = false := by
  obtain ⟨sa, ca⟩ := a
  cases sa <;> simp [TypeInfo.lt, strLt]

theorem TypeInfo.eq_refl (a : TypeInfo) : a.eq a = true := by
  obtain ⟨sa, ca⟩ := a
  cases sa <;> simp [TypeInfo.eq]

theorem TypeInfo.eq_trans (a b c : TypeInfo) (h1 : a.eq b = true) (h2 : b.eq c = true) :
    a.eq c = true := by
  obtain ⟨sa, ca⟩ := a
  obtain ⟨sb, cb⟩ := b
  obtain ⟨sc, cc⟩ := c
  cases sa <;> cases sb <;> cases sc <;> simp_all [TypeInfo.eq]

theorem TypeInfo.equiv_of_eq (a b : TypeInfo) (h : a.eq b = true) :
    a.lt b = false ∧ b.lt a = false := by
  obtain ⟨sa, ca⟩ := a
  obtain ⟨sb, cb⟩ := b
  cases sa <;> cases sb <;> simp_all [TypeInfo.eq, TypeInfo.lt, strLt]

theorem TypeInfo.equiv_iff (a b : TypeInfo) :
    (!a.lt b && !b.lt a) = true ↔ a.eq b = true := by
  simp only [Bool.and_eq_true, Bool.not_eq_true']
  exact ⟨fun h => TypeInfo.eq_of_equiv a b h.1 h.2, TypeInfo.equiv_of_eq a b⟩

theorem mapFind_assign_same {K V : Type} (lt : K → K → Bool) (key : K) (v : V)
    (hrefl : lt key key = false) :
    ∀ m : List (K × V), mapFind lt (mapAssign lt m key v) key = some v
  | [] => by simp [mapAssign, mapFind, hrefl]
  | (k, w) :: rest => by
    by_cases hc : (!lt k key && !lt key k) = true
    · simp [mapAssign, mapFind, hc]
    · simp only [mapAssign, if_neg hc, mapFind]
      exact mapFind_assign_same lt key v hrefl rest

theorem mapFind_assign_other {K V : Type} (lt : K → K → Bool) (key key2 : K) (v : V)
    (hne : (!lt key key2 && !lt key2 key) = false)
    (hE : ∀ k, (!lt k key && !lt key k) = true → (!lt k key2 && !lt key2 k) = true →
      False) :
    ∀ m : List (K × V), mapFind lt (mapAssign lt m key v) key2 = mapFind lt m key2
  | [] => by simp only [mapAssign, mapFind, hne]; simp
  | (k, w) :: rest => by
    by_cases hc : (!lt k key && !lt key k) = true
    · have h2 : ¬ (!lt k key2 && !lt key2 k) = true := fun h => hE k hc h
      simp only [mapAssign, if_pos hc, mapFind, if_neg h2]
    · simp only [mapAssign, if_neg hc, mapFind]
      rw [mapFind_assign_other lt key key2 v hne hE rest]

theorem TypeFactory.find_assign_same (f : TypeFactory) (key : TypeInfo) (v : Option QiType) :
    mapFind TypeInfo.lt (mapAssign TypeInfo.lt f key v) key = some v :=
  mapFind_assign_same TypeInfo.lt key v (TypeInfo.lt_irrefl key) f

theorem TypeFactory.find_assign_other (f : TypeFactory) (key key2 : TypeInfo)
    (v : Option QiType) (hne : key.eq key2 = false) :
    mapFind TypeInfo.lt (mapAssign TypeInfo.lt f key v) key2 = mapFind TypeInfo.lt f key2 := by
  apply mapFind_assign_other
  · cases h : (!key.lt key2 && !key2.lt key)
    · rfl
    · rw [(TypeInfo.equiv_iff key key2).1 h] at hne
      cases hne
  · intro k h1 h2
    have e1 := (TypeInfo.equiv_iff k key).1 h1
    have e2 := (TypeInfo.equiv_iff k key2).1 h2
    rw [TypeInfo.eq_symm] at e1
    rw [TypeInfo.eq_trans key k key2 e1 e2] at hne
    cases hne

theorem TypeInfo.equiv_congr (k a b : TypeInfo) (h : a.eq b = true) :
    (!k.lt a && !a.lt k) = (!k.lt b && !b.lt k) := by
  have hs : b.eq a = true := by rw [TypeInfo.eq_symm]; exact h
  cases h1 : (!k.lt a && !a.lt k)
  · cases h2 : (!k.lt b && !b.lt k)
    · rfl
    · have e := TypeInfo.eq_trans k b a ((TypeInfo.equiv_iff k b).1 h2) hs
      rw [(TypeInfo.equiv_iff k a).2 e] at h1
      cases h1
  · exact ((TypeInfo.equiv_iff k b).2
      (TypeInfo.eq_trans k a b ((TypeInfo.equiv_iff k a).1 h1) h)).symm

theorem mapFind_typeInfo_congr {V : Type} (a b : TypeInfo) (h : a.eq b = true) :
    ∀ m : List (TypeInfo × V), mapFind TypeInfo.lt m a = mapFind TypeInfo.lt m b
  | [] => rfl
  | (k, w) :: rest => by
    simp only [mapFind, TypeInfo.equiv_congr k a b h, mapFind_typeInfo_congr a b h rest]

theorem TypeFactory.index_fst (f : TypeFactory) (key : TypeInfo) :
    (TypeFactory.index f key).1 = (mapFind TypeInfo.lt f key).getD none := by
  unfold TypeFactory.index
  cases mapFind TypeInfo.lt f key <;> rfl

theorem TypeFactory.index_find (f : TypeFactory) (key key2 : TypeInfo) (v : Option QiType)
    (h : mapFind TypeInfo.lt f key2 = some v) :
    mapFind TypeInfo.lt (TypeFactory.index f key).2 key2 = some v := by
  unfold TypeFactory.index
  cases hk : mapFind TypeInfo.lt f key with
  | some w => exact h
  | none =>
    by_cases he : key.eq key2 = true
    · rw [mapFind_typeInfo_congr key key2 he f, h] at hk
      cases hk
    · simp only [Bool.not_eq_true] at he
      simp only
      rw [TypeFactory.find_assign_other f key key2 none he]
      exact h

theorem runRegistry_keeps (id : StdTypeInfo) (type : QiType) :
    ∀ (calls : List RegistryCall) (f : TypeFactory),
      (∀ c ∈ calls, c.registers id = false) →
      mapFind TypeInfo.lt f (TypeInfo.ofStd id) = some (some type) →
      mapFind TypeInfo.lt (runRegistry calls f) (TypeInfo.ofStd id) = some (some type)
  | [], _, _, h => h
  | c :: rest, f, hc, h => by
    simp only [runRegistry]
    apply runRegistry_keeps id type rest _ (fun c2 h2 => hc c2 (List.mem_cons_of_mem _ h2))
    have h1 := hc c (List.mem_cons_self _ _)
    cases c with
    | get t => exact TypeFactory.index_find f _ _ _ h
    | register t d =>
      simp only [RegistryCall.run, registerType]
      rw [TypeFactory.find_assign_other f _ _ _ h1]
      exact h

/-- C13: for every registry state `f`, native id and descriptor `D`,
`registerType(id, D)` returns `true`, and a `getType(id)` made after any sequence of
registry calls none of which registers `id` again returns `D`, whether `id` was absent
before, recorded as null, or registered with another descriptor. -/
theorem registerType_then_getType (f : TypeFactory) (id : StdTypeInfo) (D : QiType)
    (calls : List RegistryCall) (h : ∀ c ∈ calls, c.registers id = false) :
    (registerType id D f).1 = true
    ∧ (getType id (runRegistry calls (registerType id D f).2.2)).1 = some D := by
  refine ⟨rfl, ?_⟩
  have h0 : mapFind TypeInfo.lt (registerType id D f).2.2 (TypeInfo.ofStd id)
      = some (some D) := TypeFactory.find_assign_same f _ _
  have h1 := runRegistry_keeps id D calls _ h h0
  rw [getType, TypeFactory.index_fst, h1]
  rfl

/-- C13 on a registry where `int32` is registered as the `int64` descriptor: after
registering the `int32` descriptor, reading `string` and registering `string`, the
lookup of `int32` gives the `int32` descriptor. -/
theorem registerType_then_getType_witness :
    (∀ c ∈ [RegistryCall.get ⟨13, "Ss"⟩, RegistryCall.register ⟨13, "Ss"⟩ typeOfString],
        c.registers ⟨5, "i"⟩ = false)
    ∧ (registerType ⟨5, "i"⟩ typeOfInt32
        [(TypeInfo.ofStd ⟨5, "i"⟩, some typeOfInt64)]).1 = true
    ∧ (getType ⟨5, "i"⟩ (runRegistry
        [RegistryCall.get ⟨13, "Ss"⟩, RegistryCall.register ⟨13, "Ss"⟩ typeOfString]
        (registerType ⟨5, "i"⟩ typeOfInt32
          [(TypeInfo.ofStd ⟨5, "i"⟩, some typeOfInt64)]).2.2)).1 = some typeOfInt32 :=
  ⟨by decide, registerType_then_getType _ _ _ _ (by decide)⟩

/-- C14: for every native id without a registry entry, `getType(id)` returns null and
leaves an entry mapping the id to null; a following `registerType(id, D)` takes the
"access before registration" branch, not the "previous registration present" one, and
the next `getType(id)` returns `D`. -/
theorem getType_records_null (f : TypeFactory) (id : StdTypeInfo) (D : QiType)
    (h : mapFind TypeInfo.lt f (TypeInfo.ofStd id) = none) :
    (getType id f).1 = none
    ∧ mapFind TypeInfo.lt (getType id f).2 (TypeInfo.ofStd id) = some none
    ∧ (registerType id D (getType id f).2).2.1 = RegisterNotice.accessBeforeRegistration
    ∧ (registerType id D (getType id f).2).2.1 ≠ RegisterNotice.previousRegistration
    ∧ (getType id (registerType id D (getType id f).2).2.2).1 = some D := by
  have h1 : (getType id f).1 = none := by
    rw [getType, TypeFactory.index_fst, h]; rfl
  have h2 : mapFind TypeInfo.lt (getType id f).2 (TypeInfo.ofStd id) = some none := by
    simp only [getType, TypeFactory.index, h]
    exact TypeFactory.find_assign_same f _ _
  have h3 : (registerType id D (getType id f).2).2.1
      = RegisterNotice.accessBeforeRegistration := by
    simp only [registerType, h2]
  refine ⟨h1, h2, h3, by rw [h3]; decide, ?_⟩
  rw [getType, TypeFactory.index_fst]
  simp only [registerType]
  rw [TypeFactory.find_assign_same]
  rfl

/-- C14 on the empty registry with the identity of `int32`. -/
theorem getType_records_null_witness :
    mapFind TypeInfo.lt ([] : TypeFactory) (TypeInfo.ofStd ⟨5, "i"⟩) = none
    ∧ (getType ⟨5, "i"⟩ []).1 = none
    ∧ (registerType ⟨5, "i"⟩ typeOfInt32 (getType ⟨5, "i"⟩ []).2).2.1
        = RegisterNotice.accessBeforeRegistration
    ∧ (getType ⟨5, "i"⟩
        (registerType ⟨5, "i"⟩ typeOfInt32 (getType ⟨5, "i"⟩ []).2).2.2).1
        = some typeOfInt32 :=
  have h := getType_records_null [] ⟨5, "i"⟩ typeOfInt32 rfl
  ⟨rfl, h.1, h.2.2.1, h.2.2.2.2⟩

/-! ### Memoisation of the factories -/

theorem mapFind_append {K V : Type} (lt : K → K → Bool) (l : List (K × V)) (key : K) (v : V) :
    ∀ m : List (K × V), mapFind lt m key = some v → mapFind lt (m ++ l) key = some v
  | [], h => by simp [mapFind] at h
  | (k, w) :: rest, h => by
    simp only [mapFind, List.cons_append] at h ⊢
    split
    · rename_i hc
      rw [if_pos hc] at h
      exact h
    · rename_i hc
      rw [if_neg hc] at h
      exact mapFind_append lt l key v rest h

theorem mapFind_assign_keeps {K V : Type} (lt : K → K → Bool) (m : List (K × V)) (key : K)
    (w : V) (hnone : mapFind lt m key = none) (k : K) (v : V)
    (h : mapFind lt m k = some v) : mapFind lt (mapAssign lt m key w) k = some v := by
  rw [mapAssign_of_find_none lt m key w hnone]
  exact mapFind_append lt _ k v m h

theorem mapFind_congr {K V : Type} (lt : K → K → Bool) (a b : K)
    (h : ∀ k, lt k a = lt k b ∧ lt a k = lt b k) :
    ∀ m : List (K × V), mapFind lt m a = mapFind lt m b
  | [] => rfl
  | (k, w) :: rest => by
    simp only [mapFind, (h k).1, (h k).2, mapFind_congr lt a b h rest]

theorem Factories.Keeps.keeps_refl (st : Factories) : st.Keeps st :=
  ⟨fun _ _ h => h, fun _ _ h => h, fun _ _ h => h⟩

theorem Factories.Keeps.keeps_trans {a b c : Factories} (h1 : a.Keeps b) (h2 : b.Keeps c) :
    a.Keeps c :=
  ⟨fun k v h => h2.1 k v (h1.1 k v h), fun k v h => h2.2.1 k v (h1.2.1 k v h),
    fun k v h => h2.2.2 k v (h1.2.2 k v h)⟩

theorem Factories.Next.next_refl (st : Factories) : st.Next st :=
  ⟨Factories.Keeps.keeps_refl st, fun h => h⟩

theorem Factories.Next.next_trans {a b c : Factories} (h1 : a.Next b) (h2 : b.Next c) :
    a.Next c :=
  ⟨h1.1.keeps_trans h2.1, fun h => h2.2 (h1.2 h)⟩

theorem Factories.shaped_init : Factories.init.Shaped :=
  ⟨fun _ _ h => by simp [Factories.init] at h, fun _ _ h => by simp [Factories.init] at h⟩

theorem makeListType_next (e : QiType) (st : Factories) : st.Next (makeListType e st).2 := by
  unfold makeListType
  simp only
  cases hfind : mapFind TypeInfo.lt st.listMap e.info with
  | some L => exact Factories.Next.next_refl st
  | none =>
    simp only
    refine ⟨⟨fun k v h => mapFind_assign_keeps _ _ _ _ hfind k v h, fun k v h => h,
      fun k v h => h⟩, fun hs => ⟨?_, hs.2⟩⟩
    intro k L hm
    simp only [mapAssign_of_find_none _ _ _ _ hfind, List.mem_append, List.mem_singleton,
      Prod.mk.injEq] at hm
    rcases hm with hm | ⟨rfl, rfl⟩
    · exact hs.1 k L hm
    · exact ⟨_, e, rfl, rfl⟩

theorem makeTupleType_next (types : List QiType) (name : String) (elements : List String)
    (st : Factories) : st.Next (makeTupleType types name elements st).2 := by
  unfold makeTupleType
  simp only
  cases hfind : mapFind InfosKey.lt st.tupleMap ⟨types, name, elements⟩ with
  | some L => exact Factories.Next.next_refl st
  | none =>
    simp only
    exact ⟨⟨fun k v h => h, fun k v h => h,
      fun k v h => mapFind_assign_keeps _ _ _ _ hfind k v h⟩, fun hs => ⟨hs.1, hs.2⟩⟩

theorem makeTupleType_mapMap (types : List QiType) (name : String) (elements : List String)
    (st : Factories) : (makeTupleType types name elements st).2.mapMap = st.mapMap := by
  unfold makeTupleType
  simp only
  cases mapFind InfosKey.lt st.tupleMap ⟨types, name, elements⟩ <;> rfl

theorem makeMapType_next (kt et : QiType) (st : Factories) :
    st.Next (makeMapType kt et st).2 := by
  unfold makeMapType
  simp only
  cases hfind : mapFind pairLt st.mapMap (kt.info, et.info) with
  | some L => exact Factories.Next.next_refl st
  | none =>
    simp only [DefaultMapType.new]
    have hn := makeTupleType_next [kt, et] "" [] { st with nextAddress := st.nextAddress + 1 }
    have hm := makeTupleType_mapMap [kt, et] "" [] { st with nextAddress := st.nextAddress + 1 }
    simp only at hm
    have hfind2 : mapFind pairLt
        (makeTupleType [kt, et] "" [] { st with nextAddress := st.nextAddress + 1 }).2.mapMap
        (kt.info, et.info) = none := by rw [hm]; exact hfind
    refine ⟨⟨fun k v h => hn.1.1 k v h, ?_, fun k v h => hn.1.2.2 k v h⟩, fun hs => ⟨?_, ?_⟩⟩
    · intro k v h
      exact mapFind_assign_keeps _ _ _ _ hfind2 k v (hn.1.2.1 k v h)
    · exact (hn.2 hs).1
    · intro k M hmem
      simp only [mapAssign_of_find_none _ _ _ _ hfind2, List.mem_append, List.mem_singleton,
        Prod.mk.injEq] at hmem
      rcases hmem with hmem | ⟨rfl, rfl⟩
      · exact (hn.2 hs).2 k M hmem
      · exact ⟨_, kt, et, rfl, rfl⟩

mutual
theorem fromSignature_next : ∀ (n : SigNode) (st : Factories), st.Next (fromSignature n st).2
  | .leaf l, st => by
    cases l <;> exact Factories.Next.next_refl st
  | .list e, st => by
    have h1 := fromSignature_next e st
    rcases hres : fromSignature e st with ⟨o, st1⟩
    rw [hres] at h1
    cases o with
    | none => simp only [fromSignature, hres]; exact h1
    | some el =>
      simp only [fromSignature, hres]
      exact h1.next_trans (makeListType_next el st1)
  | .map k v, st => by
    have h1 := fromSignature_next k st
    rcases hres : fromSignature k st with ⟨ok, st1⟩
    rw [hres] at h1
    have h2 := fromSignature_next v st1
    rcases hres2 : fromSignature v st1 with ⟨oe, st2⟩
    rw [hres2] at h2
    cases ok with
    | none => simp only [fromSignature, hres, hres2]; exact h1.next_trans h2
    | some kt =>
      cases oe with
      | none => simp only [fromSignature, hres, hres2]; exact h1.next_trans h2
      | some et =>
        simp only [fromSignature, hres, hres2]
        exact (h1.next_trans h2).next_trans (makeMapType_next kt et st2)
  | .tuple ms a, st => by
    have h1 := fromSignatureChildren_next ms st
    rcases hres : fromSignatureChildren ms st with ⟨o, st1⟩
    rw [hres] at h1
    cases o with
    | none => simp only [fromSignature, hres]; exact h1
    | some types =>
      simp only [fromSignature, hres]
      split
      · exact h1.next_trans (makeTupleType_next _ _ _ st1)
      · exact h1.next_trans (makeTupleType_next _ _ _ st1)
theorem fromSignatureChildren_next : ∀ (ms : List SigNode) (st : Factories),
    st.Next (fromSignatureChildren ms st).2
  | [], st => Factories.Next.next_refl st
  | m :: rest, st => by
    have h1 := fromSignature_next m st
    rcases hres : fromSignature m st with ⟨o, st1⟩
    rw [hres] at h1
    cases o with
    | none => simp only [fromSignatureChildren, hres]; exact h1
    | some t =>
      have h2 := fromSignatureChildren_next rest st1
      rcases hres2 : fromSignatureChildren rest st1 with ⟨o2, st2⟩
      rw [hres2] at h2
      cases o2 with
      | none => simp only [fromSignatureChildren, hres, hres2]; exact h1.next_trans h2
      | some types => simp only [fromSignatureChildren, hres, hres2]; exact h1.next_trans h2
end

theorem FactoryCall.run_next (c : FactoryCall) (st : Factories) : st.Next (c.run st) := by
  cases c with
  | list e => exact makeListType_next e st
  | map kt et => exact makeMapType_next kt et st
  | tuple types name elements => exact makeTupleType_next types name elements st
  | fromSig sig =>
    simp only [FactoryCall.run, QiType.fromSignature]
    split
    · exact fromSignature_next _ st
    · exact Factories.Next.next_refl st

theorem runFactoryCalls_next : ∀ (calls : List FactoryCall) (st : Factories),
    st.Next (runFactoryCalls calls st)
  | [], st => Factories.Next.next_refl st
  | c :: rest, st => (c.run_next st).next_trans (runFactoryCalls_next rest (c.run st))

theorem runFactoryCalls_shaped (calls : List FactoryCall) :
    (runFactoryCalls calls Factories.init).Shaped :=
  (runFactoryCalls_next calls Factories.init).2 Factories.shaped_init

/-! ### A request leaves its descriptor under its key; an equal key finds it -/

theorem TypeInfo.lt_congr (a b k : TypeInfo) (h : a.eq b = true) :
    k.lt a = k.lt b ∧ a.lt k = b.lt k := by
  obtain ⟨sa, ca⟩ := a
  obtain ⟨sb, cb⟩ := b
  obtain ⟨sk, ck⟩ := k
  cases sa <;> cases sb <;> cases sk <;> simp_all [TypeInfo.eq, TypeInfo.lt]

theorem TypeInfo.ne_congr (a b k : TypeInfo) (h : a.eq b = true) :
    k.ne a = k.ne b ∧ a.ne k = b.ne k := by
  obtain ⟨sa, ca⟩ := a
  obtain ⟨sb, cb⟩ := b
  obtain ⟨sk, ck⟩ := k
  cases sa <;> cases sb <;> cases sk <;> simp_all [TypeInfo.eq, TypeInfo.ne]

theorem pairLt_irrefl (a : TypeInfo × TypeInfo) : pairLt a a = false := by
  simp [pairLt, TypeInfo.lt_irrefl]

theorem pairLt_congr (a b k : TypeInfo × TypeInfo) (h1 : a.1.eq b.1 = true)
    (h2 : a.2.eq b.2 = true) : pairLt k a = pairLt k b ∧ pairLt a k = pairLt b k := by
  simp only [pairLt, (TypeInfo.lt_congr a.1 b.1 k.1 h1).1, (TypeInfo.lt_congr a.1 b.1 k.1 h1).2,
    (TypeInfo.lt_congr a.2 b.2 k.2 h2).1, (TypeInfo.lt_congr a.2 b.2 k.2 h2).2, and_self]

theorem InfosKey.typesLoop_congr (as bs : List QiType)
    (h : List.Forall₂ (fun a b => a.info.eq b.info = true) as bs) :
    ∀ ks, InfosKey.typesLoop ks as = InfosKey.typesLoop ks bs
      ∧ InfosKey.typesLoop as ks = InfosKey.typesLoop bs ks := by
  induction h with
  | nil => intro ks; exact ⟨rfl, rfl⟩
  | cons hab _ ih =>
    intro ks
    cases ks with
    | nil => exact ⟨rfl, rfl⟩
    | cons k ks =>
      simp only [InfosKey.typesLoop, (TypeInfo.ne_congr _ _ k.info hab).1,
        (TypeInfo.ne_congr _ _ k.info hab).2, (TypeInfo.lt_congr _ _ k.info hab).1,
        (TypeInfo.lt_congr _ _ k.info hab).2, (ih ks).1, (ih ks).2, and_self]

theorem InfosKey.typesLoop_self : ∀ as : List QiType, InfosKey.typesLoop as as = none
  | [] => rfl
  | a :: as => by
    simp [InfosKey.typesLoop, TypeInfo.ne, TypeInfo.eq_refl, InfosKey.typesLoop_self as]

theorem InfosKey.elementsLoop_self : ∀ as : List String, InfosKey.elementsLoop as as = none
  | [] => rfl
  | a :: as => by
    simp [InfosKey.elementsLoop, InfosKey.elementsLoop_self as]

theorem InfosKey.key_lt_irrefl (a : InfosKey) : a.lt a = false := by
  simp [InfosKey.lt, InfosKey.typesLoop_self, InfosKey.elementsLoop_self]

theorem InfosKey.key_lt_congr (types1 types2 : List QiType) (name : String)
    (elements : List String)
    (h : List.Forall₂ (fun a b => a.info.eq b.info = true) types1 types2) (k : InfosKey) :
    k.lt ⟨types1, name, elements⟩ = k.lt ⟨types2, name, elements⟩
      ∧ InfosKey.lt ⟨types1, name, elements⟩ k = InfosKey.lt ⟨types2, name, elements⟩ k := by
  simp only [InfosKey.lt, h.length_eq, (InfosKey.typesLoop_congr _ _ h k._types).1,
    (InfosKey.typesLoop_congr _ _ h k._types).2, and_self]

theorem makeListType_memo (e : QiType) (st : Factories) :
    mapFind TypeInfo.lt (makeListType e st).2.listMap e.info = some (makeListType e st).1 := by
  unfold makeListType
  simp only
  cases hfind : mapFind TypeInfo.lt st.listMap e.info with
  | some L => exact hfind
  | none => exact mapFind_assign_same TypeInfo.lt _ _ (TypeInfo.lt_irrefl _) _

theorem makeListType_found (e : QiType) (st : Factories) (r : QiType)
    (h : mapFind TypeInfo.lt st.listMap e.info = some r) : (makeListType e st).1 = r := by
  simp only [makeListType, h]

theorem makeTupleType_memo (types : List QiType) (name : String) (elements : List String)
    (st : Factories) :
    mapFind InfosKey.lt (makeTupleType types name elements st).2.tupleMap
      ⟨types, name, elements⟩ = some (makeTupleType types name elements st).1 := by
  unfold makeTupleType
  simp only
  cases hfind : mapFind InfosKey.lt st.tupleMap ⟨types, name, elements⟩ with
  | some L => exact hfind
  | none => exact mapFind_assign_same InfosKey.lt _ _ (InfosKey.key_lt_irrefl _) _

theorem makeTupleType_found (types : List QiType) (name : String) (elements : List String)
    (st : Factories) (r : QiType)
    (h : mapFind InfosKey.lt st.tupleMap ⟨types, name, elements⟩ = some r) :
    (makeTupleType types name elements st).1 = r := by
  simp only [makeTupleType, h]

theorem makeMapType_memo (kt et : QiType) (st : Factories) :
    mapFind pairLt (makeMapType kt et st).2.mapMap (kt.info, et.info)
      = some (makeMapType kt et st).1 := by
  unfold makeMapType
  simp only
  cases hfind : mapFind pairLt st.mapMap (kt.info, et.info) with
  | some L => exact hfind
  | none => exact mapFind_assign_same pairLt _ _ (pairLt_irrefl _) _

theorem makeMapType_found (kt et : QiType) (st : Factories) (r : QiType)
    (h : mapFind pairLt st.mapMap (kt.info, et.info) = some r) :
    (makeMapType kt et st).1 = r := by
  simp only [makeMapType, h]

theorem makeListType_element (e : QiType) (st : Factories) (hs : st.Shaped) :
    ∃ info e2, (makeListType e st).1 = QiType.list info e2 ∧ e2.info.eq e.info = true := by
  unfold makeListType
  simp only
  cases hfind : mapFind TypeInfo.lt st.listMap e.info with
  | some L =>
    obtain ⟨k, hmem, h1, h2⟩ := mapFind_some TypeInfo.lt st.listMap e.info L hfind
    obtain ⟨info, e2, rfl, rfl⟩ := hs.1 k L hmem
    exact ⟨info, e2, rfl, TypeInfo.eq_of_equiv _ _ h1 h2⟩
  | none => exact ⟨_, e, rfl, TypeInfo.eq_refl _⟩

theorem makeMapType_element (kt et : QiType) (st : Factories) (hs : st.Shaped) :
    ∃ info kt2 et2, (makeMapType kt et st).1 = QiType.map info kt2 et2
      ∧ kt2.info.eq kt.info = true ∧ et2.info.eq et.info = true := by
  unfold makeMapType
  simp only
  cases hfind : mapFind pairLt st.mapMap (kt.info, et.info) with
  | some M =>
    obtain ⟨k, hmem, h1, h2⟩ := mapFind_some pairLt st.mapMap _ M hfind
    obtain ⟨info, kt2, et2, rfl, rfl⟩ := hs.2 k M hmem
    have he := pairLt_equiv _ _ h1 h2
    exact ⟨info, kt2, et2, rfl, he.1, he.2⟩
  | none => exact ⟨_, kt, et, rfl, TypeInfo.eq_refl _, TypeInfo.eq_refl _⟩

/-- C15: from every state of the factories (so after every sequence of factory
calls) and with every sequence of factory calls in between, two `makeTupleType`
requests whose member types have pairwise equal `TypeInfo` in the same order, with
the same class name and the same ordered element names, return the identical
descriptor. -/
theorem makeTupleType_same_key (st : Factories) (calls : List FactoryCall)
    (types1 types2 : List QiType) (name : String) (elements : List String)
    (h : List.Forall₂ (fun a b => a.info.eq b.info = true) types1 types2) :
    (makeTupleType types2 name elements
        (runFactoryCalls calls (makeTupleType types1 name elements st).2)).1
      = (makeTupleType types1 name elements st).1 := by
  apply makeTupleType_found
  rw [← mapFind_congr InfosKey.lt _ _ (InfosKey.key_lt_congr types1 types2 name elements h)]
  exact (runFactoryCalls_next calls _).1.2.2 _ _ (makeTupleType_memo types1 name elements st)

/-- C15 for `(int32, string)` named `Point` with elements `x`, `y`, requested a
second time with another descriptor of `int32` (same native identity) after a list
and another tuple were made. -/
theorem makeTupleType_same_key_witness :
    List.Forall₂ (fun a b => a.info.eq b.info = true) [typeOfInt32, typeOfString]
        [QiType.int (TypeInfo.ofStd ⟨5, "int"⟩) true 4, typeOfString]
    ∧ (makeTupleType [QiType.int (TypeInfo.ofStd ⟨5, "int"⟩) true 4, typeOfString] "Point"
        ["x", "y"]
        (runFactoryCalls [FactoryCall.list typeOfInt32,
            FactoryCall.tuple [typeOfInt32, typeOfString] "Q" ["x", "y"]]
          (makeTupleType [typeOfInt32, typeOfString] "Point" ["x", "y"] Factories.init).2)).1
      = (makeTupleType [typeOfInt32, typeOfString] "Point" ["x", "y"] Factories.init).1 :=
  ⟨.cons rfl (.cons rfl .nil),
    makeTupleType_same_key _ _ _ _ _ _ (.cons rfl (.cons rfl .nil))⟩

/-- C16: in every state `st` reached by a sequence of factory calls, and with every
sequence of factory calls in between, `makeListType(E1)` and `makeListType(E2)`
return the same descriptor if and only if `E1.info() == E2.info()`, and
`makeMapType(K1, V1)` and `makeMapType(K2, V2)` return the same descriptor if and
only if `K1.info() == K2.info()` and `V1.info() == V2.info()`; the element (and
key) type of the returned descriptor has the requested `TypeInfo`. -/
theorem makeListType_makeMapType_one_per_info (before between : List FactoryCall)
    (E1 E2 K1 V1 K2 V2 : QiType) :
    ((makeListType E2 (runFactoryCalls between
          (makeListType E1 (runFactoryCalls before Factories.init)).2)).1
        = (makeListType E1 (runFactoryCalls before Factories.init)).1
      ↔ E1.info.eq E2.info = true)
    ∧ (∃ info e, (makeListType E1 (runFactoryCalls before Factories.init)).1
        = QiType.list info e ∧ e.info.eq E1.info = true)
    ∧ ((makeMapType K2 V2 (runFactoryCalls between
          (makeMapType K1 V1 (runFactoryCalls before Factories.init)).2)).1
        = (makeMapType K1 V1 (runFactoryCalls before Factories.init)).1
      ↔ (K1.info.eq K2.info = true ∧ V1.info.eq V2.info = true))
    ∧ (∃ info kt et, (makeMapType K1 V1 (runFactoryCalls before Factories.init)).1
        = QiType.map info kt et ∧ kt.info.eq K1.info = true ∧ et.info.eq V1.info = true) := by
  have hs := runFactoryCalls_shaped before
  generalize runFactoryCalls before Factories.init = st at hs
  have hl1 := makeListType_element E1 st hs
  have hm1 := makeMapType_element K1 V1 st hs
  have hsl : (runFactoryCalls between (makeListType E1 st).2).Shaped :=
    (runFactoryCalls_next between _).2 ((makeListType_next E1 st).2 hs)
  have hsm : (runFactoryCalls between (makeMapType K1 V1 st).2).Shaped :=
    (runFactoryCalls_next between _).2 ((makeMapType_next K1 V1 st).2 hs)
  refine ⟨⟨fun h => ?_, fun h => ?_⟩, hl1, ⟨fun h => ?_, fun h => ?_⟩, hm1⟩
  · obtain ⟨i1, e1, h1, he1⟩ := hl1
    obtain ⟨i2, e2, h2, he2⟩ := makeListType_element E2 _ hsl
    rw [h1, h2] at h
    cases h
    rw [TypeInfo.eq_symm] at he1
    exact TypeInfo.eq_trans _ _ _ he1 he2
  · apply makeListType_found
    rw [← mapFind_typeInfo_congr _ _ h]
    exact (runFactoryCalls_next between _).1.1 _ _ (makeListType_memo E1 st)
  · obtain ⟨i1, k1, v1, h1, hk1, hv1⟩ := hm1
    obtain ⟨i2, k2, v2, h2, hk2, hv2⟩ := makeMapType_element K2 V2 _ hsm
    rw [h1, h2] at h
    cases h
    rw [TypeInfo.eq_symm] at hk1 hv1
    exact ⟨TypeInfo.eq_trans _ _ _ hk1 hk2, TypeInfo.eq_trans _ _ _ hv1 hv2⟩
  · apply makeMapType_found
    rw [← mapFind_congr pairLt _ _ (fun k => pairLt_congr (K1.info, V1.info)
      (K2.info, V2.info) k h.1 h.2)]
    exact (runFactoryCalls_next between _).1.2.1 _ _ (makeMapType_memo K1 V1 st)

/-! ### `fromSignature` of a tuple, and when `fromSignature` is null -/

/-- C11: for every tuple signature whose children all resolve (to `types`, leaving
the factories in `st1`): with the annotation `N,e1,…,ek` (no comma inside `N` or
an `ei`) `Type::fromSignature` returns the descriptor and the state that
`makeTupleType(types, N, [e1,…,ek])` returns, and a later request of
`makeTupleType(types, N, [e1,…,ek])` returns that identical descriptor; without
an annotation it returns what `makeTupleType(types, "", [])` returns. -/
theorem fromSignature_tuple_is_makeTupleType (ms rest : List SigNode) (st st1 : Factories)
    (types : List QiType) (N : String) (es : List String)
    (hc : fromSignatureChildren ms st = (some types, st1))
    (hN : ',' ∉ N.data) (hes : ∀ e ∈ es, ',' ∉ e.data) :
    QiType.fromSignature (.mk (.tuple ms (some (N ++ elementNamesText es)) :: rest)) st
      = (some (makeTupleType types N es st1).1, (makeTupleType types N es st1).2)
    ∧ (makeTupleType types N es
        (QiType.fromSignature (.mk (.tuple ms (some (N ++ elementNamesText es)) :: rest))
          st).2).1 = (makeTupleType types N es st1).1
    ∧ QiType.fromSignature (.mk (.tuple ms none :: rest)) st
      = (some (makeTupleType types "" [] st1).1, (makeTupleType types "" [] st1).2) := by
  have h1 : QiType.fromSignature (.mk (.tuple ms (some (N ++ elementNamesText es)) :: rest)) st
      = (some (makeTupleType types N es st1).1, (makeTupleType types N es st1).2) := by
    simp only [QiType.fromSignature, fromSignature, hc, SigNode.annotationText,
      splitAnnotations_names N es hN hes]
  refine ⟨h1, ?_, ?_⟩
  · rw [h1]
    exact makeTupleType_found _ _ _ _ _ (makeTupleType_memo types N es st1)
  · simp only [QiType.fromSignature, fromSignature, hc, SigNode.annotationText,
      splitAnnotations_empty]

/-- C11 on `(is)<Point,x,y>` from the initial factories: the result is the
descriptor of `makeTupleType([int32, string], "Point", ["x", "y"])`. -/
theorem fromSignature_tuple_is_makeTupleType_witness :
    fromSignatureChildren [.leaf .Type_Int32, .leaf .Type_String] Factories.init
        = (some [typeOfInt32, typeOfString], Factories.init)
    ∧ "Point" ++ elementNamesText ["x", "y"] = "Point,x,y"
    ∧ (Signature.mk [.tuple [.leaf .Type_Int32, .leaf .Type_String]
          (some ("Point" ++ elementNamesText ["x", "y"]))]).toString = "(is)<Point,x,y>"
    ∧ QiType.fromSignature (.mk (.tuple [.leaf .Type_Int32, .leaf .Type_String]
          (some ("Point" ++ elementNamesText ["x", "y"])) :: [])) Factories.init
        = (some (makeTupleType [typeOfInt32, typeOfString] "Point" ["x", "y"]
              Factories.init).1,
            (makeTupleType [typeOfInt32, typeOfString] "Point" ["x", "y"] Factories.init).2) :=
  ⟨rfl, by decide, by decide,
    (fromSignature_tuple_is_makeTupleType [.leaf .Type_Int32, .leaf .Type_String] []
      Factories.init Factories.init [typeOfInt32, typeOfString] "Point" ["x", "y"] rfl
      (by decide) (by decide)).1⟩

mutual
theorem fromSignature_none_iff : ∀ (n : SigNode) (st : Factories),
    (fromSignature n st).1 = none ↔ n.containsUnmaterialisable = true
  | .leaf l, st => by
    cases l <;> simp [fromSignature, SigNode.containsUnmaterialisable, SigType.materialisable]
  | .list e, st => by
    have h1 := fromSignature_none_iff e st
    rcases hres : fromSignature e st with ⟨o, st1⟩
    rw [hres] at h1
    cases o with
    | none => simpa [fromSignature, hres, SigNode.containsUnmaterialisable] using h1
    | some el => simpa [fromSignature, hres, SigNode.containsUnmaterialisable] using h1
  | .map k v, st => by
    have h1 := fromSignature_none_iff k st
    rcases hres : fromSignature k st with ⟨ok, st1⟩
    rw [hres] at h1
    have h2 := fromSignature_none_iff v st1
    rcases hres2 : fromSignature v st1 with ⟨oe, st2⟩
    rw [hres2] at h2
    cases ok <;> cases oe <;>
      simp_all [fromSignature, SigNode.containsUnmaterialisable]
  | .tuple ms a, st => by
    have h1 := fromSignatureChildren_none_iff ms st
    rcases hres : fromSignatureChildren ms st with ⟨o, st1⟩
    rw [hres] at h1
    cases o with
    | none => simpa [fromSignature, hres, SigNode.containsUnmaterialisable] using h1
    | some types =>
      simp only [fromSignature, hres, SigNode.containsUnmaterialisable]
      split <;> simpa using h1
theorem fromSignatureChildren_none_iff : ∀ (ms : List SigNode) (st : Factories),
    (fromSignatureChildren ms st).1 = none ↔ SigNode.containsUnmaterialisableList ms = true
  | [], st => by simp [fromSignatureChildren, SigNode.containsUnmaterialisableList]
  | m :: rest, st => by
    have h1 := fromSignature_none_iff m st
    rcases hres : fromSignature m st with ⟨o, st1⟩
    rw [hres] at h1
    have h2 := fromSignatureChildren_none_iff rest st1
    rcases hres2 : fromSignatureChildren rest st1 with ⟨o2, st2⟩
    rw [hres2] at h2
    cases o <;> cases o2 <;>
      simp_all [fromSignatureChildren, SigNode.containsUnmaterialisableList]
end

/-- C12: for every signature with a first top-level element `n`, in every state of
the factories, `Type::fromSignature` returns null if and only if `n` contains, at
any nesting depth, a leaf that is not one of the materialisable codes
`v _ b c C w W i I l L f d s m r o`; so a first element built only from those leaves
and list/map/tuple composites gives a non-null type, and `X` gives null. -/
theorem fromSignature_null_iff_unmaterialisable (n : SigNode) (rest : List SigNode)
    (st : Factories) :
    ((QiType.fromSignature (.mk (n :: rest)) st).1 = none
        ↔ n.containsUnmaterialisable = true)
    ∧ (n.containsUnmaterialisable = false →
        ∃ t, (QiType.fromSignature (.mk (n :: rest)) st).1 = some t)
    ∧ (QiType.fromSignature (.mk (.leaf .Type_Unknown :: rest)) st).1 = none
    ∧ (QiType.fromSignature
        (.mk (.list (.tuple [.leaf .Type_Int32, .leaf .Type_Unknown] none) :: rest)) st).1
        = none := by
  have h := fromSignature_none_iff n st
  refine ⟨h, fun hn => ?_, rfl, ?_⟩
  · cases hr : (QiType.fromSignature (.mk (n :: rest)) st).1 with
    | none =>
      have := h.1 hr
      rw [hn] at this
      cases this
    | some t => exact ⟨t, rfl⟩
  · exact (fromSignature_none_iff _ st).2 rfl

/-! ### Element access of lists -/

theorem ListTypeInterface.elementLoop_reach : ∀ (elems : List GenericValuePtr) (p : Int)
    (k : Nat), ListTypeInterface.elementLoop (p + k) elems p
      = (p + (min k elems.length : Nat), elems.drop k)
  | [], p, k => by simp [ListTypeInterface.elementLoop]
  | x :: rest, p, 0 => by simp [ListTypeInterface.elementLoop]
  | x :: rest, p, k + 1 => by
    have h : (p != p + ((k + 1 : Nat) : Int)) = true := by
      simp only [bne_iff_ne, ne_eq]
      push_cast
      omega
    have e : p + ((k + 1 : Nat) : Int) = (p + 1) + (k : Int) := by push_cast; omega
    simp only [ListTypeInterface.elementLoop, h, if_true]
    rw [e, ListTypeInterface.elementLoop_reach rest (p + 1) k]
    simp only [List.length_cons, List.drop_succ_cons, Nat.add_min_add_right, Prod.mk.injEq,
      and_true]
    push_cast
    omega

theorem ListTypeInterface.elementLoop_below : ∀ (elems : List GenericValuePtr) (p index : Int),
    index < p → ListTypeInterface.elementLoop index elems p = (p + elems.length, [])
  | [], p, index, _ => by simp [ListTypeInterface.elementLoop]
  | x :: rest, p, index, h => by
    have hne : (p != index) = true := by
      simp only [bne_iff_ne, ne_eq]
      omega
    simp only [ListTypeInterface.elementLoop, hne, if_true]
    rw [ListTypeInterface.elementLoop_below rest (p + 1) index (by omega)]
    simp only [List.length_cons, Prod.mk.injEq, and_true]
    push_cast
    omega

theorem ListTypeInterface.element_nat (elems : List GenericValuePtr) (i : Nat) :
    ListTypeInterface.element elems i
      = match elems.drop i with
        | x :: _ => .value x.value
        | [] => .undefined := by
  have h := ListTypeInterface.elementLoop_reach elems 0 i
  simp only [zero_add] at h
  unfold ListTypeInterface.element
  rw [h]
  have hle : ¬ (((min i elems.length : Nat) : Int) > (i : Int)) := by
    have : min i elems.length ≤ i := Nat.min_le_left _ _
    omega
  simp only [hle, if_false]

theorem ListTypeInterface.element_neg (elems : List GenericValuePtr) (index : Int)
    (h : index < 0) : ListTypeInterface.element elems index = .outOfRange := by
  unfold ListTypeInterface.element
  rw [ListTypeInterface.elementLoop_below elems 0 index h]
  have : (0 : Int) + (elems.length : Int) > index := by omega
  simp only [this, if_true]

/-- C18 fails on the code at every index at or past the end: for a list of length
`n` and an index `0 ≤ i < n`, the iteration-based `ListTypeInterface::element` and
the default list type's `element` both return the storage of the `i`-th element in
iteration order; but for every index `i ≥ n` the iteration-based one leaves its
loop at the end with `p = n ≤ i`, finds its test `p > index` false, throws nothing
and dereferences the end iterator (undefined), and the default list type's reads
`src[i]` past the end of its vector; only a negative index makes the
iteration-based one throw. So it is for the list `[7, "a"]` at index 2. -/
theorem list_element_in_range (elems : List GenericValuePtr) (i : Nat) :
    (∀ h : i < elems.length,
      ListTypeInterface.element elems i = .value (elems.get ⟨i, h⟩).value
      ∧ DefaultListType.element (elems.map GenericValuePtr.value) i
          = .value (elems.get ⟨i, h⟩).value)
    ∧ (elems.length ≤ i →
      ListTypeInterface.element elems i = .undefined
      ∧ ListTypeInterface.element elems i ≠ .outOfRange
      ∧ DefaultListType.element (elems.map GenericValuePtr.value) i = .undefined)
    ∧ (∀ index : Int, index < 0 → ListTypeInterface.element elems index = .outOfRange)
    ∧ ListTypeInterface.element [int32Value 7, stringValue "a"] 1 = .value (Storage.string "a")
    ∧ ListTypeInterface.element [int32Value 7, stringValue "a"] 2 = .undefined
    ∧ DefaultListType.element [Storage.int 7, Storage.string "a"] 2 = .undefined := by
  refine ⟨?_, ?_, ListTypeInterface.element_neg elems, rfl, rfl, rfl⟩
  · intro h
    refine ⟨?_, ?_⟩
    · rw [ListTypeInterface.element_nat, List.drop_eq_getElem_cons h]
      rfl
    · have hneg : ¬ ((i : Int) < 0) := by omega
      simp only [DefaultListType.element, hneg, if_false, Int.toNat_ofNat,
        List.get?_eq_getElem?, List.getElem?_map, List.getElem?_eq_getElem h, Option.map_some',
        List.get_eq_getElem]
  · intro h
    have h1 : ListTypeInterface.element elems i = .undefined := by
      rw [ListTypeInterface.element_nat, List.drop_eq_nil_of_le h]
    refine ⟨h1, ?_, ?_⟩
    · rw [h1]; intro e; cases e
    · have hneg : ¬ ((i : Int) < 0) := by omega
      have hnone : (elems.map GenericValuePtr.value)[i]? = none := by
        apply List.getElem?_eq_none
        simpa using h
      simp only [DefaultListType.element, hneg, if_false, Int.toNat_ofNat,
        List.get?_eq_getElem?, hnone]

/-! ### The default map -/

theorem DefaultMapType.findLoop_congr {V : Type} (less : V → V → Bool) (s s2 : MapState V)
    (kc : V) : ∀ es : List (Nat × Nat), (∀ kh p, (kh, p) ∈ es → s2.content kh = s.content kh) →
      DefaultMapType.findLoop less s2 kc es = DefaultMapType.findLoop less s kc es
  | [], _ => rfl
  | (kh, p) :: rest, h => by
    simp only [DefaultMapType.findLoop, h kh p (List.mem_cons_self _ _)]
    rw [DefaultMapType.findLoop_congr less s s2 kc rest
      (fun kh2 p2 hm => h kh2 p2 (List.mem_cons_of_mem _ hm))]

theorem DefaultMapType.findLoop_defined {V : Type} (less : V → V → Bool) (s : MapState V)
    (kc : V) : ∀ es : List (Nat × Nat), (∀ kh p, (kh, p) ∈ es → (s.content kh).isSome = true) →
      ∃ r, DefaultMapType.findLoop less s kc es = some r
  | [], _ => ⟨none, rfl⟩
  | (kh, p) :: rest, h => by
    obtain ⟨c, hc⟩ := Option.isSome_iff_exists.1 (h kh p (List.mem_cons_self _ _))
    simp only [DefaultMapType.findLoop, hc]
    split
    · exact ⟨_, rfl⟩
    · exact DefaultMapType.findLoop_defined less s kc rest
        (fun kh2 p2 hm => h kh2 p2 (List.mem_cons_of_mem _ hm))

theorem DefaultMapType.findLoop_found {V : Type} (less : V → V → Bool) (s : MapState V)
    (kc : V) : ∀ (es : List (Nat × Nat)) (kh p : Nat),
      DefaultMapType.findLoop less s kc es = some (some (kh, p)) →
      (kh, p) ∈ es ∧ ∃ c, s.content kh = some c ∧ (!less c kc && !less kc c) = true
  | [], _, _, h => by simp [DefaultMapType.findLoop] at h
  | (kh0, p0) :: rest, kh, p, h => by
    simp only [DefaultMapType.findLoop] at h
    cases hc : s.content kh0 with
    | none => simp [hc] at h
    | some c =>
      simp only [hc] at h
      split at h
      · rename_i heq
        simp only [Option.some.injEq, Prod.mk.injEq] at h
        obtain ⟨rfl, rfl⟩ := h
        exact ⟨List.mem_cons_self _ _, c, hc, heq⟩
      · obtain ⟨hm, hx⟩ := DefaultMapType.findLoop_found less s kc rest kh p h
        exact ⟨List.mem_cons_of_mem _ hm, hx⟩

theorem DefaultMapType.findLoop_absent {V : Type} (less : V → V → Bool) (s : MapState V)
    (kc : V) : ∀ (es : List (Nat × Nat)),
      DefaultMapType.findLoop less s kc es = some none →
      ∀ kh p, (kh, p) ∈ es → ∃ c, s.content kh = some c ∧ (!less c kc && !less kc c) = false
  | [], _, _, _, hm => by simp at hm
  | (kh0, p0) :: rest, h, kh, p, hm => by
    simp only [DefaultMapType.findLoop] at h
    cases hc : s.content kh0 with
    | none => simp [hc] at h
    | some c =>
      simp only [hc] at h
      split at h
      · simp at h
      · rename_i hne
        rcases List.mem_cons.1 hm with heq | hm
        · simp only [Prod.mk.injEq] at heq
          obtain ⟨rfl, rfl⟩ := heq
          exact ⟨c, hc, by simpa using hne⟩
        · exact DefaultMapType.findLoop_absent less s kc rest h kh p hm

theorem DefaultMapType.findLoop_append {V : Type} (less : V → V → Bool) (s : MapState V)
    (kc : V) (key pairPtr : Nat) (c : V) (hc : s.content key = some c)
    (heq : (!less c kc && !less kc c) = true) : ∀ (es : List (Nat × Nat)),
      DefaultMapType.findLoop less s kc es = some none →
      DefaultMapType.findLoop less s kc (es ++ [(key, pairPtr)]) = some (some (key, pairPtr))
  | [], _ => by simp [DefaultMapType.findLoop, hc, heq]
  | (kh0, p0) :: rest, h => by
    simp only [DefaultMapType.findLoop, List.cons_append] at h ⊢
    cases hc0 : s.content kh0 with
    | none => simp [hc0] at h
    | some c0 =>
      simp only [hc0] at h ⊢
      split at h
      · simp at h
      · rename_i hne
        rw [if_neg hne]
        exact DefaultMapType.findLoop_append less s kc key pairPtr c hc heq rest h

theorem DefaultMapType.assignLoop_absent {V : Type} (less : V → V → Bool) (s : MapState V)
    (kc : V) (key pairPtr : Nat) : ∀ (es : List (Nat × Nat)),
      DefaultMapType.findLoop less s kc es = some none →
      DefaultMapType.assignLoop less s kc key pairPtr es = some (es ++ [(key, pairPtr)])
  | [], _ => rfl
  | (kh0, p0) :: rest, h => by
    simp only [DefaultMapType.findLoop, DefaultMapType.assignLoop, List.cons_append] at h ⊢
    cases hc0 : s.content kh0 with
    | none => simp [hc0] at h
    | some c0 =>
      simp only [hc0] at h ⊢
      split at h
      · simp at h
      · rename_i hne
        rw [if_neg hne, DefaultMapType.assignLoop_absent less s kc key pairPtr rest h]
        rfl

theorem MapState.WellFormed.lt_of_alive {V : Type} {s : MapState V} (hw : s.WellFormed)
    (h : Nat) (c : V) (hc : s.content h = some c) : h < s.nextStorage := by
  by_contra hn
  rw [hw.contentBelow h (by omega)] at hc
  cases hc

theorem MapState.WellFormed.key_lt {V : Type} {s : MapState V} (hw : s.WellFormed)
    (kh p : Nat) (hm : (kh, p) ∈ s.entries) : kh < s.nextStorage := by
  obtain ⟨vh, _, hk, _⟩ := hw.pairs kh p hm
  obtain ⟨c, hc⟩ := Option.isSome_iff_exists.1 hk
  exact hw.lt_of_alive kh c hc

theorem DefaultMapType.find_defined {V : Type} (less : V → V → Bool) (s : MapState V)
    (hw : s.WellFormed) (k : Nat) (kc : V) (hk : s.content k = some kc) :
    ∃ r, DefaultMapType.find less s k = some r := by
  simp only [DefaultMapType.find, hk]
  exact DefaultMapType.findLoop_defined less s kc s.entries
    (fun kh p hm => (hw.pairs kh p hm).choose_spec.2.1)

theorem DefaultMapType._insert_copy {V : Type} (less : V → V → Bool) (s : MapState V)
    (hw : s.WellFormed) (k v : Nat) (kc vc : V) (hk : s.content k = some kc)
    (hv : s.content v = some vc) (hf : DefaultMapType.find less s k = some none) :
    DefaultMapType._insert less s k v true
      = some (s.nextStorage + 1,
          { nextStorage := s.nextStorage + 3
            content := Function.update (Function.update s.content s.nextStorage (some kc))
              (s.nextStorage + 1) (some vc)
            vectors := Function.update s.vectors (s.nextStorage + 2)
              (some [some s.nextStorage, some (s.nextStorage + 1)])
            destroyed := s.destroyed
            entries := s.entries ++ [(s.nextStorage, s.nextStorage + 2)] }) := by
  have hvlt := hw.lt_of_alive v vc hv
  simp only [DefaultMapType.find, hk] at hf
  have hv1 : Function.update s.content s.nextStorage (some kc) v = some vc := by
    rw [Function.update_noteq (by omega)]; exact hv
  have hkey : Function.update (Function.update s.content s.nextStorage (some kc))
      (s.nextStorage + 1) (some vc) s.nextStorage = some kc := by
    rw [Function.update_noteq (by omega), Function.update_same]
  simp only [DefaultMapType._insert, MapState.clone, hk, if_true, hv1, MapState.newVector,
    DefaultMapType.assign, hkey]
  rw [DefaultMapType.assignLoop_absent]
  rw [← hf]
  apply DefaultMapType.findLoop_congr
  intro kh p hm
  have := hw.key_lt kh p hm
  simp only
  rw [Function.update_noteq (by omega), Function.update_noteq (by omega)]

theorem DefaultMapType._insert_nocopy {V : Type} (less : V → V → Bool) (s : MapState V)
    (hw : s.WellFormed) (k v : Nat) (kc : V) (hk : s.content k = some kc)
    (hf : DefaultMapType.find less s k = some none) :
    DefaultMapType._insert less s k v false
      = some (v,
          { nextStorage := s.nextStorage + 2
            content := Function.update s.content s.nextStorage (some kc)
            vectors := Function.update s.vectors (s.nextStorage + 1)
              (some [some s.nextStorage, some v])
            destroyed := s.destroyed
            entries := s.entries ++ [(s.nextStorage, s.nextStorage + 1)] }) := by
  simp only [DefaultMapType.find, hk] at hf
  simp only [DefaultMapType._insert, MapState.clone, hk, Bool.false_eq_true, if_false,
    MapState.newVector, DefaultMapType.assign, Function.update_same]
  rw [DefaultMapType.assignLoop_absent]
  rw [← hf]
  apply DefaultMapType.findLoop_congr
  intro kh p hm
  have := hw.key_lt kh p hm
  simp only
  rw [Function.update_noteq (by omega)]

theorem DefaultMapType.insert_present {V : Type} (less : V → V → Bool) (s : MapState V)
    (hw : s.WellFormed) (k v kh p v0 : Nat) (vc : V)
    (hv : s.content v = some vc)
    (hf : DefaultMapType.find less s k = some (some (kh, p)))
    (hp : s.vectors p = some [some kh, some v0]) (hne : v ≠ v0) :
    DefaultMapType.insert less s k v
      = some { nextStorage := s.nextStorage + 1
               content := Function.update (Function.update s.content v0 none)
                 s.nextStorage (some vc)
               vectors := Function.update s.vectors p (some [some kh, some s.nextStorage])
               destroyed := v0 :: s.destroyed
               entries := s.entries } := by
  have hm : (kh, p) ∈ s.entries := by
    simp only [DefaultMapType.find] at hf
    cases hk : s.content k with
    | none => simp [hk] at hf
    | some kc =>
      simp only [hk] at hf
      exact (DefaultMapType.findLoop_found less s kc s.entries kh p hf).1
  obtain ⟨vh, hp2, _, hvh⟩ := hw.pairs kh p hm
  rw [hp] at hp2
  simp only [Option.some.injEq, List.cons.injEq, and_true, true_and] at hp2
  subst hp2
  obtain ⟨c0, hc0⟩ := Option.isSome_iff_exists.1 hvh
  have hv1 : Function.update s.content v0 none v = some vc := by
    rw [Function.update_noteq hne]; exact hv
  simp [DefaultMapType.insert, hf, hp, MapState.destroy, hc0, MapState.clone, hv1]

theorem DefaultTupleType.get_pair {V : Type} (s : MapState V) (p : Nat) (x y : Option Nat)
    (hp : s.vectors p = some [x, y]) : DefaultTupleType.get s p 1 = some (y, s) := by
  simp [DefaultTupleType.get, hp]

theorem MapState.WellFormed.vector_lt {V : Type} {s : MapState V} (hw : s.WellFormed)
    (p : Nat) (l : List (Option Nat)) (hp : s.vectors p = some l) : p < s.nextStorage := by
  by_contra hn
  rw [hw.vectorsBelow p (by omega)] at hp
  cases hp

theorem MapState.WellFormed.addEntry {V : Type} {s : MapState V} (hw : s.WellFormed)
    (s2 : MapState V) (kn vn pn : Nat)
    (h1 : s.nextStorage ≤ kn) (h2 : s.nextStorage ≤ vn) (h3 : s.nextStorage ≤ pn)
    (h4 : kn < s2.nextStorage) (h6 : pn < s2.nextStorage)
    (hkv : kn ≠ vn)
    (hc : ∀ h, h < s.nextStorage → s2.content h = s.content h)
    (hcb : ∀ h, s2.nextStorage ≤ h → s2.content h = none)
    (hck : (s2.content kn).isSome = true) (hcv : (s2.content vn).isSome = true)
    (hvec : s2.vectors = Function.update s.vectors pn (some [some kn, some vn]))
    (he : s2.entries = s.entries ++ [(kn, pn)]) : s2.WellFormed := by
  have hold : ∀ kh p, (kh, p) ∈ s.entries →
      ∃ vh, s.vectors p = some [some kh, some vh] ∧ s2.vectors p = some [some kh, some vh]
        ∧ kh < s.nextStorage ∧ vh < s.nextStorage ∧ p < s.nextStorage
        ∧ (s.content vh).isSome = true := by
    intro kh p hm
    obtain ⟨vh, hp, hk, hv⟩ := hw.pairs kh p hm
    obtain ⟨c, hcv⟩ := Option.isSome_iff_exists.1 hv
    have hpl := hw.vector_lt p _ hp
    refine ⟨vh, hp, ?_, hw.key_lt kh p hm, hw.lt_of_alive vh c hcv, hpl, hv⟩
    rw [hvec, Function.update_noteq (by omega)]
    exact hp
  have hnew : s2.vectors pn = some [some kn, some vn] := by
    rw [hvec, Function.update_same]
  refine ⟨hcb, ?_, ?_, ?_, ?_⟩
  · intro h hh
    rw [hvec, Function.update_noteq (by omega)]
    exact hw.vectorsBelow h (by omega)
  · intro kh p hm
    rw [he] at hm
    rcases List.mem_append.1 hm with hm | hm
    · obtain ⟨vh, hp, hp2, hkl, hvl, _, hva⟩ := hold kh p hm
      refine ⟨vh, hp2, ?_, ?_⟩
      · rw [hc kh hkl]; exact (hw.pairs kh p hm).choose_spec.2.1
      · rw [hc vh hvl]; exact hva
    · simp only [List.mem_singleton, Prod.mk.injEq] at hm
      obtain ⟨rfl, rfl⟩ := hm
      exact ⟨vn, hnew, hck, hcv⟩
  · intro kh p x vh kh2 p2 hm hp hm2
    rw [he] at hm hm2
    have hk2 : kh2 < s.nextStorage ∨ kh2 = kn := by
      rcases List.mem_append.1 hm2 with hm2 | hm2
      · exact Or.inl (hw.key_lt kh2 p2 hm2)
      · simp only [List.mem_singleton, Prod.mk.injEq] at hm2
        exact Or.inr hm2.1
    rcases List.mem_append.1 hm with hm | hm
    · obtain ⟨vh1, hp1, hp2, hkl, hvl, _, _⟩ := hold kh p hm
      rw [hp2] at hp
      simp only [Option.some.injEq, List.cons.injEq, and_true] at hp
      obtain ⟨_, rfl⟩ := hp
      rcases hk2 with hk2 | rfl
      · rcases List.mem_append.1 hm2 with hm2 | hm2
        · exact hw.valuesNotKeys kh p _ vh1 kh2 p2 hm hp1 hm2
        · simp only [List.mem_singleton, Prod.mk.injEq] at hm2
          omega
      · omega
    · simp only [List.mem_singleton, Prod.mk.injEq] at hm
      obtain ⟨rfl, rfl⟩ := hm
      rw [hnew] at hp
      simp only [Option.some.injEq, List.cons.injEq, and_true] at hp
      obtain ⟨_, rfl⟩ := hp
      rcases hk2 with hk2 | rfl
      · omega
      · exact fun h => hkv h.symm
  · rw [he, List.pairwise_append]
    refine ⟨?_, List.pairwise_singleton _ _, ?_⟩
    · refine hw.valuesApart.imp_of_mem ?_
      intro a b ha hb hab x1 v1 x2 v2 ha2 hb2
      obtain ⟨va, hpa, hpa2, _⟩ := hold a.1 a.2 ha
      obtain ⟨vb, hpb, hpb2, _⟩ := hold b.1 b.2 hb
      rw [hpa2] at ha2
      rw [hpb2] at hb2
      simp only [Option.some.injEq, List.cons.injEq, and_true] at ha2 hb2
      obtain ⟨_, rfl⟩ := ha2
      obtain ⟨_, rfl⟩ := hb2
      exact hab _ va _ vb hpa hpb
    · intro a ha b hb x1 v1 x2 v2 ha2 hb2
      simp only [List.mem_singleton] at hb
      subst hb
      obtain ⟨va, _, hpa2, _, hvl, _⟩ := hold a.1 a.2 ha
      rw [hpa2] at ha2
      rw [hnew] at hb2
      simp only [Option.some.injEq, List.cons.injEq, and_true] at ha2 hb2
      obtain ⟨_, rfl⟩ := ha2
      obtain ⟨_, rfl⟩ := hb2
      omega

theorem MapState.WellFormed.replaceValue {V : Type} {s : MapState V} (hw : s.WellFormed)
    (kh p v0 : Nat) (vc : V) (hm : (kh, p) ∈ s.entries)
    (hp : s.vectors p = some [some kh, some v0]) :
    MapState.WellFormed
      { nextStorage := s.nextStorage + 1
        content := Function.update (Function.update s.content v0 none) s.nextStorage (some vc)
        vectors := Function.update s.vectors p (some [some kh, some s.nextStorage])
        destroyed := v0 :: s.destroyed
        entries := s.entries } := by
  have hpl := hw.vector_lt p _ hp
  have hsym : Symmetric (fun e1 e2 : Nat × Nat => ∀ x1 v1 x2 v2,
      s.vectors e1.2 = some [x1, some v1] → s.vectors e2.2 = some [x2, some v2] →
      v1 ≠ v2) := fun a b hab x1 v1 x2 v2 h1 h2 => (hab x2 v2 x1 v1 h2 h1).symm
  have hold : ∀ kh3 p3, (kh3, p3) ∈ s.entries →
      (p3 = p ∧ kh3 = kh) ∨ (p3 ≠ p ∧ ∃ vh, s.vectors p3 = some [some kh3, some vh]
        ∧ vh ≠ v0 ∧ vh < s.nextStorage ∧ (s.content vh).isSome = true) := by
    intro kh3 p3 hm3
    obtain ⟨vh, hp3, _, hv⟩ := hw.pairs kh3 p3 hm3
    by_cases hpe : p3 = p
    · subst hpe
      rw [hp] at hp3
      simp only [Option.some.injEq, List.cons.injEq, and_true] at hp3
      exact Or.inl ⟨rfl, hp3.1.symm⟩
    · obtain ⟨c, hcv⟩ := Option.isSome_iff_exists.1 hv
      refine Or.inr ⟨hpe, vh, hp3, ?_, hw.lt_of_alive vh c hcv, hv⟩
      exact hw.valuesApart.forall hsym hm3 hm
        (by simp only [ne_eq, Prod.mk.injEq, not_and]; exact fun _ h => hpe h)
        _ vh _ v0 hp3 hp
  have hkey : ∀ kh3 p3, (kh3, p3) ∈ s.entries →
      Function.update (Function.update s.content v0 none) s.nextStorage (some vc) kh3
        = s.content kh3 := by
    intro kh3 p3 hm3
    have h1 := hw.key_lt kh3 p3 hm3
    have h2 := hw.valuesNotKeys kh p _ v0 kh3 p3 hm hp hm3
    rw [Function.update_noteq (by omega), Function.update_noteq (fun h => h2 h.symm)]
  refine ⟨?_, ?_, ?_, ?_, ?_⟩
  · intro h hh
    simp only at hh ⊢
    rw [Function.update_noteq (by omega)]
    by_cases he : h = v0
    · rw [he, Function.update_same]
    · rw [Function.update_noteq he]
      exact hw.contentBelow h (by omega)
  · intro h hh
    simp only at hh ⊢
    rw [Function.update_noteq (by omega)]
    exact hw.vectorsBelow h (by omega)
  · intro kh3 p3 hm3
    simp only at hm3 ⊢
    rcases hold kh3 p3 hm3 with ⟨rfl, rfl⟩ | ⟨hpe, vh, hp3, hne, hlt, hv⟩
    · refine ⟨s.nextStorage, by rw [Function.update_same], ?_, by rw [Function.update_same]; rfl⟩
      rw [hkey _ _ hm3]
      exact (hw.pairs _ _ hm3).choose_spec.2.1
    · refine ⟨vh, by rw [Function.update_noteq hpe]; exact hp3, ?_, ?_⟩
      · rw [hkey _ _ hm3]
        exact (hw.pairs _ _ hm3).choose_spec.2.1
      · rw [Function.update_noteq (by omega), Function.update_noteq hne]
        exact hv
  · intro kh3 p3 x vh kh4 p4 hm3 hp3 hm4
    simp only at hm3 hp3 hm4
    have h4 := hw.key_lt kh4 p4 hm4
    rcases hold kh3 p3 hm3 with ⟨rfl, rfl⟩ | ⟨hpe, vh2, hp32, _⟩
    · rw [Function.update_same] at hp3
      simp only [Option.some.injEq, List.cons.injEq, and_true] at hp3
      omega
    · rw [Function.update_noteq hpe] at hp3
      exact hw.valuesNotKeys kh3 p3 x vh kh4 p4 hm3 hp3 hm4
  · refine hw.valuesApart.imp_of_mem ?_
    intro a b ha hb hab x1 v1 x2 v2 ha2 hb2
    simp only at ha2 hb2
    rcases hold a.1 a.2 ha with ⟨hpa, _⟩ | ⟨hpa, va, hva, _, hla, _⟩
    · rcases hold b.1 b.2 hb with ⟨hpb, _⟩ | ⟨hpb, vb, hvb, _, hlb, _⟩
      · exfalso
        obtain ⟨va, hpa2, _⟩ := hw.pairs a.1 a.2 ha
        obtain ⟨vb, hpb2, _⟩ := hw.pairs b.1 b.2 hb
        refine hab _ va _ vb hpa2 hpb2 ?_
        rw [hpa, hp] at hpa2
        rw [hpb, hp] at hpb2
        simp only [Option.some.injEq, List.cons.injEq, and_true] at hpa2 hpb2
        rw [← hpa2.2, ← hpb2.2]
      · rw [hpa, Function.update_same] at ha2
        rw [Function.update_noteq hpb, hvb] at hb2
        simp only [Option.some.injEq, List.cons.injEq, and_true] at ha2 hb2
        omega
    · rw [Function.update_noteq hpa, hva] at ha2
      simp only [Option.some.injEq, List.cons.injEq, and_true] at ha2
      rcases hold b.1 b.2 hb with ⟨hpb, _⟩ | ⟨hpb, vb, hvb, _, hlb, _⟩
      · rw [hpb, Function.update_same] at hb2
        simp only [Option.some.injEq, List.cons.injEq, and_true] at hb2
        omega
      · rw [Function.update_noteq hpb] at hb2
        exact hab _ v1 _ v2 (by rw [hva, ← ha2.2]) hb2

theorem MapState.WellFormed.initializeStorage {V : Type} {s : MapState V} (hw : s.WellFormed)
    (dflt : V) : (s.initializeStorage dflt).2.WellFormed := by
  have hc : ∀ h, h < s.nextStorage →
      Function.update s.content s.nextStorage (some dflt) h = s.content h :=
    fun h hh => Function.update_noteq (by omega) _ _
  refine ⟨?_, ?_, ?_, ?_, ?_⟩
  · intro h hh
    simp only [MapState.initializeStorage] at hh ⊢
    rw [Function.update_noteq (by omega)]
    exact hw.contentBelow h (by omega)
  · intro h hh
    simp only [MapState.initializeStorage] at hh ⊢
    exact hw.vectorsBelow h (by omega)
  · intro kh p hm
    obtain ⟨vh, hp, hk, hv⟩ := hw.pairs kh p hm
    obtain ⟨c, hcv⟩ := Option.isSome_iff_exists.1 hv
    refine ⟨vh, hp, ?_, ?_⟩
    · simp only [MapState.initializeStorage]
      rw [hc kh (hw.key_lt kh p hm)]; exact hk
    · simp only [MapState.initializeStorage]
      rw [hc vh (hw.lt_of_alive vh c hcv)]; exact hv
  · exact hw.valuesNotKeys
  · exact hw.valuesApart

theorem MapState.sample_wellFormed (k v : Int) : (MapState.sample k v).WellFormed := by
  refine ⟨?_, fun _ _ => rfl, ?_, ?_, List.Pairwise.nil⟩
  · intro h hh
    simp only [MapState.sample] at hh ⊢
    rw [if_neg (by omega), if_neg (by omega)]
  · intro kh p hm
    simp [MapState.sample] at hm
  · intro kh p x vh kh2 p2 hm
    simp [MapState.sample] at hm

theorem MapState.sampleOne_wellFormed : MapState.sampleOne.WellFormed := by
  refine (MapState.sample_wellFormed 5 7).addEntry MapState.sampleOne 2 3 4 (by decide)
    (by decide) (by decide) (by decide) (by decide) (by decide) ?_ ?_ rfl rfl rfl rfl
  · intro h hh
    simp only [MapState.sample] at hh
    simp only [MapState.sampleOne]
    rw [Function.update_noteq (by omega), Function.update_noteq (by omega)]
  · intro h hh
    simp only [MapState.sampleOne] at hh ⊢
    rw [Function.update_noteq (by omega), Function.update_noteq (by omega)]
    simp only [MapState.sample]
    rw [if_neg (by omega), if_neg (by omega)]

theorem intLess_irrefl (c : Int) : intLess c c = false := by
  simp [intLess]

/-- C19 (amended): for every well-formed default map `s`, key storage `k` and value
storage `v`, both alive, such that neither is the storage held in slot 1 of the pair
stored under `k`: `insert(m, k, v)` succeeds; afterwards `element(m, k, false)`
returns slot 1 of the pair stored under `k`, leaving the map as it is, and that slot
holds a clone of `v` (a storage that did not exist before, with the content of `v`);
if `k` was present the size, the entries and the pair's key slot (same storage, same
content) are unchanged and the old value is the one storage destroyed; if `k` was
absent the size grows by one with a fresh pair (clone of `k`, clone of `v`) and
nothing is destroyed; the entries of all other keys, their pairs and the contents
of their slots are unchanged; and the map is well-formed again. -/
theorem DefaultMapType.insert_then_element {V : Type} (less : V → V → Bool) (dflt : V)
    (s : MapState V) (k v : Nat) (kc vc : V) (hw : s.WellFormed)
    (hirr : ∀ c, less c c = false)
    (hk : s.content k = some kc) (hv : s.content v = some vc)
    (hfresh : ∀ kh p x v0, DefaultMapType.find less s k = some (some (kh, p)) →
      s.vectors p = some [x, some v0] → v ≠ v0 ∧ k ≠ v0) :
    ∃ s2 kh2 p2 vnew,
      DefaultMapType.insert less s k v = some s2
      ∧ DefaultMapType.find less s2 k = some (some (kh2, p2))
      ∧ s2.vectors p2 = some [some kh2, some vnew]
      ∧ DefaultMapType.element less dflt s2 k false = some (.borrow (some vnew), s2)
      ∧ s2.content vnew = some vc ∧ s.content vnew = none ∧ s2.content v = some vc
      ∧ (∀ kh p, DefaultMapType.find less s k = some (some (kh, p)) →
          DefaultMapType.size s2 = DefaultMapType.size s ∧ s2.entries = s.entries
          ∧ kh2 = kh ∧ p2 = p ∧ s2.content kh = s.content kh
          ∧ ∃ v0, s.vectors p = some [some kh, some v0] ∧ s2.destroyed = v0 :: s.destroyed)
      ∧ (DefaultMapType.find less s k = some none →
          DefaultMapType.size s2 = DefaultMapType.size s + 1
          ∧ s2.entries = s.entries ++ [(kh2, p2)]
          ∧ s.content kh2 = none ∧ s.vectors p2 = none ∧ s2.content kh2 = some kc
          ∧ s2.destroyed = s.destroyed)
      ∧ (∀ kh3 p3 c3, (kh3, p3) ∈ s.entries → s.content kh3 = some c3 →
          (!less c3 kc && !less kc c3) = false →
          (kh3, p3) ∈ s2.entries ∧ s2.vectors p3 = s.vectors p3
          ∧ s2.content kh3 = s.content kh3
          ∧ ∀ x vh, s.vectors p3 = some [x, some vh] → s2.content vh = s.content vh)
      ∧ s2.WellFormed := by
  have hklt := hw.lt_of_alive k kc hk
  have hvlt := hw.lt_of_alive v vc hv
  obtain ⟨r, hr⟩ := DefaultMapType.find_defined less s hw k kc hk
  cases r with
  | some e =>
    obtain ⟨kh, p⟩ := e
    have hfl : DefaultMapType.findLoop less s kc s.entries = some (some (kh, p)) := by
      simpa only [DefaultMapType.find, hk] using hr
    obtain ⟨hm, c, hc, heq⟩ := DefaultMapType.findLoop_found less s kc s.entries kh p hfl
    obtain ⟨v0, hp, _, hv0⟩ := hw.pairs kh p hm
    obtain ⟨c0, hc0⟩ := Option.isSome_iff_exists.1 hv0
    obtain ⟨hne1, hne2⟩ := hfresh kh p _ v0 hr hp
    have hv0lt := hw.lt_of_alive v0 c0 hc0
    have hplt : p < s.nextStorage := by
      by_contra hn
      rw [hw.vectorsBelow p (by omega)] at hp
      cases hp
    have hins := DefaultMapType.insert_present less s hw k v kh p v0 vc hv hr hp hne1
    have hkeys : ∀ kh3 p3, (kh3, p3) ∈ s.entries →
        Function.update (Function.update s.content v0 none) s.nextStorage (some vc) kh3
          = s.content kh3 := by
      intro kh3 p3 hm3
      have h1 := hw.key_lt kh3 p3 hm3
      have h2 := hw.valuesNotKeys kh p _ v0 kh3 p3 hm hp hm3
      rw [Function.update_noteq (by omega), Function.update_noteq (fun h => h2 h.symm)]
    have hk2 : Function.update (Function.update s.content v0 none) s.nextStorage (some vc) k
        = some kc := by
      rw [Function.update_noteq (by omega), Function.update_noteq hne2]; exact hk
    refine ⟨_, kh, p, s.nextStorage, hins, ?_, ?_, ?_, ?_, ?_, ?_, ?_, ?_, ?_,
      hw.replaceValue kh p v0 vc hm hp⟩
    · simp only [DefaultMapType.find, hk2]
      rw [DefaultMapType.findLoop_congr less s _ kc s.entries hkeys]
      exact hfl
    · simp only [Function.update_same]
    · have hf2 : DefaultMapType.find less
          { nextStorage := s.nextStorage + 1
            content := Function.update (Function.update s.content v0 none) s.nextStorage
              (some vc)
            vectors := Function.update s.vectors p (some [some kh, some s.nextStorage])
            destroyed := v0 :: s.destroyed
            entries := s.entries } k = some (some (kh, p)) := by
        simp only [DefaultMapType.find, hk2]
        rw [DefaultMapType.findLoop_congr less s _ kc s.entries hkeys]
        exact hfl
      simp only [DefaultMapType.element, hf2]
      rw [DefaultTupleType.get_pair _ p (some kh) (some s.nextStorage)
        (by simp only [Function.update_same])]
    · simp only [Function.update_same]
    · exact hw.contentBelow _ (le_refl _)
    · simp only
      rw [Function.update_noteq (by omega), Function.update_noteq hne1]
      exact hv
    · intro kh4 p4 h4
      rw [hr] at h4
      simp only [Option.some.injEq, Prod.mk.injEq] at h4
      obtain ⟨rfl, rfl⟩ := h4
      exact ⟨rfl, rfl, rfl, rfl, hkeys _ _ hm, v0, hp, rfl⟩
    · intro h4
      rw [hr] at h4
      cases h4
    · intro kh3 p3 c3 hm3 hc3 hne3
      have hkne : kh3 ≠ kh := by
        rintro rfl
        rw [hc] at hc3
        cases hc3
        rw [heq] at hne3
        cases hne3
      obtain ⟨vh3, hp3, _, hvh3⟩ := hw.pairs kh3 p3 hm3
      have hpne : p3 ≠ p := by
        rintro rfl
        rw [hp] at hp3
        simp only [Option.some.injEq, List.cons.injEq, and_true] at hp3
        exact hkne hp3.1.symm
      refine ⟨hm3, ?_, hkeys _ _ hm3, ?_⟩
      · simp only
        rw [Function.update_noteq hpne]
      · intro x vh hx
        rw [hp3] at hx
        simp only [Option.some.injEq, List.cons.injEq, and_true] at hx
        obtain ⟨_, rfl⟩ := hx
        obtain ⟨c4, hc4⟩ := Option.isSome_iff_exists.1 hvh3
        have hlt := hw.lt_of_alive vh3 c4 hc4
        have hsym : Symmetric (fun e1 e2 : Nat × Nat => ∀ x1 v1 x2 v2,
            s.vectors e1.2 = some [x1, some v1] → s.vectors e2.2 = some [x2, some v2] →
            v1 ≠ v2) := fun a b hab x1 v1 x2 v2 h1 h2 => (hab x2 v2 x1 v1 h2 h1).symm
        have hap := hw.valuesApart.forall hsym hm3 hm
          (by simp only [ne_eq, Prod.mk.injEq, not_and]; exact fun h _ => hkne h)
          _ vh3 _ v0 hp3 hp
        simp only
        rw [Function.update_noteq (by omega), Function.update_noteq hap]
  | none =>
    have hfl : DefaultMapType.findLoop less s kc s.entries = some none := by
      simpa only [DefaultMapType.find, hk] using hr
    have hins : DefaultMapType.insert less s k v
        = some { nextStorage := s.nextStorage + 3
                 content := Function.update (Function.update s.content s.nextStorage (some kc))
                   (s.nextStorage + 1) (some vc)
                 vectors := Function.update s.vectors (s.nextStorage + 2)
                   (some [some s.nextStorage, some (s.nextStorage + 1)])
                 destroyed := s.destroyed
                 entries := s.entries ++ [(s.nextStorage, s.nextStorage + 2)] } := by
      simp only [DefaultMapType.insert, hr,
        DefaultMapType._insert_copy less s hw k v kc vc hk hv hr, Option.map_some']
    have hkeys : ∀ kh3 p3, (kh3, p3) ∈ s.entries →
        Function.update (Function.update s.content s.nextStorage (some kc))
          (s.nextStorage + 1) (some vc) kh3 = s.content kh3 := by
      intro kh3 p3 hm3
      have h1 := hw.key_lt kh3 p3 hm3
      rw [Function.update_noteq (by omega), Function.update_noteq (by omega)]
    have hk2 : Function.update (Function.update s.content s.nextStorage (some kc))
        (s.nextStorage + 1) (some vc) k = some kc := by
      rw [Function.update_noteq (by omega), Function.update_noteq (by omega)]; exact hk
    have hknew : Function.update (Function.update s.content s.nextStorage (some kc))
        (s.nextStorage + 1) (some vc) s.nextStorage = some kc := by
      rw [Function.update_noteq (by omega), Function.update_same]
    have hf2 : DefaultMapType.find less
        { nextStorage := s.nextStorage + 3
          content := Function.update (Function.update s.content s.nextStorage (some kc))
            (s.nextStorage + 1) (some vc)
          vectors := Function.update s.vectors (s.nextStorage + 2)
            (some [some s.nextStorage, some (s.nextStorage + 1)])
          destroyed := s.destroyed
          entries := s.entries ++ [(s.nextStorage, s.nextStorage + 2)] } k
        = some (some (s.nextStorage, s.nextStorage + 2)) := by
      simp only [DefaultMapType.find, hk2]
      apply DefaultMapType.findLoop_append less _ kc _ _ kc hknew (by simp [hirr])
      rw [DefaultMapType.findLoop_congr less s _ kc s.entries hkeys]
      exact hfl
    refine ⟨_, s.nextStorage, s.nextStorage + 2, s.nextStorage + 1, hins, hf2, ?_, ?_, ?_, ?_,
      ?_, ?_, ?_, ?_, ?_⟩
    · simp only [Function.update_same]
    · simp only [DefaultMapType.element, hf2]
      rw [DefaultTupleType.get_pair _ (s.nextStorage + 2) (some s.nextStorage)
        (some (s.nextStorage + 1)) (by simp only [Function.update_same])]
    · simp only [Function.update_same]
    · exact hw.contentBelow _ (by omega)
    · simp only
      rw [Function.update_noteq (by omega), Function.update_noteq (by omega)]
      exact hv
    · intro kh4 p4 h4
      rw [hr] at h4
      cases h4
    · intro _
      refine ⟨by simp [DefaultMapType.size], rfl, hw.contentBelow _ (le_refl _),
        hw.vectorsBelow _ (by omega), hknew, rfl⟩
    · intro kh3 p3 c3 hm3 hc3 hne3
      obtain ⟨vh3, hp3, _, hvh3⟩ := hw.pairs kh3 p3 hm3
      have hplt : p3 < s.nextStorage := by
        by_contra hn
        rw [hw.vectorsBelow p3 (by omega)] at hp3
        cases hp3
      refine ⟨List.mem_append_left _ hm3, ?_, hkeys _ _ hm3, ?_⟩
      · simp only
        rw [Function.update_noteq (by omega)]
      · intro x vh hx
        rw [hp3] at hx
        simp only [Option.some.injEq, List.cons.injEq, and_true] at hx
        obtain ⟨_, rfl⟩ := hx
        obtain ⟨c4, hc4⟩ := Option.isSome_iff_exists.1 hvh3
        have hlt := hw.lt_of_alive vh3 c4 hc4
        simp only
        rw [Function.update_noteq (by omega), Function.update_noteq (by omega)]
    · refine hw.addEntry _ s.nextStorage (s.nextStorage + 1) (s.nextStorage + 2) (le_refl _)
        (by omega) (by omega) (by simp only; omega) (by simp only; omega) (by omega) ?_ ?_ ?_
        ?_ rfl rfl
      · intro h hh
        simp only
        rw [Function.update_noteq (by omega), Function.update_noteq (by omega)]
      · intro h hh
        simp only at hh ⊢
        rw [Function.update_noteq (by omega), Function.update_noteq (by omega)]
        exact hw.contentBelow h (by omega)
      · simp only [hknew]; rfl
      · simp only [Function.update_same]; rfl

/-- C19 on the sample map holding `5 ↦ 7` (key storage 2, value storage 3, pair 4),
with the key in storage 0 (content 5) and the new value in storage 1 (content 7):
the key is present, neither storage is the one in slot 1, and after `insert` the
lookup gives the new storage 5, a clone of the value, while storage 3 is destroyed. -/
theorem DefaultMapType.insert_then_element_witness :
    MapState.sampleOne.WellFormed
    ∧ DefaultMapType.find intLess MapState.sampleOne 0 = some (some (2, 4))
    ∧ ∃ s2, DefaultMapType.insert intLess MapState.sampleOne 0 1 = some s2
      ∧ DefaultMapType.element intLess 0 s2 0 false = some (.borrow (some 5), s2)
      ∧ s2.content 5 = some 7 ∧ s2.destroyed = [3] := by
  have hf : DefaultMapType.find intLess MapState.sampleOne 0 = some (some (2, 4)) := rfl
  obtain ⟨s2, kh2, p2, vnew, h1, h2, h3, h4, h5, h6, h7, h8, h9, h10, h11⟩ :=
    DefaultMapType.insert_then_element intLess 0 MapState.sampleOne 0 1 5 7
      MapState.sampleOne_wellFormed intLess_irrefl rfl rfl
      (by
        intro kh p x v0 h hp
        rw [hf] at h
        simp only [Option.some.injEq, Prod.mk.injEq] at h
        obtain ⟨rfl, rfl⟩ := h
        have hv : MapState.sampleOne.vectors 4 = some [some 2, some 3] := rfl
        rw [hv] at hp
        simp only [Option.some.injEq, List.cons.injEq, and_true] at hp
        obtain ⟨_, rfl⟩ := hp
        exact ⟨by decide, by decide⟩)
  have hs : DefaultMapType.insert intLess MapState.sampleOne 0 1
      = some { nextStorage := 6
               content := Function.update (Function.update MapState.sampleOne.content 3 none)
                 5 (some 7)
               vectors := Function.update MapState.sampleOne.vectors 4 (some [some 2, some 5])
               destroyed := [3]
               entries := [(2, 4)] } := rfl
  rw [hs] at h1
  simp only [Option.some.injEq] at h1
  subst h1
  have hv : vnew = 5 := by
    have h3b : some [some 2, some 5] = some [some kh2, some vnew] := by
      have hp2 : p2 = 4 := ((h8 2 4 hf).2.2.2.1)
      subst hp2
      exact h3
    simp only [Option.some.injEq, List.cons.injEq, and_true] at h3b
    exact h3b.2.symm
  subst hv
  exact ⟨MapState.sampleOne_wellFormed, hf, _, rfl, h4, h5, rfl⟩

/-- C19 as stated fails on the sample map holding `5 ↦ 7` (a well-formed default
map, the result of one `insert` into the empty map) with the key in storage 0 and,
as the value, storage 3, which is alive and is the storage in slot 1 of the pair
under the key: `insert` destroys storage 3 and then clones it, a read of a
destroyed storage, so there is no map afterwards in which slot 1 holds a clone
of the value. -/
theorem DefaultMapType.insert_then_element_counterexample :
    DefaultMapType.insert intLess (MapState.sample 5 7) 0 1 = some MapState.sampleOne
    ∧ MapState.sampleOne.WellFormed
    ∧ MapState.sampleOne.content 0 = some 5 ∧ MapState.sampleOne.content 3 = some 7
    ∧ DefaultMapType.find intLess MapState.sampleOne 0 = some (some (2, 4))
    ∧ MapState.sampleOne.vectors 4 = some [some 2, some 3]
    ∧ DefaultMapType.insert intLess MapState.sampleOne 0 3 = none :=
  ⟨rfl, MapState.sampleOne_wellFormed, rfl, rfl, rfl, rfl, rfl⟩

/-- C20: for every well-formed default map `s` and key storage `k` that is alive:
if `k` is present, `element(m, k, autoInsert)` returns slot 1 of the pair of `k` and
leaves the map unchanged, for both values of the flag; if `k` is absent and
`autoInsert` is false it returns the empty `GenericValuePtr` and leaves the map
unchanged; if `k` is absent and `autoInsert` is true the size grows by one, the new
pair holds a clone of `k` and the storage that `initializeStorage` of the element
type returned (default content, no clone made of it: three storages are new, the
value, the key and the pair), and the returned pointer is that slot 1; one of the
two cases always applies. -/
theorem DefaultMapType.element_borrows_or_inserts {V : Type} (less : V → V → Bool)
    (dflt : V) (s : MapState V) (k : Nat) (kc : V) (hw : s.WellFormed)
    (hk : s.content k = some kc) :
    (∃ r, DefaultMapType.find less s k = some r)
    ∧ (∀ kh p, DefaultMapType.find less s k = some (some (kh, p)) →
        ∃ vh, s.vectors p = some [some kh, some vh]
          ∧ ∀ autoInsert, DefaultMapType.element less dflt s k autoInsert
              = some (.borrow (some vh), s))
    ∧ (DefaultMapType.find less s k = some none →
        DefaultMapType.element less dflt s k false = some (.empty, s)
        ∧ ∃ s2 kn pn vn, DefaultMapType.element less dflt s k true
              = some (.borrow (some vn), s2)
          ∧ DefaultMapType.size s2 = DefaultMapType.size s + 1
          ∧ s2.entries = s.entries ++ [(kn, pn)]
          ∧ s2.vectors pn = some [some kn, some vn]
          ∧ s.content kn = none ∧ s2.content kn = some kc
          ∧ vn = (s.initializeStorage dflt).1 ∧ s.content vn = none
          ∧ s2.content vn = some dflt
          ∧ s2.nextStorage = s.nextStorage + 3
          ∧ s2.destroyed = s.destroyed
          ∧ (∀ h, h < s.nextStorage → s2.content h = s.content h)
          ∧ (∀ h, h < s.nextStorage → s2.vectors h = s.vectors h)
          ∧ s2.WellFormed) := by
  have hklt := hw.lt_of_alive k kc hk
  refine ⟨DefaultMapType.find_defined less s hw k kc hk, ?_, ?_⟩
  · intro kh p hf
    have hfl : DefaultMapType.findLoop less s kc s.entries = some (some (kh, p)) := by
      simpa only [DefaultMapType.find, hk] using hf
    obtain ⟨hm, _⟩ := DefaultMapType.findLoop_found less s kc s.entries kh p hfl
    obtain ⟨vh, hp, _, _⟩ := hw.pairs kh p hm
    refine ⟨vh, hp, fun autoInsert => ?_⟩
    simp only [DefaultMapType.element, hf, DefaultTupleType.get_pair s p _ _ hp]
  · intro hf
    have hfl : DefaultMapType.findLoop less s kc s.entries = some none := by
      simpa only [DefaultMapType.find, hk] using hf
    have hw1 := hw.initializeStorage dflt
    have hk1 : (s.initializeStorage dflt).2.content k = some kc := by
      simp only [MapState.initializeStorage]
      rw [Function.update_noteq (by omega)]; exact hk
    have hf1 : DefaultMapType.find less (s.initializeStorage dflt).2 k = some none := by
      simp only [DefaultMapType.find, hk1]
      rw [← hfl]
      apply DefaultMapType.findLoop_congr
      intro kh p hm
      have := hw.key_lt kh p hm
      simp only [MapState.initializeStorage]
      rw [Function.update_noteq (by omega)]
    have hins := DefaultMapType._insert_nocopy less (s.initializeStorage dflt).2 hw1 k
      s.nextStorage kc hk1 hf1
    have hel : DefaultMapType.element less dflt s k true
        = some (.borrow (some s.nextStorage),
            { nextStorage := s.nextStorage + 3
              content := Function.update (Function.update s.content s.nextStorage (some dflt))
                (s.nextStorage + 1) (some kc)
              vectors := Function.update s.vectors (s.nextStorage + 2)
                (some [some (s.nextStorage + 1), some s.nextStorage])
              destroyed := s.destroyed
              entries := s.entries ++ [(s.nextStorage + 1, s.nextStorage + 2)] }) := by
      simp only [DefaultMapType.element, hf, Bool.not_true, Bool.false_eq_true, if_false]
      have e : (s.initializeStorage dflt).1 = s.nextStorage := rfl
      rw [e, hins]
      rfl
    refine ⟨by simp [DefaultMapType.element, hf], _, s.nextStorage + 1, s.nextStorage + 2,
      s.nextStorage, hel, by simp [DefaultMapType.size], rfl, ?_, ?_, ?_, rfl, ?_, ?_, rfl, rfl,
      ?_, ?_, ?_⟩
    · simp only [Function.update_same]
    · exact hw.contentBelow _ (by omega)
    · simp only [Function.update_same]
    · exact hw.contentBelow _ (le_refl _)
    · simp only
      rw [Function.update_noteq (by omega), Function.update_same]
    · intro h hh
      simp only
      rw [Function.update_noteq (by omega), Function.update_noteq (by omega)]
    · intro h hh
      simp only
      rw [Function.update_noteq (by omega)]
    · refine hw.addEntry _ (s.nextStorage + 1) s.nextStorage (s.nextStorage + 2) (by omega)
        (le_refl _) (by omega) (by simp only; omega) (by simp only; omega) (by omega) ?_ ?_ ?_
        ?_ rfl rfl
      · intro h hh
        simp only
        rw [Function.update_noteq (by omega), Function.update_noteq (by omega)]
      · intro h hh
        simp only at hh ⊢
        rw [Function.update_noteq (by omega), Function.update_noteq (by omega)]
        exact hw.contentBelow h (by omega)
      · simp only [Function.update_same]; rfl
      · simp only
        rw [Function.update_noteq (by omega), Function.update_same]; rfl

/-- C20 on the sample map holding `5 ↦ 7` with the key in storage 0 (content 5,
present) and on the empty sample map (absent): a borrow of slot 1 (storage 3) with
the map unchanged; the empty pointer with the map unchanged; and with `autoInsert`
the new storage 2 with the default content 0. -/
theorem DefaultMapType.element_borrows_or_inserts_witness :
    MapState.sampleOne.WellFormed ∧ MapState.sampleOne.content 0 = some 5
    ∧ DefaultMapType.element intLess 0 MapState.sampleOne 0 true
        = some (.borrow (some 3), MapState.sampleOne)
    ∧ DefaultMapType.element intLess 0 MapState.sampleOne 0 false
        = some (.borrow (some 3), MapState.sampleOne)
    ∧ DefaultMapType.element intLess 0 (MapState.sample 5 7) 0 false
        = some (.empty, MapState.sample 5 7)
    ∧ ∃ s2, DefaultMapType.element intLess 0 (MapState.sample 5 7) 0 true
        = some (.borrow (some 2), s2) ∧ s2.content 2 = some 0
        ∧ DefaultMapType.size s2 = 1 := by
  have h1 := DefaultMapType.element_borrows_or_inserts intLess 0 MapState.sampleOne 0 5
    MapState.sampleOne_wellFormed rfl
  have h2 := DefaultMapType.element_borrows_or_inserts intLess 0 (MapState.sample 5 7) 0 5
    (MapState.sample_wellFormed 5 7) rfl
  obtain ⟨vh, hp, hel⟩ := h1.2.1 2 4 rfl
  have hv : MapState.sampleOne.vectors 4 = some [some 2, some 3] := rfl
  rw [hv] at hp
  simp only [Option.some.injEq, List.cons.injEq, and_true, true_and] at hp
  subst hp
  exact ⟨MapState.sampleOne_wellFormed, rfl, hel true, hel false, (h2.2.2 rfl).1, _, rfl, rfl,
    rfl⟩

/-! ### `typeFail` reports each type name once -/

theorem typeFail_snd (n o : String) (once : List String) :
    (typeFail n o once).2 = if n ∈ once then once else n :: once := by
  by_cases hm : n ∈ once <;> simp [typeFail, hm]

theorem typeFail_fst (n o : String) (once : List String) :
    (typeFail n o once).1 = if n ∈ once then none else some (typeFailMessage n o) := by
  by_cases hm : n ∈ once <;> simp [typeFail, hm]

theorem typeFailRun_length : ∀ (calls : List (String × String)) (once : List String),
    (typeFailRun calls once).length = calls.length
  | [], _ => rfl
  | (n, o) :: rest, once => by
    simp only [typeFailRun, List.length_cons, typeFailRun_length rest]

theorem typeFailRun_spec : ∀ (calls : List (String × String)) (once : List String) (i : Nat)
    (h : i < calls.length),
    (typeFailRun calls once).get? i
      = some (if (calls.get ⟨i, h⟩).1 ∈ once
                ∨ (calls.get ⟨i, h⟩).1 ∈ (calls.take i).map Prod.fst then none
              else some (typeFailMessage (calls.get ⟨i, h⟩).1 (calls.get ⟨i, h⟩).2))
  | [], _, _, h => by simp at h
  | (n, o) :: rest, once, 0, _ => by
    simp [typeFailRun, typeFail_fst]
  | (n, o) :: rest, once, i + 1, h => by
    have h2 : i < rest.length := by simpa using h
    simp only [typeFailRun, List.get?_cons_succ, List.get_cons_succ, List.take_succ_cons,
      List.map_cons, List.mem_cons]
    rw [typeFailRun_spec rest _ i h2, typeFail_snd]
    congr 1
    apply if_congr _ rfl rfl
    by_cases hm : n ∈ once
    · simp only [hm, if_true]
      constructor
      · rintro (h1 | h1)
        · exact Or.inl h1
        · exact Or.inr (Or.inr h1)
      · rintro (h1 | h1 | h1)
        · exact Or.inl h1
        · exact Or.inl (h1 ▸ hm)
        · exact Or.inr h1
    · simp only [hm, if_false, List.mem_cons]
      constructor
      · rintro ((h1 | h1) | h1)
        · exact Or.inr (Or.inl h1)
        · exact Or.inl h1
        · exact Or.inr (Or.inr h1)
      · rintro (h1 | h1 | h1)
        · exact Or.inl (Or.inr h1)
        · exact Or.inl (Or.inl h1)
        · exact Or.inr h1

/-- C25: for every sequence of `typeFail(typeName, operation)` calls from the start
of the process (empty set), the `i`-th call emits an error diagnostic exactly when
no earlier call had the same `typeName`, and the diagnostic names the `typeName` and
the operation of that call; every later call with the same `typeName` emits nothing,
whatever its operation. -/
theorem typeFail_once_per_name (calls : List (String × String)) (i : Nat)
    (h : i < calls.length) :
    (typeFailRun calls []).length = calls.length
    ∧ (typeFailRun calls []).get? i
      = some (if (calls.get ⟨i, h⟩).1 ∈ (calls.take i).map Prod.fst then none
              else some (typeFailMessage (calls.get ⟨i, h⟩).1 (calls.get ⟨i, h⟩).2)) := by
  refine ⟨typeFailRun_length calls [], ?_⟩
  rw [typeFailRun_spec calls [] i h]
  simp

/-- C25 on the calls `("A", "clone")`, `("B", "less")`, `("A", "destroy")`: the
first two are reported, the third is silent. -/
theorem typeFail_once_per_name_witness :
    2 < [("A", "clone"), ("B", "less"), ("A", "destroy")].length
    ∧ typeFailRun [("A", "clone"), ("B", "less"), ("A", "destroy")] []
      = [some "The following operation failed on data type A :clone",
         some "The following operation failed on data type B :less", none]
    ∧ (typeFailRun [("A", "clone"), ("B", "less"), ("A", "destroy")] []).get? 2 = some none :=
  ⟨by decide, by decide,
    (typeFail_once_per_name [("A", "clone"), ("B", "less"), ("A", "destroy")] 2
      (by decide)).2.trans (by decide)⟩

/-! ### Dynamic values, empty containers, and the reconciled element signature -/

/-- C24: for every value of a Dynamic type (an Object-pointer type wraps an
object): with `resolveDynamic = true` its signature is the resolved signature of
the wrapped value; with `resolveDynamic = false` it is `m`, except that it is `o`
when the `TypeInfo` of the Dynamic type equals that of the canonical Object-pointer
type, whatever the storage. -/
theorem dynamic_signature (conv : Signature → Signature → Bool) (info : TypeInfo)
    (pointee : GenericValuePtr) (storage : Storage)
    (hobj : info.eq typeOfObjectPtr.info = true → pointee.type.kind = Kind.Object) :
    (GenericValuePtr.mk (.dynamic info) (.dynamic pointee)).signature conv true
      = pointee.signature conv true
    ∧ (GenericValuePtr.mk (.dynamic info) storage).signature conv false
      = some (if info.eq typeOfObjectPtr.info = true then Signature.fromType .Type_Object
              else Signature.fromType .Type_Dynamic)
    ∧ (Signature.fromType .Type_Dynamic).toString = "m"
    ∧ (Signature.fromType .Type_Object).toString = "o" := by
  refine ⟨?_, ?_, by decide, by decide⟩
  · show (GenericValuePtr.mk (.dynamic info) (.dynamic pointee)).signatureTrue conv
      = pointee.signature conv true
    rw [signature_true_eq]
    by_cases he : info.eq typeOfObjectPtr.info = true
    · have hk := hobj he
      obtain ⟨t, st⟩ := pointee
      cases t <;> simp [GenericValuePtr.type, QiType.kind] at hk
      simp [GenericValuePtr.signatureTrue, he, visitObjectPtr, visitObject]
    · simp [GenericValuePtr.signatureTrue, he, visitDynamic]
  · show (QiType.dynamic info).signatureFalse conv = _
    by_cases he : info.eq typeOfObjectPtr.info = true <;>
      simp [QiType.signatureFalse, he]

/-- C24 at the Dynamic value wrapping `int32(1)`: `i` when resolved, `m` when not. -/
theorem dynamic_signature_witness :
    (typeOfGenericValue.info.eq typeOfObjectPtr.info = false)
    ∧ (dynamicOf (int32Value 1)).signature Signature.isConvertibleTo true
        = some (Signature.fromType .Type_Int32)
    ∧ (dynamicOf (int32Value 1)).signature Signature.isConvertibleTo false
        = some (Signature.fromType .Type_Dynamic) := by
  have h := dynamic_signature Signature.isConvertibleTo typeOfGenericValue.info
    (int32Value 1) (.dynamic (int32Value 1)) (fun he => absurd he (by decide))
  exact ⟨by decide, h.1.trans (by decide), h.2.1.trans (by decide)⟩

/-- C27: with `resolveDynamic = true` every empty list has the signature `[_]`
(list of None) and every empty map the map signature of None and None, whatever
the declared element and key types. -/
theorem empty_container_signature (conv : Signature → Signature → Bool) (info : TypeInfo)
    (keyType elementType : QiType) :
    (GenericValuePtr.mk (.list info elementType) (.list [])).signature conv true
      = some (makeListSignature (Signature.fromType .Type_None))
    ∧ (makeListSignature (Signature.fromType .Type_None)).toString = "[_]"
    ∧ (GenericValuePtr.mk (.map info keyType elementType) (.map [])).signature conv true
      = some (makeMapSignature (Signature.fromType .Type_None)
          (Signature.fromType .Type_None))
    ∧ (makeMapSignature (Signature.fromType .Type_None)
          (Signature.fromType .Type_None)).toString = "\x7b__\x7d" := by
  obtain ⟨esig, he⟩ := signatureFalse_total conv elementType
  obtain ⟨ksig, hk⟩ := signatureFalse_total conv keyType
  refine ⟨?_, by decide, ?_, by decide⟩
  · show (GenericValuePtr.mk (.list info elementType) (.list [])).signatureTrue conv = _
    simp [GenericValuePtr.signatureTrue, he, GenericValuePtr.signatureTrueList, visitList]
  · show (GenericValuePtr.mk (.map info keyType elementType) (.map [])).signatureTrue conv = _
    simp [GenericValuePtr.signatureTrue, he, hk, GenericValuePtr.signatureTruePairs, visitMap]

/-! ### The element names read by `visitTuple` -/

theorem visitTuple_loop_out_of_range (annotations : List String) :
    ∀ (todo i : Nat) (res : String), i ≤ annotations.length → annotations.length < i + todo →
      visitTuple.loop annotations todo i res = none := by
  intro todo
  induction todo with
  | zero => intro i res h1 h2; omega
  | succ k ih =>
    intro i res h1 h
    by_cases hi : i < annotations.length
    · simp only [visitTuple.loop, List.get?_eq_get hi]
      exact ih (i + 1) _ (by omega) (by omega)
    · have hn : annotations.get? i = none := List.get?_eq_none.2 (by omega)
      simp only [visitTuple.loop, hn]

/-- C26 fails on the code: for a tuple value with `n` members, a non-empty class
name and fewer than `n` element names, the guard of `visitTuple` lets the suffix be
built (`!name.empty()` holds) and the loop reads `annotations[i]` at an index that is
not below `|A|`: the inference is undefined. So it is for the one-member tuple
`(int32)` named `P` without element names, the type that `fromSignature` makes
for `(i)<P>`. -/
theorem visitTuple_reads_element_names_out_of_range (conv : Signature → Signature → Bool)
    (info : TypeInfo) (memberTypes : List QiType) (className : String)
    (elementsName : List String) (vals : List GenericValuePtr) (members : List Signature) :
    (List.Forall₂ (fun v s => v.signature conv true = some s) vals members →
      className ≠ "" → elementsName.length < vals.length →
      (GenericValuePtr.mk (.tuple info memberTypes className elementsName)
          (.tuple vals)).signature conv true = none)
    ∧ (fromSignature (.tuple [.leaf .Type_Int32] (some "P")) Factories.init).1
        = some (DefaultTupleType.new [typeOfInt32] "P" [] 0)
    ∧ (GenericValuePtr.mk (DefaultTupleType.new [typeOfInt32] "P" [] 0)
          (.tuple [int32Value 1])).signature conv true = none
    ∧ visitTuple "P" [some (Signature.fromType .Type_Int32)] [] = none := by
  refine ⟨?_, rfl, ?_, by decide⟩
  · intro hvals hN hlt
    obtain ⟨_, hlen⟩ := forall₂_signature_members conv vals members hvals
    have hlist := signatureTrueList_of_all conv vals members hvals
    show (GenericValuePtr.mk (.tuple info memberTypes className elementsName)
      (.tuple vals)).signatureTrue conv = none
    simp only [GenericValuePtr.signatureTrue, hlist]
    unfold visitTuple
    simp only [allSome_map_some, List.length_map]
    rw [if_pos (Or.inl hN),
      visitTuple_loop_out_of_range elementsName members.length 0 _ (Nat.zero_le _) (by omega)]
  · show (GenericValuePtr.mk (DefaultTupleType.new [typeOfInt32] "P" [] 0)
      (.tuple [int32Value 1])).signatureTrue conv = none
    simp [DefaultTupleType.new, GenericValuePtr.signatureTrue,
      GenericValuePtr.signatureTrueList, int32Value, typeOfInt32, visitInt, visitTuple, allSome,
      visitTuple.loop, Signature.fromType]

/-! ### The reconciled element signature of a list -/

theorem specReconcile_fold_valid (conv : Signature → Signature → Bool) :
    ∀ (rest : List Signature) (first : Signature),
      (rest.foldl (specReconcileStep conv) first).isValid = true →
      rest.foldl (specReconcileStep conv) first ∈ first :: rest
      ∧ ((∀ a, conv a a = true) →
          (∀ a b c, conv a b = true → conv b c = true → conv a c = true) →
          ∀ s ∈ first :: rest, conv s (rest.foldl (specReconcileStep conv) first) = true) := by
  intro rest
  induction rest with
  | nil =>
    intro first _
    exact ⟨List.mem_singleton.2 rfl, fun hr _ s hs => by
      rw [List.mem_singleton.1 hs]; exact hr _⟩
  | cons a l ih =>
    intro first hv
    simp only [List.foldl_cons] at hv ⊢
    have hfv : first.isValid = true := by
      cases first with
      | invalid =>
        simp [specReconcileStep, Signature.isValid, specReconcileStep_invalid] at hv
      | mk x => rfl
    obtain ⟨hmem, hconv⟩ := ih (specReconcileStep conv first a) hv
    have hstep : (specReconcileStep conv first a = first ∧ (a = first ∨ conv a first = true))
        ∨ (specReconcileStep conv first a = a ∧ conv first a = true)
        ∨ specReconcileStep conv first a = Signature.invalid := by
      unfold specReconcileStep
      by_cases h0 : a = first
      · simp [hfv, h0]
      · by_cases h1 : conv a first = true
        · simp [hfv, h0, h1]
        · by_cases h2 : conv first a = true
          · simp [hfv, h0, h1, h2]
          · simp [hfv, h0, h1, h2]
    rcases hstep with ⟨he, hc⟩ | ⟨he, hc⟩ | he
    · rw [he] at hmem hconv ⊢
      refine ⟨?_, fun hr ht s hs => ?_⟩
      · rcases List.mem_cons.1 hmem with h | h
        · exact List.mem_cons.2 (Or.inl h)
        · exact List.mem_cons_of_mem _ (List.mem_cons_of_mem _ h)
      · have hfirst := hconv hr ht first (List.mem_cons_self _ _)
        rcases List.mem_cons.1 hs with rfl | hs
        · exact hfirst
        · rcases List.mem_cons.1 hs with rfl | hs
          · rcases hc with rfl | hc
            · exact hfirst
            · exact ht _ _ _ hc hfirst
          · exact hconv hr ht s (List.mem_cons_of_mem _ hs)
    · rw [he] at hmem hconv ⊢
      refine ⟨List.mem_cons_of_mem _ hmem, fun hr ht s hs => ?_⟩
      have ha := hconv hr ht a (List.mem_cons_self _ _)
      rcases List.mem_cons.1 hs with rfl | hs
      · exact ht _ _ _ hc ha
      · exact hconv hr ht s hs
    · rw [he, specReconcileStep_invalid] at hv
      cases hv

theorem forall₂_exists_left {α β : Type} (R : α → β → Prop) :
    ∀ (l1 : List α) (l2 : List β), List.Forall₂ R l1 l2 → ∀ b ∈ l2, ∃ a ∈ l1, R a b
  | _, _, .nil, b, hb => by simp at hb
  | _, _, .cons hab hrest, b, hb => by
    rcases List.mem_cons.1 hb with rfl | hb
    · exact ⟨_, List.mem_cons_self _ _, hab⟩
    · obtain ⟨a, ha, hr⟩ := forall₂_exists_left R _ _ hrest b hb
      exact ⟨a, List.mem_cons_of_mem _ ha, hr⟩

theorem forall₂_exists_right {α β : Type} (R : α → β → Prop) :
    ∀ (l1 : List α) (l2 : List β), List.Forall₂ R l1 l2 → ∀ a ∈ l1, ∃ b ∈ l2, R a b
  | _, _, .nil, a, ha => by simp at ha
  | _, _, .cons hab hrest, a, ha => by
    rcases List.mem_cons.1 ha with rfl | ha
    · exact ⟨_, List.mem_cons_self _ _, hab⟩
    · obtain ⟨b, hb, hr⟩ := forall₂_exists_right R _ _ hrest a ha
      exact ⟨b, List.mem_cons_of_mem _ hb, hr⟩

/-- C28: for every non-empty list whose reconciliation under `resolveDynamic = true`
does not fall back to the declared element type (the loop of `visitList` ends with
a valid `sigFirst = r`), the signature is the list signature of `r`, `r` is the
resolved signature of some element of the list, and if the convertibility relation
is reflexive and transitive the resolved signature of every element is convertible
to `r`. -/
theorem list_signature_is_an_element (conv : Signature → Signature → Bool) (info : TypeInfo)
    (elementType : QiType) (elems : List GenericValuePtr) (first r : Signature)
    (rest : List Signature)
    (h : List.Forall₂ (fun e s => e.signature conv true = some s) elems (first :: rest))
    (hloop : visitList.loop conv first (rest.map some) = some r)
    (hvalid : r.isValid = true) :
    (GenericValuePtr.mk (.list info elementType) (.list elems)).signature conv true
      = some (makeListSignature r)
    ∧ (∃ e ∈ elems, e.signature conv true = some r)
    ∧ ((∀ a, conv a a = true) →
        (∀ a b c, conv a b = true → conv b c = true → conv a c = true) →
        ∀ e ∈ elems, ∃ s, e.signature conv true = some s ∧ conv s r = true) := by
  obtain ⟨esig, he⟩ := signatureFalse_total conv elementType
  rw [visitList_loop_eq] at hloop
  simp only [Option.some.injEq] at hloop
  subst hloop
  obtain ⟨hmem, hconv⟩ := specReconcile_fold_valid conv rest first hvalid
  refine ⟨?_, forall₂_exists_left _ _ _ h _ hmem, fun hr ht e hm => ?_⟩
  · rw [list_signature_true conv info elementType elems (first :: rest) esig he h]
    simp only [specReconcile, hvalid, if_true]
  · obtain ⟨s, hs, hes⟩ := forall₂_exists_right _ _ _ h e hm
    exact ⟨s, hes, hconv hr ht s hs⟩

/-- C28 at the list `[int32(1), int64(2)]` declared of Dynamic, with the widening rule
of the specification: the loop ends with `l`, the signature of the second element,
and the signature of the list is `[l]`. -/
theorem list_signature_is_an_element_witness :
    visitList.loop Signature.isConvertibleTo (Signature.fromType .Type_Int32)
        ([Signature.fromType .Type_Int64].map some) = some (Signature.fromType .Type_Int64)
    ∧ (GenericValuePtr.mk listOfDynamic
          (.list [dynamicOf (int32Value 1), dynamicOf (int64Value 2)])).signature
            Signature.isConvertibleTo true = some (.mk [.list (.leaf .Type_Int64)])
    ∧ ∃ e ∈ [dynamicOf (int32Value 1), dynamicOf (int64Value 2)],
        e.signature Signature.isConvertibleTo true = some (Signature.fromType .Type_Int64) := by
  have h := list_signature_is_an_element Signature.isConvertibleTo
    (TypeInfo.ofString "list<dynamic>") typeOfGenericValue
    [dynamicOf (int32Value 1), dynamicOf (int64Value 2)]
    (Signature.fromType .Type_Int32) (Signature.fromType .Type_Int64)
    [Signature.fromType .Type_Int64] (.cons rfl (.cons rfl .nil)) (by decide) rfl
  exact ⟨by decide, h.1, h.2.1⟩

/-! ### `DefaultTupleType::set` and `DefaultTupleType::get` -/

theorem DefaultTupleType.grow_of_lt (ptr : List (Option Nat)) (i : Nat) (hi : i < ptr.length) :
    DefaultTupleType.grow ptr i = ptr := by
  have h : (i + 1) % 2 ^ 32 ≤ i + 1 := Nat.mod_le _ _
  simp only [DefaultTupleType.grow]
  rw [if_neg (by omega)]

/-- C23 fails on the code at the largest index: for a default tuple storage of
length `n` and an index `i`, `get(storage, i)` returns slot `i` and leaves the
storage unchanged when `i < n`; when `n ≤ i` and `i + 1 < 2 ^ 32` it grows the
storage to length `i + 1`, keeping the slots and filling the new ones with null, and
returns null; but at `i = 2 ^ 32 - 1` (with `n ≤ i`) the 32-bit `index + 1` is 0, the
storage is not grown and `ptr[index]` is read past its end: undefined. So it is for
the sample pair (length 2) at index 4294967295. -/
theorem DefaultTupleType.get_wraps_at_max_index {V : Type} (s : MapState V) (storage i : Nat)
    (ptr : List (Option Nat)) :
    (s.vectors storage = some ptr → ∀ hi : i < ptr.length,
      DefaultTupleType.get s storage i = some (ptr.get ⟨i, hi⟩, s))
    ∧ (s.vectors storage = some ptr → ptr.length ≤ i → i + 1 < 2 ^ 32 →
      DefaultTupleType.get s storage i
        = some (none, { s with vectors := (Function.update s.vectors storage
            (some (ptr ++ List.replicate (i + 1 - ptr.length) none))) })
      ∧ (ptr ++ List.replicate (i + 1 - ptr.length) none).length = i + 1)
    ∧ (s.vectors storage = some ptr → ptr.length ≤ i → i = 2 ^ 32 - 1 →
      DefaultTupleType.get s storage i = none)
    ∧ MapState.samplePair.vectors 4 = some [some 2, some 3]
    ∧ DefaultTupleType.get MapState.samplePair 4 4294967295 = none := by
  refine ⟨?_, ?_, ?_, rfl, rfl⟩
  · intro hv hi
    have h : (i + 1) % 2 ^ 32 ≤ i + 1 := Nat.mod_le _ _
    simp only [DefaultTupleType.get, hv]
    rw [if_neg (by omega), List.get?_eq_get hi]
  · intro hv hle hlt
    have h : (i + 1) % 2 ^ 32 = i + 1 := Nat.mod_eq_of_lt hlt
    have hg : (ptr ++ List.replicate (i + 1 - ptr.length) none).get? i = some none := by
      simp only [List.get?_eq_getElem?]
      rw [List.getElem?_append_right hle, List.getElem?_replicate]
      rw [if_pos (by omega)]
    refine ⟨?_, by simp; omega⟩
    simp only [DefaultTupleType.get, hv, h]
    rw [if_pos (by omega)]
    simp only [hg]
  · intro hv hle hmax
    have h : (i + 1) % 2 ^ 32 = 0 := by subst hmax; rfl
    have hg : ptr.get? i = none := List.get?_eq_none.2 hle
    simp only [DefaultTupleType.get, hv, h]
    rw [if_neg (by omega)]
    simp only [hg]

/-! ### `InfosKey::operator<` is a strict weak ordering -/

theorem cmpThen_trans (r1 r2 r3 s1 s2 s3 : Option Bool) (hr : CmpTrans r1 r2 r3)
    (hs : r1 = none → r2 = none → CmpTrans s1 s2 s3) :
    CmpTrans (cmpThen r1 s1) (cmpThen r2 s2) (cmpThen r3 s3) := by
  intro h1 h2
  have g1 : r1 ≠ some false := by
    rintro rfl
    exact h1 rfl
  have g2 : r2 ≠ some false := by
    rintro rfl
    exact h2 rfl
  obtain ⟨g3, g4⟩ := hr g1 g2
  cases r1 with
  | some x =>
    cases x with
    | false => exact absurd rfl g1
    | true =>
      cases r3 with
      | none => simp at g4
      | some y =>
        cases y with
        | false => exact absurd rfl g3
        | true => simp [cmpThen]
  | none =>
    cases r2 with
    | some x =>
      cases x with
      | false => exact absurd rfl g2
      | true =>
        cases r3 with
        | none => simp at g4
        | some y =>
          cases y with
          | false => exact absurd rfl g3
          | true => simp [cmpThen]
    | none =>
      have h3 : r3 = none := g4.2 ⟨rfl, rfl⟩
      subst h3
      exact hs rfl rfl h1 h2

theorem cmpTrans_of_linear {α : Type} [LinearOrder α] (a b c : α) (r1 r2 r3 : Option Bool)
    (h1 : r1 ≠ some false ↔ a ≤ b) (h1n : r1 = none ↔ a = b)
    (h2 : r2 ≠ some false ↔ b ≤ c) (h2n : r2 = none ↔ b = c)
    (h3 : r3 ≠ some false ↔ a ≤ c) (h3n : r3 = none ↔ a = c) : CmpTrans r1 r2 r3 := by
  intro g1 g2
  have hab := h1.1 g1
  have hbc := h2.1 g2
  refine ⟨h3.2 (le_trans hab hbc), ?_⟩
  rw [h3n, h1n, h2n]
  constructor
  · rintro rfl
    have := le_antisymm hab hbc
    exact ⟨this, this.symm⟩
  · rintro ⟨rfl, rfl⟩
    rfl

theorem cmpNat_facts (m n : Nat) :
    (cmpNat m n ≠ some false ↔ m ≤ n) ∧ (cmpNat m n = none ↔ m = n) := by
  unfold cmpNat
  by_cases h : m = n
  · simp [h]
  · have hb : (m != n) = true := by simpa using h
    rw [if_pos hb]
    refine ⟨?_, by simp [h]⟩
    by_cases hlt : m < n
    · simp [hlt, le_of_lt hlt]
    · simp only [hlt, decide_False, ne_eq, not_true_eq_false, false_iff, not_le]
      omega

theorem cmpString_facts (a b : String) :
    (cmpString a b ≠ some false ↔ a.data ≤ b.data) ∧ (cmpString a b = none ↔ a.data = b.data) := by
  unfold cmpString
  by_cases h : a = b
  · simp [h]
  · have hb : (a != b) = true := by simpa using h
    have hd : a.data ≠ b.data := fun e => h (String.ext e)
    simp only [hb, if_true, ne_eq, Option.some.injEq, strLt, decide_eq_false_iff_not, not_not, hd,
      iff_false, not_false_eq_true, reduceCtorEq, and_true]
    exact ⟨le_of_lt, fun hle => lt_of_le_of_ne hle hd⟩

theorem cmpNat_trans (a b c : Nat) : CmpTrans (cmpNat a b) (cmpNat b c) (cmpNat a c) :=
  cmpTrans_of_linear a b c _ _ _ (cmpNat_facts a b).1 (cmpNat_facts a b).2 (cmpNat_facts b c).1
    (cmpNat_facts b c).2 (cmpNat_facts a c).1 (cmpNat_facts a c).2

theorem cmpString_trans (a b c : String) :
    CmpTrans (cmpString a b) (cmpString b c) (cmpString a c) :=
  cmpTrans_of_linear a.data b.data c.data _ _ _ (cmpString_facts a b).1 (cmpString_facts a b).2
    (cmpString_facts b c).1 (cmpString_facts b c).2 (cmpString_facts a c).1
    (cmpString_facts a c).2

theorem cmpInfo_named (a b : String) :
    cmpInfo ⟨none, a⟩ ⟨none, b⟩ = cmpString a b := by
  simp [cmpInfo, cmpString, TypeInfo.ne, TypeInfo.eq, TypeInfo.lt, bne]

theorem cmpInfo_native (x y : StdTypeInfo) (a b : String) :
    cmpInfo ⟨some x, a⟩ ⟨some y, b⟩ = cmpNat x.id y.id := by
  simp [cmpInfo, cmpNat, TypeInfo.ne, TypeInfo.eq, TypeInfo.lt, bne]

theorem cmpInfo_trans (a b c : TypeInfo) : CmpTrans (cmpInfo a b) (cmpInfo b c) (cmpInfo a c) := by
  obtain ⟨sa, ca⟩ := a
  obtain ⟨sb, cb⟩ := b
  obtain ⟨sc, cc⟩ := c
  cases sa <;> cases sb <;> cases sc
  · simp only [cmpInfo_named]; exact cmpString_trans ca cb cc
  · simp [cmpInfo, TypeInfo.ne, TypeInfo.eq, TypeInfo.lt, CmpTrans]
  · simp [cmpInfo, TypeInfo.ne, TypeInfo.eq, TypeInfo.lt, CmpTrans]
  · simp [cmpInfo, TypeInfo.ne, TypeInfo.eq, TypeInfo.lt, CmpTrans]
  · simp [cmpInfo, TypeInfo.ne, TypeInfo.eq, TypeInfo.lt, CmpTrans]
  · simp [cmpInfo, TypeInfo.ne, TypeInfo.eq, TypeInfo.lt, CmpTrans]
  · simp [cmpInfo, TypeInfo.ne, TypeInfo.eq, TypeInfo.lt, CmpTrans]
  · simp only [cmpInfo_native]; exact cmpNat_trans _ _ _

theorem InfosKey.typesLoop_cons (a b : QiType) (as bs : List QiType) :
    InfosKey.typesLoop (a :: as) (b :: bs)
      = cmpThen (cmpInfo a.info b.info) (InfosKey.typesLoop as bs) := by
  by_cases h : a.info.ne b.info = true
  · simp [InfosKey.typesLoop, cmpInfo, cmpThen, h]
  · simp [InfosKey.typesLoop, cmpInfo, cmpThen, h]

theorem InfosKey.elementsLoop_cons (a b : String) (as bs : List String) :
    InfosKey.elementsLoop (a :: as) (b :: bs)
      = cmpThen (cmpString a b) (InfosKey.elementsLoop as bs) := by
  by_cases h : a = b
  · simp [InfosKey.elementsLoop, cmpString, cmpThen, h]
  · simp [InfosKey.elementsLoop, cmpString, cmpThen, h]

theorem cmpTrans_none : CmpTrans none none none := by
  intro _ _
  exact ⟨by simp, by simp⟩

theorem InfosKey.typesLoop_trans : ∀ (as bs cs : List QiType), as.length = bs.length →
    bs.length = cs.length →
    CmpTrans (InfosKey.typesLoop as bs) (InfosKey.typesLoop bs cs) (InfosKey.typesLoop as cs)
  | [], [], [], _, _ => cmpTrans_none
  | a :: as, b :: bs, c :: cs, h1, h2 => by
    simp only [InfosKey.typesLoop_cons]
    exact cmpThen_trans _ _ _ _ _ _ (cmpInfo_trans a.info b.info c.info)
      (fun _ _ => InfosKey.typesLoop_trans as bs cs (by simpa using h1) (by simpa using h2))
  | [], _ :: _, _, h1, _ => by simp at h1
  | _ :: _, [], _, h1, _ => by simp at h1
  | _, [], _ :: _, _, h2 => by simp at h2
  | _, _ :: _, [], _, h2 => by simp at h2

theorem InfosKey.elementsLoop_trans : ∀ (as bs cs : List String), as.length = bs.length →
    bs.length = cs.length →
    CmpTrans (InfosKey.elementsLoop as bs) (InfosKey.elementsLoop bs cs)
      (InfosKey.elementsLoop as cs)
  | [], [], [], _, _ => cmpTrans_none
  | a :: as, b :: bs, c :: cs, h1, h2 => by
    simp only [InfosKey.elementsLoop_cons]
    exact cmpThen_trans _ _ _ _ _ _ (cmpString_trans a b c)
      (fun _ _ => InfosKey.elementsLoop_trans as bs cs (by simpa using h1) (by simpa using h2))
  | [], _ :: _, _, h1, _ => by simp at h1
  | _ :: _, [], _, h1, _ => by simp at h1
  | _, [], _ :: _, _, h2 => by simp at h2
  | _, _ :: _, [], _, h2 => by simp at h2

theorem InfosKey.compare_trans (a b c : InfosKey) :
    CmpTrans (a.compare b) (b.compare c) (a.compare c) := by
  unfold InfosKey.compare
  refine cmpThen_trans _ _ _ _ _ _ (cmpNat_trans _ _ _) (fun h1 h2 => ?_)
  have e1 := (cmpNat_facts _ _).2.1 h1
  have e2 := (cmpNat_facts _ _).2.1 h2
  refine cmpThen_trans _ _ _ _ _ _ (InfosKey.typesLoop_trans _ _ _ e1 e2) (fun _ _ => ?_)
  refine cmpThen_trans _ _ _ _ _ _ (cmpString_trans _ _ _) (fun _ _ => ?_)
  refine cmpThen_trans _ _ _ _ _ _ (cmpNat_trans _ _ _) (fun h3 h4 => ?_)
  exact InfosKey.elementsLoop_trans _ _ _ ((cmpNat_facts _ _).2.1 h3) ((cmpNat_facts _ _).2.1 h4)

theorem InfosKey.lt_iff_compare (a b : InfosKey) :
    a.lt b = true ↔ a.compare b = some true := by
  unfold InfosKey.lt InfosKey.compare cmpNat cmpString
  by_cases h1 : a._types.length = b._types.length
  · simp only [h1, bne_self_eq_false, Bool.false_eq_true, if_false, cmpThen]
    cases InfosKey.typesLoop a._types b._types with
    | some r => simp
    | none =>
      simp only
      by_cases h2 : a._name = b._name
      · simp only [h2, bne_self_eq_false, Bool.false_eq_true, if_false]
        by_cases h3 : a._elements.length = b._elements.length
        · simp only [h3, bne_self_eq_false, Bool.false_eq_true, if_false]
          cases InfosKey.elementsLoop a._elements b._elements with
          | some r => simp
          | none => simp
        · have hb : (a._elements.length != b._elements.length) = true := by simpa using h3
          simp [hb]
      · have hb : (a._name != b._name) = true := by simpa using h2
        simp [hb]
  · have hb : (a._types.length != b._types.length) = true := by simpa using h1
    simp [hb, cmpThen]

theorem InfosKey.key_lt_trans (a b c : InfosKey) (h1 : a.lt b = true) (h2 : b.lt c = true) :
    a.lt c = true := by
  rw [InfosKey.lt_iff_compare] at h1 h2 ⊢
  obtain ⟨g1, g2⟩ := InfosKey.compare_trans a b c (by rw [h1]; simp) (by rw [h2]; simp)
  cases h : a.compare c with
  | none =>
    rw [(g2.1 h).1] at h1
    cases h1
  | some x =>
    cases x with
    | true => rfl
    | false => exact absurd h g1

theorem InfosKey.key_lt_asymm (a b : InfosKey) (h : a.lt b = true) : b.lt a = false := by
  cases hb : b.lt a with
  | false => rfl
  | true =>
    have := InfosKey.key_lt_trans a b a h hb
    rw [InfosKey.key_lt_irrefl] at this
    cases this

theorem forall₂_eq_refl : ∀ l : List QiType,
    List.Forall₂ (fun x y : QiType => x.info.eq y.info = true) l l
  | [] => .nil
  | _ :: l => .cons (TypeInfo.eq_refl _) (forall₂_eq_refl l)

theorem forall₂_eq_symm : ∀ (l1 l2 : List QiType),
    List.Forall₂ (fun x y : QiType => x.info.eq y.info = true) l1 l2 →
    List.Forall₂ (fun x y : QiType => x.info.eq y.info = true) l2 l1
  | _, _, .nil => .nil
  | _, _, .cons h t => .cons (by rw [TypeInfo.eq_symm]; exact h) (forall₂_eq_symm _ _ t)

theorem forall₂_eq_trans : ∀ (l1 l2 l3 : List QiType),
    List.Forall₂ (fun x y : QiType => x.info.eq y.info = true) l1 l2 →
    List.Forall₂ (fun x y : QiType => x.info.eq y.info = true) l2 l3 →
    List.Forall₂ (fun x y : QiType => x.info.eq y.info = true) l1 l3
  | _, _, _, .nil, .nil => .nil
  | _, _, _, .cons h t, .cons h2 t2 =>
    .cons (TypeInfo.eq_trans _ _ _ h h2) (forall₂_eq_trans _ _ _ t t2)

theorem InfosKey.incomparable_iff (a b : InfosKey) :
    a.incomparable b ↔
      (List.Forall₂ (fun x y : QiType => x.info.eq y.info = true) a._types b._types
        ∧ a._name = b._name ∧ a._elements = b._elements) := by
  constructor
  · intro h
    exact InfosKey.equiv a b h.1 h.2
  · rintro ⟨ht, hn, he⟩
    obtain ⟨ta, na, ea⟩ := a
    obtain ⟨tb, nb, eb⟩ := b
    simp only at ht hn he
    subst hn
    subst he
    have h := InfosKey.key_lt_congr ta tb na ea ht ⟨tb, na, ea⟩
    exact ⟨by rw [h.2]; exact InfosKey.key_lt_irrefl _,
      by rw [h.1]; exact InfosKey.key_lt_irrefl _⟩

theorem InfosKey.incomparable_trans (a b c : InfosKey) (h1 : a.incomparable b)
    (h2 : b.incomparable c) : a.incomparable c := by
  rw [InfosKey.incomparable_iff] at h1 h2 ⊢
  exact ⟨forall₂_eq_trans _ _ _ h1.1 h2.1, h1.2.1.trans h2.2.1, h1.2.2.trans h2.2.2⟩

theorem InfosKey.incomparable_symm (a b : InfosKey) (h : a.incomparable b) :
    b.incomparable a := ⟨h.2, h.1⟩

/-! ### Properties of the factories kept by every factory call -/

mutual
theorem fromSignature_preserves (P : Factories → Prop)
    (hl : ∀ e st, P st → P (makeListType e st).2)
    (hm : ∀ kt et st, P st → P (makeMapType kt et st).2)
    (ht : ∀ types name elements st, P st → P (makeTupleType types name elements st).2) :
    ∀ (n : SigNode) (st : Factories), P st → P (fromSignature n st).2
  | .leaf l, st, h => by
    cases l <;> exact h
  | .list e, st, h => by
    have h1 := fromSignature_preserves P hl hm ht e st h
    rcases hres : fromSignature e st with ⟨o, st1⟩
    rw [hres] at h1
    cases o with
    | none => simp only [fromSignature, hres]; exact h1
    | some el =>
      simp only [fromSignature, hres]
      exact hl el st1 h1
  | .map k v, st, h => by
    have h1 := fromSignature_preserves P hl hm ht k st h
    rcases hres : fromSignature k st with ⟨ok, st1⟩
    rw [hres] at h1
    have h2 := fromSignature_preserves P hl hm ht v st1 h1
    rcases hres2 : fromSignature v st1 with ⟨oe, st2⟩
    rw [hres2] at h2
    cases ok with
    | none => simp only [fromSignature, hres, hres2]; exact h2
    | some kt =>
      cases oe with
      | none => simp only [fromSignature, hres, hres2]; exact h2
      | some et =>
        simp only [fromSignature, hres, hres2]
        exact hm kt et st2 h2
  | .tuple ms a, st, h => by
    have h1 := fromSignatureChildren_preserves P hl hm ht ms st h
    rcases hres : fromSignatureChildren ms st with ⟨o, st1⟩
    rw [hres] at h1
    cases o with
    | none => simp only [fromSignature, hres]; exact h1
    | some types =>
      simp only [fromSignature, hres]
      split
      · exact ht _ _ _ st1 h1
      · exact ht _ _ _ st1 h1
theorem fromSignatureChildren_preserves (P : Factories → Prop)
    (hl : ∀ e st, P st → P (makeListType e st).2)
    (hm : ∀ kt et st, P st → P (makeMapType kt et st).2)
    (ht : ∀ types name elements st, P st → P (makeTupleType types name elements st).2) :
    ∀ (ms : List SigNode) (st : Factories), P st → P (fromSignatureChildren ms st).2
  | [], st, h => h
  | m :: rest, st, h => by
    have h1 := fromSignature_preserves P hl hm ht m st h
    rcases hres : fromSignature m st with ⟨o, st1⟩
    rw [hres] at h1
    cases o with
    | none => simp only [fromSignatureChildren, hres]; exact h1
    | some t =>
      have h2 := fromSignatureChildren_preserves P hl hm ht rest st1 h1
      rcases hres2 : fromSignatureChildren rest st1 with ⟨o2, st2⟩
      rw [hres2] at h2
      cases o2 with
      | none => simp only [fromSignatureChildren, hres, hres2]; exact h2
      | some types => simp only [fromSignatureChildren, hres, hres2]; exact h2
end

theorem runFactoryCalls_preserves (P : Factories → Prop)
    (hl : ∀ e st, P st → P (makeListType e st).2)
    (hm : ∀ kt et st, P st → P (makeMapType kt et st).2)
    (ht : ∀ types name elements st, P st → P (makeTupleType types name elements st).2) :
    ∀ (calls : List FactoryCall) (st : Factories), P st → P (runFactoryCalls calls st)
  | [], _, h => h
  | c :: rest, st, h => by
    apply runFactoryCalls_preserves P hl hm ht rest
    cases c with
    | list e => exact hl e st h
    | map kt et => exact hm kt et st h
    | tuple types name elements => exact ht types name elements st h
    | fromSig sig =>
      simp only [FactoryCall.run, QiType.fromSignature]
      split
      · exact fromSignature_preserves P hl hm ht _ st h
      · exact h

theorem makeTupleType_tupleShaped (types : List QiType) (name : String)
    (elements : List String) (st : Factories) (h : st.TupleShaped) :
    (makeTupleType types name elements st).2.TupleShaped := by
  unfold makeTupleType
  simp only
  cases hfind : mapFind InfosKey.lt st.tupleMap ⟨types, name, elements⟩ with
  | some L => exact h
  | none =>
    intro k T hmem
    simp only [mapAssign_of_find_none _ _ _ _ hfind, List.mem_append, List.mem_singleton,
      Prod.mk.injEq] at hmem
    rcases hmem with hmem | ⟨rfl, rfl⟩
    · exact h k T hmem
    · exact ⟨_, rfl⟩

theorem makeListType_tupleShaped (e : QiType) (st : Factories) (h : st.TupleShaped) :
    (makeListType e st).2.TupleShaped := by
  unfold makeListType
  simp only
  cases mapFind TypeInfo.lt st.listMap e.info with
  | some L => exact h
  | none => exact h

theorem makeMapType_tupleShaped (kt et : QiType) (st : Factories) (h : st.TupleShaped) :
    (makeMapType kt et st).2.TupleShaped := by
  unfold makeMapType
  simp only
  cases mapFind pairLt st.mapMap (kt.info, et.info) with
  | some L => exact h
  | none =>
    simp only [DefaultMapType.new]
    exact makeTupleType_tupleShaped [kt, et] "" [] _ h

theorem runFactoryCalls_tupleShaped (calls : List FactoryCall) :
    (runFactoryCalls calls Factories.init).TupleShaped :=
  runFactoryCalls_preserves Factories.TupleShaped makeListType_tupleShaped
    makeMapType_tupleShaped makeTupleType_tupleShaped calls Factories.init
    (fun _ _ h => by simp [Factories.init] at h)

theorem makeTupleType_result (types : List QiType) (name : String) (elements : List String)
    (st : Factories) (h : st.TupleShaped) :
    ∃ k a, (makeTupleType types name elements st).1
        = DefaultTupleType.new k._types k._name k._elements a
      ∧ InfosKey.incomparable k ⟨types, name, elements⟩ := by
  unfold makeTupleType
  simp only
  cases hfind : mapFind InfosKey.lt st.tupleMap ⟨types, name, elements⟩ with
  | some L =>
    obtain ⟨k, hmem, h1, h2⟩ := mapFind_some InfosKey.lt st.tupleMap _ L hfind
    obtain ⟨a, rfl⟩ := h k L hmem
    exact ⟨k, a, rfl, h1, h2⟩
  | none =>
    exact ⟨⟨types, name, elements⟩, _, rfl, InfosKey.key_lt_irrefl _, InfosKey.key_lt_irrefl _⟩

/-- C29: `InfosKey::operator<` (over the order of `TypeInfo`, a strict total order)
is a strict weak ordering: irreflexive, asymmetric, transitive, with transitive
incomparability; two keys are incomparable exactly when they have pairwise equal
member `TypeInfo`s in the same order, the same class name and the same ordered
element names; hence, in every state reached by factory calls and with any factory
calls in between, two `makeTupleType` requests whose keys differ in one of the three
return distinct descriptors. -/
theorem InfosKey.lt_strict_weak_order (a b c : InfosKey) (calls between : List FactoryCall)
    (types1 types2 : List QiType) (name1 name2 : String) (elements1 elements2 : List String) :
    a.lt a = false
    ∧ (a.lt b = true → b.lt a = false)
    ∧ (a.lt b = true → b.lt c = true → a.lt c = true)
    ∧ (a.incomparable b → b.incomparable c → a.incomparable c)
    ∧ (a.incomparable b ↔
        (List.Forall₂ (fun x y : QiType => x.info.eq y.info = true) a._types b._types
          ∧ a._name = b._name ∧ a._elements = b._elements))
    ∧ (¬ (List.Forall₂ (fun x y : QiType => x.info.eq y.info = true) types1 types2
          ∧ name1 = name2 ∧ elements1 = elements2) →
        (makeTupleType types2 name2 elements2 (runFactoryCalls between
            (makeTupleType types1 name1 elements1 (runFactoryCalls calls Factories.init)).2)).1
          ≠ (makeTupleType types1 name1 elements1 (runFactoryCalls calls Factories.init)).1) := by
  refine ⟨InfosKey.key_lt_irrefl a, InfosKey.key_lt_asymm a b, InfosKey.key_lt_trans a b c,
    InfosKey.incomparable_trans a b c, InfosKey.incomparable_iff a b, ?_⟩
  intro hne heq
  have hs := runFactoryCalls_tupleShaped calls
  generalize runFactoryCalls calls Factories.init = st at hs heq
  obtain ⟨k1, a1, e1, i1⟩ := makeTupleType_result types1 name1 elements1 st hs
  have hs2 : (runFactoryCalls between (makeTupleType types1 name1 elements1 st).2).TupleShaped :=
    runFactoryCalls_preserves Factories.TupleShaped makeListType_tupleShaped
      makeMapType_tupleShaped makeTupleType_tupleShaped between _
      (makeTupleType_tupleShaped types1 name1 elements1 st hs)
  obtain ⟨k2, a2, e2, i2⟩ := makeTupleType_result types2 name2 elements2 _ hs2
  rw [e1, e2] at heq
  simp only [DefaultTupleType.new, QiType.tuple.injEq] at heq
  obtain ⟨_, ht, hn, he⟩ := heq
  have hk : k2 = k1 := by
    obtain ⟨t1, n1, el1⟩ := k1
    obtain ⟨t2, n2, el2⟩ := k2
    simp only at ht hn he
    rw [ht, hn, he]
  subst hk
  have hinc := InfosKey.incomparable_trans _ _ _ (InfosKey.incomparable_symm _ _ i1) i2
  exact hne ((InfosKey.incomparable_iff _ _).1 hinc)

/-! ### `DefaultTupleType::initializeStorage` with a seed -/

theorem DefaultTupleType.initializeStorage_seed_eq {V : Type} (defaults : List V)
    (s : MapState V) (seed : Nat) (ret : List (Option Nat)) (hv : s.vectors seed = some ret) :
    DefaultTupleType.initializeStorage defaults s (some seed)
      = if ret.length = defaults.length then some (.ok (seed, s))
        else some (.error "Tuple storage is of incorrect size") := by
  by_cases h : ret.length = defaults.length
  · simp [DefaultTupleType.initializeStorage, hv, h]
  · have h2 : ¬ defaults.length = ret.length := fun e => h e.symm
    simp [DefaultTupleType.initializeStorage, hv, h, h2]

/-- C21: for every default tuple type with `n` member types (of default contents
`defaults`) and every seed vector `ret`: `initializeStorage(seed)` fails with
"Tuple storage is of incorrect size" if and only if the length of the seed differs
from `n`, and otherwise returns the seed itself, the storages unchanged and nothing
cloned; consequently, in every state reached by factory calls,
`makeGenericTuplePtr(types, values)` fails exactly when the two sequences differ in
length and otherwise returns the type of `makeTupleType(types)` with the vector
`values` itself as storage. -/
theorem DefaultTupleType.initializeStorage_seed {V : Type} (defaults : List V)
    (s : MapState V) (seed : Nat) (ret : List (Option Nat)) (defaultOf : QiType → V)
    (types : List QiType) (calls : List FactoryCall) (hv : s.vectors seed = some ret) :
    (DefaultTupleType.initializeStorage defaults s (some seed)
        = some (.error "Tuple storage is of incorrect size") ↔ ret.length ≠ defaults.length)
    ∧ (DefaultTupleType.initializeStorage defaults s (some seed) = some (.ok (seed, s))
        ↔ ret.length = defaults.length)
    ∧ ((makeGenericTuplePtr defaultOf types seed (runFactoryCalls calls Factories.init) s).1
        = some (.error "Tuple storage is of incorrect size") ↔ ret.length ≠ types.length)
    ∧ ((makeGenericTuplePtr defaultOf types seed (runFactoryCalls calls Factories.init) s).1
        = some (.ok ((makeTupleType types "" [] (runFactoryCalls calls Factories.init)).1, seed))
        ↔ ret.length = types.length) := by
  have h1 := DefaultTupleType.initializeStorage_seed_eq defaults s seed ret hv
  have hs := runFactoryCalls_tupleShaped calls
  generalize runFactoryCalls calls Factories.init = st at hs
  obtain ⟨k, a, e, hinc⟩ := makeTupleType_result types "" [] st hs
  have hlen : k._types.length = types.length :=
    ((InfosKey.incomparable_iff _ _).1 hinc).1.length_eq
  have h2 : (makeGenericTuplePtr defaultOf types seed st s).1
      = if ret.length = types.length then
          some (.ok ((makeTupleType types "" [] st).1, seed))
        else some (.error "Tuple storage is of incorrect size") := by
    unfold makeGenericTuplePtr
    rcases hmk : makeTupleType types "" [] st with ⟨tt, st1⟩
    rw [hmk] at e
    simp only at e
    subst e
    simp only [DefaultTupleType.new]
    rw [DefaultTupleType.initializeStorage_seed_eq _ s seed ret hv]
    simp only [List.length_map, hlen]
    by_cases h : ret.length = types.length
    · simp [h]
    · simp [h]
  rw [h1, h2]
  by_cases ha : ret.length = defaults.length <;> by_cases hb : ret.length = types.length <;>
    simp [ha, hb]

/-- C21 on the sample pair (a vector of two slots at address 4) as the seed: a tuple
type of two members adopts it, a tuple type of one member refuses it, and so does
`makeGenericTuplePtr` for one type. -/
theorem DefaultTupleType.initializeStorage_seed_witness :
    MapState.samplePair.vectors 4 = some [some 2, some 3]
    ∧ DefaultTupleType.initializeStorage [0, 0] MapState.samplePair (some 4)
        = some (.ok (4, MapState.samplePair))
    ∧ DefaultTupleType.initializeStorage [0] MapState.samplePair (some 4)
        = some (.error "Tuple storage is of incorrect size")
    ∧ (makeGenericTuplePtr (fun _ => (0 : Int)) [typeOfInt32] 4
          (runFactoryCalls [] Factories.init) MapState.samplePair).1
        = some (.error "Tuple storage is of incorrect size") := by
  have h := DefaultTupleType.initializeStorage_seed [0, 0] MapState.samplePair 4
    [some 2, some 3] (fun _ => (0 : Int)) [typeOfInt32] [] rfl
  have h2 := DefaultTupleType.initializeStorage_seed [0] MapState.samplePair 4
    [some 2, some 3] (fun _ => (0 : Int)) [typeOfInt32] [] rfl
  exact ⟨rfl, h.2.1.2 rfl, h2.1.2 (by decide), h.2.2.1.2 (by decide)⟩

/-! ### The clone of a pair -/

theorem DefaultTupleType.set_occupied {V : Type} (memberCount : Nat) (s : MapState V)
    (storage i v old : Nat) (ptr : List (Option Nat)) (oc vc : V)
    (hvec : s.vectors storage = some ptr) (hi : i < ptr.length) (hm : i < memberCount)
    (hget : ptr.get? i = some (some old)) (hoc : s.content old = some oc)
    (hv : s.content v = some vc) (hne : v ≠ old) :
    DefaultTupleType.set memberCount s storage i v
      = some { nextStorage := s.nextStorage + 1
               content := Function.update (Function.update s.content old none) s.nextStorage
                 (some vc)
               vectors := Function.update s.vectors storage (some (ptr.set i (some s.nextStorage)))
               destroyed := old :: s.destroyed
               entries := s.entries } := by
  have hv1 : Function.update s.content old none v = some vc := by
    rw [Function.update_noteq hne]; exact hv
  have hget2 : ptr[i]? = some (some old) := by simpa using hget
  simp [DefaultTupleType.set, hvec, DefaultTupleType.grow_of_lt ptr i hi, hget2, hm,
    MapState.destroy, hoc, MapState.clone, hv1]

theorem DefaultTupleType.clone_pair {V : Type} (kdflt dflt : V) (s : MapState V)
    (p k0 v0 : Nat) (kc vc : V)
    (hcb : ∀ h, s.nextStorage ≤ h → s.content h = none)
    (hp : s.vectors p = some [some k0, some v0])
    (hk : s.content k0 = some kc) (hv : s.content v0 = some vc) :
    ∃ s2, DefaultTupleType.clone [kdflt, dflt] s p = some (s.nextStorage, s2)
      ∧ s2.nextStorage = s.nextStorage + 5
      ∧ s2.vectors = Function.update s.vectors s.nextStorage
          (some [some (s.nextStorage + 3), some (s.nextStorage + 4)])
      ∧ s2.content (s.nextStorage + 3) = some kc
      ∧ s2.content (s.nextStorage + 4) = some vc
      ∧ (∀ h, h < s.nextStorage → s2.content h = s.content h)
      ∧ (∀ h, s.nextStorage + 5 ≤ h → s2.content h = none)
      ∧ s2.entries = s.entries := by
  have hklt : k0 < s.nextStorage := by
    by_contra hn
    rw [hcb k0 (by omega)] at hk
    cases hk
  have hvlt : v0 < s.nextStorage := by
    by_contra hn
    rw [hcb v0 (by omega)] at hv
    cases hv
  have hinit : DefaultTupleType.initializeStorage [kdflt, dflt] s none
      = some (.ok (s.nextStorage,
          { nextStorage := s.nextStorage + 3
            content := Function.update (Function.update s.content (s.nextStorage + 1)
              (some kdflt)) (s.nextStorage + 2) (some dflt)
            vectors := Function.update s.vectors s.nextStorage
              (some [some (s.nextStorage + 1), some (s.nextStorage + 2)])
            destroyed := s.destroyed
            entries := s.entries })) := by
    simp [DefaultTupleType.initializeStorage, MapState.newVector, DefaultTupleType.initSlots,
      MapState.initializeStorage]
  have hset0 := DefaultTupleType.set_occupied 2
    { nextStorage := s.nextStorage + 3
      content := Function.update (Function.update s.content (s.nextStorage + 1)
        (some kdflt)) (s.nextStorage + 2) (some dflt)
      vectors := Function.update s.vectors s.nextStorage
        (some [some (s.nextStorage + 1), some (s.nextStorage + 2)])
      destroyed := s.destroyed
      entries := s.entries } s.nextStorage 0 k0 (s.nextStorage + 1)
    [some (s.nextStorage + 1), some (s.nextStorage + 2)] kdflt kc
    (by simp only [Function.update_same]) (by simp) (by decide) rfl
    (by simp only; rw [Function.update_noteq (by omega), Function.update_same])
    (by simp only; rw [Function.update_noteq (by omega), Function.update_noteq (by omega)]
        exact hk)
    (by omega)
  simp only [Function.update_idem, List.set_cons_zero] at hset0
  have hset1 := DefaultTupleType.set_occupied 2
    { nextStorage := s.nextStorage + 3 + 1
      content := Function.update (Function.update (Function.update (Function.update s.content
        (s.nextStorage + 1) (some kdflt)) (s.nextStorage + 2) (some dflt)) (s.nextStorage + 1)
        none) (s.nextStorage + 3) (some kc)
      vectors := Function.update s.vectors s.nextStorage
        (some [some (s.nextStorage + 3), some (s.nextStorage + 2)])
      destroyed := (s.nextStorage + 1) :: s.destroyed
      entries := s.entries } s.nextStorage 1 v0 (s.nextStorage + 2)
    [some (s.nextStorage + 3), some (s.nextStorage + 2)] dflt vc
    (by simp only [Function.update_same]) (by simp) (by decide) rfl
    (by simp only
        rw [Function.update_noteq (by omega), Function.update_noteq (by omega),
          Function.update_same])
    (by simp only
        rw [Function.update_noteq (by omega), Function.update_noteq (by omega),
          Function.update_noteq (by omega), Function.update_noteq (by omega)]
        exact hv)
    (by omega)
  simp only [Function.update_idem, List.set_cons_succ, List.set_cons_zero] at hset1
  simp only [Nat.add_assoc, Nat.reduceAdd] at hset0 hset1
  refine ⟨{ nextStorage := s.nextStorage + 5
            content := Function.update (Function.update (Function.update (Function.update
              (Function.update (Function.update s.content (s.nextStorage + 1) (some kdflt))
                (s.nextStorage + 2) (some dflt)) (s.nextStorage + 1) none)
              (s.nextStorage + 3) (some kc)) (s.nextStorage + 2) none) (s.nextStorage + 4)
              (some vc)
            vectors := Function.update s.vectors s.nextStorage
              (some [some (s.nextStorage + 3), some (s.nextStorage + 4)])
            destroyed := (s.nextStorage + 2) :: (s.nextStorage + 1) :: s.destroyed
            entries := s.entries }, ?_, ?_, ?_, ?_, ?_, ?_, ?_, ?_⟩
  · simp only [DefaultTupleType.clone, hp, hinit, List.length_cons, List.length_nil,
      DefaultTupleType.cloneLoop, Nat.reduceAdd, hset0, hset1, Option.map_some']
  · rfl
  · rfl
  · simp only
    rw [Function.update_noteq (by omega), Function.update_noteq (by omega), Function.update_same]
  · simp only [Function.update_same]
  · intro h hh
    simp only
    iterate 6 rw [Function.update_noteq (by omega)]
  · intro h hh
    simp only
    iterate 6 rw [Function.update_noteq (by omega)]
    exact hcb h (by omega)
  · rfl
/-! ### The invariant of the default map is kept by its operations -/

theorem MapState.WellFormed.frame {V : Type} {s s2 : MapState V} (hw : s.WellFormed)
    (he : s2.entries = s.entries)
    (hc : ∀ h, h < s.nextStorage → s2.content h = s.content h)
    (hv : ∀ h, h < s.nextStorage → s2.vectors h = s.vectors h)
    (hcb : ∀ h, s2.nextStorage ≤ h → s2.content h = none)
    (hvb : ∀ h, s2.nextStorage ≤ h → s2.vectors h = none) : s2.WellFormed := by
  have hold : ∀ kh p, (kh, p) ∈ s.entries →
      ∃ vh, s.vectors p = some [some kh, some vh] ∧ s2.vectors p = some [some kh, some vh]
        ∧ s2.content kh = s.content kh ∧ s2.content vh = s.content vh := by
    intro kh p hm
    obtain ⟨vh, hp, hk, hvh⟩ := hw.pairs kh p hm
    obtain ⟨c, hcv⟩ := Option.isSome_iff_exists.1 hvh
    refine ⟨vh, hp, ?_, hc kh (hw.key_lt kh p hm), hc vh (hw.lt_of_alive vh c hcv)⟩
    rw [hv p (hw.vector_lt p _ hp)]
    exact hp
  refine ⟨hcb, hvb, ?_, ?_, ?_⟩
  · intro kh p hm
    rw [he] at hm
    obtain ⟨vh, hp, hp2, hk2, hv2⟩ := hold kh p hm
    obtain ⟨vh1, hp1, hk1, hv1⟩ := hw.pairs kh p hm
    rw [hp] at hp1
    simp only [Option.some.injEq, List.cons.injEq, and_true, true_and] at hp1
    subst hp1
    exact ⟨vh, hp2, by rw [hk2]; exact hk1, by rw [hv2]; exact hv1⟩
  · intro kh p x vh kh2 p2 hm hp hm2
    rw [he] at hm hm2
    obtain ⟨vh1, hp1, hp2, _, _⟩ := hold kh p hm
    rw [hp2] at hp
    simp only [Option.some.injEq, List.cons.injEq, and_true] at hp
    obtain ⟨_, rfl⟩ := hp
    exact hw.valuesNotKeys kh p _ vh1 kh2 p2 hm hp1 hm2
  · rw [he]
    refine hw.valuesApart.imp_of_mem ?_
    intro a b ha hb hab x1 v1 x2 v2 ha2 hb2
    obtain ⟨va, hpa, hpa2, _, _⟩ := hold a.1 a.2 ha
    obtain ⟨vb, hpb, hpb2, _, _⟩ := hold b.1 b.2 hb
    rw [hpa2] at ha2
    rw [hpb2] at hb2
    simp only [Option.some.injEq, List.cons.injEq, and_true] at ha2 hb2
    obtain ⟨_, rfl⟩ := ha2
    obtain ⟨_, rfl⟩ := hb2
    exact hab _ va _ vb hpa hpb

theorem MapState.KeysApart.keys_frame {V : Type} (less : V → V → Bool) {s s2 : MapState V}
    (hk : s.KeysApart less) (he : s2.entries = s.entries)
    (hc : ∀ kh p, (kh, p) ∈ s.entries → s2.content kh = s.content kh) : s2.KeysApart less := by
  unfold MapState.KeysApart at hk ⊢
  rw [he]
  refine hk.imp_of_mem ?_
  intro a b ha hb hab c1 c2 h1 h2
  rw [hc a.1 a.2 ha] at h1
  rw [hc b.1 b.2 hb] at h2
  exact hab c1 c2 h1 h2

theorem DefaultMapType.findLoop_none_of {V : Type} (less : V → V → Bool) (s : MapState V)
    (kc : V) : ∀ (es : List (Nat × Nat)),
      (∀ kh p, (kh, p) ∈ es →
        ∃ c, s.content kh = some c ∧ (!less c kc && !less kc c) = false) →
      DefaultMapType.findLoop less s kc es = some none
  | [], _ => rfl
  | (kh, p) :: rest, h => by
    obtain ⟨c, hc, hne⟩ := h kh p (List.mem_cons_self _ _)
    simp only [DefaultMapType.findLoop, hc, hne, Bool.false_eq_true, if_false]
    exact DefaultMapType.findLoop_none_of less s kc rest
      (fun kh2 p2 hm => h kh2 p2 (List.mem_cons_of_mem _ hm))

theorem DefaultTupleType.get_first {V : Type} (s : MapState V) (p : Nat) (x : Option Nat)
    (rest : List (Option Nat)) (hp : s.vectors p = some (x :: rest)) :
    DefaultTupleType.get s p 0 = some (x, s) := by
  simp [DefaultTupleType.get, hp]

theorem MapState.KeysApart.keys_append {V : Type} (less : V → V → Bool) {s s2 : MapState V}
    (hk : s.KeysApart less) (kn pn : Nat) (kc : V)
    (he : s2.entries = s.entries ++ [(kn, pn)])
    (hc : ∀ kh p, (kh, p) ∈ s.entries → s2.content kh = s.content kh)
    (hkn : s2.content kn = some kc)
    (hne : ∀ kh p, (kh, p) ∈ s.entries →
      ∀ c, s.content kh = some c → (!less c kc && !less kc c) = false) :
    s2.KeysApart less := by
  unfold MapState.KeysApart at hk ⊢
  rw [he, List.pairwise_append]
  refine ⟨?_, List.pairwise_singleton _ _, ?_⟩
  · refine hk.imp_of_mem ?_
    intro a b ha hb hab c1 c2 h1 h2
    rw [hc a.1 a.2 ha] at h1
    rw [hc b.1 b.2 hb] at h2
    exact hab c1 c2 h1 h2
  · intro a ha b hb c1 c2 h1 h2
    simp only [List.mem_singleton] at hb
    subst hb
    rw [hc a.1 a.2 ha] at h1
    simp only at h2
    rw [hkn] at h2
    simp only [Option.some.injEq] at h2
    subst h2
    exact hne a.1 a.2 ha c1 h1

theorem DefaultMapType.cloneLoop_valid {V : Type} (less : V → V → Bool) (kdflt dflt : V) :
    ∀ (rest done dst : List (Nat × Nat)) (s : MapState V),
      s.entries = done ++ rest → s.WellFormed → s.KeysApart less →
      MapState.WellFormed { s with entries := dst } →
      MapState.KeysApart less { s with entries := dst } →
      (∀ kd pd, (kd, pd) ∈ dst → ∃ ks ps, (ks, ps) ∈ done ∧ s.content kd = s.content ks) →
      ∃ dst2 s2, DefaultMapType.cloneLoop less kdflt dflt rest dst s = some (dst2, s2)
        ∧ s2.entries = s.entries ∧ s2.WellFormed ∧ s2.KeysApart less
        ∧ MapState.WellFormed { s2 with entries := dst2 }
        ∧ MapState.KeysApart less { s2 with entries := dst2 }
  | [], done, dst, s, _, hw, hk, hwd, hkd, _ => ⟨dst, s, rfl, rfl, hw, hk, hwd, hkd⟩
  | (kh, p) :: rest, done, dst, s, he, hw, hk, hwd, hkd, hfrom => by
    have hm : (kh, p) ∈ s.entries := by
      rw [he]; exact List.mem_append_right _ (List.mem_cons_self _ _)
    obtain ⟨vh, hp, hka, hva⟩ := hw.pairs kh p hm
    obtain ⟨kc, hkc⟩ := Option.isSome_iff_exists.1 hka
    obtain ⟨vc, hvc⟩ := Option.isSome_iff_exists.1 hva
    obtain ⟨s1, hcl, hn1, hv1, hck1, hcv1, hc1, hcb1, he1⟩ :=
      DefaultTupleType.clone_pair kdflt dflt s p kh vh kc vc hw.contentBelow hp hkc hvc
    have hvr : s1.vectors s.nextStorage
        = some [some (s.nextStorage + 3), some (s.nextStorage + 4)] := by
      rw [hv1, Function.update_same]
    have hvold : ∀ h, h < s.nextStorage → s1.vectors h = s.vectors h := by
      intro h hh
      rw [hv1, Function.update_noteq (by omega)]
    have hvb1 : ∀ h, s1.nextStorage ≤ h → s1.vectors h = none := by
      intro h hh
      rw [hv1, Function.update_noteq (by omega)]
      exact hw.vectorsBelow h (by omega)
    have hcb1' : ∀ h, s1.nextStorage ≤ h → s1.content h = none := by
      intro h hh
      exact hcb1 h (by omega)
    have hw1 : s1.WellFormed := hw.frame he1 hc1 hvold hcb1' hvb1
    have hk1 : s1.KeysApart less :=
      hk.keys_frame less he1 (fun kh2 p2 hm2 => hc1 kh2 (hw.key_lt kh2 p2 hm2))
    have hdlt : ∀ kd pd, (kd, pd) ∈ dst → kd < s.nextStorage :=
      fun kd pd hmd => hwd.key_lt kd pd hmd
    have hdne : ∀ kd pd, (kd, pd) ∈ dst →
        ∀ c, s.content kd = some c → (!less c kc && !less kc c) = false := by
      intro kd pd hmd c hc
      obtain ⟨ks, ps, hms, hcs⟩ := hfrom kd pd hmd
      rw [hcs] at hc
      have hpw := hk
      unfold MapState.KeysApart at hpw
      rw [he, List.pairwise_append] at hpw
      exact hpw.2.2 (ks, ps) hms (kh, p) (List.mem_cons_self _ _) c kc hc hkc
    have hfind : DefaultMapType.findLoop less s1 kc dst = some none := by
      apply DefaultMapType.findLoop_none_of
      intro kd pd hmd
      obtain ⟨c, hc⟩ := Option.isSome_iff_exists.1 (hwd.pairs kd pd hmd).choose_spec.2.1
      simp only at hc
      exact ⟨c, by rw [hc1 kd (hdlt kd pd hmd)]; exact hc, hdne kd pd hmd c hc⟩
    have hstep : DefaultMapType.cloneLoop less kdflt dflt ((kh, p) :: rest) dst s
        = DefaultMapType.cloneLoop less kdflt dflt rest
            (dst ++ [(s.nextStorage + 3, s.nextStorage)]) s1 := by
      simp only [DefaultMapType.cloneLoop, hcl,
        DefaultTupleType.get_first s1 s.nextStorage _ _ hvr, hck1,
        DefaultMapType.assignLoop_absent less s1 kc _ _ dst hfind]
    rw [hstep]
    have hwd1 : MapState.WellFormed
        { s1 with entries := dst ++ [(s.nextStorage + 3, s.nextStorage)] } := by
      refine hwd.addEntry _ (s.nextStorage + 3) (s.nextStorage + 4) s.nextStorage
        (by simp only; omega) (by simp only; omega) (le_refl _) (by simp only; omega)
        (by simp only; omega) (by omega) hc1 hcb1' ?_ ?_ hv1 rfl
      · simp only [hck1]; rfl
      · simp only [hcv1]; rfl
    have hkd1 : MapState.KeysApart less
        { s1 with entries := dst ++ [(s.nextStorage + 3, s.nextStorage)] } :=
      hkd.keys_append less (s.nextStorage + 3) s.nextStorage kc rfl
        (fun kd pd hmd => hc1 kd (hdlt kd pd hmd)) hck1 hdne
    obtain ⟨dst2, s2, h1, h2, h3, h4, h5, h6⟩ :=
      DefaultMapType.cloneLoop_valid less kdflt dflt rest (done ++ [(kh, p)])
        (dst ++ [(s.nextStorage + 3, s.nextStorage)]) s1
        (by rw [he1, he]; simp) hw1 hk1 hwd1 hkd1
        (by
          intro kd pd hmd
          rcases List.mem_append.1 hmd with hmd | hmd
          · obtain ⟨ks, ps, hms, hcs⟩ := hfrom kd pd hmd
            refine ⟨ks, ps, List.mem_append_left _ hms, ?_⟩
            have hmse : (ks, ps) ∈ s.entries := by
              rw [he]; exact List.mem_append_left _ hms
            rw [hc1 kd (hdlt kd pd hmd), hc1 ks (hw.key_lt ks ps hmse)]
            exact hcs
          · simp only [List.mem_singleton, Prod.mk.injEq] at hmd
            obtain ⟨rfl, rfl⟩ := hmd
            refine ⟨kh, p, List.mem_append_right _ (List.mem_singleton.2 rfl), ?_⟩
            rw [hck1, hc1 kh (hw.key_lt kh p hm)]
            exact hkc.symm)
    exact ⟨dst2, s2, h1, h2.trans he1, h3, h4, h5, h6⟩

theorem MapState.Valid.valid_clone {V : Type} (less : V → V → Bool) (kdflt dflt : V)
    (s : MapState V) (hv : s.Valid less) :
    ∃ dst s2, DefaultMapType.clone less kdflt dflt s = some (dst, s2)
      ∧ s2.Valid less ∧ MapState.Valid less { s2 with entries := dst } := by
  have hwe : MapState.WellFormed { s with entries := [] } :=
    ⟨hv.1.contentBelow, hv.1.vectorsBelow, fun _ _ h => by simp at h,
      fun _ _ _ _ _ _ h => by simp at h, List.Pairwise.nil⟩
  obtain ⟨dst, s2, h1, _, h3, h4, h5, h6⟩ :=
    DefaultMapType.cloneLoop_valid less kdflt dflt s.entries [] [] s rfl hv.1 hv.2 hwe
      List.Pairwise.nil (fun _ _ h => by simp at h)
  exact ⟨dst, s2, h1, ⟨h3, h4⟩, ⟨h5, h6⟩⟩

theorem MapState.Valid.valid_insert {V : Type} (less : V → V → Bool) (s s2 : MapState V)
    (k v : Nat) (kc vc : V) (hval : s.Valid less) (hk : s.content k = some kc)
    (hv : s.content v = some vc) (h : DefaultMapType.insert less s k v = some s2) :
    s2.Valid less := by
  obtain ⟨hw, hka⟩ := hval
  have hvlt := hw.lt_of_alive v vc hv
  obtain ⟨r, hr⟩ := DefaultMapType.find_defined less s hw k kc hk
  cases r with
  | some e =>
    obtain ⟨kh, p⟩ := e
    have hfl : DefaultMapType.findLoop less s kc s.entries = some (some (kh, p)) := by
      simpa only [DefaultMapType.find, hk] using hr
    obtain ⟨hm, _⟩ := DefaultMapType.findLoop_found less s kc s.entries kh p hfl
    obtain ⟨v0, hp, _, hv0⟩ := hw.pairs kh p hm
    obtain ⟨c0, hc0⟩ := Option.isSome_iff_exists.1 hv0
    by_cases hne : v = v0
    · subst hne
      simp [DefaultMapType.insert, hr, hp, MapState.destroy, hc0, MapState.clone] at h
    · rw [DefaultMapType.insert_present less s hw k v kh p v0 vc hv hr hp hne] at h
      simp only [Option.some.injEq] at h
      subst h
      refine ⟨hw.replaceValue kh p v0 vc hm hp, hka.keys_frame less rfl ?_⟩
      intro kh3 p3 hm3
      have h1 := hw.key_lt kh3 p3 hm3
      have h2 := hw.valuesNotKeys kh p _ v0 kh3 p3 hm hp hm3
      simp only
      rw [Function.update_noteq (by omega), Function.update_noteq (fun h => h2 h.symm)]
  | none =>
    have hfl : DefaultMapType.findLoop less s kc s.entries = some none := by
      simpa only [DefaultMapType.find, hk] using hr
    simp only [DefaultMapType.insert, hr,
      DefaultMapType._insert_copy less s hw k v kc vc hk hv hr, Option.map_some',
      Option.some.injEq] at h
    subst h
    have hknew : Function.update (Function.update s.content s.nextStorage (some kc))
        (s.nextStorage + 1) (some vc) s.nextStorage = some kc := by
      rw [Function.update_noteq (by omega), Function.update_same]
    have hold : ∀ h, h < s.nextStorage →
        Function.update (Function.update s.content s.nextStorage (some kc))
          (s.nextStorage + 1) (some vc) h = s.content h := by
      intro h hh
      rw [Function.update_noteq (by omega), Function.update_noteq (by omega)]
    refine ⟨?_, hka.keys_append less s.nextStorage (s.nextStorage + 2) kc rfl
      (fun kh3 p3 hm3 => hold kh3 (hw.key_lt kh3 p3 hm3)) hknew ?_⟩
    · refine hw.addEntry _ s.nextStorage (s.nextStorage + 1) (s.nextStorage + 2) (le_refl _)
        (by omega) (by omega) (by simp only; omega) (by simp only; omega) (by omega) hold ?_ ?_
        ?_ rfl rfl
      · intro h hh
        simp only at hh ⊢
        rw [Function.update_noteq (by omega), Function.update_noteq (by omega)]
        exact hw.contentBelow h (by omega)
      · simp only [hknew]; rfl
      · simp only [Function.update_same]; rfl
    · intro kh3 p3 hm3 c hc
      obtain ⟨c2, hc2, hne⟩ := DefaultMapType.findLoop_absent less s kc s.entries hfl kh3 p3 hm3
      rw [hc] at hc2
      simp only [Option.some.injEq] at hc2
      subst hc2
      exact hne

theorem MapState.Valid.valid_allocate {V : Type} (less : V → V → Bool) (s : MapState V)
    (c : V) (hval : s.Valid less) : (s.initializeStorage c).2.Valid less := by
  refine ⟨hval.1.initializeStorage c, hval.2.keys_frame less rfl ?_⟩
  intro kh p hm
  have := hval.1.key_lt kh p hm
  simp only [MapState.initializeStorage]
  rw [Function.update_noteq (by omega)]

theorem MapState.Valid.valid_element {V : Type} (less : V → V → Bool) (dflt : V)
    (s s2 : MapState V) (k : Nat) (kc : V) (autoInsert : Bool) (r : ElementPtr)
    (hval : s.Valid less) (hk : s.content k = some kc)
    (h : DefaultMapType.element less dflt s k autoInsert = some (r, s2)) : s2.Valid less := by
  obtain ⟨hw, hka⟩ := hval
  have hklt := hw.lt_of_alive k kc hk
  obtain ⟨f, hf⟩ := DefaultMapType.find_defined less s hw k kc hk
  cases f with
  | some e =>
    obtain ⟨kh, p⟩ := e
    have hfl : DefaultMapType.findLoop less s kc s.entries = some (some (kh, p)) := by
      simpa only [DefaultMapType.find, hk] using hf
    obtain ⟨hm, _⟩ := DefaultMapType.findLoop_found less s kc s.entries kh p hfl
    obtain ⟨vh, hp, _, _⟩ := hw.pairs kh p hm
    simp only [DefaultMapType.element, hf, DefaultTupleType.get_pair s p _ _ hp,
      Option.some.injEq, Prod.mk.injEq] at h
    rw [← h.2]
    exact ⟨hw, hka⟩
  | none =>
    have hfl : DefaultMapType.findLoop less s kc s.entries = some none := by
      simpa only [DefaultMapType.find, hk] using hf
    cases autoInsert with
    | false =>
      simp only [DefaultMapType.element, hf, Bool.not_false, if_true, Option.some.injEq,
        Prod.mk.injEq] at h
      rw [← h.2]
      exact ⟨hw, hka⟩
    | true =>
      have hw1 := hw.initializeStorage dflt
      have hk1 : (s.initializeStorage dflt).2.content k = some kc := by
        simp only [MapState.initializeStorage]
        rw [Function.update_noteq (by omega)]; exact hk
      have hf1 : DefaultMapType.find less (s.initializeStorage dflt).2 k = some none := by
        simp only [DefaultMapType.find, hk1]
        rw [← hfl]
        apply DefaultMapType.findLoop_congr
        intro kh p hm
        have := hw.key_lt kh p hm
        simp only [MapState.initializeStorage]
        rw [Function.update_noteq (by omega)]
      have hins := DefaultMapType._insert_nocopy less (s.initializeStorage dflt).2 hw1 k
        s.nextStorage kc hk1 hf1
      have e : (s.initializeStorage dflt).1 = s.nextStorage := rfl
      simp only [DefaultMapType.element, hf, Bool.not_true, Bool.false_eq_true, if_false, e,
        hins, Option.some.injEq, Prod.mk.injEq] at h
      rw [← h.2]
      have hold : ∀ h, h < s.nextStorage →
          Function.update (Function.update s.content s.nextStorage (some dflt))
            (s.nextStorage + 1) (some kc) h = s.content h := by
        intro h hh
        rw [Function.update_noteq (by omega), Function.update_noteq (by omega)]
      refine ⟨?_, hka.keys_append less (s.nextStorage + 1) (s.nextStorage + 2) kc rfl
        (fun kh3 p3 hm3 => hold kh3 (hw.key_lt kh3 p3 hm3))
        (by simp only [MapState.initializeStorage, Function.update_same]) ?_⟩
      · refine hw.addEntry _ (s.nextStorage + 1) s.nextStorage (s.nextStorage + 2) (by omega)
          (le_refl _) (by omega) (by simp only [MapState.initializeStorage]; omega)
          (by simp only [MapState.initializeStorage]; omega) (by omega) hold ?_ ?_ ?_ rfl rfl
        · intro h hh
          simp only [MapState.initializeStorage] at hh ⊢
          rw [Function.update_noteq (by omega), Function.update_noteq (by omega)]
          exact hw.contentBelow h (by omega)
        · simp only [MapState.initializeStorage, Function.update_same]; rfl
        · simp only [MapState.initializeStorage]
          rw [Function.update_noteq (by omega), Function.update_same]; rfl
      · intro kh3 p3 hm3 c hc
        obtain ⟨c2, hc2, hne⟩ :=
          DefaultMapType.findLoop_absent less s kc s.entries hfl kh3 p3 hm3
        rw [hc] at hc2
        simp only [Option.some.injEq] at hc2
        subst hc2
        exact hne

theorem MapState.Reachable.valid {V : Type} (less : V → V → Bool) (kdflt dflt : V)
    (s : MapState V) (h : MapState.Reachable less kdflt dflt s) : s.Valid less := by
  induction h with
  | empty s he hc hv =>
    refine ⟨⟨hc, hv, ?_, ?_, ?_⟩, ?_⟩
    · intro kh p hm; rw [he] at hm; simp at hm
    · intro kh p x vh kh2 p2 hm; rw [he] at hm; simp at hm
    · rw [he]; exact List.Pairwise.nil
    · unfold MapState.KeysApart; rw [he]; exact List.Pairwise.nil
  | insert s s2 k v kc vc _ hk hv h ih => exact ih.valid_insert less s s2 k v kc vc hk hv h
  | element s s2 k kc autoInsert r _ hk h ih =>
    exact ih.valid_element less dflt s s2 k kc autoInsert r hk h
  | clone s s2 dst _ h ih =>
    obtain ⟨dst1, s1, h1, _, h3⟩ := ih.valid_clone less kdflt dflt s
    rw [h1] at h
    simp only [Option.some.injEq, Prod.mk.injEq] at h
    obtain ⟨rfl, rfl⟩ := h
    exact h3
  | cloneSource s s2 dst _ h ih =>
    obtain ⟨dst1, s1, h1, h2, _⟩ := ih.valid_clone less kdflt dflt s
    rw [h1] at h
    simp only [Option.some.injEq, Prod.mk.injEq] at h
    obtain ⟨rfl, rfl⟩ := h
    exact h2
  | allocate s c _ ih => exact ih.valid_allocate less s c

/-- C30: every default map reachable from an empty map by `insert`, `element` (with
or without `autoInsert`) and `clone` satisfies: the pair of each entry has exactly
two slots, and slot 0 of the pair is the very storage used as the key of the entry
in the map; so whenever `insert` finds the key, the vector it takes from the pair
has size 2 and its assertion holds. -/
theorem DefaultMapType.reachable_pairs {V : Type} (less : V → V → Bool) (kdflt dflt : V)
    (s : MapState V) (h : MapState.Reachable less kdflt dflt s) :
    (∀ kh p, (kh, p) ∈ s.entries → ∃ vh, s.vectors p = some [some kh, some vh])
    ∧ (∀ k kh p, DefaultMapType.find less s k = some (some (kh, p)) →
        ∃ elem, s.vectors p = some elem ∧ elem.length = 2) := by
  have hw := (MapState.Reachable.valid less kdflt dflt s h).1
  have h1 : ∀ kh p, (kh, p) ∈ s.entries → ∃ vh, s.vectors p = some [some kh, some vh] := by
    intro kh p hm
    obtain ⟨vh, hp, _⟩ := hw.pairs kh p hm
    exact ⟨vh, hp⟩
  refine ⟨h1, ?_⟩
  intro k kh p hf
  simp only [DefaultMapType.find] at hf
  cases hk : s.content k with
  | none => simp [hk] at hf
  | some kc =>
    simp only [hk] at hf
    obtain ⟨hm, _⟩ := DefaultMapType.findLoop_found less s kc s.entries kh p hf
    obtain ⟨vh, hp⟩ := h1 kh p hm
    exact ⟨_, hp, rfl⟩

/-- C30 on the sample map holding `5 ↦ 7`, reached from the empty sample map by one
`insert`, and on its clone: the pair at address 4 is `[storage 2, storage 3]` under
the key storage 2, the pair of the clone at address 5 is `[storage 8, storage 9]`
under the key storage 8. -/
theorem DefaultMapType.reachable_pairs_witness :
    MapState.Reachable intLess 0 0 MapState.sampleOne
    ∧ MapState.sampleOne.entries = [(2, 4)]
    ∧ MapState.sampleOne.vectors 4 = some [some 2, some 3]
    ∧ (∃ vh, MapState.sampleOne.vectors 4 = some [some 2, some vh])
    ∧ ∃ dst s2, DefaultMapType.clone intLess 0 0 MapState.sampleOne = some (dst, s2)
        ∧ dst = [(8, 5)] ∧ s2.vectors 5 = some [some 8, some 9] := by
  have hr : MapState.Reachable intLess 0 0 MapState.sampleOne :=
    .insert (MapState.sample 5 7) MapState.sampleOne 0 1 5 7
      (.empty (MapState.sample 5 7) rfl (MapState.sample_wellFormed 5 7).contentBelow
        (MapState.sample_wellFormed 5 7).vectorsBelow) rfl rfl rfl
  exact ⟨hr, rfl, rfl,
    (DefaultMapType.reachable_pairs intLess 0 0 MapState.sampleOne hr).1 2 4
      (List.mem_singleton.2 rfl), _, _, rfl, rfl, rfl⟩

/-! ### The length of the storages of a default tuple type -/

/-- The loop of `initializeStorage()` fills one slot per member type and leaves the
vectors of the heap as they are. -/
theorem DefaultTupleType.initSlots_shape {V : Type} (defaults : List V) (s : MapState V) :
    (DefaultTupleType.initSlots defaults s).1.length = defaults.length
      ∧ (DefaultTupleType.initSlots defaults s).2.vectors = s.vectors := by
  induction defaults generalizing s with
  | nil => exact ⟨rfl, rfl⟩
  | cons d rest ih =>
    obtain ⟨h1, h2⟩ := ih (s.initializeStorage d).2
    refine ⟨?_, ?_⟩
    · simp only [DefaultTupleType.initSlots, List.length_cons, h1]
    · simp only [DefaultTupleType.initSlots, h2]
      rfl

theorem DefaultTupleType.initializeStorage_sized {V : Type} (defaults : List V)
    (s s2 : MapState V) (ptr : Option Nat) (r : Nat)
    (h : DefaultTupleType.initializeStorage defaults s ptr = some (.ok (r, s2))) :
    (∃ p, s2.vectors r = some p ∧ p.length = defaults.length)
      ∧ ∀ a, a ≠ r → s2.vectors a = s.vectors a := by
  cases ptr with
  | some seed =>
    simp only [DefaultTupleType.initializeStorage] at h
    cases hv : s.vectors seed with
    | none => rw [hv] at h; cases h
    | some ret =>
      rw [hv] at h
      by_cases hl : defaults.length = ret.length
      · simp only [hl, ne_eq, not_true_eq_false, if_false, Option.some.injEq,
          Except.ok.injEq, Prod.mk.injEq] at h
        obtain ⟨rfl, rfl⟩ := h
        exact ⟨⟨ret, hv, hl.symm⟩, fun _ _ => rfl⟩
      · simp [hl] at h
  | none =>
    simp only [DefaultTupleType.initializeStorage, Option.some.injEq, Except.ok.injEq,
      Prod.mk.injEq] at h
    obtain ⟨rfl, rfl⟩ := h
    obtain ⟨h1, h2⟩ := DefaultTupleType.initSlots_shape defaults (s.newVector []).2
    refine ⟨⟨_, by simp, h1⟩, ?_⟩
    intro a ha
    simp only [Function.update_noteq ha, h2]
    exact Function.update_noteq ha _ _

theorem DefaultTupleType.set_sized {V : Type} (n : Nat) (s s2 : MapState V)
    (t index v : Nat) (hi : index < n)
    (ht : ∃ p, s.vectors t = some p ∧ p.length = n)
    (h : DefaultTupleType.set n s t index v = some s2) :
    (∃ p, s2.vectors t = some p ∧ p.length = n)
      ∧ ∀ a, a ≠ t → s2.vectors a = s.vectors a := by
  obtain ⟨p, hp, hl⟩ := ht
  have hg : DefaultTupleType.grow p index = p := DefaultTupleType.grow_of_lt p index (by omega)
  simp only [DefaultTupleType.set, hp, hg, hi, if_true] at h
  cases hget : p.get? index with
  | none => rw [hget] at h; cases h
  | some slot =>
    rw [hget] at h
    simp only at h
    cases slot with
    | none =>
      simp only [MapState.clone] at h
      cases hc : s.content v with
      | none => rw [hc] at h; cases h
      | some c =>
        rw [hc] at h
        simp only [Option.some.injEq] at h
        subst h
        exact ⟨⟨_, Function.update_same _ _ _, by simp [hl]⟩,
            fun a ha => by simp only [Function.update_noteq ha]⟩
    | some old =>
      simp only [MapState.destroy] at h
      cases hc0 : s.content old with
      | none => rw [hc0] at h; cases h
      | some c0 =>
        rw [hc0] at h
        simp only [MapState.clone] at h
        cases hc : Function.update s.content old none v with
        | none => rw [hc] at h; cases h
        | some c =>
          rw [hc] at h
          simp only [Option.some.injEq] at h
          subst h
          exact ⟨⟨_, Function.update_same _ _ _, by simp [hl]⟩,
            fun a ha => by simp only [Function.update_noteq ha]⟩

theorem DefaultTupleType.get_sized {V : Type} (n : Nat) (s s2 : MapState V)
    (t index : Nat) (slot : Option Nat) (hi : index < n)
    (ht : ∃ p, s.vectors t = some p ∧ p.length = n)
    (h : DefaultTupleType.get s t index = some (slot, s2)) : s2 = s := by
  obtain ⟨p, hp, hl⟩ := ht
  have hlt : ¬ p.length < (index + 1) % 2 ^ 32 := by
    have := Nat.mod_le (index + 1) (2 ^ 32)
    omega
  simp only [DefaultTupleType.get, hp, hlt, if_false] at h
  cases hget : p.get? index with
  | none => rw [hget] at h; cases h
  | some x =>
    rw [hget] at h
    simp only [Option.some.injEq, Prod.mk.injEq] at h
    exact h.2.symm

theorem DefaultTupleType.cloneLoop_sized {V : Type} (n result : Nat) (src : List (Option Nat)) :
    ∀ (i : Nat) (s s2 : MapState V), i + src.length ≤ n →
      (∃ p, s.vectors result = some p ∧ p.length = n) →
      DefaultTupleType.cloneLoop n result src i s = some s2 →
      (∃ p, s2.vectors result = some p ∧ p.length = n)
        ∧ ∀ a, a ≠ result → s2.vectors a = s.vectors a := by
  induction src with
  | nil =>
    intro i s s2 _ hr h
    simp only [DefaultTupleType.cloneLoop, Option.some.injEq] at h
    subst h
    exact ⟨hr, fun _ _ => rfl⟩
  | cons x rest ih =>
    intro i s s2 hi hr h
    cases x with
    | none => simp [DefaultTupleType.cloneLoop] at h
    | some v =>
      simp only [DefaultTupleType.cloneLoop] at h
      cases hs : DefaultTupleType.set n s result i v with
      | none => rw [hs] at h; cases h
      | some s1 =>
        rw [hs] at h
        simp only at h
        simp only [List.length_cons] at hi
        obtain ⟨h1, h2⟩ := DefaultTupleType.set_sized n s s1 result i v (by omega) hr hs
        obtain ⟨h3, h4⟩ := ih (i + 1) s1 s2 (by omega) h1 h
        exact ⟨h3, fun a ha => (h4 a ha).trans (h2 a ha)⟩

theorem DefaultTupleType.clone_sized {V : Type} (defaults : List V) (s s2 : MapState V)
    (t r : Nat) (ht : ∃ p, s.vectors t = some p ∧ p.length = defaults.length)
    (h : DefaultTupleType.clone defaults s t = some (r, s2)) :
    (∃ p, s2.vectors r = some p ∧ p.length = defaults.length)
      ∧ ∀ a, a ≠ r → s2.vectors a = s.vectors a := by
  obtain ⟨p, hp, hl⟩ := ht
  simp only [DefaultTupleType.clone, hp] at h
  cases hinit : DefaultTupleType.initializeStorage defaults s none with
  | none => rw [hinit] at h; cases h
  | some e =>
    cases e with
    | error m => rw [hinit] at h; cases h
    | ok pr =>
      obtain ⟨result, s1⟩ := pr
      rw [hinit] at h
      simp only [Option.map_eq_some', Prod.mk.injEq] at h
      obtain ⟨s3, hloop, rfl, rfl⟩ := h
      obtain ⟨h1, h2⟩ := DefaultTupleType.initializeStorage_sized defaults s s1 none result hinit
      obtain ⟨h3, h4⟩ := DefaultTupleType.cloneLoop_sized defaults.length result p 0 s1 s3
        (by omega) h1 hloop
      exact ⟨h3, fun a ha => (h4 a ha).trans (h2 a ha)⟩

theorem DefaultTupleType.destroyLoop_vectors {V : Type} (n : Nat) (ptr : List (Option Nat)) :
    ∀ (i : Nat) (s s2 : MapState V),
      DefaultTupleType.destroyLoop n ptr i s = some s2 → s2.vectors = s.vectors := by
  induction ptr with
  | nil =>
    intro i s s2 h
    simp only [DefaultTupleType.destroyLoop, Option.some.injEq] at h
    subst h
    rfl
  | cons x rest ih =>
    intro i s s2 h
    simp only [DefaultTupleType.destroyLoop] at h
    by_cases hi : i < n
    · simp only [hi, if_true] at h
      cases x with
      | none => cases h
      | some old =>
        simp only [MapState.destroy] at h
        cases hc : s.content old with
        | none => rw [hc] at h; cases h
        | some c =>
          rw [hc] at h
          exact ih _ _ _ h |>.trans rfl
    · simp [hi] at h

theorem DefaultTupleType.destroy_vectors {V : Type} (n : Nat) (s s2 : MapState V) (t : Nat)
    (h : DefaultTupleType.destroy n s t = some s2) :
    ∀ a, a ≠ t → s2.vectors a = s.vectors a := by
  simp only [DefaultTupleType.destroy] at h
  cases hv : s.vectors t with
  | none => rw [hv] at h; cases h
  | some ptr =>
    rw [hv] at h
    simp only at h
    cases hl : DefaultTupleType.destroyLoop n ptr 0 s with
    | none => rw [hl] at h; cases h
    | some s1 =>
      rw [hl] at h
      simp only [Option.some.injEq] at h
      subst h
      intro a ha
      simp only [Function.update_noteq ha]
      rw [DefaultTupleType.destroyLoop_vectors n ptr 0 s s1 hl]

/-- Every storage of a reachable heap of a default tuple type is a vector with one
slot per member type. -/
theorem DefaultTupleType.Reachable.sized {V : Type} (defaults : List V) (s : MapState V)
    (ts : List Nat) (h : DefaultTupleType.Reachable defaults s ts) :
    ∀ t, t ∈ ts → ∃ p, s.vectors t = some p ∧ p.length = defaults.length := by
  induction h with
  | start s => intro t ht; cases ht
  | initializeStorage s s2 ts ptr r _ h ih =>
    obtain ⟨h1, h2⟩ := DefaultTupleType.initializeStorage_sized defaults s s2 ptr r h
    intro t ht
    by_cases htr : t = r
    · subst htr; exact h1
    · rw [h2 t htr]
      exact ih t (by simpa [htr] using ht)
  | get s s2 ts t index slot _ ht hi h ih =>
    rw [DefaultTupleType.get_sized defaults.length s s2 t index slot hi (ih t ht) h]
    exact ih
  | set s s2 ts t index v _ ht hi h ih =>
    obtain ⟨h1, h2⟩ := DefaultTupleType.set_sized defaults.length s s2 t index v hi (ih t ht) h
    intro a ha
    by_cases hat : a = t
    · subst hat; exact h1
    · rw [h2 a hat]; exact ih a ha
  | clone s s2 ts t r _ ht h ih =>
    obtain ⟨h1, h2⟩ := DefaultTupleType.clone_sized defaults s s2 t r (ih t ht) h
    intro a ha
    by_cases har : a = r
    · subst har; exact h1
    · rw [h2 a har]
      exact ih a (by simpa [har] using ha)
  | destroy s s2 ts t _ _ h ih =>
    intro a ha
    simp only [List.mem_filter, decide_eq_true_eq] at ha
    rw [DefaultTupleType.destroy_vectors defaults.length s s2 t h a ha.2]
    exact ih a ha.1
  | other s s2 ts _ h ih =>
    intro t ht
    rw [h t ht]
    exact ih t ht

/-- C31: for a default tuple type with `n` member types (`defaults` holds their
default contents, `n = defaults.length`), in every heap reached by
`initializeStorage` (seeded or not), `get` and `set` with indices below `n`,
`clone`, `destroy` and steps of other code that leave the storages of the type
alone, every storage `t` of the type is a vector of exactly `n` slots; `get` and
`set` with an index below `n` do not resize it; and `set` with an index below `n`,
`clone` and `destroy` of it read the member-type table at positions below `n`
only. -/
theorem DefaultTupleType.reachable_length {V : Type} (defaults : List V) (s : MapState V)
    (ts : List Nat) (t : Nat) (h : DefaultTupleType.Reachable defaults s ts) (ht : t ∈ ts) :
    ∃ ptr, s.vectors t = some ptr ∧ ptr.length = defaults.length
      ∧ (∀ index, index < defaults.length → DefaultTupleType.grow ptr index = ptr
          ∧ ∀ i, i ∈ DefaultTupleType.setReads index → i < defaults.length)
      ∧ (∀ i, i ∈ DefaultTupleType.cloneReads defaults.length ptr → i < defaults.length)
      ∧ (∀ i, i ∈ DefaultTupleType.destroyReads ptr → i < defaults.length) := by
  obtain ⟨ptr, hp, hl⟩ := DefaultTupleType.Reachable.sized defaults s ts h t ht
  refine ⟨ptr, hp, hl, ?_, ?_, ?_⟩
  · intro index hi
    refine ⟨DefaultTupleType.grow_of_lt ptr index (by omega), ?_⟩
    intro i hmem
    simp only [DefaultTupleType.setReads, List.mem_singleton] at hmem
    omega
  · intro i hmem
    simp only [DefaultTupleType.cloneReads, DefaultTupleType.initializeStorageReads,
      DefaultTupleType.setReads, List.mem_append, List.mem_range, List.mem_flatMap,
      List.mem_singleton] at hmem
    rcases hmem with hmem | ⟨j, hj, rfl⟩
    · exact hmem
    · omega
  · intro i hmem
    simp only [DefaultTupleType.destroyReads, List.mem_range] at hmem
    omega

theorem MapState.sampleCloned_eq :
    DefaultTupleType.clone [0, 0] MapState.samplePair 4 = some (5, MapState.sampleCloned) := rfl

/-- C31 on the sample pair: adopted as a seed by the pair type (two members) and
then cloned, both the seed at address 4 and the clone at address 5 have two slots,
and `clone` and `destroy` of the clone read the member-type table at positions 0
and 1. -/
theorem DefaultTupleType.reachable_length_witness :
    DefaultTupleType.Reachable [(0 : Int), 0] MapState.sampleCloned [5, 4]
    ∧ ∃ ptr, MapState.sampleCloned.vectors 5 = some ptr ∧ ptr.length = 2
      ∧ (∀ index, index < 2 → DefaultTupleType.grow ptr index = ptr
          ∧ ∀ i, i ∈ DefaultTupleType.setReads index → i < 2)
      ∧ (∀ i, i ∈ DefaultTupleType.cloneReads 2 ptr → i < 2)
      ∧ (∀ i, i ∈ DefaultTupleType.destroyReads ptr → i < 2) :=
  have hr : DefaultTupleType.Reachable [(0 : Int), 0] MapState.sampleCloned [5, 4] :=
    .clone MapState.samplePair _ [4] 4 5
      (.initializeStorage MapState.samplePair _ [] (some 4) 4 (.start _) rfl)
      (by simp) MapState.sampleCloned_eq
  ⟨hr, DefaultTupleType.reachable_length [0, 0] MapState.sampleCloned [5, 4] 5 hr (by simp)⟩

/-- Without the bound on the index the length is not kept: `get` at index 2 of the
sample pair, whose type has two members, leaves a vector of three slots, and
`destroy` of it would read the member-type table at position 2. -/
theorem DefaultTupleType.get_grows_past_members :
    ∃ s2, DefaultTupleType.get MapState.samplePair 4 2 = some (none, s2)
      ∧ s2.vectors 4 = some [some 2, some 3, none]
      ∧ 2 ∈ DefaultTupleType.destroyReads [some 2, some 3, none]
      ∧ DefaultTupleType.destroy 2 s2 4 = none :=
  ⟨_, rfl, rfl, by decide, rfl⟩

end qi
